import Mathlib

/-!
# Modified-CSR codec of the SMAUG neural-network library

A shallow embedding of `nnet_lib/src/utility/compression.c` (and of
`next_multiple` from `nnet_lib/src/operators/common.cpp`), followed by the
properties proved about it.

Conventions of the embedding.

* A C array is a `List`; a read `a[i]` is `List.getD a i d` and a write
  `a[i] = v` is `List.set a i v`.  The length of the list is the number of
  elements that were allocated.  An access at or after the end of the list is
  an access outside the allocation, undefined in C: the read has the default
  value and the write is dropped, and the properties that depend on such an
  access are stated only where it cannot happen.
* `int`, `unsigned` and `size_t` counters that are only ever incremented are
  natural numbers; differences of `int`s are integers; 32-bit words are natural
  numbers reduced modulo `2 ^ 32` where the source stores them into `uint32_t`.
  Byte sizes are natural numbers; where the wrap of `size_t` matters the
  arithmetic modulo `2 ^ 64` is written out (`next_multiple_size_t`,
  `alloc_packed_sizes`).
* A `float` is its IEEE-754 binary32 bit pattern split into its three fields.
  The codec only copies floats and compares them with `0`.
* A failing `assert` makes the function return `none`.
-/

namespace Smaug

/-! ## Data model -/

/-- IEEE-754 binary32 value, given by its sign bit, biased exponent field and
mantissa field. -/
structure F32 where
  sign : Bool
  exponent : Nat
  mantissa : Nat
deriving DecidableEq

/-- Positive zero, the all-zero bit pattern (`0.0f`, also what `memset 0` gives). -/
def F32.zero : F32 := ⟨false, 0, 0⟩

/-- Negative zero, `-0.0f`. -/
def F32.negZero : F32 := ⟨true, 0, 0⟩

/-- The C comparison `x == 0` on floats: true exactly for `+0.0` and `-0.0`
(and false for every NaN, so that `x != 0` is its negation). -/
def F32.isZero (x : F32) : Bool := x.exponent == 0 && x.mantissa == 0

/-- The dimensions descriptor `dims_t`. -/
structure dims_t where
  rows : Nat
  cols : Nat
  height : Nat
  align_pad : Nat
deriving DecidableEq

/-- The unpacked CSR array `csr_array_t`. -/
structure csr_array_t where
  vals : List F32
  col_idx : List Nat
  row_idx : List Nat
  num_nonzeros : Nat
  num_rows : Nat
deriving DecidableEq

/-- Modelled from the spec: `get_dims_size` (declared in `utility/utility.h`,
not among the sources), the number of cells of the dense array, for which the
encoder "over-allocates pessimistically" its scratch buffers. -/
def get_dims_size (dims : dims_t) : Nat := dims.rows * dims.cols * dims.height

/-- Modelled from the spec: the macro `ARRAY_3D(float, _data, data, dim1, dim2)`
(absent from the sources) views the flat row-major buffer `data` as
`_data[h][r][c]` with inner dimensions `dim1 x dim2`.  The list `data` is the
memory from the address of the buffer on.  A read at or after the end of the
list is a read outside the buffer, undefined in C; it has the value `0.0`
here, a value no property of the code may rest on: a statement about the
values read requires the reads inside the buffer (at least one column and a
list of `rows * cols` cells), and what the code does when it reads past the
buffer is shown on a list that holds the memory after the buffer too. -/
def ARRAY_3D (data : List F32) (dim1 dim2 : Nat) (h r c : Nat) : F32 :=
  data.getD ((h * dim1 + r) * dim2 + c) F32.zero

/-- Modelled from the spec: the macro `ARRAY_2D(float, _data, data, dim)`
(absent from the sources) views the flat row-major buffer as `_data[r][c]`
with rows of `dim` cells; this is the flat index of `_data[r][c]`. -/
def ARRAY_2D_idx (dim : Nat) (r c : Nat) : Nat := r * dim + c

/-- `alloc_csr_array_t`: three fresh buffers (their content is unspecified in
C; it is zero here) of `num_nonzeros`, `num_nonzeros` and `num_rows + 1`
elements. -/
def alloc_csr_array_t (num_nonzeros num_rows : Nat) : csr_array_t :=
  { vals := List.replicate num_nonzeros F32.zero
    col_idx := List.replicate num_nonzeros 0
    row_idx := List.replicate (num_rows + 1) 0
    num_nonzeros := num_nonzeros
    num_rows := num_rows }

/-- The call `memcpy(dst, src, n * sizeof elem)`: the first `n` elements of
`dst` are replaced by those of `src`. -/
def memcpy {α : Type} (dst src : List α) (n : Nat) : List α :=
  src.take n ++ dst.drop n

/-- `copy_csr_array_t`: a right-sized copy of an existing array. -/
def copy_csr_array_t (existing_array : csr_array_t) : csr_array_t :=
  let csr := alloc_csr_array_t existing_array.num_nonzeros existing_array.num_rows
  { vals := memcpy csr.vals existing_array.vals existing_array.num_nonzeros
    col_idx := memcpy csr.col_idx existing_array.col_idx existing_array.num_nonzeros
    row_idx := memcpy csr.row_idx existing_array.row_idx (existing_array.num_rows + 1)
    num_nonzeros := existing_array.num_nonzeros
    num_rows := existing_array.num_rows }

/-! ## Dense-to-sparse encoder (`compress_dense_data_csr`) -/

/-- The counting loop of lines 110-117: `(num_elems_in_row, last_nz_idx)` of the
row whose cell in column `c` is `row c`. -/
def count_row (row : Nat → F32) (cols : Nat) : Nat × Nat :=
  (List.range cols).foldl
    (fun acc c => if (row c).isZero then acc else (acc.1 + 1, c)) (0, 0)

/-- The variables that the emitting loop of lines 122-139 changes. -/
structure enc_state where
  csr : csr_array_t
  num_nonzeros : Nat
  next_offset : Nat

/-- One iteration of the emitting loop (lines 124-138) on the cell value
`curr_value`. -/
def compress_step (s : enc_state) (curr_value : F32) : enc_state :=
  let next_offset := if curr_value.isZero then s.next_offset + 1 else s.next_offset
  if !curr_value.isZero || next_offset == 16 then
    let next_offset := if next_offset == 16 then next_offset - 1 else next_offset
    { csr := { s.csr with
                vals := s.csr.vals.set s.num_nonzeros curr_value
                col_idx := s.csr.col_idx.set s.num_nonzeros next_offset }
      num_nonzeros := s.num_nonzeros + 1
      next_offset := 0 }
  else
    { s with next_offset := next_offset }

/-- The variables that live across rows in `compress_dense_data_csr`. -/
structure row_state where
  csr : csr_array_t
  num_nonzeros : Nat
  curr_row_idx : Nat

/-- The body of the row loop (lines 108-140) for slice `h` and row `r`. -/
def compress_row (data : List F32) (data_dims : dims_t) (h r : Nat)
    (s : row_state) : row_state :=
  let row := ARRAY_3D data data_dims.rows data_dims.cols h r
  let last_nz_idx := (count_row row data_dims.cols).2
  let e := (List.range (last_nz_idx + 1)).foldl
    (fun e c => compress_step e (row c)) ⟨s.csr, s.num_nonzeros, 0⟩
  { csr := { e.csr with row_idx := e.csr.row_idx.set s.curr_row_idx e.num_nonzeros }
    num_nonzeros := e.num_nonzeros
    curr_row_idx := s.curr_row_idx + 1 }

/-- The two outer loops of `compress_dense_data_csr` (lines 104-142), started
on the scratch array. -/
def compress_loops (data : List F32) (data_dims : dims_t) (csr : csr_array_t) :
    row_state :=
  (List.range data_dims.height).foldl
    (fun s h => (List.range data_dims.rows).foldl
      (fun s r => compress_row data data_dims h r s) s)
    ⟨csr, 0, 1⟩

/-- `compress_dense_data_csr`. -/
def compress_dense_data_csr (data : List F32) (data_dims : dims_t) : csr_array_t :=
  let num_values := get_dims_size data_dims
  let csr := alloc_csr_array_t num_values data_dims.rows
  let s := compress_loops data data_dims csr
  let csr := { s.csr with num_nonzeros := s.num_nonzeros }
  let csr := { csr with row_idx := csr.row_idx.set 0 0 }
  copy_csr_array_t csr

/-! ## Dense reconstructor, unpacked variant (`decompress_csr_data`) -/

/-- The variables that the loops of `decompress_csr_data` change. -/
structure dec_state where
  dcmp_data : List F32
  curr_col_idx : Nat
  col_idx : Nat

/-- One iteration of the inner loop (lines 299-305) in row `row`. -/
def decompress_step (csr_data : csr_array_t) (data_dims : dims_t) (row : Nat)
    (s : dec_state) : Option dec_state :=
  let col_idx := s.col_idx + csr_data.col_idx.getD s.curr_col_idx 0
  if col_idx < data_dims.cols + data_dims.align_pad then
    let value := csr_data.vals.getD s.curr_col_idx F32.zero
    some { dcmp_data := s.dcmp_data.set
             (ARRAY_2D_idx (data_dims.cols + data_dims.align_pad) row col_idx) value
           curr_col_idx := s.curr_col_idx + 1
           col_idx := col_idx + 1 }
  else none

/-- Run a loop body `n` times, stopping at the first failure. -/
def iterate_opt {σ : Type} (body : σ → Option σ) : Nat → σ → Option σ
  | 0, s => some s
  | n + 1, s => (body s).bind (iterate_opt body n)

/-- The body of the row loop of `decompress_csr_data` (lines 286-307), on the
pair (destination buffer, `curr_col_idx`). -/
def decompress_row (csr_data : csr_array_t) (data_dims : dims_t)
    (s : List F32 × Nat) (row : Nat) : Option (List F32 × Nat) :=
  let curr_row_start_idx : Int := csr_data.row_idx.getD row 0
  let next_row_start_idx : Int := csr_data.row_idx.getD (row + 1) 0
  let num_elems_in_row : Int := next_row_start_idx - curr_row_start_idx
  (iterate_opt (decompress_step csr_data data_dims row) num_elems_in_row.toNat
      ⟨s.1, s.2, 0⟩).map
    (fun e => (e.dcmp_data, e.curr_col_idx))

/-- `decompress_csr_data`: the destination buffer after the call, or `none` when
the assertion of line 300 fails. -/
def decompress_csr_data (csr_data : csr_array_t) (data_dims : dims_t)
    (dcmp_data : List F32) : Option (List F32) :=
  ((List.range data_dims.rows).foldlM (decompress_row csr_data data_dims)
      (dcmp_data, 0)).map Prod.fst

/-! ## Packed format -/

/-- Modelled from the spec: the constant `VECTOR_SIZE` (absent from the
sources), the number of single-precision lanes of a vector: a packed vector
holds 16 half-precision values in the bytes of 8 single-precision ones. -/
def VECTOR_SIZE : Nat := 8

/-- Modelled from the spec: `UNPACKED_ELEMENT_SIZE`, the size of a `float`. -/
def UNPACKED_ELEMENT_SIZE : Nat := 4

/-- Modelled from the spec: `PACKED_ELEMENT_SIZE`, the size of a half-precision
value. -/
def PACKED_ELEMENT_SIZE : Nat := 2

/-- Modelled from the spec: `TOTAL_VECTOR_BYTES`, "32 bytes/vector". -/
def TOTAL_VECTOR_BYTES : Nat := VECTOR_SIZE * UNPACKED_ELEMENT_SIZE

/-- Modelled from the spec: `DATA_PACKING_FACTOR`, "16 values per fixed-size
vector". -/
def DATA_PACKING_FACTOR : Nat := TOTAL_VECTOR_BYTES / PACKED_ELEMENT_SIZE

/-- Modelled from the spec: `INDEX_BITS`, the width of a packed offset. -/
def INDEX_BITS : Nat := 4

/-- Modelled from the spec: `INDEX_PACKING_FACTOR`, "8 four-bit offsets per
32-bit word". -/
def INDEX_PACKING_FACTOR : Nat := 32 / INDEX_BITS

/-- Modelled from the spec: `DATA_TO_INDEX_RATIO`, "2 words per 16-value
vector". -/
def DATA_TO_INDEX_RATIO : Nat := DATA_PACKING_FACTOR / INDEX_PACKING_FACTOR

/-- Modelled from the spec: the macro `FRAC_CEIL(a, b)` (absent from the
sources), which the spec describes as `ceil(a / b)`. -/
def FRAC_CEIL (a b : Int) : Int := -((-a) / b)

/-- Modelled from the spec: the helper `min2` (absent from the sources), the
smaller of two `int`s, by which "a group may be less than 16 at the row's
tail". -/
def min2 (a b : Int) : Int := if a < b then a else b

/-- The macro `MASK_AND_SHIFT(array, array_idx, vec_offset)`. -/
def MASK_AND_SHIFT (array : List Nat) (array_idx vec_offset : Nat) : Nat :=
  (array.getD array_idx 0 &&& 0xf) <<< (4 * vec_offset)

/-- `next_multiple` of `operators/common.cpp`, computed on natural numbers:
the value that the `size_t` arithmetic of the source gives as long as the
product `(n + 1) * align` stays below `2 ^ 64`.  The arithmetic with the wrap
of `size_t` is `next_multiple_size_t`. -/
def next_multiple (request align : Nat) : Nat :=
  let n := request / align
  if n == 0 then align
  else
    let remainder := request % align
    if remainder != 0 then (n + 1) * align else request

/-- The packed CSR array `packed_csr_array_t`.  The values region is a list of
16-lane vectors of half-precision bit patterns, the other two regions are lists
of 32-bit words; `col_idx_ofs` and `row_idx_ofs` are the offsets, in 32-bit
words, of the two interior pointers from the start of the single buffer. -/
structure packed_csr_array_t where
  vals : List (List Nat)
  col_idx : List Nat
  row_idx : List Nat
  num_nonzeros : Nat
  num_rows : Nat
  total_buf_size : Nat
  col_idx_ofs : Nat
  row_idx_ofs : Nat
deriving DecidableEq

/-- `alloc_packed_csr_array_t`; `CACHELINE_SIZE` is a constant of the platform
that the sources do not define.  The byte sizes are computed on natural
numbers; with the wrap of `size_t` they are `alloc_packed_sizes`, which gives
the same sizes as long as the total stays below `2 ^ 64`. -/
def alloc_packed_csr_array_t (CACHELINE_SIZE : Nat)
    (num_total_vectors num_nonzeros num_rows : Nat) : packed_csr_array_t :=
  let values_size := next_multiple (num_total_vectors * TOTAL_VECTOR_BYTES) CACHELINE_SIZE
  let col_idx_size :=
    next_multiple (num_total_vectors * DATA_TO_INDEX_RATIO * 4) CACHELINE_SIZE
  let row_idx_size := next_multiple (num_rows * 4) CACHELINE_SIZE
  let total_buf_size := values_size + col_idx_size + row_idx_size
  { vals := List.replicate (values_size / TOTAL_VECTOR_BYTES)
              (List.replicate DATA_PACKING_FACTOR 0)
    col_idx := List.replicate (col_idx_size / 4) 0
    row_idx := List.replicate (row_idx_size / 4) 0
    num_nonzeros := num_nonzeros
    num_rows := num_rows
    total_buf_size := total_buf_size
    col_idx_ofs := values_size / 4
    row_idx_ofs := values_size / 4 + col_idx_size / 4 }

/-! ## Row/value packer (`pack_data_vec8_f16`) -/

/-- The sizing pass (lines 169-174). -/
def sizing_pass (csr_data : csr_array_t) (data_dims : dims_t) : Int :=
  (List.range data_dims.rows).foldl
    (fun total_num_vectors row =>
      let num_elems_in_row : Int :=
        (csr_data.row_idx.getD (row + 1) 0 : Int) - (csr_data.row_idx.getD row 0 : Int)
      total_num_vectors + FRAC_CEIL num_elems_in_row DATA_PACKING_FACTOR)
    0

/-- The variables that the packing pass (lines 183-255) changes. -/
structure pack_state where
  csr : packed_csr_array_t
  curr_wgt_src_idx : Nat
  curr_wgt_dst_idx : Nat
  curr_col_src_idx : Nat
  curr_col_dst_idx : Nat
  curr_packed_row_idx : Int
  total_elements_packed : Int

/-- The variables of one iteration of the value-vector loop (lines 202-226). -/
structure vec_state where
  data_f32 : List F32
  data_f16 : List Nat
  curr_wgt_src_idx : Nat
  elems_remaining : Int

/-- One iteration of the `iter` loop (lines 213-225).  The `break` of line 214
is a skip here: once `elems_remaining <= 0` it stays so, and the remaining
iterations would break as well. -/
def pack_iter (cvt_ps_ph : F32 → Nat) (csr_data : csr_array_t)
    (v : vec_state) (iter : Nat) : vec_state :=
  if v.elems_remaining ≤ 0 then v
  else
    let filled := (List.range (min2 v.elems_remaining VECTOR_SIZE).toNat).foldl
      (fun (p : List F32 × Nat) col => (p.1.set col (csr_data.vals.getD p.2 F32.zero), p.2 + 1))
      (v.data_f32, v.curr_wgt_src_idx)
    let packed_f16 := filled.1.map cvt_ps_ph
    let data_f16 := (List.range VECTOR_SIZE).foldl
      (fun d i => d.set (iter * VECTOR_SIZE + i) (packed_f16.getD i 0)) v.data_f16
    { data_f32 := filled.1
      data_f16 := data_f16
      curr_wgt_src_idx := filled.2
      elems_remaining := v.elems_remaining - VECTOR_SIZE }

/-- One iteration of the value-vector loop (lines 202-228), on the values
region, the two source/destination cursors and `elems_remaining`. -/
def pack_value_vector (cvt_ps_ph : F32 → Nat) (csr_data : csr_array_t)
    (s : List (List Nat) × Nat × Nat × Int) : List (List Nat) × Nat × Nat × Int :=
  let v := (List.range (UNPACKED_ELEMENT_SIZE / PACKED_ELEMENT_SIZE)).foldl
    (pack_iter cvt_ps_ph csr_data)
    { data_f32 := List.replicate VECTOR_SIZE F32.zero
      data_f16 := List.replicate (2 * VECTOR_SIZE) 0
      curr_wgt_src_idx := s.2.1
      elems_remaining := s.2.2.2 }
  (s.1.set s.2.2.1 v.data_f16, v.curr_wgt_src_idx, s.2.2.1 + 1, v.elems_remaining)

/-- One iteration of the index-word loop (lines 236-247), on the column-index
region, the two cursors and `elems_remaining`. -/
def pack_index_word (csr_data : csr_array_t)
    (s : List Nat × Nat × Nat × Int) : List Nat × Nat × Nat × Int :=
  let curr_col_dst_idx := s.2.2.1
  let cleared := s.1.set curr_col_dst_idx 0
  let w := (List.range (min2 s.2.2.2 INDEX_PACKING_FACTOR).toNat).foldl
    (fun (p : List Nat × Nat) elem =>
      (p.1.set curr_col_dst_idx
          ((p.1.getD curr_col_dst_idx 0 ||| MASK_AND_SHIFT csr_data.col_idx p.2 elem)
            % 4294967296),
        p.2 + 1))
    (cleared, s.2.1)
  (w.1, w.2, curr_col_dst_idx + 1, s.2.2.2 - INDEX_PACKING_FACTOR)

/-- Run a loop body `n` times. -/
def iterate {σ : Type} (body : σ → σ) : Nat → σ → σ
  | 0, s => s
  | n + 1, s => iterate body n (body s)

/-- The row metadata word of lines 250-251, as stored into a `uint32_t`. -/
def row_word (curr_packed_row_idx num_elems_in_row : Int) : Nat :=
  (((curr_packed_row_idx * 65536) % 4294967296).toNat &&& 0xffff0000) |||
    ((num_elems_in_row % 4294967296).toNat &&& 0xffff)

/-- The body of the row loop of the packing pass (lines 192-254). -/
def pack_row (cvt_ps_ph : F32 → Nat) (csr_data : csr_array_t)
    (s : pack_state) (row : Nat) : pack_state :=
  let row_start_idx : Int := csr_data.row_idx.getD (row + 1) 0
  let num_elems_in_row : Int := row_start_idx - (csr_data.row_idx.getD row 0 : Int)
  let num_packed_data_vectors : Int := FRAC_CEIL num_elems_in_row (VECTOR_SIZE * 2 : Nat)
  let v := iterate (pack_value_vector cvt_ps_ph csr_data) num_packed_data_vectors.toNat
    (s.csr.vals, s.curr_wgt_src_idx, s.curr_wgt_dst_idx, num_elems_in_row)
  let num_packed_idx_vectors : Int := num_packed_data_vectors * DATA_TO_INDEX_RATIO
  let w := iterate (pack_index_word csr_data) num_packed_idx_vectors.toNat
    (s.csr.col_idx, s.curr_col_src_idx, s.curr_col_dst_idx, num_elems_in_row)
  { csr := { s.csr with
              vals := v.1
              col_idx := w.1
              row_idx := s.csr.row_idx.set row
                (row_word s.curr_packed_row_idx num_elems_in_row) }
    curr_wgt_src_idx := v.2.1
    curr_wgt_dst_idx := v.2.2.1
    curr_col_src_idx := w.2.1
    curr_col_dst_idx := w.2.2.1
    curr_packed_row_idx := s.curr_packed_row_idx + num_packed_data_vectors
    total_elements_packed := s.total_elements_packed + num_elems_in_row }

/-- The packing pass (lines 183-255) started on the freshly allocated array. -/
def packing_pass (cvt_ps_ph : F32 → Nat) (csr_data : csr_array_t)
    (data_dims : dims_t) (csr : packed_csr_array_t) : pack_state :=
  (List.range data_dims.rows).foldl (pack_row cvt_ps_ph csr_data)
    { csr := csr, curr_wgt_src_idx := 0, curr_wgt_dst_idx := 0, curr_col_src_idx := 0,
      curr_col_dst_idx := 0, curr_packed_row_idx := 0, total_elements_packed := 0 }

/-- `pack_data_vec8_f16`; `cvt_ps_ph` is the single-to-half conversion
`_CVT_PS_PH_256` applied lane by lane.  The result is `none` when the assertion
of line 256 fails; `total_elements_packed` is an `unsigned`, hence the
reduction modulo `2 ^ 32`. -/
def pack_data_vec8_f16 (CACHELINE_SIZE : Nat) (cvt_ps_ph : F32 → Nat)
    (csr_data : csr_array_t) (data_dims : dims_t) : Option packed_csr_array_t :=
  let total_num_vectors := sizing_pass csr_data data_dims
  let csr := alloc_packed_csr_array_t CACHELINE_SIZE total_num_vectors.toNat
    csr_data.num_nonzeros data_dims.rows
  let s := packing_pass cvt_ps_ph csr_data data_dims csr
  if (s.total_elements_packed % 4294967296).toNat = csr_data.num_nonzeros then some s.csr
  else none

/-! ## Vector unpacker (`unpack_values_at_row`) -/

/-- `unpack_values_at_row`: the pair `(values_buffer, index_buffer)`;
`cvt_ph_ps` is the half-to-single conversion `_CVT_PH_PS_256` applied lane by
lane. -/
def unpack_values_at_row (cvt_ph_ps : Nat → F32) (cmp_values : List (List Nat))
    (cmp_col_idx : List Nat) (fetch_index_vec : Nat) : List F32 × List Nat :=
  let curr_values := cmp_values.getD fetch_index_vec (List.replicate (2 * VECTOR_SIZE) 0)
  let values0_f32 := (List.range VECTOR_SIZE).map (fun j => cvt_ph_ps (curr_values.getD j 0))
  let values1_f32 :=
    (List.range VECTOR_SIZE).map (fun j => cvt_ph_ps (curr_values.getD (j + VECTOR_SIZE) 0))
  let idx0 := cmp_col_idx.getD (fetch_index_vec * DATA_TO_INDEX_RATIO) 0
  let idx1 := cmp_col_idx.getD (fetch_index_vec * DATA_TO_INDEX_RATIO + 1) 0
  (values0_f32 ++ values1_f32,
   (List.range VECTOR_SIZE).map (fun j => (idx0 >>> (j * INDEX_BITS)) &&& 0xf) ++
   (List.range VECTOR_SIZE).map (fun j => (idx1 >>> (j * INDEX_BITS)) &&& 0xf))

/-! ## Dense reconstructor, packed variant (`decompress_packed_csr_data`) -/

/-- One iteration of the innermost loop (lines 424-430): entry `val` of the
unpacked vector, on the pair (destination buffer, `col_idx`). -/
def decompress_packed_step (data_dims : dims_t) (row : Nat)
    (values_buffer : List F32) (index_buffer : List Nat)
    (s : List F32 × Int) (val : Nat) : Option (List F32 × Int) :=
  let value := values_buffer.getD val F32.zero
  let col_idx : Int := s.2 + ((index_buffer.getD val 0 : Nat) : Int) + 1
  if col_idx < ((data_dims.cols + data_dims.align_pad : Nat) : Int) then
    some (s.1.set
      (ARRAY_2D_idx (data_dims.cols + data_dims.align_pad) row col_idx.toNat) value, col_idx)
  else none

/-- One iteration of the vector loop (lines 411-434); `k` is `col / 16`, the
number of the vector within the row, and the state is (destination buffer,
`col_idx`, `num_elems_remaining`). -/
def decompress_packed_vector (cvt_ph_ps : Nat → F32) (cmp_data : List (List Nat))
    (cmp_col_idx : List Nat) (data_dims : dims_t) (row curr_row_start_idx : Nat)
    (s : List F32 × Int × Int) (k : Nat) : Option (List F32 × Int × Int) :=
  let u := unpack_values_at_row cvt_ph_ps cmp_data cmp_col_idx (curr_row_start_idx + k)
  ((List.range (min2 s.2.2 16).toNat).foldlM
      (decompress_packed_step data_dims row u.1 u.2) (s.1, s.2.1)).map
    (fun r => (r.1, r.2, s.2.2 - 16))

/-- The body of the row loop of `decompress_packed_csr_data` (lines 397-435).
The loop `for (col = 0; col < curr_row_size; col += 16)` runs
`ceil(curr_row_size / 16)` times. -/
def decompress_packed_row (cvt_ph_ps : Nat → F32) (cmp_data : List (List Nat))
    (cmp_col_idx cmp_row_idx : List Nat) (data_dims : dims_t)
    (dcmp_data : List F32) (row : Nat) : Option (List F32) :=
  let packed_idx_size := cmp_row_idx.getD row 0
  let curr_row_start_idx := (packed_idx_size >>> 16) &&& 0xffff
  let curr_row_size := packed_idx_size &&& 0xffff
  ((List.range ((curr_row_size + (DATA_PACKING_FACTOR - 1)) / DATA_PACKING_FACTOR)).foldlM
      (decompress_packed_vector cvt_ph_ps cmp_data cmp_col_idx data_dims row
        curr_row_start_idx)
      (dcmp_data, -1, (curr_row_size : Int))).map
    (fun r => r.1)

/-- `decompress_packed_csr_data`: the destination buffer after the call, or
`none` when the assertion of line 428 fails. -/
def decompress_packed_csr_data (cvt_ph_ps : Nat → F32) (cmp_data : List (List Nat))
    (cmp_col_idx cmp_row_idx : List Nat) (data_dims : dims_t)
    (dcmp_data : List F32) : Option (List F32) :=
  (List.range data_dims.rows).foldlM
    (decompress_packed_row cvt_ph_ps cmp_data cmp_col_idx cmp_row_idx data_dims) dcmp_data

/-! ## Auxiliary definitions for the proofs -/

/-- The value of `next_offset` after line 126, on a cell of value `v`. -/
def bumped_offset (off : Nat) (v : F32) : Nat := if v.isZero then off + 1 else off

/-- The test of line 127. -/
def emits (off : Nat) (v : F32) : Bool := !v.isZero || bumped_offset off v == 16

/-- The offset stored by line 131. -/
def stored_offset (off : Nat) (v : F32) : Nat :=
  if bumped_offset off v == 16 then bumped_offset off v - 1 else bumped_offset off v

/-- The (value, offset) pairs that the emitting loop produces on the cell
values `cells`, entered with `next_offset = off`. -/
def enc_from (off : Nat) : List F32 → List (F32 × Nat)
  | [] => []
  | v :: rest =>
    if emits off v then (v, stored_offset off v) :: enc_from 0 rest
    else enc_from (bumped_offset off v) rest

/-- The cells that the emitting loop visits in row `r` of slice `h`: columns
`0 .. last_nz_idx`. -/
def row_cells (data : List F32) (data_dims : dims_t) (h r : Nat) : List F32 :=
  (List.range ((count_row (ARRAY_3D data data_dims.rows data_dims.cols h r)
    data_dims.cols).2 + 1)).map (ARRAY_3D data data_dims.rows data_dims.cols h r)

/-- The entries stored for row `r` of slice `h`. -/
def row_entries (data : List F32) (data_dims : dims_t) (h r : Nat) : List (F32 × Nat) :=
  enc_from 0 (row_cells data data_dims h r)

/-- The entries stored for the first `k` rows (of slice 0), in order. -/
def entries_upto (data : List F32) (data_dims : dims_t) (k : Nat) : List (F32 × Nat) :=
  ((List.range k).map (row_entries data data_dims 0)).flatten

/-- The unpacked CSR array that stores the entry lists `Es`, one per row. -/
def csr_of (Es : List (List (F32 × Nat))) : csr_array_t :=
  { vals := Es.flatten.map Prod.fst,
    col_idx := Es.flatten.map Prod.snd,
    row_idx := (List.range (Es.length + 1)).map (fun i => (Es.take i).flatten.length),
    num_nonzeros := Es.flatten.length,
    num_rows := Es.length }

/-- The entry lists of all rows of a single-slice array. -/
def all_entries (data : List F32) (data_dims : dims_t) : List (List (F32 × Nat)) :=
  (List.range data_dims.rows).map (row_entries data data_dims 0)

/-- The inner loop of the unpacked decoder on the entries of one row: the cursor
`cur` is the variable `col_idx`, `width` is `cols + align_pad`. -/
def dec_from (width row : Nat) : Nat → List (F32 × Nat) → List F32 → Option (List F32)
  | _, [], buf => some buf
  | cur, (v, off) :: rest, buf =>
    if cur + off < width then
      dec_from width row (cur + off + 1) rest (buf.set (ARRAY_2D_idx width row (cur + off)) v)
    else none

/-- The row loop of the unpacked decoder on the entry lists of the first `n`
rows. -/
def dec_rows (width : Nat) (Es : List (List (F32 × Nat))) (n : Nat) (buf : List F32) :
    Option (List F32) :=
  (List.range n).foldlM (fun B k => dec_from width k 0 (Es.getD k []) B) buf

/-- The stored entries of row `r` of an unpacked array: the (value, offset) pairs
at the positions `row_idx[r] .. row_idx[r+1] - 1`. -/
def row_slice (c : csr_array_t) (r : Nat) : List (F32 × Nat) :=
  ((c.vals.zip c.col_idx).drop (c.row_idx.getD r 0)).take
    (c.row_idx.getD (r + 1) 0 - c.row_idx.getD r 0)

/-- The value of `next_offset` when the emitting loop, entered with
`next_offset = off`, leaves the cells `cells`. -/
def off_after (off : Nat) : List F32 → Nat
  | [] => off
  | v :: rest =>
    if emits off v then off_after 0 rest else off_after (bumped_offset off v) rest

/-- A row without its trailing zero cells. -/
def strip : List F32 → List F32
  | [] => []
  | v :: rest => if (strip rest).isEmpty && v.isZero then [] else v :: strip rest

/-- The padding entries emitted along a run `zs` of zero cells entered with
`next_offset = off`: one for every 16th cell, holding that cell and offset 15. -/
def pads (off : Nat) (zs : List F32) : List (F32 × Nat) :=
  (List.range ((off + zs.length) / 16)).map
    (fun k => (zs.getD (16 * k + 15 - off) F32.zero, 15))

/-- The row content that the cursor decoding of `entries` writes into a zero
row, from the cursor on: `offset` zero cells, then the value, for each entry. -/
def expand : List (F32 × Nat) → List F32
  | [] => []
  | (v, off) :: rest => List.replicate off F32.zero ++ v :: expand rest

/-- The cells of row `r` of a single-slice matrix, columns `0 .. cols - 1`. -/
def row_list (data : List F32) (data_dims : dims_t) (r : Nat) : List F32 :=
  (List.range data_dims.cols).map (fun c => data.getD (r * data_dims.cols + c) F32.zero)

/-- The entries that the encoder stores for the one-row matrix of cells
`cells`. -/
def encode_row (cells : List F32) : List (F32 × Nat) :=
  row_slice (compress_dense_data_csr cells ⟨1, cells.length, 1, 0⟩) 0

/-- The number `n_r` of stored entries of row `q` according to `row_idx`, for a
non-decreasing `row_idx`. -/
def row_count (csr_data : csr_array_t) (q : Nat) : Nat :=
  csr_data.row_idx.getD (q + 1) 0 - csr_data.row_idx.getD q 0

/-- The number of 16-value vectors of row `q`, `ceil(n_q / 16)`. -/
def row_vectors (csr_data : csr_array_t) (q : Nat) : Nat :=
  (row_count csr_data q + 15) / 16

/-- The starting vector index `S_r` of row `r`: the vectors of the rows before. -/
def start_vector (csr_data : csr_array_t) (r : Nat) : Nat :=
  ((List.range r).map (row_vectors csr_data)).sum

/-- The position in `vals` / `col_idx` at which the packer reads the first entry
of row `r`: the entries of the rows before. -/
def start_entry (csr_data : csr_array_t) (r : Nat) : Nat :=
  ((List.range r).map (row_count csr_data)).sum

/-- The signed entry count `row_idx[q+1] - row_idx[q]` as the packer computes
it. -/
def num_elems (csr_data : csr_array_t) (q : Nat) : Int :=
  (csr_data.row_idx.getD (q + 1) 0 : Int) - (csr_data.row_idx.getD q 0 : Int)

/-- The running vector count `curr_packed_row_idx` before row `r`, for any
`row_idx`. -/
def start_vector_int (csr_data : csr_array_t) (r : Nat) : Int :=
  ((List.range r).map (fun q => FRAC_CEIL (num_elems csr_data q) 16)).sum

/-- The 32-bit word that holds the 4-bit fields `xs`, least-significant field
first. -/
def nib_word : List Nat → Nat
  | [] => 0
  | x :: xs => x % 16 + 16 * nib_word xs

/-- The entries `E` with the function `g` applied to their values. -/
def map_vals (g : F32 → F32) (E : List (F32 × Nat)) : List (F32 × Nat) :=
  E.map (fun e => (g e.1, e.2))

/-- One step of the cursor decoding, on the pair (buffer, cursor). -/
def dec_pair (width row : Nat) (s : List F32 × Nat) (e : F32 × Nat) :
    Option (List F32 × Nat) :=
  if s.2 + e.2 < width then
    some (s.1.set (ARRAY_2D_idx width row (s.2 + e.2)) e.1, s.2 + e.2 + 1)
  else none

/-- Entry `i` of the row that starts at vector `start` of the packed regions, as
`unpack_values_at_row` returns it. -/
def packed_entry (cvt_ph_ps : Nat → F32) (cmp_data : List (List Nat))
    (cmp_col_idx : List Nat) (start i : Nat) : F32 × Nat :=
  ((unpack_values_at_row cvt_ph_ps cmp_data cmp_col_idx (start + i / 16)).1.getD (i % 16)
      F32.zero,
   (unpack_values_at_row cvt_ph_ps cmp_data cmp_col_idx (start + i / 16)).2.getD (i % 16) 0)

/-- The first `size` entries of the row that starts at vector `start`. -/
def packed_entries (cvt_ph_ps : Nat → F32) (cmp_data : List (List Nat))
    (cmp_col_idx : List Nat) (start size : Nat) : List (F32 × Nat) :=
  (List.range size).map (packed_entry cvt_ph_ps cmp_data cmp_col_idx start)

/-- The entry lists that the packed decoder reads back from the packing of an
unpacked array with non-decreasing `row_idx`: for every row the entries at the
positions the packer read, values passed through `g`, offsets reduced to 4
bits. -/
def packed_rows (g : F32 → F32) (csr_data : csr_array_t) (rows : Nat) :
    List (List (F32 × Nat)) :=
  (List.range rows).map (fun r =>
    (List.range (row_count csr_data r)).map (fun i =>
      (g (csr_data.vals.getD (start_entry csr_data r + i) F32.zero),
       csr_data.col_idx.getD (start_entry csr_data r + i) 0 % 16)))

/-! ## Concrete inputs on which the theorems are exercised -/

/-- The float `1.0f`. -/
def f32_one : F32 := ⟨false, 127, 0⟩

/-- The float `2.0f`. -/
def f32_two : F32 := ⟨false, 128, 0⟩

/-- A `2 x 2` matrix with one positive and one negative zero. -/
def sample_data_2x2 : List F32 := [f32_one, F32.zero, F32.negZero, f32_two]

/-- The descriptor of `sample_data_2x2`. -/
def sample_dims_2x2 : dims_t := ⟨2, 2, 1, 0⟩

/-- A `2 x 4` matrix of zeros (scenario A of the specification). -/
def sample_zero_2x4 : List F32 := List.replicate 8 F32.zero

/-- The descriptor of `sample_zero_2x4`. -/
def sample_dims_2x4 : dims_t := ⟨2, 4, 1, 0⟩

/-- A `1 x 20` row with non-zeros only in columns 0 and 19 (scenario B of the
specification). -/
def sample_row_20 : List F32 :=
  f32_one :: (List.replicate 18 F32.zero ++ [f32_two])

/-- The descriptor of `sample_row_20`. -/
def sample_dims_1x20 : dims_t := ⟨1, 20, 1, 0⟩

/-- A `1 x 17` row: a run of exactly 16 zeros, then a non-zero. -/
def sample_row_17 : List F32 := List.replicate 16 F32.zero ++ [f32_one]

/-- The descriptor of `sample_row_17`. -/
def sample_dims_1x17 : dims_t := ⟨1, 17, 1, 0⟩

/-- A truncating single-to-half conversion on bit patterns (round toward zero,
small magnitudes flushed to zero, large ones clamped); it stands in for the
hardware conversion when the packer is run on concrete inputs. -/
def trunc_ps_ph (x : F32) : Nat :=
  (if x.sign then 32768 else 0)
    + (if x.exponent ≤ 112 then 0
       else min (x.exponent - 112) 31 * 1024 + x.mantissa / 8192 % 1024)

/-- The half-to-single conversion on bit patterns, subnormal halves read as
zero; it stands in for the hardware conversion when the decoder is run on
concrete inputs. -/
def trunc_ph_ps (h : Nat) : F32 :=
  { sign := decide (32768 ≤ h % 65536)
    exponent := if h / 1024 % 32 = 0 then 0 else h / 1024 % 32 + 112
    mantissa := if h / 1024 % 32 = 0 then 0 else h % 1024 * 8192 }

/-- A `1 x 17` row whose 16th cell is a negative zero, followed by a non-zero. -/
def sample_row_17_neg : List F32 := List.replicate 15 F32.zero ++ [F32.negZero, f32_one]

/-! ## Auxiliary definitions for the packed layout and the decoders -/

/-- The packed array as `pack_data_vec8_f16` has written it when it reaches the
assertion of line 256 (the array it returns when the assertion holds). -/
def packed_of (CACHELINE_SIZE : Nat) (cvt_ps_ph : F32 → Nat) (csr_data : csr_array_t)
    (data_dims : dims_t) : packed_csr_array_t :=
  (packing_pass cvt_ps_ph csr_data data_dims
    (alloc_packed_csr_array_t CACHELINE_SIZE (sizing_pass csr_data data_dims).toNat
      csr_data.num_nonzeros data_dims.rows)).csr

/-- The state of the packing pass of `pack_data_vec8_f16` when it enters row
`r`: the row loop has run for the rows `0 .. r - 1`. -/
def pack_state_at (CACHELINE_SIZE : Nat) (cvt_ps_ph : F32 → Nat) (csr_data : csr_array_t)
    (data_dims : dims_t) (r : Nat) : pack_state :=
  packing_pass cvt_ps_ph csr_data { data_dims with rows := r }
    (alloc_packed_csr_array_t CACHELINE_SIZE (sizing_pass csr_data data_dims).toNat
      csr_data.num_nonzeros data_dims.rows)

/-- The reconstructed column of entry `k` of the entries `E` of a row: the cursor
starts at `-1` and advances by `offset + 1` per entry. -/
def recon_col (E : List (F32 × Nat)) (k : Nat) : Nat :=
  ((E.take (k + 1)).map (fun e => e.2 + 1)).sum - 1

/-- The entries that `decompress_csr_data` reads for the rows `0 .. rows - 1` of
an unpacked array: row `r` has `row_idx[r+1] - row_idx[r]` entries, read at the
running position `curr_col_idx`. -/
def stored_rows (csr_data : csr_array_t) (rows : Nat) : List (List (F32 × Nat)) :=
  (List.range rows).map (fun r =>
    (List.range (row_count csr_data r)).map (fun i =>
      (csr_data.vals.getD (start_entry csr_data r + i) F32.zero,
       csr_data.col_idx.getD (start_entry csr_data r + i) 0)))

/-- The entries that `decompress_packed_csr_data` reads for the rows
`0 .. rows - 1` of the packed regions: row `r` has the number of entries given by
the low half of its metadata word, read from the vector given by the high
half on. -/
def packed_stored_rows (cvt_ph_ps : Nat → F32) (cmp_data : List (List Nat))
    (cmp_col_idx cmp_row_idx : List Nat) (rows : Nat) : List (List (F32 × Nat)) :=
  (List.range rows).map (fun r =>
    packed_entries cvt_ph_ps cmp_data cmp_col_idx
      ((cmp_row_idx.getD r 0 >>> 16) &&& 0xffff) (cmp_row_idx.getD r 0 &&& 0xffff))

/-- The destination buffer after the values of the entries `E` of row `row` have
been written, in order, each at its reconstructed column of a buffer with rows
of `width` cells. -/
def write_entries (width row : Nat) (E : List (F32 × Nat)) (buf : List F32) : List F32 :=
  (List.range E.length).foldl
    (fun b k => b.set (ARRAY_2D_idx width row (recon_col E k)) (E.getD k (F32.zero, 0)).1) buf

/-- The destination buffer after the entries of the rows `0 .. rows - 1` have
been written, row after row. -/
def write_rows (width : Nat) (Es : List (List (F32 × Nat))) (rows : Nat)
    (buf : List F32) : List F32 :=
  (List.range rows).foldl (fun b r => write_entries width r (Es.getD r []) b) buf

/-- The unpacked array `c` with every value replaced by `g value`. -/
def map_csr_vals (g : F32 → F32) (c : csr_array_t) : csr_array_t :=
  { c with vals := c.vals.map g }

/-- A `1 x 9` row of non-zeros: a `1.0`, seven `2.0` and a `1.0`. -/
def sample_row_9 : List F32 := f32_one :: (List.replicate 7 f32_two ++ [f32_one])

/-- The descriptor of `sample_row_9`. -/
def sample_dims_1x9 : dims_t := ⟨1, 9, 1, 0⟩

/-- An unpacked array of two rows with 17 and 3 entries (values all `1.0`,
offsets `0, 1, 2, ...` reduced to 4 bits), for a matrix of 40 columns. -/
def sample_csr_17_3 : csr_array_t :=
  { vals := List.replicate 20 f32_one,
    col_idx := (List.range 20).map (fun i => i % 3),
    row_idx := [0, 17, 20],
    num_nonzeros := 20,
    num_rows := 2 }

/-- The descriptor that goes with `sample_csr_17_3`. -/
def sample_dims_2x40 : dims_t := ⟨2, 40, 1, 0⟩

/-- What the value-vector loop of the packer leaves in slot `i mod 16` of the
last vector of a row with `n` entries read from position `src` on, for
`n <= i < 16 * ceil(n / 16)`: the staging vector `data_f32` is zeroed once per
vector, so a slot of the first half holds the conversion of `0.0`, a slot of
the second half holds `0` when the second half is skipped and otherwise the
conversion of the entry left in its lane by the first half. -/
def unused_slot (cvt_ps_ph : F32 → Nat) (vals : List F32) (src n i : Nat) : Nat :=
  if i % 16 < 8 then cvt_ps_ph F32.zero
  else if n % 16 ≤ 8 then 0
  else cvt_ps_ph (vals.getD (src + i - 8) F32.zero)

/-- Cell `idx` of `sample_tall`. -/
def sample_tall_cell (idx : Nat) : F32 :=
  if idx = 0 then F32.zero
  else if idx = 1 then f32_one
  else if 131072 ≤ idx then f32_one
  else if idx % 2 = 0 then f32_one else F32.zero

/-- A `65537 x 2` matrix: row 0 is `0.0, 1.0`, the rows 1 to 65535 are
`1.0, 0.0` and row 65536 is `1.0, 1.0`. -/
def sample_tall : List F32 := (List.range 131074).map sample_tall_cell

/-- The descriptor of `sample_tall`, with one padding column. -/
def sample_dims_tall : dims_t := ⟨65537, 2, 1, 1⟩

/-- The encoder output for `sample_tall`. -/
def sample_tall_csr : csr_array_t := compress_dense_data_csr sample_tall sample_dims_tall

/-! ## Definitions for the allocation, trimming and region claims -/

/-- The function `next_multiple` of `operators/common.cpp` with the 64-bit
wrap of `size_t` written out: the only operation of the body that can leave
the range of `size_t` is the product `(n + 1) * align`. -/
def next_multiple_size_t (request align : Nat) : Nat :=
  let n := request / align
  if n == 0 then align
  else
    let remainder := request % align
    if remainder != 0 then ((n + 1) * align) % 2 ^ 64 else request

/-- The value region of a packed row of 17 entries, all `1.0` (half-precision
`0x3c00`): two vectors, the second with one used slot and 15 unused slots that
hold zero. -/
def sample_packed_vals_a : List (List Nat) :=
  [List.replicate 16 0x3c00, 0x3c00 :: List.replicate 15 0]

/-- The value region `sample_packed_vals_a` with the 15 unused slots of the
second vector set to `2.0` (half-precision `0x4000`). -/
def sample_packed_vals_b : List (List Nat) :=
  [List.replicate 16 0x3c00, 0x3c00 :: List.replicate 15 0x4000]

/-- The index region of the packed row: four words of offset 0 nibbles. -/
def sample_packed_idx_a : List Nat := [0, 0, 0, 0]

/-- The index region `sample_packed_idx_a` with every unused nibble of the
second vector set to 15. -/
def sample_packed_idx_b : List Nat := [0, 0, 0xfffffff0, 0xffffffff]

/-- The metadata region of the packed row: start vector 0, 17 entries. -/
def sample_packed_rows : List Nat := [17]

/-- The descriptor of a `1 x 20` matrix. -/
def sample_dims_1x20_pad : dims_t := ⟨1, 20, 1, 0⟩

/-- The descriptor of a `2 x 2` matrix whose buffer rows carry one trailing
alignment cell. -/
def sample_dims_2x2_pad : dims_t := ⟨2, 2, 1, 1⟩

/-- A buffer for `sample_dims_2x2_pad`: rows of three cells, `1.0, 2.0` and
`2.0, 1.0`, each followed by the alignment cell. -/
def sample_padded_2x2 : List F32 :=
  [f32_one, f32_two, F32.zero, f32_two, f32_one, F32.zero]

/-- A `1 x 17` row with non-zeros in the columns 0 and 16 only: two
consecutive non-zero values whose column indices differ by 16. -/
def sample_row_apart_16 : List F32 := f32_one :: (List.replicate 15 F32.zero ++ [f32_two])

/-- The descriptor of a tensor of two slices of one row and one column. -/
def sample_dims_1x1x2 : dims_t := ⟨1, 1, 2, 0⟩

/-- A buffer for `sample_dims_1x1x2`: the cell `1.0` of slice 0 and the cell
`2.0` of slice 1. -/
def sample_data_1x1x2 : List F32 := [f32_one, f32_two]

/-- The byte sizes and the interior offsets (in 32-bit words) that
`alloc_packed_csr_array_t` computes (lines 59-70). -/
structure packed_sizes where
  values_size : Nat
  col_idx_size : Nat
  row_idx_size : Nat
  total_buf_size : Nat
  col_idx_ofs : Nat
  row_idx_ofs : Nat
deriving DecidableEq

/-- The size computation of `alloc_packed_csr_array_t` (lines 59-70) in the
arithmetic of `size_t`: every product and the sum are reduced modulo `2 ^ 64`,
and `next_multiple` is `next_multiple_size_t`.  The interior pointers are
advanced in units of `uint32_t`. -/
def alloc_packed_sizes (CACHELINE_SIZE num_total_vectors num_rows : Nat) : packed_sizes :=
  let values_size :=
    next_multiple_size_t ((num_total_vectors * TOTAL_VECTOR_BYTES) % 2 ^ 64) CACHELINE_SIZE
  let col_idx_size :=
    next_multiple_size_t
      ((((num_total_vectors * DATA_TO_INDEX_RATIO) % 2 ^ 64) * 4) % 2 ^ 64) CACHELINE_SIZE
  let row_idx_size := next_multiple_size_t ((num_rows * 4) % 2 ^ 64) CACHELINE_SIZE
  { values_size := values_size
    col_idx_size := col_idx_size
    row_idx_size := row_idx_size
    total_buf_size := (((values_size + col_idx_size) % 2 ^ 64) + row_idx_size) % 2 ^ 64
    col_idx_ofs := values_size / 4
    row_idx_ofs := values_size / 4 + col_idx_size / 4 }

/-- The descriptor of a matrix of two rows and no column: its buffer has no
cell. -/
def sample_dims_2x0 : dims_t := ⟨2, 0, 1, 0⟩

/-- The memory at the address of the empty buffer of `sample_dims_2x0`: the
word that follows the buffer holds `1.0`. -/
def sample_mem_2x0 : List F32 := [f32_one]

/-! ## The entries of a row -/

theorem compress_step_emit (s : enc_state) (v : F32) (h : emits s.next_offset v = true) :
    compress_step s v =
      { csr := { s.csr with
                  vals := s.csr.vals.set s.num_nonzeros v,
                  col_idx := s.csr.col_idx.set s.num_nonzeros (stored_offset s.next_offset v) },
        num_nonzeros := s.num_nonzeros + 1,
        next_offset := 0 } := by
  unfold emits bumped_offset at h
  simp only [compress_step, stored_offset, bumped_offset]
  rw [if_pos h]

theorem compress_step_skip (s : enc_state) (v : F32) (h : emits s.next_offset v = false) :
    compress_step s v = { s with next_offset := bumped_offset s.next_offset v } := by
  unfold emits bumped_offset at h
  simp only [compress_step, bumped_offset]
  rw [if_neg (by simp [h])]

theorem enc_from_length_le (cells : List F32) (off : Nat) :
    (enc_from off cells).length ≤ cells.length := by
  induction cells generalizing off with
  | nil => simp [enc_from]
  | cons v rest ih =>
    simp only [enc_from]
    by_cases h : emits off v = true
    · rw [if_pos h]
      have := ih 0
      simp only [List.length_cons]
      omega
    · rw [if_neg h]
      have := ih (bumped_offset off v)
      simp only [List.length_cons]
      omega

theorem set_append_cons {α : Type} (W R : List α) (x v : α) (n : Nat) (hn : W.length = n) :
    (W ++ x :: R).set n v = (W ++ [v]) ++ R := by
  subst hn
  rw [List.set_append_right _ _ (le_refl _)]
  simp

/-- The emitting loop, run on a scratch array whose written part is `Wv`/`Wc`
and whose free part is large enough, appends the entries `enc_from`. -/
theorem compress_fold_spec (cells : List F32) (s : enc_state)
    (Wv Rv : List F32) (Wc Rc : List Nat)
    (hv : s.csr.vals = Wv ++ Rv) (hc : s.csr.col_idx = Wc ++ Rc)
    (hWv : Wv.length = s.num_nonzeros) (hWc : Wc.length = s.num_nonzeros)
    (hcapv : (enc_from s.next_offset cells).length ≤ Rv.length)
    (hcapc : (enc_from s.next_offset cells).length ≤ Rc.length) :
    (cells.foldl compress_step s).csr.vals
        = Wv ++ (enc_from s.next_offset cells).map Prod.fst
            ++ Rv.drop (enc_from s.next_offset cells).length ∧
    (cells.foldl compress_step s).csr.col_idx
        = Wc ++ (enc_from s.next_offset cells).map Prod.snd
            ++ Rc.drop (enc_from s.next_offset cells).length ∧
    (cells.foldl compress_step s).num_nonzeros
        = s.num_nonzeros + (enc_from s.next_offset cells).length ∧
    (cells.foldl compress_step s).csr.row_idx = s.csr.row_idx ∧
    (cells.foldl compress_step s).csr.num_nonzeros = s.csr.num_nonzeros ∧
    (cells.foldl compress_step s).csr.num_rows = s.csr.num_rows := by
  induction cells generalizing s Wv Rv Wc Rc with
  | nil => simp [enc_from, hv, hc]
  | cons v rest ih =>
    simp only [enc_from] at hcapv hcapc
    simp only [List.foldl_cons, enc_from]
    by_cases hemit : emits s.next_offset v = true
    · -- an entry is written
      rw [if_pos hemit] at hcapv hcapc
      obtain ⟨xv, Rv', rfl⟩ : ∃ x R', Rv = x :: R' := by
        cases Rv with
        | nil => simp at hcapv
        | cons x R' => exact ⟨x, R', rfl⟩
      obtain ⟨xc, Rc', rfl⟩ : ∃ x R', Rc = x :: R' := by
        cases Rc with
        | nil => simp at hcapc
        | cons x R' => exact ⟨x, R', rfl⟩
      rw [compress_step_emit s v hemit, if_pos hemit]
      have := ih { csr := { s.csr with
                  vals := s.csr.vals.set s.num_nonzeros v,
                  col_idx := s.csr.col_idx.set s.num_nonzeros (stored_offset s.next_offset v) },
                   num_nonzeros := s.num_nonzeros + 1,
                   next_offset := 0 } (Wv ++ [v]) Rv' (Wc ++ [stored_offset s.next_offset v]) Rc'
            (by simp only [hv]; exact set_append_cons _ _ _ _ _ hWv)
            (by simp only [hc]; exact set_append_cons _ _ _ _ _ hWc)
            (by simp [hWv]) (by simp [hWc])
            (by simpa using hcapv) (by simpa using hcapc)
      obtain ⟨h1, h2, h3, h4, h5, h6⟩ := this
      refine ⟨?_, ?_, ?_, ?_, ?_, ?_⟩
      · rw [h1]; simp
      · rw [h2]; simp
      · rw [h3]; simp only [List.length_cons]; omega
      · rw [h4]
      · rw [h5]
      · rw [h6]
    · rw [if_neg hemit] at hcapv hcapc
      rw [compress_step_skip s v (by simpa using hemit), if_neg hemit]
      exact ih _ Wv Rv Wc Rc hv hc hWv hWc hcapv hcapc

theorem entries_upto_zero (data : List F32) (data_dims : dims_t) :
    entries_upto data data_dims 0 = [] := by
  simp [entries_upto]

theorem entries_upto_succ (data : List F32) (data_dims : dims_t) (k : Nat) :
    entries_upto data data_dims (k + 1)
      = entries_upto data data_dims k ++ row_entries data data_dims 0 k := by
  simp [entries_upto, List.range_succ]

theorem set_map_range {α : Type} (n : Nat) (g : Nat → α) (i : Nat) (v : α) :
    ((List.range n).map g).set i v = (List.range n).map (fun j => if j = i then v else g j) := by
  apply List.ext_getElem?
  intro j
  rw [List.getElem?_set]
  by_cases hj : j < n
  · by_cases hij : i = j
    · subst hij
      simp [hj]
    · have : ¬ j = i := fun h => hij h.symm
      simp [hj, hij, this]
  · have hr : (List.range n)[j]? = none := by
      rw [List.getElem?_eq_none_iff]; simpa using hj
    by_cases hij : i = j
    · subst hij
      simp [hj, hr]
    · simp [hij, hr]

/-- The body of the row loop on a scratch array in the shape reached after
some rows. -/
theorem compress_row_spec (data : List F32) (data_dims : dims_t) (h r : Nat) (s : row_state)
    (Wv Rv : List F32) (Wc Rc : List Nat)
    (hv : s.csr.vals = Wv ++ Rv) (hc : s.csr.col_idx = Wc ++ Rc)
    (hWv : Wv.length = s.num_nonzeros) (hWc : Wc.length = s.num_nonzeros)
    (hcapv : (row_entries data data_dims h r).length ≤ Rv.length)
    (hcapc : (row_entries data data_dims h r).length ≤ Rc.length) :
    compress_row data data_dims h r s =
      { csr :=
          { vals := Wv ++ (row_entries data data_dims h r).map Prod.fst
              ++ Rv.drop (row_entries data data_dims h r).length,
            col_idx := Wc ++ (row_entries data data_dims h r).map Prod.snd
              ++ Rc.drop (row_entries data data_dims h r).length,
            row_idx := s.csr.row_idx.set s.curr_row_idx
              (s.num_nonzeros + (row_entries data data_dims h r).length),
            num_nonzeros := s.csr.num_nonzeros,
            num_rows := s.csr.num_rows },
        num_nonzeros := s.num_nonzeros + (row_entries data data_dims h r).length,
        curr_row_idx := s.curr_row_idx + 1 } := by
  have key := compress_fold_spec (row_cells data data_dims h r)
    ⟨s.csr, s.num_nonzeros, 0⟩ Wv Rv Wc Rc hv hc hWv hWc hcapv hcapc
  obtain ⟨h1, h2, h3, h4, h5, h6⟩ := key
  simp only [row_cells, List.foldl_map] at h1 h2 h3 h4 h5 h6
  simp only [compress_row, row_entries, row_cells]
  simp only [h1, h2, h3, h4, h5, h6]

theorem entries_upto_length_le (data : List F32) (data_dims : dims_t)
    (hcap : ∀ r, r < data_dims.rows →
      (row_entries data data_dims 0 r).length ≤ data_dims.cols)
    (k : Nat) (hk : k ≤ data_dims.rows) :
    (entries_upto data data_dims k).length ≤ k * data_dims.cols := by
  induction k with
  | zero => simp [entries_upto_zero]
  | succ k ih =>
    rw [entries_upto_succ, List.length_append, Nat.succ_mul]
    have := hcap k (by omega)
    have := ih (by omega)
    omega

theorem map_range_const {α : Type} (n : Nat) (a : α) :
    (List.range n).map (fun _ => a) = List.replicate n a := by
  rw [List.eq_replicate_iff]
  simp

/-- The state of the row loop of slice 0 after `k` rows. -/
theorem compress_rows_spec (data : List F32) (data_dims : dims_t) (cap : Nat)
    (hcap : ∀ r, r < data_dims.rows →
      (row_entries data data_dims 0 r).length ≤ data_dims.cols)
    (hsize : data_dims.rows * data_dims.cols ≤ cap)
    (k : Nat) (hk : k ≤ data_dims.rows) :
    (List.range k).foldl (fun s r => compress_row data data_dims 0 r s)
        ⟨alloc_csr_array_t cap data_dims.rows, 0, 1⟩ =
      { csr :=
          { vals := (entries_upto data data_dims k).map Prod.fst
              ++ List.replicate (cap - (entries_upto data data_dims k).length) F32.zero,
            col_idx := (entries_upto data data_dims k).map Prod.snd
              ++ List.replicate (cap - (entries_upto data data_dims k).length) 0,
            row_idx := (List.range (data_dims.rows + 1)).map
              (fun i => if 1 ≤ i ∧ i ≤ k then (entries_upto data data_dims i).length else 0),
            num_nonzeros := cap,
            num_rows := data_dims.rows },
        num_nonzeros := (entries_upto data data_dims k).length,
        curr_row_idx := k + 1 } := by
  induction k with
  | zero =>
    simp only [List.range_zero, List.foldl_nil, entries_upto_zero, alloc_csr_array_t]
    have : (fun i => if 1 ≤ i ∧ i ≤ 0 then (entries_upto data data_dims i).length else 0)
        = fun _ => 0 := by
      funext i
      rw [if_neg (by omega)]
    rw [this, map_range_const]
    simp
  | succ k ih =>
    rw [List.range_succ, List.foldl_append, ih (by omega)]
    simp only [List.foldl_cons, List.foldl_nil]
    have hlen := entries_upto_length_le data data_dims hcap k (by omega)
    have hE := hcap k (by omega)
    have hmul : (k + 1) * data_dims.cols ≤ data_dims.rows * data_dims.cols :=
      Nat.mul_le_mul_right _ (by omega)
    rw [Nat.succ_mul] at hmul
    rw [compress_row_spec data data_dims 0 k _
      ((entries_upto data data_dims k).map Prod.fst)
      (List.replicate (cap - (entries_upto data data_dims k).length) F32.zero)
      ((entries_upto data data_dims k).map Prod.snd)
      (List.replicate (cap - (entries_upto data data_dims k).length) 0)
      rfl rfl (by simp) (by simp)
      (by simp only [List.length_replicate]; omega)
      (by simp only [List.length_replicate]; omega)]
    have hfun : (fun j => if j = k + 1 then
          (entries_upto data data_dims k).length + (row_entries data data_dims 0 k).length
        else if 1 ≤ j ∧ j ≤ k then (entries_upto data data_dims j).length else 0)
        = fun i => if 1 ≤ i ∧ i ≤ k + 1 then (entries_upto data data_dims i).length else 0 := by
      funext j
      by_cases hj : j = k + 1
      · subst hj
        rw [if_pos rfl, if_pos (by omega), entries_upto_succ, List.length_append]
      · rw [if_neg hj]
        by_cases hj2 : 1 ≤ j ∧ j ≤ k
        · rw [if_pos hj2, if_pos (by omega)]
        · rw [if_neg hj2, if_neg (by omega)]
    simp only [set_map_range, hfun, entries_upto_succ, List.map_append, List.length_append,
      List.drop_replicate, List.append_assoc, Nat.sub_sub]

/-- Every row of a `rows x cols` matrix stores at most `cols` entries. -/
theorem count_row_snd_lt (row : Nat → F32) (k : Nat) (hk : 0 < k) :
    (count_row row k).2 < k := by
  induction k with
  | zero => omega
  | succ k ih =>
    unfold count_row
    rw [List.range_succ, List.foldl_append]
    simp only [List.foldl_cons, List.foldl_nil]
    split
    · by_cases hk0 : k = 0
      · subst hk0
        simp
      · have := ih (by omega)
        unfold count_row at this
        omega
    · simp

theorem row_entries_length_le_of_pos (data : List F32) (data_dims : dims_t) (h r : Nat)
    (hc : 0 < data_dims.cols) :
    (row_entries data data_dims h r).length ≤ data_dims.cols := by
  unfold row_entries
  refine le_trans (enc_from_length_le _ _) ?_
  simp only [row_cells, List.length_map, List.length_range]
  have := count_row_snd_lt (ARRAY_3D data data_dims.rows data_dims.cols h r) data_dims.cols hc
  omega

/-- The state after the two outer loops, on a single-slice array. -/
theorem compress_loops_spec (data : List F32) (data_dims : dims_t) (cap : Nat)
    (hh : data_dims.height = 1)
    (hcap : ∀ r, r < data_dims.rows →
      (row_entries data data_dims 0 r).length ≤ data_dims.cols)
    (hsize : data_dims.rows * data_dims.cols ≤ cap) :
    compress_loops data data_dims (alloc_csr_array_t cap data_dims.rows) =
      { csr :=
          { vals := (entries_upto data data_dims data_dims.rows).map Prod.fst
              ++ List.replicate (cap - (entries_upto data data_dims data_dims.rows).length)
                  F32.zero,
            col_idx := (entries_upto data data_dims data_dims.rows).map Prod.snd
              ++ List.replicate (cap - (entries_upto data data_dims data_dims.rows).length) 0,
            row_idx := (List.range (data_dims.rows + 1)).map
              (fun i => if 1 ≤ i ∧ i ≤ data_dims.rows
                then (entries_upto data data_dims i).length else 0),
            num_nonzeros := cap,
            num_rows := data_dims.rows },
        num_nonzeros := (entries_upto data data_dims data_dims.rows).length,
        curr_row_idx := data_dims.rows + 1 } := by
  unfold compress_loops
  rw [hh]
  have h1 : List.range 1 = [0] := rfl
  rw [h1]
  simp only [List.foldl_cons, List.foldl_nil]
  exact compress_rows_spec data data_dims cap hcap hsize data_dims.rows (le_refl _)

/-- The output of the encoder on a single-slice array: the entries of the rows
in order, and their running count as row boundaries. -/
theorem compress_dense_data_csr_eq (data : List F32) (data_dims : dims_t)
    (hh : data_dims.height = 1)
    (hcap : ∀ r, r < data_dims.rows →
      (row_entries data data_dims 0 r).length ≤ data_dims.cols) :
    compress_dense_data_csr data data_dims =
      { vals := (entries_upto data data_dims data_dims.rows).map Prod.fst,
        col_idx := (entries_upto data data_dims data_dims.rows).map Prod.snd,
        row_idx := (List.range (data_dims.rows + 1)).map
          (fun i => (entries_upto data data_dims i).length),
        num_nonzeros := (entries_upto data data_dims data_dims.rows).length,
        num_rows := data_dims.rows } := by
  have hsize : data_dims.rows * data_dims.cols ≤ get_dims_size data_dims := by
    simp [get_dims_size, hh]
  have hloops := compress_loops_spec data data_dims (get_dims_size data_dims) hh hcap hsize
  have hfun : (fun j => if j = 0 then 0 else
        if 1 ≤ j ∧ j ≤ data_dims.rows then (entries_upto data data_dims j).length else 0)
      = fun j => if j ≤ data_dims.rows then (entries_upto data data_dims j).length else 0 := by
    funext j
    by_cases hj : j = 0
    · subst hj
      simp [entries_upto_zero]
    · rw [if_neg hj]
      by_cases hj2 : j ≤ data_dims.rows
      · rw [if_pos hj2, if_pos (by omega)]
      · rw [if_neg hj2, if_neg (by omega)]
  have hmap : (List.range (data_dims.rows + 1)).map
        (fun j => if j ≤ data_dims.rows then (entries_upto data data_dims j).length else 0)
      = (List.range (data_dims.rows + 1)).map
        (fun i => (entries_upto data data_dims i).length) := by
    apply List.map_congr_left
    intro j hj
    rw [List.mem_range] at hj
    rw [if_pos (by omega)]
  unfold compress_dense_data_csr
  simp only [hloops]
  simp only [copy_csr_array_t, alloc_csr_array_t, memcpy, set_map_range, hfun, hmap]
  simp

/-! ## The unpacked array built from the entries of the rows -/

theorem all_entries_length (data : List F32) (data_dims : dims_t) :
    (all_entries data data_dims).length = data_dims.rows := by
  simp [all_entries]

theorem all_entries_take (data : List F32) (data_dims : dims_t) (i : Nat)
    (hi : i ≤ data_dims.rows) :
    ((all_entries data data_dims).take i).flatten = entries_upto data data_dims i := by
  unfold all_entries entries_upto
  rw [← List.map_take, List.take_range, Nat.min_eq_left hi]

theorem all_entries_getD (data : List F32) (data_dims : dims_t) (r : Nat)
    (hr : r < data_dims.rows) :
    (all_entries data data_dims).getD r [] = row_entries data data_dims 0 r := by
  unfold all_entries
  rw [List.getD_eq_getElem _ _ (by simpa using hr)]
  simp

/-- The encoder produces the array of the entry lists of the rows. -/
theorem compress_dense_data_csr_eq_csr_of (data : List F32) (data_dims : dims_t)
    (hh : data_dims.height = 1)
    (hcap : ∀ r, r < data_dims.rows →
      (row_entries data data_dims 0 r).length ≤ data_dims.cols) :
    compress_dense_data_csr data data_dims = csr_of (all_entries data data_dims) := by
  rw [compress_dense_data_csr_eq data data_dims hh hcap]
  unfold csr_of
  have h1 := all_entries_take data data_dims data_dims.rows (le_refl _)
  rw [← all_entries_length data data_dims, List.take_length] at h1
  have hmap : (List.range ((all_entries data data_dims).length + 1)).map
        (fun i => ((all_entries data data_dims).take i).flatten.length)
      = (List.range (data_dims.rows + 1)).map
        (fun i => (entries_upto data data_dims i).length) := by
    rw [all_entries_length]
    apply List.map_congr_left
    intro j hj
    rw [List.mem_range] at hj
    rw [all_entries_take data data_dims j (by omega)]
  rw [hmap, h1, all_entries_length]

/-! ## The cursor decoding of a row -/

theorem getD_of_drop_eq_cons {α : Type} (l : List α) (k : Nat) (x d : α) (t : List α)
    (h : l.drop k = x :: t) : l.getD k d = x ∧ l.drop (k + 1) = t := by
  induction l generalizing k with
  | nil => simp at h
  | cons a l ih =>
    cases k with
    | zero =>
      simp only [List.drop_zero, List.cons.injEq] at h
      simp [h.1, h.2]
    | succ k =>
      simp only [List.drop_succ_cons] at h
      have := ih k h
      simp only [List.getD_cons_succ, List.drop_succ_cons]
      exact this

/-- The inner loop of `decompress_csr_data`, reading the entries `E` from
position `k` of the value and offset arrays, is the cursor decoding of `E`. -/
theorem iterate_decompress_step (csr_data : csr_array_t) (data_dims : dims_t) (row : Nat)
    (E : List (F32 × Nat)) (k cur : Nat) (buf : List F32) (Rv : List F32) (Rc : List Nat)
    (hv : csr_data.vals.drop k = E.map Prod.fst ++ Rv)
    (hc : csr_data.col_idx.drop k = E.map Prod.snd ++ Rc) :
    (iterate_opt (decompress_step csr_data data_dims row) E.length ⟨buf, k, cur⟩).map
        (fun e => (e.dcmp_data, e.curr_col_idx))
      = (dec_from (data_dims.cols + data_dims.align_pad) row cur E buf).map
        (fun b => (b, k + E.length)) := by
  induction E generalizing k cur buf with
  | nil => simp [iterate_opt, dec_from]
  | cons e E ih =>
    obtain ⟨v, off⟩ := e
    simp only [List.map_cons, List.cons_append] at hv hc
    obtain ⟨hv1, hv2⟩ := getD_of_drop_eq_cons _ _ _ F32.zero _ hv
    obtain ⟨hc1, hc2⟩ := getD_of_drop_eq_cons _ _ _ 0 _ hc
    simp only [List.length_cons, iterate_opt, dec_from, decompress_step, hv1, hc1]
    by_cases hlt : cur + off < data_dims.cols + data_dims.align_pad
    · rw [if_pos hlt, if_pos hlt]
      simp only [Option.some_bind]
      rw [ih (k + 1) (cur + off + 1) _ hv2 hc2]
      congr 1
      funext b
      congr 1
      omega
    · rw [if_neg hlt, if_neg hlt]
      simp

theorem getD_map_range {α : Type} (n : Nat) (g : Nat → α) (i : Nat) (d : α) (hi : i < n) :
    ((List.range n).map g).getD i d = g i := by
  rw [List.getD_eq_getElem _ _ (by simpa using hi)]
  simp

theorem take_succ_flatten {α : Type} (Es : List (List α)) (k : Nat) (hk : k < Es.length) :
    (Es.take (k + 1)).flatten = (Es.take k).flatten ++ Es.getD k [] := by
  rw [List.take_succ, List.flatten_append]
  rw [List.getD_eq_getElem _ _ hk, List.getElem?_eq_getElem hk]
  simp

theorem flatten_eq_take_append {α : Type} (Es : List (List α)) (k : Nat) (hk : k < Es.length) :
    Es.flatten = (Es.take k).flatten ++ (Es.getD k [] ++ (Es.drop (k + 1)).flatten) := by
  conv_lhs => rw [← List.take_append_drop (k + 1) Es]
  rw [List.flatten_append, take_succ_flatten Es k hk, List.append_assoc]

/-- The body of the row loop of `decompress_csr_data` on `csr_of Es`. -/
theorem decompress_row_csr_of (Es : List (List (F32 × Nat))) (data_dims : dims_t)
    (k : Nat) (hk : k < Es.length) (buf : List F32) :
    decompress_row (csr_of Es) data_dims (buf, (Es.take k).flatten.length) k
      = (dec_from (data_dims.cols + data_dims.align_pad) k 0 (Es.getD k []) buf).map
        (fun b => (b, (Es.take (k + 1)).flatten.length)) := by
  have hlen : (Es.take (k + 1)).flatten.length
      = (Es.take k).flatten.length + (Es.getD k []).length := by
    rw [take_succ_flatten Es k hk, List.length_append]
  have hn : (((((csr_of Es).row_idx.getD (k + 1) 0 : Nat) : Int)
      - (((csr_of Es).row_idx.getD k 0 : Nat) : Int)).toNat) = (Es.getD k []).length := by
    simp only [csr_of]
    rw [getD_map_range _ _ _ _ (by omega), getD_map_range _ _ _ _ (by omega), hlen]
    omega
  unfold decompress_row
  simp only [hn]
  have hv : (csr_of Es).vals.drop (Es.take k).flatten.length
      = (Es.getD k []).map Prod.fst ++ ((Es.drop (k + 1)).flatten).map Prod.fst := by
    simp only [csr_of]
    rw [flatten_eq_take_append Es k hk, List.map_append, List.map_append,
      List.drop_left' (List.length_map _ _)]
  have hc : (csr_of Es).col_idx.drop (Es.take k).flatten.length
      = (Es.getD k []).map Prod.snd ++ ((Es.drop (k + 1)).flatten).map Prod.snd := by
    simp only [csr_of]
    rw [flatten_eq_take_append Es k hk, List.map_append, List.map_append,
      List.drop_left' (List.length_map _ _)]
  rw [iterate_decompress_step (csr_of Es) data_dims k (Es.getD k []) _ 0 buf _ _ hv hc, hlen]

/-- `decompress_csr_data` on `csr_of Es` is the cursor decoding of the rows. -/
theorem decompress_csr_data_csr_of (Es : List (List (F32 × Nat))) (data_dims : dims_t)
    (hrows : data_dims.rows = Es.length) (buf : List F32) :
    decompress_csr_data (csr_of Es) data_dims buf
      = dec_rows (data_dims.cols + data_dims.align_pad) Es data_dims.rows buf := by
  have key : ∀ k, k ≤ Es.length →
      (List.range k).foldlM (decompress_row (csr_of Es) data_dims) (buf, 0)
        = (dec_rows (data_dims.cols + data_dims.align_pad) Es k buf).map
          (fun b => (b, (Es.take k).flatten.length)) := by
    intro k hk
    induction k with
    | zero => simp [dec_rows]
    | succ k ih =>
      rw [List.range_succ, List.foldlM_append, ih (by omega)]
      unfold dec_rows
      rw [List.range_succ, List.foldlM_append]
      cases hres : (List.range k).foldlM
          (fun B k => dec_from (data_dims.cols + data_dims.align_pad) k 0 (Es.getD k []) B)
          buf with
      | none => simp
      | some B =>
        simp only [Option.map_some', Option.some_bind, List.foldlM_cons, List.foldlM_nil,
          Option.bind_eq_bind]
        rw [decompress_row_csr_of Es data_dims k (by omega) B]
        cases dec_from (data_dims.cols + data_dims.align_pad) k 0 (Es.getD k []) B <;> simp
  unfold decompress_csr_data
  rw [hrows, key Es.length (le_refl _)]
  cases dec_rows (data_dims.cols + data_dims.align_pad) Es Es.length buf <;> simp

theorem getD_set_self {α : Type} (l : List α) (i : Nat) (v d : α) (h : i < l.length) :
    (l.set i v).getD i d = v := by
  rw [List.getD_eq_getElem _ _ (by simpa using h)]
  simp

theorem getD_set_ne {α : Type} (l : List α) (i j : Nat) (v d : α) (h : i ≠ j) :
    (l.set i v).getD j d = l.getD j d := by
  simp only [List.getD_eq_getElem?_getD]
  rw [List.getElem?_set_ne h]

theorem stored_offset_eq (off : Nat) (v : F32) (he : emits off v = true) (h15 : off ≤ 15) :
    stored_offset off v = off := by
  unfold emits bumped_offset at he
  unfold stored_offset bumped_offset
  by_cases hz : v.isZero = true
  · simp only [hz, if_true] at he ⊢
    simp at he
    simp [he]
  · simp only [hz] at he ⊢
    have : ¬ off = 16 := by omega
    simp [this]

theorem emits_false_isZero (off : Nat) (v : F32) (he : ¬ emits off v = true) :
    v.isZero = true := by
  unfold emits at he
  by_cases hz : v.isZero = true
  · exact hz
  · simp [hz] at he

theorem not_emits (off : Nat) (v : F32) (he : ¬ emits off v = true) (h15 : off ≤ 15) :
    v.isZero = true ∧ bumped_offset off v = off + 1 ∧ off + 1 ≤ 15 := by
  unfold emits bumped_offset at he
  unfold bumped_offset
  by_cases hz : v.isZero = true
  · have h16 : ¬ (off + 1 = 16) := by simpa [hz] using he
    exact ⟨hz, by simp [hz], by omega⟩
  · simp [hz] at he

theorem map_vals_nil (g : F32 → F32) : map_vals g [] = [] := rfl

theorem map_vals_cons (g : F32 → F32) (e : F32 × Nat) (E : List (F32 × Nat)) :
    map_vals g (e :: E) = (g e.1, e.2) :: map_vals g E := rfl

theorem map_vals_id (E : List (F32 × Nat)) : map_vals id E = E := by
  unfold map_vals
  simp

/-- Decoding the entries of a run of cells, their values passed through `g`,
rewrites exactly those cells: a stored cell receives `g` of its value, a cell
that is not stored is zero and keeps what the buffer held. -/
theorem dec_enc_from (g : F32 → F32) (width row : Nat) (cells : List F32) (off p : Nat)
    (buf : List F32)
    (hoff : off ≤ p) (h15 : off ≤ 15) (hw : p + cells.length ≤ width)
    (hbuf : row * width + width ≤ buf.length) :
    ∃ out, dec_from width row (p - off) (map_vals g (enc_from off cells)) buf = some out ∧
      out.length = buf.length ∧
      (∀ j, j < cells.length →
        out.getD (row * width + (p + j)) F32.zero = g (cells.getD j F32.zero) ∨
        ((cells.getD j F32.zero).isZero = true ∧
          out.getD (row * width + (p + j)) F32.zero
            = buf.getD (row * width + (p + j)) F32.zero)) ∧
      (∀ i, (i < row * width + p ∨ row * width + (p + cells.length) ≤ i) →
        out.getD i F32.zero = buf.getD i F32.zero) := by
  induction cells generalizing off p buf with
  | nil =>
    refine ⟨buf, by simp [enc_from, dec_from, map_vals], rfl, ?_, ?_⟩
    · intro j hj; simp at hj
    · intro i _; rfl
  | cons v rest ih =>
    simp only [List.length_cons] at hw
    by_cases he : emits off v = true
    · have hso := stored_offset_eq off v he h15
      have hcol : p - off + stored_offset off v = p := by omega
      obtain ⟨out, h1, h2, h3, h4⟩ := ih 0 (p + 1)
        (buf.set (ARRAY_2D_idx width row p) (g v)) (by omega) (by omega) (by omega)
        (by simpa using hbuf)
      refine ⟨out, ?_, ?_, ?_, ?_⟩
      · simp only [enc_from, if_pos he, map_vals_cons, dec_from, hcol]
        rw [if_pos (by omega)]
        simpa using h1
      · simpa using h2
      · intro j hj
        cases j with
        | zero =>
          left
          rw [h4 _ (Or.inl (by omega))]
          simp only [Nat.add_zero, List.getD_cons_zero]
          exact getD_set_self _ _ _ _ (by unfold ARRAY_2D_idx; omega)
        | succ j =>
          simp only [List.length_cons] at hj
          have hidx : row * width + (p + (j + 1)) = row * width + (p + 1 + j) := by omega
          rw [hidx, List.getD_cons_succ]
          rcases h3 j (by omega) with h | ⟨hz, h⟩
          · exact Or.inl h
          · right
            refine ⟨hz, ?_⟩
            rw [h]
            exact getD_set_ne _ _ _ _ _ (by unfold ARRAY_2D_idx; omega)
      · intro i hi
        simp only [List.length_cons] at hi
        rw [h4 i (by omega)]
        exact getD_set_ne _ _ _ _ _ (by unfold ARRAY_2D_idx; omega)
    · obtain ⟨hz, hb, hb15⟩ := not_emits off v he h15
      obtain ⟨out, h1, h2, h3, h4⟩ := ih (off + 1) (p + 1) buf (by omega) hb15 (by omega) hbuf
      refine ⟨out, ?_, h2, ?_, ?_⟩
      · simp only [enc_from, if_neg he, hb]
        have : p - off = p + 1 - (off + 1) := by omega
        rw [this]
        exact h1
      · intro j hj
        cases j with
        | zero =>
          right
          simp only [Nat.add_zero, List.getD_cons_zero]
          exact ⟨hz, h4 _ (Or.inl (by omega))⟩
        | succ j =>
          simp only [List.length_cons] at hj
          have hidx : row * width + (p + (j + 1)) = row * width + (p + 1 + j) := by omega
          rw [hidx, List.getD_cons_succ]
          exact h3 j (by omega)
      · intro i hi
        simp only [List.length_cons] at hi
        exact h4 i (by omega)

/-- The cells after `last_nz_idx` are zero. -/
theorem count_row_zero_after (row : Nat → F32) (k c : Nat)
    (hc : (count_row row k).2 < c) (hck : c < k) : (row c).isZero = true := by
  induction k with
  | zero => omega
  | succ k ih =>
    unfold count_row at hc
    rw [List.range_succ, List.foldl_append] at hc
    simp only [List.foldl_cons, List.foldl_nil] at hc
    by_cases hz : (row k).isZero = true
    · rw [if_pos hz] at hc
      by_cases hck2 : c = k
      · subst hck2; exact hz
      · exact ih hc (by omega)
    · rw [if_neg hz] at hc
      simp only at hc
      omega

theorem cell_index_lt (r k c w : Nat) (hr : r < k) (hc : c < w) : r * w + c < k * w := by
  have h1 : (r + 1) * w ≤ k * w := Nat.mul_le_mul_right _ hr
  rw [Nat.succ_mul] at h1
  omega

theorem isZero_cases (x : F32) (h : x.isZero = true) : x = F32.zero ∨ x = F32.negZero := by
  obtain ⟨s, e, m⟩ := x
  simp only [F32.isZero, Bool.and_eq_true, beq_iff_eq] at h
  obtain ⟨he, hm⟩ := h
  subst he hm
  cases s
  · left; rfl
  · right; rfl

/-- A matrix without columns stores nothing. -/
theorem row_entries_eq_nil_of_first_zero (data : List F32) (data_dims : dims_t) (h r : Nat)
    (hc : data_dims.cols = 0)
    (hz : (ARRAY_3D data data_dims.rows data_dims.cols h r 0).isZero = true) :
    row_entries data data_dims h r = [] := by
  unfold row_entries row_cells
  have hcount : (count_row (ARRAY_3D data data_dims.rows data_dims.cols h r)
      data_dims.cols).2 = 0 := by
    rw [hc]; rfl
  rw [hcount]
  have h1 : List.range (0 + 1) = [0] := rfl
  rw [h1]
  simp only [List.map_cons, List.map_nil, enc_from, emits, bumped_offset, hz]
  simp

/-- In a dense `rows x cols` matrix every row stores at most `cols` entries. -/
theorem row_entries_length_le (data : List F32) (data_dims : dims_t)
    (hlen : data.length = data_dims.rows * data_dims.cols) (r : Nat) :
    (row_entries data data_dims 0 r).length ≤ data_dims.cols := by
  by_cases hc : 0 < data_dims.cols
  · exact row_entries_length_le_of_pos data data_dims 0 r hc
  · have hc0 : data_dims.cols = 0 := by omega
    have hnil : data = [] := by
      rw [hc0, Nat.mul_zero] at hlen
      exact List.length_eq_zero.mp hlen
    rw [row_entries_eq_nil_of_first_zero data data_dims 0 r hc0
      (by subst hnil; simp [ARRAY_3D, F32.isZero, F32.zero])]
    simp

/-- Decoding the entries of row `r`, their values passed through `g`, into a
buffer whose rows are `width` cells wide: every cell of the row either receives
`g` of the matrix cell, or the matrix cell is zero and the buffer cell is left
as it was; nothing outside the first `cols` cells of row `r` changes. -/
theorem dec_row_entries (g : F32 → F32) (data : List F32) (data_dims : dims_t)
    (width r : Nat)
    (buf : List F32) (hwidth : data_dims.cols ≤ width)
    (hz : data_dims.cols = 0 →
      (ARRAY_3D data data_dims.rows data_dims.cols 0 r 0).isZero = true)
    (hbuf : r * width + width ≤ buf.length) :
    ∃ out, dec_from width r 0 (map_vals g (row_entries data data_dims 0 r)) buf = some out ∧
      out.length = buf.length ∧
      (∀ c, c < data_dims.cols →
        out.getD (r * width + c) F32.zero
            = g (ARRAY_3D data data_dims.rows data_dims.cols 0 r c) ∨
        ((ARRAY_3D data data_dims.rows data_dims.cols 0 r c).isZero = true ∧
          out.getD (r * width + c) F32.zero = buf.getD (r * width + c) F32.zero)) ∧
      (∀ i, (i < r * width ∨ r * width + data_dims.cols ≤ i) →
        out.getD i F32.zero = buf.getD i F32.zero) := by
  by_cases hc : 0 < data_dims.cols
  · have hlast := count_row_snd_lt (ARRAY_3D data data_dims.rows data_dims.cols 0 r)
      data_dims.cols hc
    have hcl : (row_cells data data_dims 0 r).length
        = (count_row (ARRAY_3D data data_dims.rows data_dims.cols 0 r)
            data_dims.cols).2 + 1 := by
      simp [row_cells]
    obtain ⟨out, h1, h2, h3, h4⟩ := dec_enc_from g width r (row_cells data data_dims 0 r) 0 0 buf
      (le_refl _) (by omega) (by omega) hbuf
    refine ⟨out, h1, h2, ?_, ?_⟩
    · intro c hcc
      by_cases hcl2 : c < (row_cells data data_dims 0 r).length
      · have hcell : (row_cells data data_dims 0 r).getD c F32.zero
            = ARRAY_3D data data_dims.rows data_dims.cols 0 r c := by
          unfold row_cells
          exact getD_map_range _ _ _ _ (by omega)
        have := h3 c hcl2
        simp only [Nat.zero_add, hcell] at this
        exact this
      · right
        refine ⟨count_row_zero_after _ _ c (by omega) hcc, ?_⟩
        exact h4 _ (Or.inr (by omega))
    · intro i hi
      exact h4 i (by omega)
  · have hc0 : data_dims.cols = 0 := by omega
    rw [row_entries_eq_nil_of_first_zero data data_dims 0 r hc0 (hz hc0)]
    refine ⟨buf, rfl, rfl, ?_, ?_⟩
    · intro c hcc; omega
    · intro i _; rfl

theorem getD_map_map_vals (g : F32 → F32) (Es : List (List (F32 × Nat))) (k : Nat) :
    (Es.map (map_vals g)).getD k [] = map_vals g (Es.getD k []) := by
  by_cases hk : k < Es.length
  · rw [List.getD_eq_getElem _ _ (by simpa using hk), List.getD_eq_getElem _ _ hk]
    simp
  · rw [List.getD_eq_default _ _ (by simp; omega), List.getD_eq_default _ _ (by omega)]
    rfl

/-- Decoding the entries of the first `k` rows of a matrix, their values passed
through `g`. -/
theorem dec_rows_all_entries (g : F32 → F32) (data : List F32) (data_dims : dims_t)
    (width : Nat)
    (buf : List F32) (hwidth : data_dims.cols ≤ width)
    (hz : data_dims.cols = 0 → ∀ r,
      (ARRAY_3D data data_dims.rows data_dims.cols 0 r 0).isZero = true)
    (hbuf : data_dims.rows * width ≤ buf.length) (k : Nat) (hk : k ≤ data_dims.rows) :
    ∃ out, dec_rows width ((all_entries data data_dims).map (map_vals g)) k buf = some out ∧
      out.length = buf.length ∧
      (∀ r c, r < k → c < data_dims.cols →
        out.getD (r * width + c) F32.zero
            = g (ARRAY_3D data data_dims.rows data_dims.cols 0 r c) ∨
        ((ARRAY_3D data data_dims.rows data_dims.cols 0 r c).isZero = true ∧
          out.getD (r * width + c) F32.zero = buf.getD (r * width + c) F32.zero)) ∧
      (∀ i, (k * width ≤ i ∨ ∃ r, r * width + data_dims.cols ≤ i ∧ i < (r + 1) * width) →
        out.getD i F32.zero = buf.getD i F32.zero) := by
  induction k with
  | zero =>
    refine ⟨buf, by simp [dec_rows], rfl, ?_, ?_⟩
    · intro r c hr; omega
    · intro i _; rfl
  | succ k ih =>
    obtain ⟨B, h1, h2, h3, h4⟩ := ih (by omega)
    have hkw : (k + 1) * width ≤ data_dims.rows * width := Nat.mul_le_mul_right _ hk
    rw [Nat.succ_mul] at hkw
    obtain ⟨out, g1, g2, g3, g4⟩ := dec_row_entries g data data_dims width k B hwidth
      (fun h0 => hz h0 k) (by omega)
    refine ⟨out, ?_, by omega, ?_, ?_⟩
    · unfold dec_rows at h1 ⊢
      rw [List.range_succ, List.foldlM_append, h1]
      simp only [Option.some_bind, List.foldlM_cons, List.foldlM_nil, Option.bind_eq_bind]
      rw [getD_map_map_vals, all_entries_getD data data_dims k (by omega), g1]
      rfl
    · intro r c hr hc
      by_cases hrk : r < k
      · have := cell_index_lt r k c width hrk (by omega)
        rw [g4 _ (Or.inl this)]
        exact h3 r c hrk hc
      · have hrk2 : r = k := by omega
        subst hrk2
        rcases g3 c hc with h | ⟨hzc, h⟩
        · exact Or.inl h
        · right
          refine ⟨hzc, ?_⟩
          rw [h]
          exact h4 _ (Or.inl (by omega))
    · intro i hi
      rw [Nat.succ_mul] at hi
      rcases hi with hi | ⟨r, hr1, hr2⟩
      · rw [g4 i (Or.inr (by omega))]
        exact h4 i (Or.inl (by omega))
      · rw [Nat.succ_mul] at hr2
        have hg : out.getD i F32.zero = B.getD i F32.zero := by
          apply g4
          by_cases hrk : r < k
          · left
            have := cell_index_lt r k 0 width hrk (by omega)
            have h5 : (r + 1) * width ≤ k * width := Nat.mul_le_mul_right _ hrk
            rw [Nat.succ_mul] at h5
            omega
          · by_cases hrk2 : r = k
            · subst hrk2; right; exact hr1
            · right
              have h5 : (k + 1) * width ≤ r * width := Nat.mul_le_mul_right _ (by omega)
              rw [Nat.succ_mul] at h5
              omega
        rw [hg]
        exact h4 i (Or.inr ⟨r, hr1, by rw [Nat.succ_mul]; exact hr2⟩)

/-- A buffer of `rows * cols` cells read at cell `(r, c)`. -/
theorem ARRAY_3D_slice0 (data : List F32) (rows cols r c : Nat) :
    ARRAY_3D data rows cols 0 r c = data.getD (r * cols + c) F32.zero := by
  simp [ARRAY_3D]

theorem hcap_of_length (data : List F32) (data_dims : dims_t)
    (hlen : data.length = data_dims.rows * data_dims.cols) :
    ∀ r, r < data_dims.rows → (row_entries data data_dims 0 r).length ≤ data_dims.cols :=
  fun r _ => row_entries_length_le data data_dims hlen r

theorem first_cell_zero_of_length (data : List F32) (data_dims : dims_t)
    (hlen : data.length = data_dims.rows * data_dims.cols) :
    data_dims.cols = 0 → ∀ r,
      (ARRAY_3D data data_dims.rows data_dims.cols 0 r 0).isZero = true := by
  intro hc0 r
  have hnil : data = [] := by
    rw [hc0, Nat.mul_zero] at hlen
    exact List.length_eq_zero.mp hlen
  subst hnil
  simp [ARRAY_3D, F32.isZero, F32.zero]

theorem unpacked_round_trip_cells (data : List F32) (data_dims : dims_t)
    (hh : data_dims.height = 1) (hp : data_dims.align_pad = 0)
    (hlen : data.length = data_dims.rows * data_dims.cols) :
    ∃ out, decompress_csr_data (compress_dense_data_csr data data_dims) data_dims
        (List.replicate (data_dims.rows * data_dims.cols) F32.zero) = some out ∧
      out.length = data_dims.rows * data_dims.cols ∧
      ∀ r c, r < data_dims.rows → c < data_dims.cols →
        out.getD (r * data_dims.cols + c) F32.zero
            = data.getD (r * data_dims.cols + c) F32.zero ∨
        (data.getD (r * data_dims.cols + c) F32.zero = F32.negZero ∧
          out.getD (r * data_dims.cols + c) F32.zero = F32.zero) := by
  rw [compress_dense_data_csr_eq_csr_of data data_dims hh (hcap_of_length data data_dims hlen),
    decompress_csr_data_csr_of _ _ (all_entries_length data data_dims).symm, hp, Nat.add_zero]
  have hid : (all_entries data data_dims).map (map_vals id) = all_entries data data_dims := by
    have : map_vals id = id := funext map_vals_id
    rw [this, List.map_id]
  obtain ⟨out, h1, h2, h3, _⟩ := dec_rows_all_entries id data data_dims data_dims.cols
    (List.replicate (data_dims.rows * data_dims.cols) F32.zero) (le_refl _)
    (first_cell_zero_of_length data data_dims hlen) (by simp) data_dims.rows (le_refl _)
  rw [hid] at h1
  simp only [id] at h3
  refine ⟨out, h1, by simpa using h2, ?_⟩
  intro r c hr hc
  have hidx := cell_index_lt r data_dims.rows c data_dims.cols hr hc
  rcases h3 r c hr hc with h | ⟨hz, h⟩
  · left
    rw [h, ARRAY_3D_slice0]
  · rw [ARRAY_3D_slice0] at hz
    have hzero : out.getD (r * data_dims.cols + c) F32.zero = F32.zero := by
      rw [h, List.getD_eq_getElem _ _ (by simpa using hidx)]
      simp
    rcases isZero_cases _ hz with h0 | h0
    · left; rw [hzero, h0]
    · right; exact ⟨h0, hzero⟩

theorem unpacked_round_trip_exact (data : List F32) (data_dims : dims_t)
    (hh : data_dims.height = 1) (hp : data_dims.align_pad = 0)
    (hlen : data.length = data_dims.rows * data_dims.cols)
    (hneg : ∀ x, x ∈ data → x ≠ F32.negZero) :
    decompress_csr_data (compress_dense_data_csr data data_dims) data_dims
        (List.replicate (data_dims.rows * data_dims.cols) F32.zero) = some data := by
  obtain ⟨out, h1, h2, h3⟩ := unpacked_round_trip_cells data data_dims hh hp hlen
  rw [h1]
  congr 1
  apply List.ext_getElem (by rw [h2, hlen])
  intro i hi1 hi2
  have hc : 0 < data_dims.cols := by
    rcases Nat.eq_zero_or_pos data_dims.cols with h0 | h0
    · rw [hlen, h0] at hi2; simp at hi2
    · exact h0
  have hi : i < data_dims.rows * data_dims.cols := by omega
  have hr : i / data_dims.cols < data_dims.rows := by
    rw [Nat.div_lt_iff_lt_mul hc]; exact hi
  have hcm : i % data_dims.cols < data_dims.cols := Nat.mod_lt _ hc
  have hi3 : i / data_dims.cols * data_dims.cols + i % data_dims.cols = i := by
    rw [Nat.mul_comm]; exact Nat.div_add_mod i data_dims.cols
  have := h3 _ _ hr hcm
  rw [hi3, List.getD_eq_getElem _ _ hi1, List.getD_eq_getElem _ _ hi2] at this
  rcases this with h | ⟨h, _⟩
  · exact h
  · exact absurd h (hneg _ (List.getElem_mem hi2))

/-! ## Offsets stay below 16, for any height -/

theorem stored_offset_le (off : Nat) (v : F32) (h15 : off ≤ 15) :
    stored_offset off v ≤ 15 := by
  unfold stored_offset bumped_offset
  by_cases hz : v.isZero = true
  · by_cases h16 : off + 1 = 16
    · simp [hz, h16]
    · simp only [hz, if_true, beq_iff_eq, h16, if_false]
      omega
  · have : ¬ off = 16 := by omega
    simp [hz, this, h15]

/-- One iteration of the emitting loop keeps every stored offset and the gap
counter at most 15. -/
theorem compress_step_offsets (s : enc_state) (v : F32)
    (hs : (∀ x, x ∈ s.csr.col_idx → x ≤ 15) ∧ s.next_offset ≤ 15) :
    (∀ x, x ∈ (compress_step s v).csr.col_idx → x ≤ 15) ∧
      (compress_step s v).next_offset ≤ 15 := by
  by_cases he : emits s.next_offset v = true
  · rw [compress_step_emit s v he]
    refine ⟨?_, Nat.zero_le _⟩
    intro x hx
    rcases List.mem_or_eq_of_mem_set hx with h | h
    · exact hs.1 x h
    · rw [h]; exact stored_offset_le _ _ hs.2
  · rw [compress_step_skip s v (by simpa using he)]
    obtain ⟨_, hb, hb15⟩ := not_emits s.next_offset v he hs.2
    exact ⟨hs.1, by simp only [hb]; exact hb15⟩

theorem foldl_compress_step_offsets (cells : List F32) (s : enc_state)
    (hs : (∀ x, x ∈ s.csr.col_idx → x ≤ 15) ∧ s.next_offset ≤ 15) :
    (∀ x, x ∈ (cells.foldl compress_step s).csr.col_idx → x ≤ 15) ∧
      (cells.foldl compress_step s).next_offset ≤ 15 := by
  induction cells generalizing s with
  | nil => exact hs
  | cons v rest ih => exact ih _ (compress_step_offsets s v hs)

theorem compress_row_offsets (data : List F32) (data_dims : dims_t) (h r : Nat)
    (s : row_state) (hs : ∀ x, x ∈ s.csr.col_idx → x ≤ 15) :
    ∀ x, x ∈ (compress_row data data_dims h r s).csr.col_idx → x ≤ 15 := by
  have key := foldl_compress_step_offsets (row_cells data data_dims h r)
    ⟨s.csr, s.num_nonzeros, 0⟩ ⟨hs, Nat.zero_le _⟩
  simp only [row_cells, List.foldl_map] at key
  exact key.1

theorem foldl_rows_offsets (data : List F32) (data_dims : dims_t) (h : Nat) (rs : List Nat)
    (s : row_state) (hs : ∀ x, x ∈ s.csr.col_idx → x ≤ 15) :
    ∀ x, x ∈ (rs.foldl (fun s r => compress_row data data_dims h r s) s).csr.col_idx →
      x ≤ 15 := by
  induction rs generalizing s with
  | nil => exact hs
  | cons r rest ih => exact ih _ (compress_row_offsets data data_dims h r s hs)

theorem compress_loops_offsets (data : List F32) (data_dims : dims_t) (csr : csr_array_t)
    (hs : ∀ x, x ∈ csr.col_idx → x ≤ 15) :
    ∀ x, x ∈ (compress_loops data data_dims csr).csr.col_idx → x ≤ 15 := by
  unfold compress_loops
  generalize List.range data_dims.height = hs_list
  have key : ∀ (s : row_state), (∀ x, x ∈ s.csr.col_idx → x ≤ 15) →
      ∀ x, x ∈ (hs_list.foldl (fun s h => (List.range data_dims.rows).foldl
        (fun s r => compress_row data data_dims h r s) s) s).csr.col_idx → x ≤ 15 := by
    induction hs_list with
    | nil => intro s h; exact h
    | cons h rest ih =>
      intro s hs'
      exact ih _ (foldl_rows_offsets data data_dims h _ s hs')
  exact key _ hs

theorem compress_offsets_le (data : List F32) (data_dims : dims_t) :
    ∀ x, x ∈ (compress_dense_data_csr data data_dims).col_idx → x ≤ 15 := by
  intro x hx
  unfold compress_dense_data_csr copy_csr_array_t memcpy at hx
  simp only [List.mem_append] at hx
  rcases hx with h | h
  · have h2 := List.mem_of_mem_take h
    exact compress_loops_offsets data data_dims _
      (by intro y hy; simp [alloc_csr_array_t] at hy; omega) x h2
  · have h2 := List.mem_of_mem_drop h
    simp [alloc_csr_array_t] at h2
    omega

/-! ## Fields of the encoder output -/

theorem zip_map_fst_snd {α β : Type} (l : List (α × β)) :
    (l.map Prod.fst).zip (l.map Prod.snd) = l := by
  induction l with
  | nil => rfl
  | cons x xs ih => simp [ih]

theorem row_slice_csr_of (Es : List (List (F32 × Nat))) (r : Nat) (hr : r < Es.length) :
    row_slice (csr_of Es) r = Es.getD r [] := by
  unfold row_slice
  have hlen : (Es.take (r + 1)).flatten.length
      = (Es.take r).flatten.length + (Es.getD r []).length := by
    rw [take_succ_flatten Es r hr, List.length_append]
  simp only [csr_of]
  rw [getD_map_range _ _ _ _ (by omega), getD_map_range _ _ _ _ (by omega), zip_map_fst_snd,
    hlen, Nat.add_sub_cancel_left]
  conv_lhs => rw [flatten_eq_take_append Es r hr]
  rw [List.drop_left, List.take_left]

theorem row_idx_csr_of (Es : List (List (F32 × Nat))) (r : Nat) (hr : r ≤ Es.length) :
    (csr_of Es).row_idx.getD r 0 = (Es.take r).flatten.length := by
  simp only [csr_of]
  rw [getD_map_range _ _ _ _ (by omega)]

/-- The row boundaries of the encoder output are the running entry counts. -/
theorem compress_row_idx (data : List F32) (data_dims : dims_t)
    (hh : data_dims.height = 1)
    (hcap : ∀ r, r < data_dims.rows →
      (row_entries data data_dims 0 r).length ≤ data_dims.cols)
    (r : Nat) (hr : r ≤ data_dims.rows) :
    (compress_dense_data_csr data data_dims).row_idx.getD r 0
      = (entries_upto data data_dims r).length := by
  rw [compress_dense_data_csr_eq data data_dims hh hcap]
  exact getD_map_range _ _ _ _ (by omega)

/-- The stored entries of a row of the encoder output. -/
theorem compress_row_slice (data : List F32) (data_dims : dims_t)
    (hh : data_dims.height = 1)
    (hcap : ∀ r, r < data_dims.rows →
      (row_entries data data_dims 0 r).length ≤ data_dims.cols)
    (r : Nat) (hr : r < data_dims.rows) :
    row_slice (compress_dense_data_csr data data_dims) r = row_entries data data_dims 0 r := by
  rw [compress_dense_data_csr_eq_csr_of data data_dims hh hcap,
    row_slice_csr_of _ _ (by rw [all_entries_length]; exact hr),
    all_entries_getD data data_dims r hr]

/-- A row without non-zero cell has `last_nz_idx = 0`. -/
theorem count_row_all_zero (row : Nat → F32) (k : Nat)
    (hz : ∀ c, c < k → (row c).isZero = true) : count_row row k = (0, 0) := by
  induction k with
  | zero => rfl
  | succ k ih =>
    unfold count_row
    rw [List.range_succ, List.foldl_append]
    have := ih (fun c hc => hz c (by omega))
    unfold count_row at this
    rw [this]
    simp [hz k (by omega)]

theorem enc_from_single_zero (v : F32) (hz : v.isZero = true) : enc_from 0 [v] = [] := by
  simp [enc_from, emits, bumped_offset, hz]

/-- A row whose cells are all zero stores nothing. -/
theorem row_entries_all_zero (data : List F32) (data_dims : dims_t) (h r : Nat)
    (hz : ∀ c, c < max data_dims.cols 1 →
      (ARRAY_3D data data_dims.rows data_dims.cols h r c).isZero = true) :
    row_entries data data_dims h r = [] := by
  unfold row_entries row_cells
  rw [count_row_all_zero _ _ (fun c hc => hz c (by omega))]
  have h1 : List.range (0 + 1) = [0] := rfl
  simp only [h1, List.map_cons, List.map_nil]
  exact enc_from_single_zero _ (hz 0 (by omega))

/-! ## Structure of the entries of a row -/

theorem enc_from_cons (off : Nat) (v : F32) (rest : List F32) :
    enc_from off (v :: rest)
      = if emits off v then (v, stored_offset off v) :: enc_from 0 rest
        else enc_from (bumped_offset off v) rest := rfl

theorem off_after_cons (off : Nat) (v : F32) (rest : List F32) :
    off_after off (v :: rest)
      = if emits off v then off_after 0 rest else off_after (bumped_offset off v) rest := rfl

theorem enc_from_append (off : Nat) (xs ys : List F32) :
    enc_from off (xs ++ ys) = enc_from off xs ++ enc_from (off_after off xs) ys := by
  induction xs generalizing off with
  | nil => simp [enc_from, off_after]
  | cons v rest ih =>
    rw [List.cons_append, enc_from_cons, enc_from_cons, off_after_cons]
    by_cases he : emits off v = true
    · rw [if_pos he, if_pos he, if_pos he, ih 0, List.cons_append]
    · rw [if_neg he, if_neg he, if_neg he, ih]

theorem enc_from_nonzero (off : Nat) (v : F32) (rest : List F32) (hv : v.isZero = false)
    (h15 : off ≤ 15) : enc_from off (v :: rest) = (v, off) :: enc_from 0 rest := by
  have he : emits off v = true := by simp [emits, hv]
  rw [enc_from, if_pos he, stored_offset_eq off v he h15]

/-- The values of the stored entries that are not zero are the non-zero cells,
in order. -/
theorem enc_from_filter (off : Nat) (cells : List F32) :
    ((enc_from off cells).map Prod.fst).filter (fun v => !v.isZero)
      = cells.filter (fun v => !v.isZero) := by
  induction cells generalizing off with
  | nil => simp [enc_from]
  | cons v rest ih =>
    simp only [enc_from]
    by_cases he : emits off v = true
    · rw [if_pos he]
      simp only [List.map_cons, List.filter_cons, ih 0]
    · rw [if_neg he, ih]
      have hz := emits_false_isZero off v he
      simp [List.filter_cons, hz]

/-- A stored entry with a zero value is a padding entry: its offset is 15. -/
theorem enc_from_padding (off : Nat) (cells : List F32) (h15 : off ≤ 15) :
    ∀ e, e ∈ enc_from off cells → e.1.isZero = true → e.2 = 15 := by
  induction cells generalizing off with
  | nil => intro e he; simp [enc_from] at he
  | cons v rest ih =>
    intro e he hz
    simp only [enc_from] at he
    by_cases hemit : emits off v = true
    · rw [if_pos hemit] at he
      rcases List.mem_cons.mp he with h | h
      · subst h
        simp only at hz ⊢
        unfold emits bumped_offset at hemit
        unfold stored_offset bumped_offset
        simp only [hz, if_true] at hemit ⊢
        simp at hemit
        simp [hemit]
      · exact ih 0 (Nat.zero_le _) e h hz
    · rw [if_neg hemit] at he
      obtain ⟨_, hb, hb15⟩ := not_emits off v hemit h15
      rw [hb] at he
      exact ih (off + 1) hb15 e he hz

/-- A run of zero cells produces one padding entry for every 16th cell. -/
theorem enc_from_zero_run (off : Nat) (zs rest : List F32) (h15 : off ≤ 15)
    (hz : ∀ z, z ∈ zs → z.isZero = true) :
    enc_from off (zs ++ rest)
      = pads off zs ++ enc_from ((off + zs.length) % 16) rest := by
  induction zs generalizing off with
  | nil =>
    have : off % 16 = off := Nat.mod_eq_of_lt (by omega)
    simp [pads, this, Nat.div_eq_of_lt (show off < 16 by omega)]
  | cons z zs ih =>
    have hzz : z.isZero = true := hz z (List.mem_cons_self _ _)
    have hzs : ∀ y, y ∈ zs → y.isZero = true := fun y hy => hz y (List.mem_cons_of_mem _ hy)
    rw [List.cons_append, enc_from_cons]
    simp only [List.length_cons]
    by_cases he : emits off z = true
    · have hoff : off = 15 := by
        unfold emits bumped_offset at he
        simp only [hzz, if_true] at he
        simp at he
        omega
      subst hoff
      rw [if_pos he, ih 0 (Nat.zero_le _) hzs, stored_offset_eq 15 z he (le_refl _)]
      have h1 : (15 + (zs.length + 1)) / 16 = (0 + zs.length) / 16 + 1 := by omega
      have h2 : (15 + (zs.length + 1)) % 16 = (0 + zs.length) % 16 := by omega
      rw [h2]
      unfold pads
      simp only [List.length_cons]
      rw [h1, List.range_succ_eq_map, List.map_cons, List.map_map, List.cons_append]
      congr 1
    · obtain ⟨_, hb, hb15⟩ := not_emits off z he h15
      rw [if_neg he, hb, ih (off + 1) hb15 hzs]
      have h1 : (off + 1 + zs.length) = (off + (zs.length + 1)) := by omega
      rw [h1]
      congr 1
      unfold pads
      simp only [List.length_cons]
      rw [h1]
      apply List.map_congr_left
      intro k _
      have h3 : 16 * k + 15 - off = (16 * k + 15 - (off + 1)) + 1 := by omega
      rw [h3, List.getD_cons_succ]

theorem pads_length (off : Nat) (zs : List F32) :
    (pads off zs).length = (off + zs.length) / 16 := by
  simp [pads]

/-- The gap formula: a run of `g` zero cells after a stored non-zero (or the
row start), followed by a non-zero cell. -/
theorem enc_from_gap (zs rest : List F32) (v : F32)
    (hz : ∀ z, z ∈ zs → z.isZero = true) (hv : v.isZero = false) :
    enc_from 0 (zs ++ v :: rest)
      = pads 0 zs ++ (v, zs.length % 16) :: enc_from 0 rest := by
  rw [enc_from_zero_run 0 zs _ (Nat.zero_le _) hz, Nat.zero_add,
    enc_from_nonzero _ v rest hv (by omega)]

theorem off_after_snoc_nonzero (off : Nat) (xs : List F32) (w : F32) (hw : w.isZero = false) :
    off_after off (xs ++ [w]) = 0 := by
  induction xs generalizing off with
  | nil =>
    have he : emits off w = true := by simp [emits, hw]
    simp [off_after, he]
  | cons v rest ih =>
    rw [List.cons_append, off_after_cons]
    split <;> exact ih _

/-! ## Rows without their trailing zeros -/

theorem strip_cons (v : F32) (rest : List F32) :
    strip (v :: rest) = if (strip rest).isEmpty && v.isZero then [] else v :: strip rest := rfl

theorem strip_cons_nonzero (v : F32) (rest : List F32) (hv : v.isZero = false) :
    strip (v :: rest) = v :: strip rest := by
  rw [strip_cons]
  simp [hv]

theorem strip_snoc (L : List F32) (x : F32) :
    strip (L ++ [x]) = if x.isZero then strip L else L ++ [x] := by
  induction L with
  | nil =>
    by_cases hx : x.isZero = true
    · simp [strip, hx]
    · simp [strip, hx]
  | cons v rest ih =>
    rw [List.cons_append, strip_cons, strip_cons, ih]
    by_cases hx : x.isZero = true
    · simp only [hx, if_true]
    · simp [hx]

theorem strip_filter (L : List F32) :
    (strip L).filter (fun v => !v.isZero) = L.filter (fun v => !v.isZero) := by
  induction L with
  | nil => rfl
  | cons v rest ih =>
    rw [strip_cons]
    by_cases h : ((strip rest).isEmpty && v.isZero) = true
    · rw [if_pos h]
      simp only [Bool.and_eq_true, List.isEmpty_iff] at h
      rw [List.filter_cons, ← ih, h.1]
      simp [h.2]
    · rw [if_neg h, List.filter_cons, List.filter_cons, ih]

theorem strip_append_of_ne_nil (xs ys : List F32) (h : strip ys ≠ []) :
    strip (xs ++ ys) = xs ++ strip ys := by
  induction xs with
  | nil => rfl
  | cons v rest ih =>
    rw [List.cons_append, strip_cons, ih]
    have : (rest ++ strip ys).isEmpty = false := by
      cases rest with
      | nil =>
        cases hs : strip ys with
        | nil => exact absurd hs h
        | cons a b => rfl
      | cons a b => rfl
    simp [this]

theorem strip_append_zeros (xs zs : List F32) (hz : ∀ z, z ∈ zs → z.isZero = true) :
    strip (xs ++ zs) = strip xs := by
  induction zs using List.reverseRecOn with
  | nil => simp
  | append_singleton zs z ih =>
    rw [← List.append_assoc, strip_snoc, if_pos (hz z (by simp))]
    exact ih (fun y hy => hz y (by simp [hy]))

/-- A row is its stripped part followed by zero cells. -/
theorem strip_append_tail (L : List F32) : ∃ t, L = strip L ++ t := by
  induction L with
  | nil => exact ⟨[], rfl⟩
  | cons v rest ih =>
    obtain ⟨t, ht⟩ := ih
    rw [strip_cons]
    by_cases h : ((strip rest).isEmpty && v.isZero) = true
    · rw [if_pos h]
      exact ⟨v :: rest, rfl⟩
    · rw [if_neg h]
      refine ⟨t, ?_⟩
      rw [List.cons_append, ← ht]

theorem count_row_succ (row : Nat → F32) (k : Nat) :
    count_row row (k + 1)
      = if (row k).isZero then count_row row k else ((count_row row k).1 + 1, k) := by
  unfold count_row
  rw [List.range_succ, List.foldl_append]
  rfl

/-- The emitting loop, which visits the columns up to `last_nz_idx`, produces
the entries of the row without its trailing zeros. -/
theorem enc_from_visited (f : Nat → F32) (n : Nat) (h0 : n = 0 → (f 0).isZero = true) :
    enc_from 0 ((List.range ((count_row f n).2 + 1)).map f)
      = enc_from 0 (strip ((List.range n).map f)) := by
  induction n with
  | zero =>
    have h1 : List.range (0 + 1) = [0] := rfl
    have hc : count_row f 0 = (0, 0) := rfl
    rw [hc, h1]
    simp only [List.map_cons, List.map_nil, List.range_zero]
    rw [enc_from_single_zero _ (h0 rfl)]
    rfl
  | succ n ih =>
    have hs : strip ((List.range (n + 1)).map f)
        = if (f n).isZero then strip ((List.range n).map f)
          else (List.range n).map f ++ [f n] := by
      rw [List.range_succ, List.map_append, List.map_cons, List.map_nil, strip_snoc]
    rw [count_row_succ, hs]
    by_cases hz : (f n).isZero = true
    · rw [if_pos hz, if_pos hz]
      apply ih
      intro hn
      subst hn
      exact hz
    · rw [if_neg hz, if_neg hz]
      simp only
      rw [List.range_succ, List.map_append, List.map_cons, List.map_nil]

theorem row_list_eq (data : List F32) (data_dims : dims_t) (r : Nat) :
    row_list data data_dims r
      = (List.range data_dims.cols).map (ARRAY_3D data data_dims.rows data_dims.cols 0 r) := by
  unfold row_list
  apply List.map_congr_left
  intro c _
  rw [ARRAY_3D_slice0]

/-- The entries stored for a row are those of the row without its trailing
zeros. -/
theorem row_entries_eq_strip (data : List F32) (data_dims : dims_t) (r : Nat)
    (h0 : data_dims.cols = 0 →
      (ARRAY_3D data data_dims.rows data_dims.cols 0 r 0).isZero = true) :
    row_entries data data_dims 0 r = enc_from 0 (strip (row_list data data_dims r)) := by
  rw [row_list_eq]
  unfold row_entries row_cells
  exact enc_from_visited _ _ h0

theorem row_list_one_row (cells : List F32) :
    row_list cells ⟨1, cells.length, 1, 0⟩ 0 = cells := by
  unfold row_list
  apply List.ext_getElem (by simp)
  intro i h1 h2
  simp only [List.getElem_map, List.getElem_range, Nat.zero_mul, Nat.zero_add]
  exact List.getD_eq_getElem _ _ h2

/-- The encoding of a one-row matrix. -/
theorem encode_row_eq (cells : List F32) : encode_row cells = enc_from 0 (strip cells) := by
  unfold encode_row
  have hlen : cells.length
      = (⟨1, cells.length, 1, 0⟩ : dims_t).rows * (⟨1, cells.length, 1, 0⟩ : dims_t).cols := by
    simp
  rw [compress_row_slice cells ⟨1, cells.length, 1, 0⟩ rfl (hcap_of_length _ _ hlen) 0
      (by simp),
    row_entries_eq_strip cells ⟨1, cells.length, 1, 0⟩ 0
      (fun h => first_cell_zero_of_length _ _ hlen h 0),
    row_list_one_row]

/-! ## One-row matrices -/

theorem strip_of_last_nonzero (pre : List F32)
    (hpre : pre = [] ∨ ∃ p w, pre = p ++ [w] ∧ w.isZero = false) : strip pre = pre := by
  rcases hpre with h | ⟨p, w, h, hw⟩
  · subst h; rfl
  · subst h
    rw [strip_snoc]
    simp [hw]

theorem off_after_of_last_nonzero (pre : List F32)
    (hpre : pre = [] ∨ ∃ p w, pre = p ++ [w] ∧ w.isZero = false) : off_after 0 pre = 0 := by
  rcases hpre with h | ⟨p, w, h, hw⟩
  · subst h; rfl
  · subst h
    exact off_after_snoc_nonzero 0 p w hw

theorem pads_mem (zs : List F32) (hz : ∀ z, z ∈ zs → z.isZero = true) :
    ∀ e, e ∈ pads 0 zs → e.1.isZero = true ∧ e.2 = 15 := by
  intro e he
  unfold pads at he
  rw [List.mem_map] at he
  obtain ⟨k, hk, rfl⟩ := he
  rw [List.mem_range, Nat.zero_add] at hk
  refine ⟨?_, rfl⟩
  have hi : 16 * k + 15 - 0 < zs.length := by omega
  simp only
  rw [List.getD_eq_getElem _ _ hi]
  exact hz _ (List.getElem_mem hi)

/-- The entries of a row that splits into a prefix ending in a non-zero (or
empty), a run of zeros, a non-zero cell and a rest. -/
theorem enc_strip_split (pre zs post : List F32) (v : F32)
    (hpre : pre = [] ∨ ∃ p w, pre = p ++ [w] ∧ w.isZero = false)
    (hzs : ∀ z, z ∈ zs → z.isZero = true) (hv : v.isZero = false) :
    enc_from 0 (strip (pre ++ zs ++ v :: post))
      = enc_from 0 (strip pre) ++ pads 0 zs
          ++ (v, zs.length % 16) :: enc_from 0 (strip post) := by
  have h1 : strip (v :: post) ≠ [] := by
    rw [strip_cons_nonzero v post hv]; simp
  rw [List.append_assoc, strip_append_of_ne_nil pre _
      (by rw [strip_append_of_ne_nil zs _ h1]; simp [strip_cons_nonzero v post hv]),
    strip_append_of_ne_nil zs _ h1, strip_cons_nonzero v post hv,
    enc_from_append, off_after_of_last_nonzero pre hpre, enc_from_gap zs _ v hzs hv,
    strip_of_last_nonzero pre hpre, List.append_assoc]

/-- The encoder on a one-row matrix. -/
theorem compress_one_row (cells : List F32) :
    compress_dense_data_csr cells ⟨1, cells.length, 1, 0⟩
      = csr_of [enc_from 0 (strip cells)] := by
  have hlen : cells.length
      = (⟨1, cells.length, 1, 0⟩ : dims_t).rows * (⟨1, cells.length, 1, 0⟩ : dims_t).cols := by
    simp
  rw [compress_dense_data_csr_eq_csr_of cells ⟨1, cells.length, 1, 0⟩ rfl
    (hcap_of_length _ _ hlen)]
  have h1 : all_entries cells ⟨1, cells.length, 1, 0⟩
      = [row_entries cells ⟨1, cells.length, 1, 0⟩ 0 0] := rfl
  rw [h1, row_entries_eq_strip cells ⟨1, cells.length, 1, 0⟩ 0
      (fun h => first_cell_zero_of_length _ _ hlen h 0),
    row_list_one_row]

/-! ## Minimality of the padding -/

theorem expand_cons (v : F32) (off : Nat) (rest : List (F32 × Nat)) :
    expand ((v, off) :: rest) = List.replicate off F32.zero ++ v :: expand rest := rfl

theorem dec_from_cons (width row cur : Nat) (v : F32) (off : Nat) (rest : List (F32 × Nat))
    (buf : List F32) :
    dec_from width row cur ((v, off) :: rest) buf
      = if cur + off < width then
          dec_from width row (cur + off + 1) rest
            (buf.set (ARRAY_2D_idx width row (cur + off)) v)
        else none := rfl

/-- The cursor decoding of `alt` into a row that is zero from the cursor on
writes `expand alt` there. -/
theorem dec_from_expand (width : Nat) (alt : List (F32 × Nat)) (cur : Nat) (pre out : List F32)
    (hpre : pre.length = cur) (hcur : cur ≤ width)
    (hdec : dec_from width 0 cur alt (pre ++ List.replicate (width - cur) F32.zero) = some out) :
    out = pre ++ expand alt
        ++ List.replicate (width - cur - (expand alt).length) F32.zero ∧
      cur + (expand alt).length ≤ width := by
  induction alt generalizing cur pre with
  | nil =>
    simp only [dec_from, Option.some.injEq] at hdec
    subst hdec
    simp [expand, hcur]
  | cons e rest ih =>
    obtain ⟨v, off⟩ := e
    rw [dec_from_cons] at hdec
    by_cases hlt : cur + off < width
    · rw [if_pos hlt] at hdec
      have hrep : List.replicate (width - cur) F32.zero
          = List.replicate off F32.zero
            ++ F32.zero :: List.replicate (width - (cur + off + 1)) F32.zero := by
        have : width - cur = off + ((width - (cur + off + 1)) + 1) := by omega
        rw [this, List.replicate_add, List.replicate_succ]
      have hset : (pre ++ List.replicate (width - cur) F32.zero).set
            (ARRAY_2D_idx width 0 (cur + off)) v
          = (pre ++ List.replicate off F32.zero ++ [v])
            ++ List.replicate (width - (cur + off + 1)) F32.zero := by
        rw [hrep, ← List.append_assoc]
        apply set_append_cons
        unfold ARRAY_2D_idx
        simp [hpre]
      rw [hset] at hdec
      obtain ⟨h1, h2⟩ := ih (cur + off + 1) (pre ++ List.replicate off F32.zero ++ [v])
        (by simp [hpre]; omega) (by omega) hdec
      rw [expand_cons]
      refine ⟨?_, ?_⟩
      · rw [h1]
        simp only [List.append_assoc, List.singleton_append, List.length_append,
          List.length_replicate, List.length_cons]
        congr 4
        omega
      · simp only [List.length_append, List.length_replicate, List.length_cons]
        omega
    · rw [if_neg hlt] at hdec
      exact absurd hdec (by simp)

theorem enc_from_strip_length_le (X : List F32) :
    (enc_from 0 (strip X)).length ≤ (enc_from 0 X).length := by
  obtain ⟨t, ht⟩ := strip_append_tail X
  conv_rhs => rw [ht, enc_from_append]
  rw [List.length_append]
  omega

/-- Any list of entries with offsets below 16 is at least as long as the
encoding of the row it expands to: `extra` is the lead of the list over the
encoder, which needs a lead of one unless it has just stored an entry. -/
theorem enc_expand_length_le (alt : List (F32 × Nat)) (off extra : Nat)
    (hoff : ∀ e, e ∈ alt → e.2 ≤ 15) (h15 : off ≤ 15) (hlead : 1 ≤ extra ∨ off = 0) :
    (enc_from off (expand alt)).length ≤ extra + alt.length := by
  induction alt generalizing off extra with
  | nil => simp [expand, enc_from]
  | cons e rest ih =>
    obtain ⟨v, o⟩ := e
    have ho : o ≤ 15 := hoff (v, o) (List.mem_cons_self _ _)
    have hrest : ∀ e, e ∈ rest → e.2 ≤ 15 := fun e he => hoff e (List.mem_cons_of_mem _ he)
    rw [expand_cons, enc_from_zero_run off _ _ h15 (by
      intro z hz
      rw [List.mem_replicate] at hz
      rw [hz.2]; rfl)]
    simp only [List.length_append, pads_length, List.length_replicate, List.length_cons]
    have hq : (off + o) / 16 ≤ extra := by
      rcases hlead with h | h
      · omega
      · subst h; omega
    have hm : (off + o) % 16 ≤ 15 := by omega
    rw [enc_from_cons]
    by_cases he : emits ((off + o) % 16) v = true
    · rw [if_pos he]
      have := ih 0 (extra - (off + o) / 16) hrest (Nat.zero_le _) (Or.inr rfl)
      simp only [List.length_cons]
      omega
    · obtain ⟨_, hb, hb15⟩ := not_emits _ v he hm
      rw [if_neg he, hb]
      have := ih ((off + o) % 16 + 1) (extra + 1 - (off + o) / 16) hrest hb15
        (Or.inl (by omega))
      omega

theorem csr_of_single (alt : List (F32 × Nat)) :
    csr_of [alt] = { vals := alt.map Prod.fst, col_idx := alt.map Prod.snd,
                     row_idx := [0, alt.length], num_nonzeros := alt.length, num_rows := 1 } := by
  simp [csr_of, List.range_succ]

theorem decompress_single (alt : List (F32 × Nat)) (cols : Nat) (buf : List F32) :
    decompress_csr_data { vals := alt.map Prod.fst, col_idx := alt.map Prod.snd,
                          row_idx := [0, alt.length], num_nonzeros := alt.length,
                          num_rows := 1 }
      ⟨1, cols, 1, 0⟩ buf = dec_from cols 0 0 alt buf := by
  rw [← csr_of_single, decompress_csr_data_csr_of [alt] ⟨1, cols, 1, 0⟩ rfl]
  unfold dec_rows
  have h1 : List.range 1 = [0] := rfl
  simp only [h1, List.foldlM_cons, List.foldlM_nil, Nat.add_zero, List.getD_cons_zero]
  cases dec_from cols 0 0 alt buf <;> rfl

/-- A list of entries with offsets below 16 whose decoding gives the row `L`
has at least as many entries as the encoder stores for `L`. -/
theorem minimal_entries (alt : List (F32 × Nat)) (L : List F32)
    (hoff : ∀ e, e ∈ alt → e.2 ≤ 15)
    (hdec : dec_from L.length 0 0 alt (List.replicate L.length F32.zero) = some L) :
    (enc_from 0 (strip L)).length ≤ alt.length := by
  obtain ⟨h1, _⟩ := dec_from_expand L.length alt 0 [] L rfl (Nat.zero_le _)
    (by simpa using hdec)
  rw [List.nil_append] at h1
  have hs : strip L = strip (expand alt) := by
    conv_lhs => rw [h1]
    apply strip_append_zeros
    intro z hz
    rw [List.mem_replicate] at hz
    rw [hz.2]; rfl
  rw [hs]
  have := enc_expand_length_le alt 0 0 hoff (Nat.zero_le _) (Or.inr rfl)
  have := enc_from_strip_length_le (expand alt)
  omega

/-! ## Sizing pass and row metadata -/

theorem DATA_PACKING_FACTOR_eq : DATA_PACKING_FACTOR = 16 := rfl

theorem VECTOR_SIZE_eq : VECTOR_SIZE = 8 := rfl

theorem INDEX_PACKING_FACTOR_eq : INDEX_PACKING_FACTOR = 8 := rfl

theorem DATA_TO_INDEX_RATIO_eq : DATA_TO_INDEX_RATIO = 2 := rfl

theorem TOTAL_VECTOR_BYTES_eq : TOTAL_VECTOR_BYTES = 32 := rfl

theorem FRAC_CEIL_nat (n : Nat) : FRAC_CEIL (n : Int) 16 = (((n + 15) / 16 : Nat) : Int) := by
  unfold FRAC_CEIL
  omega

theorem num_elems_of_le (csr_data : csr_array_t) (q : Nat)
    (h : csr_data.row_idx.getD q 0 ≤ csr_data.row_idx.getD (q + 1) 0) :
    num_elems csr_data q = (row_count csr_data q : Int) := by
  unfold num_elems row_count
  omega

theorem foldl_add_eq_sum {α : Type} (f : α → Int) (l : List α) (init : Int) :
    l.foldl (fun acc x => acc + f x) init = init + (l.map f).sum := by
  induction l generalizing init with
  | nil => simp
  | cons x xs ih => rw [List.foldl_cons, ih, List.map_cons, List.sum_cons]; omega

theorem sizing_pass_eq (csr_data : csr_array_t) (data_dims : dims_t) :
    sizing_pass csr_data data_dims = start_vector_int csr_data data_dims.rows := by
  unfold sizing_pass start_vector_int
  have := foldl_add_eq_sum (fun q => FRAC_CEIL (num_elems csr_data q) 16)
    (List.range data_dims.rows) 0
  rw [Int.zero_add] at this
  exact this

theorem start_vector_succ (csr_data : csr_array_t) (r : Nat) :
    start_vector csr_data (r + 1) = start_vector csr_data r + row_vectors csr_data r := by
  simp [start_vector, List.range_succ]

theorem start_entry_succ (csr_data : csr_array_t) (r : Nat) :
    start_entry csr_data (r + 1) = start_entry csr_data r + row_count csr_data r := by
  simp [start_entry, List.range_succ]

theorem start_vector_int_succ (csr_data : csr_array_t) (r : Nat) :
    start_vector_int csr_data (r + 1)
      = start_vector_int csr_data r + FRAC_CEIL (num_elems csr_data r) 16 := by
  simp [start_vector_int, List.range_succ]

theorem start_vector_mono (csr_data : csr_array_t) (r k : Nat) (h : r ≤ k) :
    start_vector csr_data r ≤ start_vector csr_data k := by
  induction k with
  | zero =>
    have : r = 0 := by omega
    subst this; exact le_refl _
  | succ k ih =>
    by_cases hr : r = k + 1
    · subst hr; exact le_refl _
    · rw [start_vector_succ]
      have := ih (by omega)
      omega

/-- With a non-decreasing `row_idx` the running vector count is the sum of the
ceilings. -/
theorem start_vector_int_of_mono (csr_data : csr_array_t) (r : Nat)
    (hmono : ∀ q, q < r → csr_data.row_idx.getD q 0 ≤ csr_data.row_idx.getD (q + 1) 0) :
    start_vector_int csr_data r = (start_vector csr_data r : Int) := by
  induction r with
  | zero => rfl
  | succ r ih =>
    rw [start_vector_int_succ, start_vector_succ, ih (fun q hq => hmono q (by omega)),
      num_elems_of_le csr_data r (hmono r (by omega)), FRAC_CEIL_nat]
    unfold row_vectors
    omega

theorem next_multiple_ge (request align : Nat) (h : 0 < align) :
    request ≤ next_multiple request align := by
  unfold next_multiple
  simp only [beq_iff_eq, bne_iff_ne, ne_eq, ite_not]
  by_cases hn : request / align = 0
  · rw [if_pos hn]
    rw [Nat.div_eq_zero_iff h] at hn
    omega
  · rw [if_neg hn]
    by_cases hr : request % align = 0
    · rw [if_pos hr]
    · rw [if_neg hr]
      have h1 := Nat.div_add_mod request align
      have h2 := Nat.mod_lt request h
      rw [Nat.succ_mul]
      rw [Nat.mul_comm] at h1
      omega

/-- The row metadata word in arithmetic form. -/
theorem row_word_eq (S n : Int) :
    row_word S n = ((S * 65536 + n % 65536) % 4294967296).toNat := by
  unfold row_word
  have h1 : (16 : Nat) = 16 := rfl
  have ha : ((S * 65536) % 4294967296).toNat = 2 ^ 16 * (S % 65536).toNat := by
    norm_num
    omega
  have hmask : (0xffff0000 : Nat) = 2 ^ 16 * (2 ^ 16 - 1) := by norm_num
  have hb : ((n % 4294967296).toNat &&& 0xffff) = (n % 65536).toNat := by
    have : (0xffff : Nat) = 2 ^ 16 - 1 := by norm_num
    rw [this, Nat.and_pow_two_sub_one_eq_mod]
    norm_num
    omega
  have hand : (2 ^ 16 * (S % 65536).toNat) &&& (2 ^ 16 * (2 ^ 16 - 1))
      = 2 ^ 16 * (S % 65536).toNat := by
    apply Nat.eq_of_testBit_eq
    intro i
    rw [Nat.testBit_and, Nat.mul_comm (2 ^ 16) _, Nat.mul_comm (2 ^ 16) _,
      ← Nat.shiftLeft_eq, ← Nat.shiftLeft_eq, Nat.testBit_shiftLeft, Nat.testBit_shiftLeft,
      Nat.testBit_two_pow_sub_one]
    by_cases hi : 16 ≤ i
    · by_cases hi2 : i - 16 < 16
      · simp [hi, hi2]
      · have hlt : (S % 65536).toNat < 2 ^ (i - 16) := by
          have h3 : (S % 65536).toNat < 2 ^ 16 := by norm_num; omega
          exact lt_of_lt_of_le h3 (Nat.pow_le_pow_right (by norm_num) (by omega))
        simp [hi, Nat.testBit_lt_two_pow hlt]
    · simp [hi]
  rw [ha, hmask, hand, hb]
  have hlt : (n % 65536).toNat < 2 ^ 16 := by norm_num; omega
  rw [← Nat.mul_add_lt_is_or hlt]
  norm_num
  omega

/-! ## Scalars of the packing pass -/

theorem pack_row_row_idx (cvt_ps_ph : F32 → Nat) (csr_data : csr_array_t) (s : pack_state)
    (row : Nat) :
    (pack_row cvt_ps_ph csr_data s row).csr.row_idx
      = s.csr.row_idx.set row (row_word s.curr_packed_row_idx (num_elems csr_data row)) := rfl

theorem pack_row_curr_packed_row_idx (cvt_ps_ph : F32 → Nat) (csr_data : csr_array_t)
    (s : pack_state) (row : Nat) :
    (pack_row cvt_ps_ph csr_data s row).curr_packed_row_idx
      = s.curr_packed_row_idx + FRAC_CEIL (num_elems csr_data row) 16 := rfl

theorem pack_row_total_elements_packed (cvt_ps_ph : F32 → Nat) (csr_data : csr_array_t)
    (s : pack_state) (row : Nat) :
    (pack_row cvt_ps_ph csr_data s row).total_elements_packed
      = s.total_elements_packed + num_elems csr_data row := rfl

/-- The row metadata after `k` rows of the packing pass, for any `row_idx`. -/
theorem packing_rows_row_idx (cvt_ps_ph : F32 → Nat) (csr_data : csr_array_t)
    (s0 : pack_state) (h0 : s0.curr_packed_row_idx = 0) (k : Nat) :
    ((List.range k).foldl (pack_row cvt_ps_ph csr_data) s0).curr_packed_row_idx
        = start_vector_int csr_data k ∧
    ((List.range k).foldl (pack_row cvt_ps_ph csr_data) s0).csr.row_idx.length
        = s0.csr.row_idx.length ∧
    (∀ r, r < k → r < s0.csr.row_idx.length →
      ((List.range k).foldl (pack_row cvt_ps_ph csr_data) s0).csr.row_idx.getD r 0
        = row_word (start_vector_int csr_data r) (num_elems csr_data r)) ∧
    (∀ r, k ≤ r →
      ((List.range k).foldl (pack_row cvt_ps_ph csr_data) s0).csr.row_idx.getD r 0
        = s0.csr.row_idx.getD r 0) := by
  induction k with
  | zero =>
    refine ⟨h0, rfl, ?_, ?_⟩
    · intro r hr; omega
    · intro r _; rfl
  | succ k ih =>
    obtain ⟨h1, h2, h3, h4⟩ := ih
    rw [List.range_succ, List.foldl_append]
    simp only [List.foldl_cons, List.foldl_nil]
    refine ⟨?_, ?_, ?_, ?_⟩
    · rw [pack_row_curr_packed_row_idx, h1, start_vector_int_succ]
    · rw [pack_row_row_idx, List.length_set, h2]
    · intro r hr hlen
      rw [pack_row_row_idx]
      by_cases hrk : r = k
      · subst hrk
        rw [getD_set_self _ _ _ _ (by rw [h2]; exact hlen), h1]
      · rw [getD_set_ne _ _ _ _ _ (fun h => hrk h.symm)]
        exact h3 r (by omega) hlen
    · intro r hr
      rw [pack_row_row_idx, getD_set_ne _ _ _ _ _ (by omega)]
      exact h4 r (by omega)

theorem alloc_packed_row_idx_length (CACHELINE_SIZE V nnz rows : Nat)
    (hCL : 0 < CACHELINE_SIZE) :
    rows ≤ (alloc_packed_csr_array_t CACHELINE_SIZE V nnz rows).row_idx.length := by
  simp only [alloc_packed_csr_array_t, List.length_replicate]
  have := next_multiple_ge (rows * 4) CACHELINE_SIZE hCL
  omega

theorem alloc_packed_vals_length (CACHELINE_SIZE V nnz rows : Nat)
    (hCL : 0 < CACHELINE_SIZE) :
    V ≤ (alloc_packed_csr_array_t CACHELINE_SIZE V nnz rows).vals.length := by
  simp only [alloc_packed_csr_array_t, List.length_replicate, TOTAL_VECTOR_BYTES_eq]
  have := next_multiple_ge (V * 32) CACHELINE_SIZE hCL
  omega

theorem alloc_packed_col_idx_length (CACHELINE_SIZE V nnz rows : Nat)
    (hCL : 0 < CACHELINE_SIZE) :
    2 * V ≤ (alloc_packed_csr_array_t CACHELINE_SIZE V nnz rows).col_idx.length := by
  simp only [alloc_packed_csr_array_t, List.length_replicate, DATA_TO_INDEX_RATIO_eq]
  have := next_multiple_ge (V * 2 * 4) CACHELINE_SIZE hCL
  omega

/-- The row metadata word that the packing pass leaves in `row_idx[r]`. -/
theorem packing_pass_row_word (CACHELINE_SIZE : Nat) (cvt_ps_ph : F32 → Nat)
    (csr_data : csr_array_t) (data_dims : dims_t) (V nnz : Nat) (hCL : 0 < CACHELINE_SIZE)
    (r : Nat) (hr : r < data_dims.rows) :
    (packing_pass cvt_ps_ph csr_data data_dims
        (alloc_packed_csr_array_t CACHELINE_SIZE V nnz data_dims.rows)).csr.row_idx.getD r 0
      = row_word (start_vector_int csr_data r) (num_elems csr_data r) := by
  unfold packing_pass
  have key := packing_rows_row_idx cvt_ps_ph csr_data
    { csr := alloc_packed_csr_array_t CACHELINE_SIZE V nnz data_dims.rows,
      curr_wgt_src_idx := 0, curr_wgt_dst_idx := 0, curr_col_src_idx := 0,
      curr_col_dst_idx := 0, curr_packed_row_idx := 0, total_elements_packed := 0 }
    rfl data_dims.rows
  have hlen := alloc_packed_row_idx_length CACHELINE_SIZE V nnz data_dims.rows hCL
  exact key.2.2.1 r hr (by simp only; omega)

theorem row_word_nat (S n : Nat) :
    row_word (S : Int) (n : Int) = ((S <<< 16) ||| (n &&& 0xffff)) % 4294967296 := by
  rw [row_word_eq]
  have h1 : (0xffff : Nat) = 2 ^ 16 - 1 := by norm_num
  have hlt : n % 2 ^ 16 < 2 ^ 16 := Nat.mod_lt _ (by norm_num)
  rw [h1, Nat.and_pow_two_sub_one_eq_mod, Nat.shiftLeft_eq, Nat.mul_comm S,
    ← Nat.mul_add_lt_is_or hlt]
  norm_num
  omega

/-! ## Packing the values of a row -/

theorem min2_toNat (n k : Nat) : (min2 (n : Int) (k : Int)).toNat = min n k := by
  unfold min2
  split <;> omega

/-- The copy loop of line 215-218. -/
theorem fill_f32 (vals : List F32) (m : Nat) (l : List F32) (src : Nat) :
    ((List.range m).foldl
        (fun (p : List F32 × Nat) col => (p.1.set col (vals.getD p.2 F32.zero), p.2 + 1))
        (l, src)).2 = src + m ∧
    ((List.range m).foldl
        (fun (p : List F32 × Nat) col => (p.1.set col (vals.getD p.2 F32.zero), p.2 + 1))
        (l, src)).1.length = l.length ∧
    (∀ c, c < m → c < l.length →
      ((List.range m).foldl
        (fun (p : List F32 × Nat) col => (p.1.set col (vals.getD p.2 F32.zero), p.2 + 1))
        (l, src)).1.getD c F32.zero = vals.getD (src + c) F32.zero) ∧
    (∀ c, m ≤ c →
      ((List.range m).foldl
        (fun (p : List F32 × Nat) col => (p.1.set col (vals.getD p.2 F32.zero), p.2 + 1))
        (l, src)).1.getD c F32.zero = l.getD c F32.zero) := by
  induction m with
  | zero =>
    refine ⟨rfl, rfl, ?_, ?_⟩
    · intro c hc; omega
    · intro c _; rfl
  | succ m ih =>
    obtain ⟨h1, h2, h3, h4⟩ := ih
    rw [List.range_succ, List.foldl_append]
    simp only [List.foldl_cons, List.foldl_nil]
    refine ⟨by rw [h1]; omega, by rw [List.length_set, h2], ?_, ?_⟩
    · intro c hc hl
      by_cases hcm : c = m
      · subst hcm
        rw [getD_set_self _ _ _ _ (by rw [h2]; exact hl), h1]
      · rw [getD_set_ne _ _ _ _ _ (fun h => hcm h.symm)]
        exact h3 c (by omega) hl
    · intro c hc
      rw [getD_set_ne _ _ _ _ _ (by omega)]
      exact h4 c (by omega)

/-- The store loop of lines 220-223. -/
theorem fill_f16 (g : Nat → Nat) (base m : Nat) (d : List Nat) :
    ((List.range m).foldl (fun d i => d.set (base + i) (g i)) d).length = d.length ∧
    (∀ i, i < m → base + i < d.length →
      ((List.range m).foldl (fun d i => d.set (base + i) (g i)) d).getD (base + i) 0 = g i) ∧
    (∀ j, (j < base ∨ base + m ≤ j) →
      ((List.range m).foldl (fun d i => d.set (base + i) (g i)) d).getD j 0 = d.getD j 0) := by
  induction m with
  | zero =>
    refine ⟨rfl, ?_, ?_⟩
    · intro i hi; omega
    · intro j _; rfl
  | succ m ih =>
    obtain ⟨h1, h2, h3⟩ := ih
    rw [List.range_succ, List.foldl_append]
    simp only [List.foldl_cons, List.foldl_nil]
    refine ⟨by rw [List.length_set, h1], ?_, ?_⟩
    · intro i hi hl
      by_cases him : i = m
      · subst him
        exact getD_set_self _ _ _ _ (by rw [h1]; exact hl)
      · rw [getD_set_ne _ _ _ _ _ (by omega)]
        exact h2 i (by omega) hl
    · intro j hj
      rw [getD_set_ne _ _ _ _ _ (by omega)]
      exact h3 j (by omega)

theorem getD_map_of_lt {α β : Type} (f : α → β) (l : List α) (i : Nat) (a : α) (b : β)
    (h : i < l.length) : (l.map f).getD i b = f (l.getD i a) := by
  rw [List.getD_eq_getElem _ _ (by simpa using h), List.getD_eq_getElem _ _ h]
  simp

/-- One iteration of the `iter` loop with elements remaining. -/
theorem pack_iter_pos (cvt_ps_ph : F32 → Nat) (csr_data : csr_array_t) (v : vec_state)
    (iter n : Nat) (hn : 0 < n) (hrem : v.elems_remaining = (n : Int))
    (h32 : v.data_f32.length = 8) (h16 : v.data_f16.length = 16) (hiter : iter < 2) :
    (pack_iter cvt_ps_ph csr_data v iter).curr_wgt_src_idx = v.curr_wgt_src_idx + min n 8 ∧
    (pack_iter cvt_ps_ph csr_data v iter).elems_remaining = (n : Int) - 8 ∧
    (pack_iter cvt_ps_ph csr_data v iter).data_f32.length = 8 ∧
    (pack_iter cvt_ps_ph csr_data v iter).data_f16.length = 16 ∧
    (∀ i, i < min n 8 →
      (pack_iter cvt_ps_ph csr_data v iter).data_f16.getD (iter * 8 + i) 0
        = cvt_ps_ph (csr_data.vals.getD (v.curr_wgt_src_idx + i) F32.zero)) ∧
    (∀ j, (j < iter * 8 ∨ iter * 8 + 8 ≤ j) →
      (pack_iter cvt_ps_ph csr_data v iter).data_f16.getD j 0 = v.data_f16.getD j 0) := by
  have hpos : ¬ v.elems_remaining ≤ 0 := by rw [hrem]; omega
  obtain ⟨f1, f2, f3, _⟩ := fill_f32 csr_data.vals (min n 8) v.data_f32 v.curr_wgt_src_idx
  have hm : (min2 v.elems_remaining (VECTOR_SIZE : Nat)).toNat = min n 8 := by
    rw [hrem, VECTOR_SIZE_eq]; exact min2_toNat n 8
  unfold pack_iter
  rw [if_neg hpos]
  simp only [hm]
  simp only [VECTOR_SIZE_eq]
  obtain ⟨g1, g2, g3⟩ := fill_f16
    (fun i => (((List.range (min n 8)).foldl
        (fun (p : List F32 × Nat) col =>
          (p.1.set col (csr_data.vals.getD p.2 F32.zero), p.2 + 1))
        (v.data_f32, v.curr_wgt_src_idx)).1.map cvt_ps_ph).getD i 0) (iter * 8) 8 v.data_f16
  refine ⟨f1, by rw [hrem]; rfl, by rw [f2, h32], by rw [g1, h16], ?_, g3⟩
  intro i hi
  rw [g2 i (by omega) (by omega)]
  rw [getD_map_of_lt cvt_ps_ph _ i F32.zero 0 (by rw [f2, h32]; omega),
    f3 i hi (by omega)]

/-- One iteration of the `iter` loop after the `break`. -/
theorem pack_iter_done (cvt_ps_ph : F32 → Nat) (csr_data : csr_array_t) (v : vec_state)
    (iter : Nat) (hrem : v.elems_remaining ≤ 0) :
    pack_iter cvt_ps_ph csr_data v iter = v := by
  unfold pack_iter
  rw [if_pos hrem]

/-- One iteration of the value-vector loop on a row with `n > 0` entries left:
the vector written at `curr_wgt_dst_idx` holds the conversions of the next
`min n 16` values in its first lanes. -/
theorem pack_value_vector_spec (cvt_ps_ph : F32 → Nat) (csr_data : csr_array_t)
    (region : List (List Nat)) (src dst n : Nat) (hn : 0 < n) :
    ∃ D rem', pack_value_vector cvt_ps_ph csr_data (region, src, dst, (n : Int))
        = (region.set dst D, src + min n 16, dst + 1, rem') ∧
      D.length = 16 ∧
      (∀ j, j < min n 16 → D.getD j 0 = cvt_ps_ph (csr_data.vals.getD (src + j) F32.zero)) ∧
      (16 ≤ n → rem' = (n : Int) - 16) := by
  have h2 : List.range (UNPACKED_ELEMENT_SIZE / PACKED_ELEMENT_SIZE) = [0, 1] := rfl
  unfold pack_value_vector
  simp only [h2, List.foldl_cons, List.foldl_nil, VECTOR_SIZE_eq]
  generalize hv0 : (vec_state.mk (List.replicate 8 F32.zero) (List.replicate (2 * 8) 0)
      src (n : Int)) = v0
  have hv0r : v0.elems_remaining = (n : Int) := by rw [← hv0]
  have hv0s : v0.curr_wgt_src_idx = src := by rw [← hv0]
  have hv0a : v0.data_f32.length = 8 := by rw [← hv0]; simp
  have hv0b : v0.data_f16.length = 16 := by rw [← hv0]; simp
  obtain ⟨a1, a2, a3, a4, a5, a6⟩ := pack_iter_pos cvt_ps_ph csr_data v0 0 n hn hv0r
    hv0a hv0b (by omega)
  rw [hv0s] at a1 a5
  generalize pack_iter cvt_ps_ph csr_data v0 0 = v1 at a1 a2 a3 a4 a5 a6 ⊢
  by_cases h8 : 8 < n
  · obtain ⟨b1, b2, b3, b4, b5, b6⟩ := pack_iter_pos cvt_ps_ph csr_data v1 1 (n - 8) (by omega)
      (by rw [a2]; omega) a3 a4 (by omega)
    rw [a1] at b1 b5
    generalize pack_iter cvt_ps_ph csr_data v1 1 = v2 at b1 b2 b3 b4 b5 b6 ⊢
    have hsrc : v2.curr_wgt_src_idx = src + min n 16 := by rw [b1]; omega
    refine ⟨v2.data_f16, v2.elems_remaining, by rw [hsrc], b4, ?_, ?_⟩
    · intro j hj
      by_cases hj8 : j < 8
      · rw [b6 j (Or.inl (by omega))]
        have := a5 j (by omega)
        simp only [Nat.zero_mul, Nat.zero_add] at this
        exact this
      · have := b5 (j - 8) (by omega)
        have e1 : 1 * 8 + (j - 8) = j := by omega
        have e2 : src + min n 8 + (j - 8) = src + j := by omega
        rw [e1, e2] at this
        exact this
    · intro _
      rw [b2]; omega
  · rw [pack_iter_done cvt_ps_ph csr_data v1 1 (by rw [a2]; omega)]
    have hsrc : v1.curr_wgt_src_idx = src + min n 16 := by rw [a1]; omega
    refine ⟨v1.data_f16, v1.elems_remaining, by rw [hsrc], a4, ?_, ?_⟩
    · intro j hj
      have := a5 j (by omega)
      simp only [Nat.zero_mul, Nat.zero_add] at this
      exact this
    · intro h16; omega

theorem iterate_succ {σ : Type} (body : σ → σ) (n : Nat) (s : σ) :
    iterate body (n + 1) s = iterate body n (body s) := rfl

theorem iterate_zero {σ : Type} (body : σ → σ) (s : σ) : iterate body 0 s = s := rfl

/-- The value-vector loop of a row with `n` entries, run for `m` vectors
(`m <= ceil(n / 16)`): entry `i` lands in lane `i mod 16` of vector
`dst + i / 16`. -/
theorem pack_values_iterate (cvt_ps_ph : F32 → Nat) (csr_data : csr_array_t) (d : List Nat)
    (m n : Nat) (hm : 16 * m < n + 16) (region : List (List Nat)) (src dst : Nat)
    (hcap : dst + m ≤ region.length) :
    ∃ region' rem', iterate (pack_value_vector cvt_ps_ph csr_data) m
          (region, src, dst, (n : Int)) = (region', src + min n (16 * m), dst + m, rem') ∧
      region'.length = region.length ∧
      (∀ j, (j < dst ∨ dst + m ≤ j) → region'.getD j d = region.getD j d) ∧
      (∀ i, i < min n (16 * m) →
        (region'.getD (dst + i / 16) d).getD (i % 16) 0
          = cvt_ps_ph (csr_data.vals.getD (src + i) F32.zero)) := by
  induction m generalizing region src dst n with
  | zero =>
    refine ⟨region, (n : Int), ?_, rfl, ?_, ?_⟩
    · rw [iterate_zero]; simp
    · intro j _; rfl
    · intro i hi; omega
  | succ m ih =>
    have hn : 0 < n := by omega
    obtain ⟨D, rem1, h1, h2, h3, h4⟩ :=
      pack_value_vector_spec cvt_ps_ph csr_data region src dst n hn
    rw [iterate_succ, h1]
    by_cases hm0 : m = 0
    · subst hm0
      refine ⟨region.set dst D, rem1, ?_, by simp, ?_, ?_⟩
      · rw [iterate_zero]
      · intro j hj
        exact getD_set_ne _ _ _ _ _ (by omega)
      · intro i hi
        have hi16 : i < 16 := by omega
        have e1 : dst + i / 16 = dst := by omega
        have e2 : i % 16 = i := by omega
        rw [e1, e2, getD_set_self _ _ _ _ (by omega)]
        exact h3 i (by omega)
    · have hn16 : 16 ≤ n := by omega
      rw [h4 hn16]
      have hcast : (n : Int) - 16 = ((n - 16 : Nat) : Int) := by omega
      rw [hcast]
      obtain ⟨region', rem', g1, g2, g3, g4⟩ := ih (n - 16) (by omega) (region.set dst D)
        (src + min n 16) (dst + 1) (by simp; omega)
      refine ⟨region', rem', ?_, by rw [g2]; simp, ?_, ?_⟩
      · rw [g1]
        congr 1
        · congr 1
          · omega
          · congr 1
            omega
      · intro j hj
        rw [g3 j (by omega)]
        exact getD_set_ne _ _ _ _ _ (by omega)
      · intro i hi
        by_cases hi16 : i < 16
        · have e1 : dst + i / 16 = dst := by omega
          have e2 : i % 16 = i := by omega
          rw [e1, e2, g3 dst (Or.inl (by omega)), getD_set_self _ _ _ _ (by omega)]
          exact h3 i (by omega)
        · have := g4 (i - 16) (by omega)
          have e1 : dst + 1 + (i - 16) / 16 = dst + i / 16 := by omega
          have e2 : (i - 16) % 16 = i % 16 := by omega
          have e3 : src + min n 16 + (i - 16) = src + i := by omega
          rw [e1, e2, e3] at this
          exact this

/-! ## Packing the offsets of a row -/

theorem nib_word_lt (xs : List Nat) : nib_word xs < 16 ^ xs.length := by
  induction xs with
  | nil => simp [nib_word]
  | cons x xs ih =>
    simp only [nib_word, List.length_cons, pow_succ]
    have := Nat.mod_lt x (show 0 < 16 by norm_num)
    omega

theorem nib_word_snoc (xs : List Nat) (x : Nat) :
    nib_word (xs ++ [x]) = nib_word xs + (x % 16) * 16 ^ xs.length := by
  induction xs with
  | nil => simp [nib_word]
  | cons y ys ih =>
    have h1 : nib_word (y :: ys ++ [x]) = y % 16 + 16 * nib_word (ys ++ [x]) := rfl
    have h2 : nib_word (y :: ys) = y % 16 + 16 * nib_word ys := rfl
    rw [h1, h2, ih, List.length_cons, pow_succ]
    ring

/-- Field `j` of `nib_word xs`. -/
theorem nib_word_field (xs : List Nat) (j : Nat) :
    (nib_word xs >>> (j * 4)) &&& 0xf = xs.getD j 0 % 16 := by
  have h15 : (0xf : Nat) = 2 ^ 4 - 1 := by norm_num
  rw [h15, Nat.and_pow_two_sub_one_eq_mod]
  induction xs generalizing j with
  | nil => simp [nib_word]
  | cons x xs ih =>
    cases j with
    | zero =>
      simp only [nib_word, Nat.zero_mul, Nat.shiftRight_zero, List.getD_cons_zero]
      omega
    | succ j =>
      have hs : (nib_word (x :: xs)) >>> ((j + 1) * 4) = nib_word xs >>> (j * 4) := by
        rw [Nat.shiftRight_eq_div_pow, Nat.shiftRight_eq_div_pow, Nat.succ_mul, pow_add,
          Nat.mul_comm (2 ^ (j * 4)), ← Nat.div_div_eq_div_mul]
        congr 1
        simp only [nib_word]
        omega
      rw [hs, List.getD_cons_succ]
      exact ih j

/-- The accumulation of line 240 adds one field to the word. -/
theorem nib_word_or (xs : List Nat) (x : Nat) (hlen : xs.length < 8) :
    (nib_word xs ||| ((x &&& 0xf) <<< (4 * xs.length))) % 4294967296
      = nib_word (xs ++ [x]) := by
  have h15 : (0xf : Nat) = 2 ^ 4 - 1 := by norm_num
  have hlt := nib_word_lt xs
  have hpow : (16 : Nat) ^ xs.length = 2 ^ (4 * xs.length) := by
    rw [pow_mul]; norm_num
  rw [hpow] at hlt
  rw [h15, Nat.and_pow_two_sub_one_eq_mod, Nat.shiftLeft_eq, Nat.lor_comm,
    Nat.mul_comm (x % 2 ^ 4), ← Nat.mul_add_lt_is_or hlt, nib_word_snoc, hpow]
  have hx : x % 2 ^ 4 < 16 := Nat.mod_lt _ (by norm_num)
  have hb : 2 ^ (4 * xs.length) * (x % 2 ^ 4) + nib_word xs < 4294967296 := by
    have h1 : 2 ^ (4 * xs.length) * (x % 2 ^ 4 + 1) ≤ 2 ^ (4 * xs.length) * 16 :=
      Nat.mul_le_mul_left _ (by omega)
    have h2 : 2 ^ (4 * xs.length) * 16 ≤ 2 ^ (4 * 7) * 16 :=
      Nat.mul_le_mul_right _ (Nat.pow_le_pow_right (by norm_num) (by omega))
    rw [Nat.mul_add, Nat.mul_one] at h1
    norm_num at h2
    omega
  rw [Nat.mod_eq_of_lt hb]
  have : x % 2 ^ 4 = x % 16 := by norm_num
  rw [this]
  ring

theorem min2_toNat_int (rem : Int) (k : Nat) : (min2 rem (k : Int)).toNat = min rem.toNat k := by
  unfold min2
  split <;> omega

/-- The accumulation loop of lines 237-242 builds the word of the next offsets. -/
theorem fill_word (col_idx : List Nat) (cols : List Nat) (src dst : Nat)
    (hdst : dst < cols.length) (e : Nat) (he : e ≤ 8) :
    (List.range e).foldl
        (fun (p : List Nat × Nat) elem =>
          (p.1.set dst ((p.1.getD dst 0 ||| MASK_AND_SHIFT col_idx p.2 elem) % 4294967296),
            p.2 + 1))
        (cols.set dst 0, src)
      = (cols.set dst (nib_word ((List.range e).map (fun t => col_idx.getD (src + t) 0))),
          src + e) := by
  induction e with
  | zero => rfl
  | succ e ih =>
    rw [List.range_succ, List.foldl_append, ih (by omega)]
    simp only [List.foldl_cons, List.foldl_nil, List.map_append, List.map_cons, List.map_nil]
    rw [getD_set_self _ _ _ _ hdst, List.set_set]
    unfold MASK_AND_SHIFT
    have hlen : ((List.range e).map (fun t => col_idx.getD (src + t) 0)).length = e := by simp
    have := nib_word_or ((List.range e).map (fun t => col_idx.getD (src + t) 0))
      (col_idx.getD (src + e) 0) (by rw [hlen]; omega)
    rw [hlen] at this
    rw [this, Nat.add_assoc]

/-- One iteration of the index-word loop. -/
theorem pack_index_word_spec (csr_data : csr_array_t) (cols : List Nat) (src dst : Nat)
    (rem : Int) (hdst : dst < cols.length) :
    pack_index_word csr_data (cols, src, dst, rem)
      = (cols.set dst (nib_word ((List.range (min rem.toNat 8)).map
            (fun t => csr_data.col_idx.getD (src + t) 0))),
          src + min rem.toNat 8, dst + 1, rem - 8) := by
  unfold pack_index_word
  simp only [INDEX_PACKING_FACTOR_eq]
  rw [min2_toNat_int rem 8, fill_word csr_data.col_idx cols src dst hdst _ (by omega)]
  rfl

/-- The index-word loop run for `m` words: offset `i` lands in field `i mod 8`
of word `dst + i / 8`, and the fields past the element count are zero. -/
theorem pack_index_iterate (csr_data : csr_array_t) (m : Nat) (cols : List Nat)
    (src dst : Nat) (rem : Int) (hcap : dst + m ≤ cols.length) :
    ∃ cols', iterate (pack_index_word csr_data) m (cols, src, dst, rem)
          = (cols', src + min rem.toNat (8 * m), dst + m, rem - 8 * (m : Int)) ∧
      cols'.length = cols.length ∧
      (∀ j, (j < dst ∨ dst + m ≤ j) → cols'.getD j 0 = cols.getD j 0) ∧
      (∀ i, i < 8 * m →
        (cols'.getD (dst + i / 8) 0 >>> ((i % 8) * 4)) &&& 0xf
          = if i < rem.toNat then csr_data.col_idx.getD (src + i) 0 % 16 else 0) := by
  induction m generalizing cols src dst rem with
  | zero =>
    refine ⟨cols, ?_, rfl, ?_, ?_⟩
    · rw [iterate_zero]; simp
    · intro j _; rfl
    · intro i hi; omega
  | succ m ih =>
    rw [iterate_succ, pack_index_word_spec csr_data cols src dst rem (by omega)]
    obtain ⟨cols', g1, g2, g3, g4⟩ := ih
      (cols.set dst (nib_word ((List.range (min rem.toNat 8)).map
        (fun t => csr_data.col_idx.getD (src + t) 0))))
      (src + min rem.toNat 8) (dst + 1) (rem - 8) (by simp; omega)
    refine ⟨cols', ?_, by rw [g2]; simp, ?_, ?_⟩
    · rw [g1]
      congr 1
      · congr 1
        · omega
        · congr 1
          · omega
          · push_cast; omega
    · intro j hj
      rw [g3 j (by omega)]
      exact getD_set_ne _ _ _ _ _ (by omega)
    · intro i hi
      by_cases hi8 : i < 8
      · have e1 : dst + i / 8 = dst := by omega
        have e2 : i % 8 = i := by omega
        rw [e1, e2, g3 dst (Or.inl (by omega)), getD_set_self _ _ _ _ (by omega),
          nib_word_field]
        by_cases hlt : i < rem.toNat
        · rw [if_pos hlt, getD_map_range _ _ _ _ (by omega)]
        · rw [if_neg hlt, List.getD_eq_default _ _ (by simp; omega)]
      · have := g4 (i - 8) (by omega)
        have e1 : dst + 1 + (i - 8) / 8 = dst + i / 8 := by omega
        have e2 : (i - 8) % 8 = i % 8 := by omega
        rw [e1, e2] at this
        rw [this]
        by_cases hlt : i < rem.toNat
        · rw [if_pos hlt, if_pos (by omega)]
          congr 2
          omega
        · rw [if_neg hlt, if_neg (by omega)]

/-! ## The packing pass on a non-decreasing `row_idx` -/

theorem FRAC_CEIL_row (csr_data : csr_array_t) (k : Nat)
    (hmono : csr_data.row_idx.getD k 0 ≤ csr_data.row_idx.getD (k + 1) 0) :
    FRAC_CEIL ((csr_data.row_idx.getD (k + 1) 0 : Int) - (csr_data.row_idx.getD k 0 : Int))
        ((VECTOR_SIZE * 2 : Nat) : Int) = (row_vectors csr_data k : Int) := by
  have h := num_elems_of_le csr_data k hmono
  unfold num_elems at h
  rw [h]
  exact FRAC_CEIL_nat _

/-- The body of the row loop of the packing pass, on a row with
`row_idx[k] <= row_idx[k+1]` and enough room in the two regions. -/
theorem pack_row_spec (cvt_ps_ph : F32 → Nat) (csr_data : csr_array_t) (d : List Nat)
    (s : pack_state) (k : Nat)
    (hmono : csr_data.row_idx.getD k 0 ≤ csr_data.row_idx.getD (k + 1) 0)
    (hcapv : s.curr_wgt_dst_idx + row_vectors csr_data k ≤ s.csr.vals.length)
    (hcapc : s.curr_col_dst_idx + 2 * row_vectors csr_data k ≤ s.csr.col_idx.length) :
    (pack_row cvt_ps_ph csr_data s k).curr_wgt_src_idx
        = s.curr_wgt_src_idx + row_count csr_data k ∧
    (pack_row cvt_ps_ph csr_data s k).curr_wgt_dst_idx
        = s.curr_wgt_dst_idx + row_vectors csr_data k ∧
    (pack_row cvt_ps_ph csr_data s k).curr_col_src_idx
        = s.curr_col_src_idx + row_count csr_data k ∧
    (pack_row cvt_ps_ph csr_data s k).curr_col_dst_idx
        = s.curr_col_dst_idx + 2 * row_vectors csr_data k ∧
    (pack_row cvt_ps_ph csr_data s k).csr.vals.length = s.csr.vals.length ∧
    (pack_row cvt_ps_ph csr_data s k).csr.col_idx.length = s.csr.col_idx.length ∧
    (∀ j, (j < s.curr_wgt_dst_idx ∨ s.curr_wgt_dst_idx + row_vectors csr_data k ≤ j) →
      (pack_row cvt_ps_ph csr_data s k).csr.vals.getD j d = s.csr.vals.getD j d) ∧
    (∀ j, (j < s.curr_col_dst_idx ∨ s.curr_col_dst_idx + 2 * row_vectors csr_data k ≤ j) →
      (pack_row cvt_ps_ph csr_data s k).csr.col_idx.getD j 0 = s.csr.col_idx.getD j 0) ∧
    (∀ i, i < row_count csr_data k →
      ((pack_row cvt_ps_ph csr_data s k).csr.vals.getD (s.curr_wgt_dst_idx + i / 16) d).getD
          (i % 16) 0
        = cvt_ps_ph (csr_data.vals.getD (s.curr_wgt_src_idx + i) F32.zero)) ∧
    (∀ i, i < 16 * row_vectors csr_data k →
      ((pack_row cvt_ps_ph csr_data s k).csr.col_idx.getD (s.curr_col_dst_idx + i / 8) 0
          >>> ((i % 8) * 4)) &&& 0xf
        = if i < row_count csr_data k
          then csr_data.col_idx.getD (s.curr_col_src_idx + i) 0 % 16 else 0) := by
  have hn : (csr_data.row_idx.getD (k + 1) 0 : Int) - (csr_data.row_idx.getD k 0 : Int)
      = (row_count csr_data k : Int) := by
    have h := num_elems_of_le csr_data k hmono
    unfold num_elems at h
    exact h
  have hV : FRAC_CEIL (row_count csr_data k : Int) ((VECTOR_SIZE * 2 : Nat) : Int)
      = (row_vectors csr_data k : Int) := by
    rw [← hn]; exact FRAC_CEIL_row csr_data k hmono
  have hVn : 16 * row_vectors csr_data k < row_count csr_data k + 16 := by
    unfold row_vectors; omega
  have hVn2 : row_count csr_data k ≤ 16 * row_vectors csr_data k := by
    unfold row_vectors; omega
  obtain ⟨region', rem', a1, a2, a3, a4⟩ := pack_values_iterate cvt_ps_ph csr_data d
    (row_vectors csr_data k) (row_count csr_data k) hVn s.csr.vals s.curr_wgt_src_idx
    s.curr_wgt_dst_idx hcapv
  obtain ⟨cols', b1, b2, b3, b4⟩ := pack_index_iterate csr_data (2 * row_vectors csr_data k)
    s.csr.col_idx s.curr_col_src_idx s.curr_col_dst_idx (row_count csr_data k : Int) hcapc
  have hmin1 : min (row_count csr_data k) (16 * row_vectors csr_data k)
      = row_count csr_data k := by omega
  have hmin2 : min ((row_count csr_data k : Int)).toNat (8 * (2 * row_vectors csr_data k))
      = row_count csr_data k := by omega
  rw [hmin1] at a1 a4
  rw [hmin2] at b1
  have hidx : ((row_vectors csr_data k : Int) * ( DATA_TO_INDEX_RATIO : Nat)).toNat
      = 2 * row_vectors csr_data k := by
    rw [DATA_TO_INDEX_RATIO_eq]; omega
  unfold pack_row
  simp only [hn, hV, Int.toNat_ofNat, hidx, a1, b1]
  refine ⟨trivial, trivial, trivial, trivial, a2, b2, a3, b3, a4, ?_⟩
  intro i hi
  rw [b4 i (by omega)]
  have e : ((row_count csr_data k : Int)).toNat = row_count csr_data k := by omega
  rw [e]

/-- The state of the packing pass after `k` rows. -/
theorem packing_rows_spec (cvt_ps_ph : F32 → Nat) (csr_data : csr_array_t) (d : List Nat)
    (s0 : pack_state) (rows : Nat)
    (hmono : ∀ q, q < rows → csr_data.row_idx.getD q 0 ≤ csr_data.row_idx.getD (q + 1) 0)
    (hs0 : s0.curr_wgt_src_idx = 0 ∧ s0.curr_wgt_dst_idx = 0 ∧ s0.curr_col_src_idx = 0 ∧
      s0.curr_col_dst_idx = 0)
    (hcapv : start_vector csr_data rows ≤ s0.csr.vals.length)
    (hcapc : 2 * start_vector csr_data rows ≤ s0.csr.col_idx.length)
    (k : Nat) (hk : k ≤ rows) :
    ((List.range k).foldl (pack_row cvt_ps_ph csr_data) s0).curr_wgt_src_idx
        = start_entry csr_data k ∧
    ((List.range k).foldl (pack_row cvt_ps_ph csr_data) s0).curr_wgt_dst_idx
        = start_vector csr_data k ∧
    ((List.range k).foldl (pack_row cvt_ps_ph csr_data) s0).curr_col_src_idx
        = start_entry csr_data k ∧
    ((List.range k).foldl (pack_row cvt_ps_ph csr_data) s0).curr_col_dst_idx
        = 2 * start_vector csr_data k ∧
    ((List.range k).foldl (pack_row cvt_ps_ph csr_data) s0).csr.vals.length
        = s0.csr.vals.length ∧
    ((List.range k).foldl (pack_row cvt_ps_ph csr_data) s0).csr.col_idx.length
        = s0.csr.col_idx.length ∧
    (∀ r i, r < k → i < row_count csr_data r →
      (((List.range k).foldl (pack_row cvt_ps_ph csr_data) s0).csr.vals.getD
          (start_vector csr_data r + i / 16) d).getD (i % 16) 0
        = cvt_ps_ph (csr_data.vals.getD (start_entry csr_data r + i) F32.zero)) ∧
    (∀ r i, r < k → i < 16 * row_vectors csr_data r →
      (((List.range k).foldl (pack_row cvt_ps_ph csr_data) s0).csr.col_idx.getD
          (2 * start_vector csr_data r + i / 8) 0 >>> ((i % 8) * 4)) &&& 0xf
        = if i < row_count csr_data r
          then csr_data.col_idx.getD (start_entry csr_data r + i) 0 % 16 else 0) := by
  induction k with
  | zero =>
    obtain ⟨h1, h2, h3, h4⟩ := hs0
    refine ⟨h1, h2, h3, ?_, rfl, rfl, ?_, ?_⟩
    · show s0.curr_col_dst_idx = 2 * start_vector csr_data 0
      rw [h4]; rfl
    · intro r i hr; omega
    · intro r i hr; omega
  | succ k ih =>
    obtain ⟨h1, h2, h3, h4, h5, h6, h7, h8⟩ := ih (by omega)
    rw [List.range_succ, List.foldl_append]
    simp only [List.foldl_cons, List.foldl_nil]
    have hsv := start_vector_mono csr_data (k + 1) rows hk
    rw [start_vector_succ] at hsv
    obtain ⟨p1, p2, p3, p4, p5, p6, p7, p8, p9, p10⟩ := pack_row_spec cvt_ps_ph csr_data d
      ((List.range k).foldl (pack_row cvt_ps_ph csr_data) s0) k (hmono k (by omega))
      (by rw [h2, h5]; omega) (by rw [h4, h6]; omega)
    rw [h1] at p1 p9
    rw [h2] at p2 p7 p9
    rw [h3] at p3 p10
    rw [h4] at p4 p8 p10
    refine ⟨by rw [p1, start_entry_succ], by rw [p2, start_vector_succ],
      by rw [p3, start_entry_succ], by rw [p4, start_vector_succ]; omega,
      by rw [p5, h5], by rw [p6, h6], ?_, ?_⟩
    · intro r i hr hi
      by_cases hrk : r = k
      · subst hrk
        exact p9 i hi
      · have hlt : start_vector csr_data r + i / 16 < start_vector csr_data k := by
          have h1 := start_vector_mono csr_data (r + 1) k (by omega)
          rw [start_vector_succ] at h1
          have : i / 16 < row_vectors csr_data r := by unfold row_vectors; omega
          omega
        rw [p7 _ (Or.inl hlt)]
        exact h7 r i (by omega) hi
    · intro r i hr hi
      by_cases hrk : r = k
      · subst hrk
        exact p10 i hi
      · have hlt : 2 * start_vector csr_data r + i / 8 < 2 * start_vector csr_data k := by
          have h1 := start_vector_mono csr_data (r + 1) k (by omega)
          rw [start_vector_succ] at h1
          omega
        rw [p8 _ (Or.inl hlt)]
        exact h8 r i (by omega) hi

/-! ## The packed decoder as a cursor decoding -/

theorem dec_from_eq_foldlM (width row : Nat) (es : List (F32 × Nat)) (cur : Nat)
    (buf : List F32) :
    dec_from width row cur es buf
      = (es.foldlM (dec_pair width row) (buf, cur)).map Prod.fst := by
  induction es generalizing cur buf with
  | nil => rfl
  | cons e es ih =>
    obtain ⟨v, off⟩ := e
    rw [dec_from_cons, List.foldlM_cons]
    unfold dec_pair
    by_cases hlt : cur + off < width
    · simp only [if_pos hlt]
      rw [ih]
      rfl
    · simp only [if_neg hlt]
      rfl

/-- The innermost loop of the packed decoder is the cursor decoding of the
unpacked buffer entries; the packed cursor is one less than the unpacked. -/
theorem packed_inner_loop (data_dims : dims_t) (row : Nat) (vb : List F32) (ib : List Nat)
    (m : Nat) (buf : List F32) (cur : Nat) :
    (List.range m).foldlM (decompress_packed_step data_dims row vb ib)
        (buf, (cur : Int) - 1)
      = (((List.range m).map (fun j => (vb.getD j F32.zero, ib.getD j 0))).foldlM
          (dec_pair (data_dims.cols + data_dims.align_pad) row) (buf, cur)).map
          (fun p => (p.1, (p.2 : Int) - 1)) := by
  induction m with
  | zero => rfl
  | succ m ih =>
    rw [List.range_succ, List.foldlM_append, ih, List.map_append, List.foldlM_append]
    cases ((List.range m).map (fun j => (vb.getD j F32.zero, ib.getD j 0))).foldlM
        (dec_pair (data_dims.cols + data_dims.align_pad) row) (buf, cur) with
    | none => rfl
    | some p =>
      simp only [Option.map_some', Option.some_bind, List.foldlM_cons, List.foldlM_nil,
        List.map_cons, List.map_nil, Option.bind_eq_bind]
      unfold decompress_packed_step dec_pair
      simp only
      by_cases hlt : p.2 + ib.getD m 0 < data_dims.cols + data_dims.align_pad
      · have h1 : (p.2 : Int) - 1 + ((ib.getD m 0 : Nat) : Int) + 1
            < ((data_dims.cols + data_dims.align_pad : Nat) : Int) := by omega
        rw [if_pos h1, if_pos hlt]
        have h2 : ((p.2 : Int) - 1 + ((ib.getD m 0 : Nat) : Int) + 1).toNat
            = p.2 + ib.getD m 0 := by omega
        simp only [Option.some_bind, Option.map_some', h2, Option.pure_def, Option.bind_some]
        congr 2
        omega
      · have h1 : ¬ ((p.2 : Int) - 1 + ((ib.getD m 0 : Nat) : Int) + 1
            < ((data_dims.cols + data_dims.align_pad : Nat) : Int)) := by omega
        rw [if_neg h1, if_neg hlt]
        rfl

/-- Lane `j` of the two buffers of `unpack_values_at_row`. -/
theorem unpack_getD (cvt_ph_ps : Nat → F32) (cmp_values : List (List Nat))
    (cmp_col_idx : List Nat) (vec j : Nat) (hj : j < 16) :
    (unpack_values_at_row cvt_ph_ps cmp_values cmp_col_idx vec).1.getD j F32.zero
      = cvt_ph_ps ((cmp_values.getD vec (List.replicate 16 0)).getD j 0) ∧
    (unpack_values_at_row cvt_ph_ps cmp_values cmp_col_idx vec).2.getD j 0
      = (cmp_col_idx.getD (vec * 2 + j / 8) 0 >>> ((j % 8) * 4)) &&& 0xf := by
  unfold unpack_values_at_row
  simp only [VECTOR_SIZE_eq, DATA_TO_INDEX_RATIO_eq, INDEX_BITS]
  by_cases h8 : j < 8
  · have e1 : j / 8 = 0 := by omega
    have e2 : j % 8 = j := by omega
    rw [List.getD_append _ _ _ _ (by simp; omega), List.getD_append _ _ _ _ (by simp; omega),
      getD_map_range _ _ _ _ h8, getD_map_range _ _ _ _ h8, e1, e2]
    exact ⟨rfl, rfl⟩
  · have e1 : j / 8 = 1 := by omega
    have e2 : j % 8 = j - 8 := by omega
    rw [List.getD_append_right _ _ _ _ (by simp; omega),
      List.getD_append_right _ _ _ _ (by simp; omega)]
    simp only [List.length_map, List.length_range]
    rw [getD_map_range _ _ _ _ (by omega), getD_map_range _ _ _ _ (by omega), e1, e2]
    have e3 : j - 8 + 8 = j := by omega
    rw [e3]
    exact ⟨rfl, rfl⟩

theorem packed_entry_lane (cvt_ph_ps : Nat → F32) (cmp_data : List (List Nat))
    (cmp_col_idx : List Nat) (start k j : Nat) (hj : j < 16) :
    packed_entry cvt_ph_ps cmp_data cmp_col_idx start (16 * k + j)
      = ((unpack_values_at_row cvt_ph_ps cmp_data cmp_col_idx (start + k)).1.getD j F32.zero,
         (unpack_values_at_row cvt_ph_ps cmp_data cmp_col_idx (start + k)).2.getD j 0) := by
  unfold packed_entry
  have e1 : (16 * k + j) / 16 = k := by omega
  have e2 : (16 * k + j) % 16 = j := by omega
  rw [e1, e2]

/-- The vector loop of the packed decoder after `k` vectors of a row of `size`
entries. -/
theorem packed_vector_loop (cvt_ph_ps : Nat → F32) (cmp_data : List (List Nat))
    (cmp_col_idx : List Nat) (data_dims : dims_t) (row start size : Nat) (buf : List F32)
    (k : Nat) (hk : 16 * k < size + 16) :
    (List.range k).foldlM
        (decompress_packed_vector cvt_ph_ps cmp_data cmp_col_idx data_dims row start)
        (buf, -1, (size : Int))
      = (((List.range (min (16 * k) size)).map
            (packed_entry cvt_ph_ps cmp_data cmp_col_idx start)).foldlM
          (dec_pair (data_dims.cols + data_dims.align_pad) row) (buf, 0)).map
          (fun p => (p.1, (p.2 : Int) - 1, (size : Int) - 16 * (k : Int))) := by
  induction k with
  | zero =>
    have h0 : min (16 * 0) size = 0 := by omega
    rw [h0]
    simp
  | succ k ih =>
    have hmin : min (16 * k) size = 16 * k := by omega
    have hsplit : List.range (min (16 * (k + 1)) size)
        = List.range (16 * k) ++ (List.range (min (size - 16 * k) 16)).map (16 * k + ·) := by
      rw [← List.range_add]
      congr 1
      omega
    rw [List.range_succ, List.foldlM_append, ih (by omega), hmin, hsplit, List.map_append,
      List.foldlM_append]
    cases ((List.range (16 * k)).map (packed_entry cvt_ph_ps cmp_data cmp_col_idx start)).foldlM
        (dec_pair (data_dims.cols + data_dims.align_pad) row) (buf, 0) with
    | none => rfl
    | some p =>
      simp only [Option.map_some', Option.some_bind, List.foldlM_cons, List.foldlM_nil,
        Option.bind_eq_bind]
      unfold decompress_packed_vector
      simp only
      have hm : (min2 ((size : Int) - 16 * (k : Int)) 16).toNat = min (size - 16 * k) 16 := by
        have := min2_toNat_int ((size : Int) - 16 * (k : Int)) 16
        rw [show ((16 : Nat) : Int) = 16 from rfl] at this
        rw [this]
        omega
      rw [hm, packed_inner_loop data_dims row _ _ _ p.1 p.2]
      have hmap : (List.range (min (size - 16 * k) 16)).map
            (fun j =>
              ((unpack_values_at_row cvt_ph_ps cmp_data cmp_col_idx (start + k)).1.getD j
                  F32.zero,
               (unpack_values_at_row cvt_ph_ps cmp_data cmp_col_idx (start + k)).2.getD j 0))
          = ((List.range (min (size - 16 * k) 16)).map (16 * k + ·)).map
              (packed_entry cvt_ph_ps cmp_data cmp_col_idx start) := by
        rw [List.map_map]
        apply List.map_congr_left
        intro j hj
        rw [List.mem_range] at hj
        simp only [Function.comp]
        rw [packed_entry_lane _ _ _ _ _ _ (by omega)]
      rw [hmap]
      cases (((List.range (min (size - 16 * k) 16)).map (16 * k + ·)).map
          (packed_entry cvt_ph_ps cmp_data cmp_col_idx start)).foldlM
          (dec_pair (data_dims.cols + data_dims.align_pad) row) p with
      | none => rfl
      | some q =>
        simp only [Option.map_some', Option.some_bind, Option.pure_def, Option.bind_some]
        congr 3
        push_cast
        omega

/-- The body of the row loop of the packed decoder is the cursor decoding of the
entries that the row metadata word designates. -/
theorem decompress_packed_row_eq (cvt_ph_ps : Nat → F32) (cmp_data : List (List Nat))
    (cmp_col_idx cmp_row_idx : List Nat) (data_dims : dims_t) (buf : List F32) (r : Nat) :
    decompress_packed_row cvt_ph_ps cmp_data cmp_col_idx cmp_row_idx data_dims buf r
      = dec_from (data_dims.cols + data_dims.align_pad) r 0
          (packed_entries cvt_ph_ps cmp_data cmp_col_idx
            ((cmp_row_idx.getD r 0 >>> 16) &&& 0xffff) (cmp_row_idx.getD r 0 &&& 0xffff))
          buf := by
  unfold decompress_packed_row packed_entries
  simp only [DATA_PACKING_FACTOR_eq]
  generalize (cmp_row_idx.getD r 0 >>> 16) &&& 0xffff = start
  generalize cmp_row_idx.getD r 0 &&& 0xffff = size
  rw [packed_vector_loop cvt_ph_ps cmp_data cmp_col_idx data_dims r start size buf
      ((size + (16 - 1)) / 16) (by omega),
    dec_from_eq_foldlM]
  have hmin : min (16 * ((size + (16 - 1)) / 16)) size = size := by omega
  rw [hmin]
  cases ((List.range size).map (packed_entry cvt_ph_ps cmp_data cmp_col_idx start)).foldlM
      (dec_pair (data_dims.cols + data_dims.align_pad) r) (buf, 0) <;> rfl

/-! ## Decoding what the packer wrote -/

/-- The two 16-bit fields of a row metadata word. -/
theorem row_word_decode (S n : Nat) (hS : S < 65536) (hn : n < 65536) :
    (row_word (S : Int) (n : Int) >>> 16) &&& 0xffff = S ∧
    row_word (S : Int) (n : Int) &&& 0xffff = n := by
  have hw : row_word (S : Int) (n : Int) = S * 65536 + n := by
    rw [row_word_eq]; omega
  have h16 : (0xffff : Nat) = 2 ^ 16 - 1 := by norm_num
  rw [hw, h16, Nat.and_pow_two_sub_one_eq_mod, Nat.and_pow_two_sub_one_eq_mod,
    Nat.shiftRight_eq_div_pow]
  norm_num
  omega

theorem foldlM_congr_range {β : Type} (f g : β → Nat → Option β) (n : Nat) (b : β)
    (h : ∀ k, k < n → ∀ b, f b k = g b k) :
    (List.range n).foldlM f b = (List.range n).foldlM g b := by
  induction n with
  | zero => rfl
  | succ n ih =>
    rw [List.range_succ, List.foldlM_append, List.foldlM_append,
      ih (fun k hk b => h k (by omega) b)]
    cases (List.range n).foldlM g b with
    | none => rfl
    | some c =>
      simp only [Option.some_bind, List.foldlM_cons, List.foldlM_nil, Option.bind_eq_bind]
      rw [h n (by omega) c]

theorem packing_rows_total (cvt_ps_ph : F32 → Nat) (csr_data : csr_array_t)
    (s0 : pack_state) (h0 : s0.total_elements_packed = 0) (k : Nat)
    (hmono : ∀ q, q < k → csr_data.row_idx.getD q 0 ≤ csr_data.row_idx.getD (q + 1) 0) :
    ((List.range k).foldl (pack_row cvt_ps_ph csr_data) s0).total_elements_packed
      = (start_entry csr_data k : Int) := by
  induction k with
  | zero => exact h0
  | succ k ih =>
    rw [List.range_succ, List.foldl_append]
    simp only [List.foldl_cons, List.foldl_nil]
    rw [pack_row_total_elements_packed, ih (fun q hq => hmono q (by omega)),
      num_elems_of_le csr_data k (hmono k (by omega)), start_entry_succ]
    push_cast
    rfl

/-- The entries of row `r` of an unpacked array as the packer reads them, the
values converted to half precision and back and the offsets reduced to 4 bits. -/
theorem packed_entries_of_packing (cvt_ps_ph : F32 → Nat) (cvt_ph_ps : Nat → F32)
    (csr_data : csr_array_t) (s0 : pack_state) (rows : Nat)
    (hmono : ∀ q, q < rows → csr_data.row_idx.getD q 0 ≤ csr_data.row_idx.getD (q + 1) 0)
    (hs0 : s0.curr_wgt_src_idx = 0 ∧ s0.curr_wgt_dst_idx = 0 ∧ s0.curr_col_src_idx = 0 ∧
      s0.curr_col_dst_idx = 0)
    (hcapv : start_vector csr_data rows ≤ s0.csr.vals.length)
    (hcapc : 2 * start_vector csr_data rows ≤ s0.csr.col_idx.length)
    (r : Nat) (hr : r < rows) :
    packed_entries cvt_ph_ps
        ((List.range rows).foldl (pack_row cvt_ps_ph csr_data) s0).csr.vals
        ((List.range rows).foldl (pack_row cvt_ps_ph csr_data) s0).csr.col_idx
        (start_vector csr_data r) (row_count csr_data r)
      = (List.range (row_count csr_data r)).map
          (fun i =>
            (cvt_ph_ps (cvt_ps_ph (csr_data.vals.getD (start_entry csr_data r + i) F32.zero)),
             csr_data.col_idx.getD (start_entry csr_data r + i) 0 % 16)) := by
  obtain ⟨_, _, _, _, _, _, h7, h8⟩ := packing_rows_spec cvt_ps_ph csr_data
    (List.replicate 16 0) s0 rows hmono hs0 hcapv hcapc rows (le_refl _)
  unfold packed_entries
  apply List.map_congr_left
  intro i hi
  rw [List.mem_range] at hi
  have hi16 : i % 16 < 16 := Nat.mod_lt _ (by norm_num)
  obtain ⟨u1, u2⟩ := unpack_getD cvt_ph_ps
    ((List.range rows).foldl (pack_row cvt_ps_ph csr_data) s0).csr.vals
    ((List.range rows).foldl (pack_row cvt_ps_ph csr_data) s0).csr.col_idx
    (start_vector csr_data r + i / 16) (i % 16) hi16
  unfold packed_entry
  rw [u1, u2, h7 r i hr hi]
  have e1 : (start_vector csr_data r + i / 16) * 2 + i % 16 / 8
      = 2 * start_vector csr_data r + i / 8 := by omega
  have e2 : i % 16 % 8 = i % 8 := by omega
  have hiV : i < 16 * row_vectors csr_data r := by unfold row_vectors; omega
  rw [e1, e2, h8 r i hr hiV, if_pos hi]

theorem sizing_pass_toNat (csr_data : csr_array_t) (data_dims : dims_t)
    (hmono : ∀ q, q < data_dims.rows →
      csr_data.row_idx.getD q 0 ≤ csr_data.row_idx.getD (q + 1) 0) :
    (sizing_pass csr_data data_dims).toNat = start_vector csr_data data_dims.rows := by
  rw [sizing_pass_eq, start_vector_int_of_mono csr_data data_dims.rows hmono]
  omega

/-- The packed decoder run on the regions that the packing pass filled is the
cursor decoding of the rows the packer read. -/
theorem packed_decode_of_packing (CACHELINE_SIZE : Nat) (cvt_ps_ph : F32 → Nat)
    (cvt_ph_ps : Nat → F32) (csr_data : csr_array_t) (data_dims : dims_t) (buf : List F32)
    (hCL : 0 < CACHELINE_SIZE)
    (hmono : ∀ q, q < data_dims.rows →
      csr_data.row_idx.getD q 0 ≤ csr_data.row_idx.getD (q + 1) 0)
    (h16 : ∀ r, r < data_dims.rows →
      start_vector csr_data r < 65536 ∧ row_count csr_data r < 65536) :
    decompress_packed_csr_data cvt_ph_ps
        (packing_pass cvt_ps_ph csr_data data_dims
          (alloc_packed_csr_array_t CACHELINE_SIZE (sizing_pass csr_data data_dims).toNat
            csr_data.num_nonzeros data_dims.rows)).csr.vals
        (packing_pass cvt_ps_ph csr_data data_dims
          (alloc_packed_csr_array_t CACHELINE_SIZE (sizing_pass csr_data data_dims).toNat
            csr_data.num_nonzeros data_dims.rows)).csr.col_idx
        (packing_pass cvt_ps_ph csr_data data_dims
          (alloc_packed_csr_array_t CACHELINE_SIZE (sizing_pass csr_data data_dims).toNat
            csr_data.num_nonzeros data_dims.rows)).csr.row_idx
        data_dims buf
      = dec_rows (data_dims.cols + data_dims.align_pad)
          (packed_rows (fun v => cvt_ph_ps (cvt_ps_ph v)) csr_data data_dims.rows)
          data_dims.rows buf := by
  unfold decompress_packed_csr_data dec_rows
  apply foldlM_congr_range
  intro k hk B
  rw [decompress_packed_row_eq,
    packing_pass_row_word CACHELINE_SIZE cvt_ps_ph csr_data data_dims _ _ hCL k hk,
    start_vector_int_of_mono csr_data k (fun q hq => hmono q (by omega)),
    num_elems_of_le csr_data k (hmono k hk)]
  obtain ⟨hS, hn⟩ := h16 k hk
  obtain ⟨d1, d2⟩ := row_word_decode _ _ hS hn
  rw [d1, d2]
  have hV := sizing_pass_toNat csr_data data_dims hmono
  have key := packed_entries_of_packing cvt_ps_ph cvt_ph_ps csr_data
    { csr := alloc_packed_csr_array_t CACHELINE_SIZE (sizing_pass csr_data data_dims).toNat
        csr_data.num_nonzeros data_dims.rows,
      curr_wgt_src_idx := 0, curr_wgt_dst_idx := 0, curr_col_src_idx := 0,
      curr_col_dst_idx := 0, curr_packed_row_idx := 0, total_elements_packed := 0 }
    data_dims.rows hmono ⟨rfl, rfl, rfl, rfl⟩
    (by
      have := alloc_packed_vals_length CACHELINE_SIZE (sizing_pass csr_data data_dims).toNat
        csr_data.num_nonzeros data_dims.rows hCL
      simp only; omega)
    (by
      have := alloc_packed_col_idx_length CACHELINE_SIZE (sizing_pass csr_data data_dims).toNat
        csr_data.num_nonzeros data_dims.rows hCL
      simp only; omega)
    k hk
  unfold packing_pass
  rw [key]
  unfold packed_rows
  rw [getD_map_range _ _ _ _ hk]

theorem start_entry_le (csr_data : csr_array_t) (k : Nat) :
    start_entry csr_data k ≤ 16 * start_vector csr_data k := by
  induction k with
  | zero => exact Nat.zero_le _
  | succ k ih =>
    rw [start_entry_succ, start_vector_succ]
    have : row_count csr_data k ≤ 16 * row_vectors csr_data k := by
      unfold row_vectors; omega
    omega

/-- The assertion of line 256 holds when the entry count of the array is the
sum of the row counts. -/
theorem pack_data_vec8_f16_eq_some (CACHELINE_SIZE : Nat) (cvt_ps_ph : F32 → Nat)
    (csr_data : csr_array_t) (data_dims : dims_t)
    (hmono : ∀ q, q < data_dims.rows →
      csr_data.row_idx.getD q 0 ≤ csr_data.row_idx.getD (q + 1) 0)
    (hnnz : csr_data.num_nonzeros = start_entry csr_data data_dims.rows)
    (hV : start_vector csr_data data_dims.rows < 65536) :
    pack_data_vec8_f16 CACHELINE_SIZE cvt_ps_ph csr_data data_dims
      = some (packing_pass cvt_ps_ph csr_data data_dims
          (alloc_packed_csr_array_t CACHELINE_SIZE (sizing_pass csr_data data_dims).toNat
            csr_data.num_nonzeros data_dims.rows)).csr := by
  unfold pack_data_vec8_f16
  simp only
  have htot : (packing_pass cvt_ps_ph csr_data data_dims
      (alloc_packed_csr_array_t CACHELINE_SIZE (sizing_pass csr_data data_dims).toNat
        csr_data.num_nonzeros data_dims.rows)).total_elements_packed
      = (start_entry csr_data data_dims.rows : Int) := by
    unfold packing_pass
    exact packing_rows_total cvt_ps_ph csr_data _ rfl data_dims.rows hmono
  have hle := start_entry_le csr_data data_dims.rows
  rw [if_pos (by rw [htot, hnnz]; omega)]

/-! ## The array of entry lists, as the packer reads it -/

theorem csr_of_row_idx_mono (Es : List (List (F32 × Nat))) (q : Nat) (hq : q < Es.length) :
    (csr_of Es).row_idx.getD q 0 ≤ (csr_of Es).row_idx.getD (q + 1) 0 := by
  rw [row_idx_csr_of Es q (by omega), row_idx_csr_of Es (q + 1) (by omega),
    take_succ_flatten Es q hq, List.length_append]
  omega

theorem csr_of_row_count (Es : List (List (F32 × Nat))) (q : Nat) (hq : q < Es.length) :
    row_count (csr_of Es) q = (Es.getD q []).length := by
  unfold row_count
  rw [row_idx_csr_of Es q (by omega), row_idx_csr_of Es (q + 1) (by omega),
    take_succ_flatten Es q hq, List.length_append]
  omega

theorem csr_of_start_entry (Es : List (List (F32 × Nat))) (r : Nat) (hr : r ≤ Es.length) :
    start_entry (csr_of Es) r = (Es.take r).flatten.length := by
  induction r with
  | zero => rfl
  | succ r ih =>
    rw [start_entry_succ, ih (by omega), csr_of_row_count Es r (by omega),
      take_succ_flatten Es r (by omega), List.length_append]

theorem getD_append_mid {α : Type} (A E R : List α) (i : Nat) (d : α) (hi : i < E.length) :
    (A ++ (E ++ R)).getD (A.length + i) d = E.getD i d := by
  rw [List.getD_append_right _ _ _ _ (by omega), Nat.add_sub_cancel_left,
    List.getD_append _ _ _ _ hi]

/-- The rows that the packed decoder reads back from the packing of `csr_of Es`
are the rows `Es` with their values converted to half precision and back. -/
theorem packed_rows_csr_of (g : F32 → F32) (Es : List (List (F32 × Nat)))
    (hoff : ∀ E, E ∈ Es → ∀ e, e ∈ E → e.2 ≤ 15) :
    packed_rows g (csr_of Es) Es.length = Es.map (map_vals g) := by
  unfold packed_rows
  apply List.ext_getElem (by simp)
  intro r h1 h2
  have hr : r < Es.length := by simpa using h1
  simp only [List.getElem_map, List.getElem_range]
  rw [csr_of_row_count Es r hr, csr_of_start_entry Es r (by omega),
    List.getD_eq_getElem _ _ hr]
  unfold map_vals
  apply List.ext_getElem (by simp)
  intro i g1 g2
  have hi : i < Es[r].length := by simpa using g1
  simp only [List.getElem_map, List.getElem_range]
  have hflat := flatten_eq_take_append Es r hr
  rw [List.getD_eq_getElem _ _ hr] at hflat
  have hv : (csr_of Es).vals.getD ((Es.take r).flatten.length + i) F32.zero
      = (Es[r][i]).1 := by
    simp only [csr_of]
    rw [hflat, List.map_append, List.map_append]
    have := getD_append_mid ((Es.take r).flatten.map Prod.fst) (Es[r].map Prod.fst)
      ((Es.drop (r + 1)).flatten.map Prod.fst) i F32.zero (by simpa using hi)
    rw [List.length_map] at this
    rw [this, List.getD_eq_getElem _ _ (by simpa using hi)]
    simp
  have hc : (csr_of Es).col_idx.getD ((Es.take r).flatten.length + i) 0
      = (Es[r][i]).2 := by
    simp only [csr_of]
    rw [hflat, List.map_append, List.map_append]
    have := getD_append_mid ((Es.take r).flatten.map Prod.snd) (Es[r].map Prod.snd)
      ((Es.drop (r + 1)).flatten.map Prod.snd) i 0 (by simpa using hi)
    rw [List.length_map] at this
    rw [this, List.getD_eq_getElem _ _ (by simpa using hi)]
    simp
  rw [hv, hc]
  have h15 := hoff Es[r] (List.getElem_mem hr) Es[r][i] (List.getElem_mem hi)
  rw [Nat.mod_eq_of_lt (by omega)]

theorem enc_from_offsets_le (off : Nat) (cells : List F32) (h15 : off ≤ 15) :
    ∀ e, e ∈ enc_from off cells → e.2 ≤ 15 := by
  induction cells generalizing off with
  | nil => intro e he; simp [enc_from] at he
  | cons v rest ih =>
    intro e he
    rw [enc_from_cons] at he
    by_cases hemit : emits off v = true
    · rw [if_pos hemit] at he
      rcases List.mem_cons.mp he with h | h
      · rw [h]; exact stored_offset_le off v h15
      · exact ih 0 (Nat.zero_le _) e h
    · rw [if_neg hemit] at he
      obtain ⟨_, hb, hb15⟩ := not_emits off v hemit h15
      rw [hb] at he
      exact ih (off + 1) hb15 e he

theorem all_entries_offsets_le (data : List F32) (data_dims : dims_t) :
    ∀ E, E ∈ all_entries data data_dims → ∀ e, e ∈ E → e.2 ≤ 15 := by
  intro E hE e he
  unfold all_entries at hE
  rw [List.mem_map] at hE
  obtain ⟨r, _, rfl⟩ := hE
  exact enc_from_offsets_le 0 _ (Nat.zero_le _) e he

theorem trunc_zero (z : F32) (hz : z.isZero = true) :
    (trunc_ph_ps (trunc_ps_ph z)).isZero = true := by
  obtain ⟨s, e, m⟩ := z
  simp only [F32.isZero, Bool.and_eq_true, beq_iff_eq] at hz
  obtain ⟨he, hm⟩ := hz
  subst he hm
  cases s <;> rfl

/-- The packed round trip of a dense matrix, cell by cell. -/
theorem packed_round_trip_cells (CACHELINE_SIZE : Nat) (cvt_ps_ph : F32 → Nat)
    (cvt_ph_ps : Nat → F32) (data : List F32) (data_dims : dims_t)
    (hCL : 0 < CACHELINE_SIZE)
    (hh : data_dims.height = 1) (hp : data_dims.align_pad = 0)
    (hlen : data.length = data_dims.rows * data_dims.cols)
    (hrow : ∀ r, r < data_dims.rows →
      (compress_dense_data_csr data data_dims).row_idx.getD (r + 1) 0
        - (compress_dense_data_csr data data_dims).row_idx.getD r 0 < 65536)
    (hvec : sizing_pass (compress_dense_data_csr data data_dims) data_dims < 65536) :
    ∃ p out, pack_data_vec8_f16 CACHELINE_SIZE cvt_ps_ph
          (compress_dense_data_csr data data_dims) data_dims = some p ∧
      decompress_packed_csr_data cvt_ph_ps p.vals p.col_idx p.row_idx data_dims
          (List.replicate (data_dims.rows * data_dims.cols) F32.zero) = some out ∧
      out.length = data_dims.rows * data_dims.cols ∧
      ∀ r c, r < data_dims.rows → c < data_dims.cols →
        out.getD (r * data_dims.cols + c) F32.zero
            = cvt_ph_ps (cvt_ps_ph (data.getD (r * data_dims.cols + c) F32.zero)) ∨
        ((data.getD (r * data_dims.cols + c) F32.zero).isZero = true ∧
          out.getD (r * data_dims.cols + c) F32.zero = F32.zero) := by
  have hcap := hcap_of_length data data_dims hlen
  have hEs := all_entries_length data data_dims
  rw [compress_dense_data_csr_eq_csr_of data data_dims hh hcap] at hrow hvec ⊢
  have hmono : ∀ q, q < data_dims.rows →
      (csr_of (all_entries data data_dims)).row_idx.getD q 0
        ≤ (csr_of (all_entries data data_dims)).row_idx.getD (q + 1) 0 :=
    fun q hq => csr_of_row_idx_mono _ q (by rw [hEs]; exact hq)
  have hV : start_vector (csr_of (all_entries data data_dims)) data_dims.rows < 65536 := by
    have := sizing_pass_toNat (csr_of (all_entries data data_dims)) data_dims hmono
    omega
  have hnnz : (csr_of (all_entries data data_dims)).num_nonzeros
      = start_entry (csr_of (all_entries data data_dims)) data_dims.rows := by
    rw [csr_of_start_entry _ _ (by rw [hEs]), ← hEs, List.take_length]
    rfl
  have h16 : ∀ r, r < data_dims.rows →
      start_vector (csr_of (all_entries data data_dims)) r < 65536 ∧
      row_count (csr_of (all_entries data data_dims)) r < 65536 := by
    intro r hr
    have := start_vector_mono (csr_of (all_entries data data_dims)) r data_dims.rows (by omega)
    exact ⟨by omega, hrow r hr⟩
  have hpack := pack_data_vec8_f16_eq_some CACHELINE_SIZE cvt_ps_ph
    (csr_of (all_entries data data_dims)) data_dims hmono hnnz hV
  have hdec := packed_decode_of_packing CACHELINE_SIZE cvt_ps_ph cvt_ph_ps
    (csr_of (all_entries data data_dims)) data_dims
    (List.replicate (data_dims.rows * data_dims.cols) F32.zero) hCL hmono h16
  have hrows := packed_rows_csr_of (fun v => cvt_ph_ps (cvt_ps_ph v))
    (all_entries data data_dims) (all_entries_offsets_le data data_dims)
  rw [hEs] at hrows
  rw [hrows, hp, Nat.add_zero] at hdec
  obtain ⟨out, h1, h2, h3, _⟩ := dec_rows_all_entries (fun v => cvt_ph_ps (cvt_ps_ph v))
    data data_dims data_dims.cols
    (List.replicate (data_dims.rows * data_dims.cols) F32.zero) (le_refl _)
    (first_cell_zero_of_length data data_dims hlen) (by simp) data_dims.rows (le_refl _)
  refine ⟨_, out, hpack, by rw [hdec]; exact h1, by simpa using h2, ?_⟩
  intro r c hr hc
  have hidx := cell_index_lt r data_dims.rows c data_dims.cols hr hc
  rcases h3 r c hr hc with h | ⟨hz, h⟩
  · left
    rw [h, ARRAY_3D_slice0]
  · right
    rw [ARRAY_3D_slice0] at hz
    refine ⟨hz, ?_⟩
    rw [h, List.getD_eq_getElem _ _ (by simpa using hidx)]
    simp

/-! ## Claims about the encoder and the unpacked decoder -/

/-- C1 (as stated, refuted): the `1 x 1` matrix holding `-0.0f` is not
reproduced bit for bit: the encoder stores nothing for it (`-0.0f != 0` is
false in C), so the pre-zeroed destination keeps `+0.0f`. -/
theorem C1_counterexample :
    decompress_csr_data (compress_dense_data_csr [F32.negZero] ⟨1, 1, 1, 0⟩) ⟨1, 1, 1, 0⟩
        (List.replicate (1 * 1) F32.zero) = some [F32.zero] ∧
      [F32.zero] ≠ [F32.negZero] := by
  decide

/-- C1 (amended): for every dense `rows x cols` matrix with at least one column
(height 1, align_pad 0), `decompress_csr_data` run on `compress_dense_data_csr`
of the matrix into an all-zero destination completes, and the destination then
equals the matrix bit for bit in every cell, except that a cell holding
negative zero may read positive zero; in particular the whole buffer is
reproduced bit for bit when the matrix holds no negative zero. -/
theorem C1_unpacked_round_trip (data : List F32) (data_dims : dims_t)
    (hh : data_dims.height = 1) (hp : data_dims.align_pad = 0)
    (_hc : 0 < data_dims.cols)
    (hlen : data.length = data_dims.rows * data_dims.cols) :
    ∃ out, decompress_csr_data (compress_dense_data_csr data data_dims) data_dims
        (List.replicate (data_dims.rows * data_dims.cols) F32.zero) = some out ∧
      out.length = data_dims.rows * data_dims.cols ∧
      (∀ r c, r < data_dims.rows → c < data_dims.cols →
        out.getD (r * data_dims.cols + c) F32.zero
            = data.getD (r * data_dims.cols + c) F32.zero ∨
        (data.getD (r * data_dims.cols + c) F32.zero = F32.negZero ∧
          out.getD (r * data_dims.cols + c) F32.zero = F32.zero)) ∧
      ((∀ x, x ∈ data → x ≠ F32.negZero) → out = data) := by
  obtain ⟨out, h1, h2, h3⟩ := unpacked_round_trip_cells data data_dims hh hp hlen
  refine ⟨out, h1, h2, h3, ?_⟩
  intro hneg
  have h4 := unpacked_round_trip_exact data data_dims hh hp hlen hneg
  rw [h1] at h4
  exact Option.some.inj h4

/-- C1, exercised on a `2 x 2` matrix that holds both zeros. -/
theorem C1_unpacked_round_trip_witness :
    sample_dims_2x2.height = 1 ∧ sample_dims_2x2.align_pad = 0 ∧
    0 < sample_dims_2x2.cols ∧
    sample_data_2x2.length = sample_dims_2x2.rows * sample_dims_2x2.cols ∧
    ∃ out, decompress_csr_data (compress_dense_data_csr sample_data_2x2 sample_dims_2x2)
        sample_dims_2x2
        (List.replicate (sample_dims_2x2.rows * sample_dims_2x2.cols) F32.zero) = some out ∧
      out.length = sample_dims_2x2.rows * sample_dims_2x2.cols ∧
      (∀ r c, r < sample_dims_2x2.rows → c < sample_dims_2x2.cols →
        out.getD (r * sample_dims_2x2.cols + c) F32.zero
            = sample_data_2x2.getD (r * sample_dims_2x2.cols + c) F32.zero ∨
        (sample_data_2x2.getD (r * sample_dims_2x2.cols + c) F32.zero = F32.negZero ∧
          out.getD (r * sample_dims_2x2.cols + c) F32.zero = F32.zero)) ∧
      ((∀ x, x ∈ sample_data_2x2 → x ≠ F32.negZero) → out = sample_data_2x2) :=
  ⟨rfl, rfl, by decide, rfl,
    C1_unpacked_round_trip sample_data_2x2 sample_dims_2x2 rfl rfl (by decide) rfl⟩

/-- C3: for every dense buffer and every dimensions descriptor (any height),
every entry of the `col_idx` array produced by `compress_dense_data_csr` lies
in the range 0..15. -/
theorem C3_offset_bound (data : List F32) (data_dims : dims_t) :
    ∀ x, x ∈ (compress_dense_data_csr data data_dims).col_idx → 0 ≤ x ∧ x ≤ 15 :=
  fun x hx => ⟨Nat.zero_le x, compress_offsets_le data data_dims x hx⟩

/-- C3, exercised on the padding offset of the `1 x 20` row of scenario B. -/
theorem C3_offset_bound_witness :
    15 ∈ (compress_dense_data_csr sample_row_20 sample_dims_1x20).col_idx ∧ (0 ≤ 15 ∧ 15 ≤ 15) :=
  ⟨by decide, C3_offset_bound sample_row_20 sample_dims_1x20 15 (by decide)⟩

/-- C4: for every dense `rows x cols` matrix with height 1, the `row_idx` array
produced by `compress_dense_data_csr` has `rows + 1` entries, starts with 0, is
non-decreasing, and ends with `num_nonzeros`, which is the number of stored
entries (values and offsets alike, padding included). -/
theorem C4_row_boundaries (data : List F32) (data_dims : dims_t)
    (hh : data_dims.height = 1)
    (hlen : data.length = data_dims.rows * data_dims.cols) :
    (compress_dense_data_csr data data_dims).row_idx.length = data_dims.rows + 1 ∧
    (compress_dense_data_csr data data_dims).row_idx.getD 0 0 = 0 ∧
    (∀ r, r < data_dims.rows →
      (compress_dense_data_csr data data_dims).row_idx.getD r 0
        ≤ (compress_dense_data_csr data data_dims).row_idx.getD (r + 1) 0) ∧
    (compress_dense_data_csr data data_dims).row_idx.getD data_dims.rows 0
      = (compress_dense_data_csr data data_dims).num_nonzeros ∧
    (compress_dense_data_csr data data_dims).vals.length
      = (compress_dense_data_csr data data_dims).num_nonzeros ∧
    (compress_dense_data_csr data data_dims).col_idx.length
      = (compress_dense_data_csr data data_dims).num_nonzeros := by
  have hcap := hcap_of_length data data_dims hlen
  have hidx := compress_row_idx data data_dims hh hcap
  refine ⟨?_, ?_, ?_, ?_, ?_, ?_⟩
  · rw [compress_dense_data_csr_eq data data_dims hh hcap]; simp
  · rw [hidx 0 (Nat.zero_le _), entries_upto_zero]; rfl
  · intro r hr
    rw [hidx r (by omega), hidx (r + 1) (by omega), entries_upto_succ, List.length_append]
    omega
  · rw [hidx _ (le_refl _), compress_dense_data_csr_eq data data_dims hh hcap]
  · rw [compress_dense_data_csr_eq data data_dims hh hcap]; simp
  · rw [compress_dense_data_csr_eq data data_dims hh hcap]; simp

/-- C4, exercised on a `2 x 2` matrix. -/
theorem C4_row_boundaries_witness :
    sample_dims_2x2.height = 1 ∧
    sample_data_2x2.length = sample_dims_2x2.rows * sample_dims_2x2.cols ∧
    (compress_dense_data_csr sample_data_2x2 sample_dims_2x2).row_idx.length
      = sample_dims_2x2.rows + 1 ∧
    (compress_dense_data_csr sample_data_2x2 sample_dims_2x2).row_idx.getD 0 0 = 0 ∧
    (∀ r, r < sample_dims_2x2.rows →
      (compress_dense_data_csr sample_data_2x2 sample_dims_2x2).row_idx.getD r 0
        ≤ (compress_dense_data_csr sample_data_2x2 sample_dims_2x2).row_idx.getD (r + 1) 0) ∧
    (compress_dense_data_csr sample_data_2x2 sample_dims_2x2).row_idx.getD
        sample_dims_2x2.rows 0
      = (compress_dense_data_csr sample_data_2x2 sample_dims_2x2).num_nonzeros ∧
    (compress_dense_data_csr sample_data_2x2 sample_dims_2x2).vals.length
      = (compress_dense_data_csr sample_data_2x2 sample_dims_2x2).num_nonzeros ∧
    (compress_dense_data_csr sample_data_2x2 sample_dims_2x2).col_idx.length
      = (compress_dense_data_csr sample_data_2x2 sample_dims_2x2).num_nonzeros :=
  ⟨rfl, rfl, C4_row_boundaries sample_data_2x2 sample_dims_2x2 rfl rfl⟩

/-- C8: for every dense matrix (height 1, at least one column) and every row
whose cells are all zero, `compress_dense_data_csr` stores no entry for that
row and `row_idx[r+1] = row_idx[r]`; a matrix whose cells are all zero encodes
to `num_nonzeros = 0`, no value and a `row_idx` of zeros; the `2 x 4` zero
matrix encodes to `row_idx = [0, 0, 0]`. -/
theorem C8_all_zero_rows (data : List F32) (data_dims : dims_t)
    (hh : data_dims.height = 1) (hc : 0 < data_dims.cols) :
    (∀ r, r < data_dims.rows →
      (∀ c, c < data_dims.cols →
        (data.getD (r * data_dims.cols + c) F32.zero).isZero = true) →
      row_slice (compress_dense_data_csr data data_dims) r = [] ∧
      (compress_dense_data_csr data data_dims).row_idx.getD (r + 1) 0
        = (compress_dense_data_csr data data_dims).row_idx.getD r 0) ∧
    ((∀ x, x ∈ data → x.isZero = true) →
      (compress_dense_data_csr data data_dims).num_nonzeros = 0 ∧
      (compress_dense_data_csr data data_dims).vals = [] ∧
      (compress_dense_data_csr data data_dims).row_idx
        = List.replicate (data_dims.rows + 1) 0) ∧
    compress_dense_data_csr sample_zero_2x4 sample_dims_2x4
      = { vals := [], col_idx := [], row_idx := [0, 0, 0], num_nonzeros := 0, num_rows := 2 } := by
  have hcap : ∀ r, r < data_dims.rows →
      (row_entries data data_dims 0 r).length ≤ data_dims.cols :=
    fun r _ => row_entries_length_le_of_pos data data_dims 0 r hc
  have hidx := compress_row_idx data data_dims hh hcap
  have hmax : max data_dims.cols 1 = data_dims.cols := by omega
  refine ⟨?_, ?_, by decide⟩
  · intro r hr hz
    have hnil : row_entries data data_dims 0 r = [] := by
      apply row_entries_all_zero
      intro c hcc
      rw [ARRAY_3D_slice0]
      exact hz c (by omega)
    refine ⟨?_, ?_⟩
    · rw [compress_row_slice data data_dims hh hcap r hr, hnil]
    · rw [hidx r (by omega), hidx (r + 1) (by omega), entries_upto_succ, hnil]
      simp
  · intro hall
    have hnil : ∀ r, row_entries data data_dims 0 r = [] := by
      intro r
      apply row_entries_all_zero
      intro c _
      rw [ARRAY_3D_slice0]
      by_cases hi : r * data_dims.cols + c < data.length
      · rw [List.getD_eq_getElem _ _ hi]
        exact hall _ (List.getElem_mem hi)
      · rw [List.getD_eq_default _ _ (by omega)]
        rfl
    have hupto : ∀ k, entries_upto data data_dims k = [] := by
      intro k
      induction k with
      | zero => exact entries_upto_zero data data_dims
      | succ k ih => rw [entries_upto_succ, ih, hnil]; rfl
    rw [compress_dense_data_csr_eq data data_dims hh hcap]
    simp only [hupto, List.length_nil, List.map_nil, true_and]
    exact map_range_const _ _

/-- C8, exercised on the `2 x 4` zero matrix. -/
theorem C8_all_zero_rows_witness :
    sample_dims_2x4.height = 1 ∧ 0 < sample_dims_2x4.cols ∧
    (∀ r, r < sample_dims_2x4.rows →
      (∀ c, c < sample_dims_2x4.cols →
        (sample_zero_2x4.getD (r * sample_dims_2x4.cols + c) F32.zero).isZero = true) →
      row_slice (compress_dense_data_csr sample_zero_2x4 sample_dims_2x4) r = [] ∧
      (compress_dense_data_csr sample_zero_2x4 sample_dims_2x4).row_idx.getD (r + 1) 0
        = (compress_dense_data_csr sample_zero_2x4 sample_dims_2x4).row_idx.getD r 0) ∧
    ((∀ x, x ∈ sample_zero_2x4 → x.isZero = true) →
      (compress_dense_data_csr sample_zero_2x4 sample_dims_2x4).num_nonzeros = 0 ∧
      (compress_dense_data_csr sample_zero_2x4 sample_dims_2x4).vals = [] ∧
      (compress_dense_data_csr sample_zero_2x4 sample_dims_2x4).row_idx
        = List.replicate (sample_dims_2x4.rows + 1) 0) ∧
    compress_dense_data_csr sample_zero_2x4 sample_dims_2x4
      = { vals := [], col_idx := [], row_idx := [0, 0, 0], num_nonzeros := 0, num_rows := 2 } :=
  ⟨rfl, by decide, C8_all_zero_rows sample_zero_2x4 sample_dims_2x4 rfl (by decide)⟩

/-- The content of a row of the encoder output, for a dense matrix with at
least one column (height 1): the values of the stored entries of row `r` that
are not zero are exactly the non-zero cells of the row, in increasing column
order, and every stored entry of the row whose value is zero is a padding entry
with offset exactly 15. -/
theorem encoder_content_of_pos_cols (data : List F32) (data_dims : dims_t)
    (hh : data_dims.height = 1) (hc : 0 < data_dims.cols)
    (hlen : data.length = data_dims.rows * data_dims.cols)
    (r : Nat) (hr : r < data_dims.rows) :
    ((row_slice (compress_dense_data_csr data data_dims) r).map Prod.fst).filter
        (fun v => !v.isZero)
      = (row_list data data_dims r).filter (fun v => !v.isZero) ∧
    ∀ e, e ∈ row_slice (compress_dense_data_csr data data_dims) r →
      e.1.isZero = true → e.2 = 15 := by
  have hcap := hcap_of_length data data_dims hlen
  rw [compress_row_slice data data_dims hh hcap r hr]
  refine ⟨?_, ?_⟩
  · rw [row_entries_eq_strip data data_dims r (fun h => absurd hc (by omega)),
      enc_from_filter, strip_filter]
  · exact enc_from_padding 0 _ (Nat.zero_le _)

/-- C6: for every row of a dense matrix (height 1) and every non-zero cell `v`
preceded by a run `zs` of exactly `g` zero cells since the previous non-zero
cell (or since the row start), the encoder stores, after the entries of the
cells before the run, exactly `g / 16` padding entries (zero value, offset 15)
followed by `(v, g mod 16)`, and then the entries of the rest of the row.  In
particular a `1 x 20` row with non-zeros only in columns 0 and 19 encodes to
`(v0, 0), (0, 15), (v19, 2)` with `row_idx = [0, 3]`, and a run of exactly 16
zeros gives one padding entry followed by offset 0. -/
theorem C6_gap_formula (data : List F32) (data_dims : dims_t)
    (hh : data_dims.height = 1)
    (hlen : data.length = data_dims.rows * data_dims.cols)
    (r : Nat) (hr : r < data_dims.rows)
    (pre zs post : List F32) (v : F32)
    (hrow : row_list data data_dims r = pre ++ zs ++ v :: post)
    (hpre : pre = [] ∨ ∃ p w, pre = p ++ [w] ∧ w.isZero = false)
    (hzs : ∀ z, z ∈ zs → z.isZero = true) (hv : v.isZero = false) :
    (row_slice (compress_dense_data_csr data data_dims) r
      = encode_row pre ++ pads 0 zs ++ (v, zs.length % 16) :: encode_row post ∧
     (pads 0 zs).length = zs.length / 16 ∧
     ∀ e, e ∈ pads 0 zs → e.1.isZero = true ∧ e.2 = 15) ∧
    (∀ v0 v19 : F32, v0.isZero = false → v19.isZero = false →
      compress_dense_data_csr (v0 :: (List.replicate 18 F32.zero ++ [v19])) ⟨1, 20, 1, 0⟩
        = { vals := [v0, F32.zero, v19], col_idx := [0, 15, 2], row_idx := [0, 3],
            num_nonzeros := 3, num_rows := 1 }) ∧
    (∀ w : F32, w.isZero = false →
      compress_dense_data_csr (List.replicate 16 F32.zero ++ [w]) ⟨1, 17, 1, 0⟩
        = { vals := [F32.zero, w], col_idx := [15, 0], row_idx := [0, 2],
            num_nonzeros := 2, num_rows := 1 }) := by
  have hcap := hcap_of_length data data_dims hlen
  refine ⟨⟨?_, ?_, pads_mem zs hzs⟩, ?_, ?_⟩
  · rw [compress_row_slice data data_dims hh hcap r hr,
      row_entries_eq_strip data data_dims r
        (fun h => first_cell_zero_of_length data data_dims hlen h r),
      hrow, encode_row_eq, encode_row_eq, enc_strip_split pre zs post v hpre hzs hv]
  · rw [pads_length, Nat.zero_add]
  · intro v0 v19 h0 h19
    have key := compress_one_row (v0 :: (List.replicate 18 F32.zero ++ [v19]))
    have hs := enc_strip_split [v0] (List.replicate 18 F32.zero) [] v19
      (Or.inr ⟨[], v0, rfl, h0⟩) (by decide) h19
    have h1 : enc_from 0 (strip [v0]) = [(v0, 0)] := by
      rw [strip_cons_nonzero v0 [] h0, enc_from_nonzero 0 v0 _ h0 (Nat.zero_le _)]
      rfl
    rw [h1] at hs
    have h2 : [v0] ++ List.replicate 18 F32.zero ++ [v19]
        = v0 :: (List.replicate 18 F32.zero ++ [v19]) := rfl
    rw [h2] at hs
    rw [hs] at key
    exact key
  · intro w hw
    have key := compress_one_row (List.replicate 16 F32.zero ++ [w])
    have hs := enc_strip_split [] (List.replicate 16 F32.zero) [] w (Or.inl rfl) (by decide) hw
    rw [List.nil_append] at hs
    rw [hs] at key
    exact key

/-- C6, exercised on the `1 x 20` row of scenario B. -/
theorem C6_gap_formula_witness :
    sample_dims_1x20.height = 1 ∧
    sample_row_20.length = sample_dims_1x20.rows * sample_dims_1x20.cols ∧
    0 < sample_dims_1x20.rows ∧
    row_list sample_row_20 sample_dims_1x20 0
      = [f32_one] ++ List.replicate 18 F32.zero ++ f32_two :: [] ∧
    (row_slice (compress_dense_data_csr sample_row_20 sample_dims_1x20) 0
      = encode_row [f32_one] ++ pads 0 (List.replicate 18 F32.zero)
          ++ (f32_two, (List.replicate 18 F32.zero).length % 16) :: encode_row [] ∧
     (pads 0 (List.replicate 18 F32.zero)).length = (List.replicate 18 F32.zero).length / 16 ∧
     ∀ e, e ∈ pads 0 (List.replicate 18 F32.zero) → e.1.isZero = true ∧ e.2 = 15) :=
  ⟨rfl, rfl, by decide, by decide,
    (C6_gap_formula sample_row_20 sample_dims_1x20 rfl rfl 0 (by decide)
      [f32_one] (List.replicate 18 F32.zero) [] f32_two (by decide)
      (Or.inr ⟨[], f32_one, rfl, rfl⟩) (by decide) rfl).1⟩

/-- The padding of the encoder is minimal, for a dense matrix with at least
one column (height 1): every list `alt` of (value, offset) pairs with offsets
in 0..15 whose cursor decoding (the unpacked decoder run on the one-row array
holding `alt`) into an all-zero row gives exactly row `r` has at least as many
entries as `compress_dense_data_csr` stores for the row, also for a run of
exactly 16 zeros. -/
theorem minimal_padding_of_pos_cols (data : List F32) (data_dims : dims_t)
    (hh : data_dims.height = 1) (hc : 0 < data_dims.cols)
    (hlen : data.length = data_dims.rows * data_dims.cols)
    (r : Nat) (hr : r < data_dims.rows)
    (alt : List (F32 × Nat)) (hoff : ∀ e, e ∈ alt → e.2 ≤ 15)
    (hdec : decompress_csr_data
        { vals := alt.map Prod.fst, col_idx := alt.map Prod.snd,
          row_idx := [0, alt.length], num_nonzeros := alt.length, num_rows := 1 }
        ⟨1, data_dims.cols, 1, 0⟩ (List.replicate data_dims.cols F32.zero)
      = some (row_list data data_dims r)) :
    (row_slice (compress_dense_data_csr data data_dims) r).length ≤ alt.length ∧
    (compress_dense_data_csr data data_dims).row_idx.getD (r + 1) 0
      - (compress_dense_data_csr data data_dims).row_idx.getD r 0 ≤ alt.length := by
  have hcap := hcap_of_length data data_dims hlen
  have hL : (row_list data data_dims r).length = data_dims.cols := by simp [row_list]
  rw [decompress_single] at hdec
  have hmin := minimal_entries alt (row_list data data_dims r) hoff (by rw [hL]; exact hdec)
  have hslice : (row_slice (compress_dense_data_csr data data_dims) r).length
      ≤ alt.length := by
    rw [compress_row_slice data data_dims hh hcap r hr,
      row_entries_eq_strip data data_dims r (fun h => absurd hc (by omega))]
    exact hmin
  refine ⟨hslice, ?_⟩
  rw [compress_row_idx data data_dims hh hcap r (by omega),
    compress_row_idx data data_dims hh hcap (r + 1) (by omega), entries_upto_succ,
    List.length_append, Nat.add_sub_cancel_left,
    row_entries_eq_strip data data_dims r (fun h => absurd hc (by omega))]
  exact hmin

/-! ## Claims about the packer -/

/-- C9: for every unpacked CSR array with non-decreasing `row_idx`, the
`total_num_vectors` of the sizing pass of `pack_data_vec8_f16` is the sum over
the rows of `ceil((row_idx[r+1] - row_idx[r]) / 16)`; a row with 16 entries
contributes 1 vector, one with 17 entries 2, one with none 0. -/
theorem C9_sizing_pass (csr_data : csr_array_t) (data_dims : dims_t)
    (hmono : ∀ r, r < data_dims.rows →
      csr_data.row_idx.getD r 0 ≤ csr_data.row_idx.getD (r + 1) 0) :
    sizing_pass csr_data data_dims
      = ((((List.range data_dims.rows).map
          (fun r => (csr_data.row_idx.getD (r + 1) 0 - csr_data.row_idx.getD r 0 + 15) / 16)).sum
          : Nat) : Int) ∧
    sizing_pass { csr_data with row_idx := [0, 16] } { data_dims with rows := 1 } = 1 ∧
    sizing_pass { csr_data with row_idx := [0, 17] } { data_dims with rows := 1 } = 2 ∧
    sizing_pass { csr_data with row_idx := [0, 0] } { data_dims with rows := 1 } = 0 := by
  refine ⟨?_, rfl, rfl, rfl⟩
  rw [sizing_pass_eq, start_vector_int_of_mono csr_data data_dims.rows hmono]
  rfl

/-- C9, exercised on an array with rows of 16, 17 and 0 entries. -/
theorem C9_sizing_pass_witness :
    (∀ r, r < (⟨3, 40, 1, 0⟩ : dims_t).rows →
      (⟨[], [], [0, 16, 33, 33], 33, 3⟩ : csr_array_t).row_idx.getD r 0
        ≤ (⟨[], [], [0, 16, 33, 33], 33, 3⟩ : csr_array_t).row_idx.getD (r + 1) 0) ∧
    sizing_pass ⟨[], [], [0, 16, 33, 33], 33, 3⟩ ⟨3, 40, 1, 0⟩ = ((3 : Nat) : Int) :=
  ⟨by decide, (C9_sizing_pass ⟨[], [], [0, 16, 33, 33], 33, 3⟩ ⟨3, 40, 1, 0⟩ (by decide)).1⟩

/-- C10: for every unpacked CSR array and every row `r`, the 32-bit word that
`pack_data_vec8_f16` stores in the packed `row_idx[r]` is
`(S_r << 16) | (n_r & 0xffff)` modulo `2 ^ 32`, that is
`(S_r * 65536 + n_r mod 65536) mod 2 ^ 32`, where `n_r = row_idx[r+1] -
row_idx[r]` and `S_r` is the sum of `ceil(n_q / 16)` over the rows `q < r`; for
a single row with 16 entries the word is 16. -/
theorem C10_row_metadata_word (CACHELINE_SIZE : Nat) (cvt_ps_ph : F32 → Nat)
    (csr_data : csr_array_t) (data_dims : dims_t) (hCL : 0 < CACHELINE_SIZE)
    (r : Nat) (hr : r < data_dims.rows) :
    (packing_pass cvt_ps_ph csr_data data_dims
        (alloc_packed_csr_array_t CACHELINE_SIZE (sizing_pass csr_data data_dims).toNat
          csr_data.num_nonzeros data_dims.rows)).csr.row_idx.getD r 0
      = ((start_vector_int csr_data r * 65536 + num_elems csr_data r % 65536)
          % 4294967296).toNat ∧
    (∀ p, pack_data_vec8_f16 CACHELINE_SIZE cvt_ps_ph csr_data data_dims = some p →
      p.row_idx.getD r 0
        = ((start_vector_int csr_data r * 65536 + num_elems csr_data r % 65536)
            % 4294967296).toNat) ∧
    ((∀ q, q ≤ r → csr_data.row_idx.getD q 0 ≤ csr_data.row_idx.getD (q + 1) 0) →
      (packing_pass cvt_ps_ph csr_data data_dims
          (alloc_packed_csr_array_t CACHELINE_SIZE (sizing_pass csr_data data_dims).toNat
            csr_data.num_nonzeros data_dims.rows)).csr.row_idx.getD r 0
        = ((start_vector csr_data r <<< 16) ||| (row_count csr_data r &&& 0xffff))
            % 4294967296) ∧
    (r = 0 → num_elems csr_data 0 = 16 →
      (packing_pass cvt_ps_ph csr_data data_dims
          (alloc_packed_csr_array_t CACHELINE_SIZE (sizing_pass csr_data data_dims).toNat
            csr_data.num_nonzeros data_dims.rows)).csr.row_idx.getD r 0 = 16) := by
  have key := packing_pass_row_word CACHELINE_SIZE cvt_ps_ph csr_data data_dims
    (sizing_pass csr_data data_dims).toNat csr_data.num_nonzeros hCL r hr
  refine ⟨?_, ?_, ?_, ?_⟩
  · rw [key, row_word_eq]
  · intro p hp
    unfold pack_data_vec8_f16 at hp
    simp only at hp
    split at hp
    · rw [← Option.some.inj hp, key, row_word_eq]
    · exact absurd hp (by simp)
  · intro hmono
    rw [key, start_vector_int_of_mono csr_data r (fun q hq => hmono q (by omega)),
      num_elems_of_le csr_data r (hmono r (le_refl _)), row_word_nat]
  · intro h0 h16
    subst h0
    have hS : start_vector_int csr_data 0 = 0 := rfl
    rw [key, h16, hS]
    decide

/-- C10, exercised on the second row of an array with rows of 16 and 17
entries. -/
theorem C10_row_metadata_word_witness :
    0 < 64 ∧ 1 < (⟨2, 40, 1, 0⟩ : dims_t).rows ∧
    (packing_pass (fun _ => 0) ⟨[], [], [0, 16, 33], 33, 2⟩ ⟨2, 40, 1, 0⟩
        (alloc_packed_csr_array_t 64
          (sizing_pass ⟨[], [], [0, 16, 33], 33, 2⟩ ⟨2, 40, 1, 0⟩).toNat
          (⟨[], [], [0, 16, 33], 33, 2⟩ : csr_array_t).num_nonzeros
          (⟨2, 40, 1, 0⟩ : dims_t).rows)).csr.row_idx.getD 1 0
      = ((start_vector_int ⟨[], [], [0, 16, 33], 33, 2⟩ 1 * 65536
          + num_elems ⟨[], [], [0, 16, 33], 33, 2⟩ 1 % 65536) % 4294967296).toNat :=
  ⟨by decide, by decide,
    (C10_row_metadata_word 64 (fun _ => 0) ⟨[], [], [0, 16, 33], 33, 2⟩ ⟨2, 40, 1, 0⟩
      (by decide) 1 (by decide)).1⟩

/-! ## The decoders as cursor decodings of the rows they read -/

/-- The inner loop of `decompress_csr_data`, reading `n` entries from the running
position `k` on. -/
theorem iterate_decompress_step_read (csr_data : csr_array_t) (data_dims : dims_t)
    (row n k cur : Nat) (buf : List F32) :
    (iterate_opt (decompress_step csr_data data_dims row) n ⟨buf, k, cur⟩).map
        (fun e => (e.dcmp_data, e.curr_col_idx))
      = (dec_from (data_dims.cols + data_dims.align_pad) row cur
          ((List.range n).map (fun i =>
            (csr_data.vals.getD (k + i) F32.zero, csr_data.col_idx.getD (k + i) 0))) buf).map
        (fun b => (b, k + n)) := by
  induction n generalizing k cur buf with
  | zero => simp [iterate_opt, dec_from]
  | succ n ih =>
    rw [List.range_succ_eq_map]
    simp only [List.map_cons, List.map_map, iterate_opt, dec_from, decompress_step,
      Nat.add_zero]
    by_cases hlt : cur + csr_data.col_idx.getD k 0 < data_dims.cols + data_dims.align_pad
    · rw [if_pos hlt, if_pos hlt]
      simp only [Option.some_bind]
      rw [ih (k + 1) (cur + csr_data.col_idx.getD k 0 + 1) _]
      have hf : (fun i => (csr_data.vals.getD (k + 1 + i) F32.zero,
            csr_data.col_idx.getD (k + 1 + i) 0))
          = ((fun i => (csr_data.vals.getD (k + i) F32.zero,
            csr_data.col_idx.getD (k + i) 0)) ∘ Nat.succ) := by
        funext i
        simp only [Function.comp, Nat.succ_eq_add_one]
        rw [show k + 1 + i = k + (i + 1) by omega]
      rw [hf]
      congr 1
      funext b
      congr 1
      omega
    · rw [if_neg hlt, if_neg hlt]
      simp

/-- The body of the row loop of `decompress_csr_data`, entered with the running
position of row `k`. -/
theorem decompress_row_read (csr_data : csr_array_t) (data_dims : dims_t)
    (k : Nat) (buf : List F32) :
    decompress_row csr_data data_dims (buf, start_entry csr_data k) k
      = (dec_from (data_dims.cols + data_dims.align_pad) k 0
          ((List.range (row_count csr_data k)).map (fun i =>
            (csr_data.vals.getD (start_entry csr_data k + i) F32.zero,
             csr_data.col_idx.getD (start_entry csr_data k + i) 0))) buf).map
        (fun b => (b, start_entry csr_data (k + 1))) := by
  have hn : (((csr_data.row_idx.getD (k + 1) 0 : Nat) : Int)
      - ((csr_data.row_idx.getD k 0 : Nat) : Int)).toNat = row_count csr_data k := by
    unfold row_count
    omega
  unfold decompress_row
  simp only [hn]
  rw [iterate_decompress_step_read, start_entry_succ]

/-- `decompress_csr_data` is the cursor decoding of the rows it reads. -/
theorem decompress_csr_data_eq_dec_rows (csr_data : csr_array_t) (data_dims : dims_t)
    (buf : List F32) :
    decompress_csr_data csr_data data_dims buf
      = dec_rows (data_dims.cols + data_dims.align_pad)
          (stored_rows csr_data data_dims.rows) data_dims.rows buf := by
  have key : ∀ k, k ≤ data_dims.rows →
      (List.range k).foldlM (decompress_row csr_data data_dims) (buf, 0)
        = (dec_rows (data_dims.cols + data_dims.align_pad)
            (stored_rows csr_data data_dims.rows) k buf).map
          (fun b => (b, start_entry csr_data k)) := by
    intro k hk
    induction k with
    | zero => simp [dec_rows, start_entry]
    | succ k ih =>
      rw [List.range_succ, List.foldlM_append, ih (by omega)]
      unfold dec_rows
      rw [List.range_succ, List.foldlM_append]
      cases hres : (List.range k).foldlM
          (fun B k => dec_from (data_dims.cols + data_dims.align_pad) k 0
            ((stored_rows csr_data data_dims.rows).getD k []) B) buf with
      | none => simp
      | some B =>
        simp only [Option.map_some', Option.some_bind, List.foldlM_cons, List.foldlM_nil,
          Option.bind_eq_bind]
        rw [decompress_row_read csr_data data_dims k B]
        have hE : (stored_rows csr_data data_dims.rows).getD k []
            = (List.range (row_count csr_data k)).map (fun i =>
                (csr_data.vals.getD (start_entry csr_data k + i) F32.zero,
                 csr_data.col_idx.getD (start_entry csr_data k + i) 0)) := by
          unfold stored_rows
          rw [getD_map_range _ _ _ _ (by omega)]
        rw [hE]
        cases dec_from (data_dims.cols + data_dims.align_pad) k 0
          ((List.range (row_count csr_data k)).map (fun i =>
            (csr_data.vals.getD (start_entry csr_data k + i) F32.zero,
             csr_data.col_idx.getD (start_entry csr_data k + i) 0))) B <;> simp
  unfold decompress_csr_data
  rw [key data_dims.rows (le_refl _)]
  cases dec_rows (data_dims.cols + data_dims.align_pad)
    (stored_rows csr_data data_dims.rows) data_dims.rows buf <;> simp

/-- `decompress_packed_csr_data` is the cursor decoding of the rows it reads. -/
theorem decompress_packed_csr_data_eq_dec_rows (cvt_ph_ps : Nat → F32)
    (cmp_data : List (List Nat)) (cmp_col_idx cmp_row_idx : List Nat) (data_dims : dims_t)
    (buf : List F32) :
    decompress_packed_csr_data cvt_ph_ps cmp_data cmp_col_idx cmp_row_idx data_dims buf
      = dec_rows (data_dims.cols + data_dims.align_pad)
          (packed_stored_rows cvt_ph_ps cmp_data cmp_col_idx cmp_row_idx data_dims.rows)
          data_dims.rows buf := by
  unfold decompress_packed_csr_data dec_rows
  apply foldlM_congr_range
  intro k hk b
  rw [decompress_packed_row_eq]
  unfold packed_stored_rows
  rw [getD_map_range _ _ _ _ hk]

/-! ## Reconstructed columns, faults and writes of the cursor decoding -/

theorem recon_col_zero (e : F32 × Nat) (E : List (F32 × Nat)) :
    recon_col (e :: E) 0 = e.2 := by
  simp [recon_col]

theorem recon_col_succ (e : F32 × Nat) (E : List (F32 × Nat)) (k : Nat)
    (hk : k < E.length) :
    recon_col (e :: E) (k + 1) = e.2 + 1 + recon_col E k := by
  cases E with
  | nil => simp at hk
  | cons x E =>
    simp only [recon_col, List.take_succ_cons, List.map_cons, List.sum_cons]
    omega

/-- Within a row the reconstructed columns are strictly increasing. -/
theorem recon_col_lt_succ (E : List (F32 × Nat)) (k : Nat) (hk : k + 1 < E.length) :
    recon_col E k < recon_col E (k + 1) := by
  induction E generalizing k with
  | nil => simp at hk
  | cons e E ih =>
    simp only [List.length_cons] at hk
    cases k with
    | zero =>
      rw [recon_col_zero, recon_col_succ e E 0 (by omega)]
      omega
    | succ k =>
      rw [recon_col_succ e E k (by omega), recon_col_succ e E (k + 1) (by omega)]
      have := ih k (by omega)
      omega

/-- The reconstructed columns do not depend on the values. -/
theorem recon_col_map_vals (g : F32 → F32) (E : List (F32 × Nat)) (k : Nat) :
    recon_col (map_vals g E) k = recon_col E k := by
  unfold recon_col map_vals
  rw [← List.map_take, List.map_map]
  rfl

theorem map_vals_length (g : F32 → F32) (E : List (F32 × Nat)) :
    (map_vals g E).length = E.length := by
  simp [map_vals]

/-- The cursor decoding of a row fails exactly when some entry is reconstructed
at or beyond the width; the buffer plays no role. -/
theorem dec_from_eq_none_iff (width row : Nat) (E : List (F32 × Nat)) (cur : Nat)
    (buf : List F32) :
    dec_from width row cur E buf = none
      ↔ ∃ k, k < E.length ∧ width ≤ cur + recon_col E k := by
  induction E generalizing cur buf with
  | nil => simp [dec_from]
  | cons e E ih =>
    obtain ⟨v, off⟩ := e
    simp only [dec_from]
    by_cases hlt : cur + off < width
    · rw [if_pos hlt, ih]
      constructor
      · rintro ⟨k, hk, hw⟩
        refine ⟨k + 1, by simp only [List.length_cons]; omega, ?_⟩
        rw [recon_col_succ _ _ _ hk]
        simp only
        omega
      · rintro ⟨k, hk, hw⟩
        simp only [List.length_cons] at hk
        cases k with
        | zero =>
          rw [recon_col_zero] at hw
          simp only at hw
          omega
        | succ k =>
          refine ⟨k, by omega, ?_⟩
          rw [recon_col_succ _ _ _ (by omega)] at hw
          simp only at hw
          omega
    · rw [if_neg hlt]
      simp only [true_iff]
      refine ⟨0, by simp, ?_⟩
      rw [recon_col_zero]
      simp only
      omega

theorem foldl_congr_range {β : Type} (f g : β → Nat → β) (n : Nat) (b : β)
    (h : ∀ k, k < n → ∀ b, f b k = g b k) :
    (List.range n).foldl f b = (List.range n).foldl g b := by
  induction n with
  | zero => rfl
  | succ n ih =>
    rw [List.range_succ, List.foldl_append, List.foldl_append,
      ih (fun k hk b => h k (by omega) b)]
    simp only [List.foldl_cons, List.foldl_nil]
    rw [h n (by omega)]

/-- When no entry is reconstructed at or beyond the width, the cursor decoding
of a row writes each value at its reconstructed column, in order. -/
theorem dec_from_eq_some (width row : Nat) (E : List (F32 × Nat)) (cur : Nat)
    (buf : List F32) (hall : ∀ k, k < E.length → cur + recon_col E k < width) :
    dec_from width row cur E buf
      = some ((List.range E.length).foldl
          (fun b k => b.set (ARRAY_2D_idx width row (cur + recon_col E k))
            (E.getD k (F32.zero, 0)).1) buf) := by
  induction E generalizing cur buf with
  | nil => simp [dec_from]
  | cons e E ih =>
    obtain ⟨v, off⟩ := e
    have h0 := hall 0 (by simp)
    rw [recon_col_zero] at h0
    simp only at h0
    simp only [dec_from]
    rw [if_pos h0, ih (cur + off + 1) _ (fun k hk => by
      have := hall (k + 1) (by simp only [List.length_cons]; omega)
      rw [recon_col_succ _ _ _ hk] at this
      simp only at this
      omega)]
    simp only [List.length_cons]
    rw [List.range_succ_eq_map, List.foldl_cons, List.foldl_map, recon_col_zero]
    simp only [List.getD_cons_zero]
    congr 1
    apply foldl_congr_range
    intro k hk b
    simp only [Nat.succ_eq_add_one, List.getD_cons_succ]
    rw [recon_col_succ _ _ _ hk]
    simp only
    rw [show cur + (off + 1 + recon_col E k) = cur + off + 1 + recon_col E k by omega]

theorem dec_from_eq_write_entries (width row : Nat) (E : List (F32 × Nat))
    (buf : List F32) (hall : ∀ k, k < E.length → recon_col E k < width) :
    dec_from width row 0 E buf = some (write_entries width row E buf) := by
  rw [dec_from_eq_some width row E 0 buf (fun k hk => by have := hall k hk; omega)]
  unfold write_entries
  simp only [Nat.zero_add]

theorem dec_rows_succ (width : Nat) (Es : List (List (F32 × Nat))) (n : Nat)
    (buf : List F32) :
    dec_rows width Es (n + 1) buf
      = (dec_rows width Es n buf).bind (fun B => dec_from width n 0 (Es.getD n []) B) := by
  unfold dec_rows
  rw [List.range_succ, List.foldlM_append]
  cases (List.range n).foldlM (fun B k => dec_from width k 0 (Es.getD k []) B) buf with
  | none => rfl
  | some B => simp

/-- The cursor decoding of the rows fails exactly when some entry of some row is
reconstructed at or beyond the width. -/
theorem dec_rows_eq_none_iff (width : Nat) (Es : List (List (F32 × Nat))) (n : Nat)
    (buf : List F32) :
    dec_rows width Es n buf = none
      ↔ ∃ r k, r < n ∧ k < (Es.getD r []).length ∧
          width ≤ recon_col (Es.getD r []) k := by
  induction n with
  | zero => simp [dec_rows]
  | succ n ih =>
    rw [dec_rows_succ]
    cases hres : dec_rows width Es n buf with
    | none =>
      simp only [Option.none_bind, true_iff]
      obtain ⟨r, k, hr, hk, hw⟩ := ih.mp hres
      exact ⟨r, k, by omega, hk, hw⟩
    | some B =>
      simp only [Option.some_bind]
      rw [dec_from_eq_none_iff]
      constructor
      · rintro ⟨k, hk, hw⟩
        exact ⟨n, k, by omega, hk, by omega⟩
      · rintro ⟨r, k, hr, hk, hw⟩
        by_cases hrn : r = n
        · subst hrn
          exact ⟨k, hk, by omega⟩
        · exfalso
          have hnone := ih.mpr ⟨r, k, by omega, hk, hw⟩
          rw [hres] at hnone
          exact Option.noConfusion hnone

/-- When no entry is reconstructed at or beyond the width, the cursor decoding
of the rows writes each value at its reconstructed column. -/
theorem dec_rows_eq_some (width : Nat) (Es : List (List (F32 × Nat))) (n : Nat)
    (buf : List F32)
    (hall : ∀ r k, r < n → k < (Es.getD r []).length → recon_col (Es.getD r []) k < width) :
    dec_rows width Es n buf = some (write_rows width Es n buf) := by
  induction n with
  | zero => simp [dec_rows, write_rows]
  | succ n ih =>
    rw [dec_rows_succ, ih (fun r k hr hk => hall r k (by omega) hk)]
    simp only [Option.some_bind]
    rw [dec_from_eq_write_entries _ _ _ _ (fun k hk => hall n k (by omega) hk)]
    unfold write_rows
    rw [List.range_succ, List.foldl_append]
    simp

/-! ## The packed array of `pack_data_vec8_f16` -/

/-- What `pack_data_vec8_f16` returns is the array its packing pass wrote. -/
theorem pack_data_vec8_f16_eq_packed_of (CACHELINE_SIZE : Nat) (cvt_ps_ph : F32 → Nat)
    (csr_data : csr_array_t) (data_dims : dims_t) (p : packed_csr_array_t)
    (hp : pack_data_vec8_f16 CACHELINE_SIZE cvt_ps_ph csr_data data_dims = some p) :
    p = packed_of CACHELINE_SIZE cvt_ps_ph csr_data data_dims := by
  unfold pack_data_vec8_f16 at hp
  simp only at hp
  split at hp
  · exact (Option.some.inj hp).symm
  · exact Option.noConfusion hp

/-- For a non-decreasing `row_idx`, the running read position of row `r` is
`row_idx[r] - row_idx[0]`. -/
theorem start_entry_add (csr_data : csr_array_t) (r : Nat)
    (hmono : ∀ q, q < r → csr_data.row_idx.getD q 0 ≤ csr_data.row_idx.getD (q + 1) 0) :
    start_entry csr_data r + csr_data.row_idx.getD 0 0 = csr_data.row_idx.getD r 0 := by
  induction r with
  | zero => simp [start_entry]
  | succ r ih =>
    have h1 := ih (fun q hq => hmono q (by omega))
    have h2 := hmono r (by omega)
    rw [start_entry_succ]
    unfold row_count
    omega

theorem start_entry_eq_row_idx (csr_data : csr_array_t) (r : Nat)
    (h0 : csr_data.row_idx.getD 0 0 = 0)
    (hmono : ∀ q, q < r → csr_data.row_idx.getD q 0 ≤ csr_data.row_idx.getD (q + 1) 0) :
    start_entry csr_data r = csr_data.row_idx.getD r 0 := by
  have := start_entry_add csr_data r hmono
  omega

/-- The initial state of the packing pass. -/
theorem packed_of_eq_foldl (CACHELINE_SIZE : Nat) (cvt_ps_ph : F32 → Nat)
    (csr_data : csr_array_t) (data_dims : dims_t) :
    packed_of CACHELINE_SIZE cvt_ps_ph csr_data data_dims
      = ((List.range data_dims.rows).foldl (pack_row cvt_ps_ph csr_data)
          { csr := alloc_packed_csr_array_t CACHELINE_SIZE
              (sizing_pass csr_data data_dims).toNat csr_data.num_nonzeros data_dims.rows,
            curr_wgt_src_idx := 0, curr_wgt_dst_idx := 0, curr_col_src_idx := 0,
            curr_col_dst_idx := 0, curr_packed_row_idx := 0,
            total_elements_packed := 0 }).csr := rfl

theorem pack_state_at_eq_foldl (CACHELINE_SIZE : Nat) (cvt_ps_ph : F32 → Nat)
    (csr_data : csr_array_t) (data_dims : dims_t) (r : Nat) :
    pack_state_at CACHELINE_SIZE cvt_ps_ph csr_data data_dims r
      = (List.range r).foldl (pack_row cvt_ps_ph csr_data)
          { csr := alloc_packed_csr_array_t CACHELINE_SIZE
              (sizing_pass csr_data data_dims).toNat csr_data.num_nonzeros data_dims.rows,
            curr_wgt_src_idx := 0, curr_wgt_dst_idx := 0, curr_col_src_idx := 0,
            curr_col_dst_idx := 0, curr_packed_row_idx := 0,
            total_elements_packed := 0 } := rfl

/-- The state of the packing pass on entering row `k`, and the content of the
two regions it has filled so far. -/
theorem pack_state_at_spec (CACHELINE_SIZE : Nat) (cvt_ps_ph : F32 → Nat)
    (csr_data : csr_array_t) (data_dims : dims_t) (d : List Nat) (hCL : 0 < CACHELINE_SIZE)
    (hmono : ∀ q, q < data_dims.rows →
      csr_data.row_idx.getD q 0 ≤ csr_data.row_idx.getD (q + 1) 0)
    (k : Nat) (hk : k ≤ data_dims.rows) :
    (pack_state_at CACHELINE_SIZE cvt_ps_ph csr_data data_dims k).curr_wgt_src_idx
        = start_entry csr_data k ∧
    (pack_state_at CACHELINE_SIZE cvt_ps_ph csr_data data_dims k).curr_wgt_dst_idx
        = start_vector csr_data k ∧
    (pack_state_at CACHELINE_SIZE cvt_ps_ph csr_data data_dims k).curr_col_src_idx
        = start_entry csr_data k ∧
    (pack_state_at CACHELINE_SIZE cvt_ps_ph csr_data data_dims k).curr_col_dst_idx
        = 2 * start_vector csr_data k ∧
    start_vector csr_data data_dims.rows
        ≤ (pack_state_at CACHELINE_SIZE cvt_ps_ph csr_data data_dims k).csr.vals.length ∧
    2 * start_vector csr_data data_dims.rows
        ≤ (pack_state_at CACHELINE_SIZE cvt_ps_ph csr_data data_dims k).csr.col_idx.length ∧
    (∀ r i, r < k → i < row_count csr_data r →
      ((pack_state_at CACHELINE_SIZE cvt_ps_ph csr_data data_dims k).csr.vals.getD
          (start_vector csr_data r + i / 16) d).getD (i % 16) 0
        = cvt_ps_ph (csr_data.vals.getD (start_entry csr_data r + i) F32.zero)) ∧
    (∀ r i, r < k → i < 16 * row_vectors csr_data r →
      ((pack_state_at CACHELINE_SIZE cvt_ps_ph csr_data data_dims k).csr.col_idx.getD
          (2 * start_vector csr_data r + i / 8) 0 >>> ((i % 8) * 4)) &&& 0xf
        = if i < row_count csr_data r
          then csr_data.col_idx.getD (start_entry csr_data r + i) 0 % 16 else 0) := by
  have hV := sizing_pass_toNat csr_data data_dims hmono
  have hv := alloc_packed_vals_length CACHELINE_SIZE (sizing_pass csr_data data_dims).toNat
    csr_data.num_nonzeros data_dims.rows hCL
  have hc := alloc_packed_col_idx_length CACHELINE_SIZE (sizing_pass csr_data data_dims).toNat
    csr_data.num_nonzeros data_dims.rows hCL
  have key := packing_rows_spec cvt_ps_ph csr_data d
    { csr := alloc_packed_csr_array_t CACHELINE_SIZE (sizing_pass csr_data data_dims).toNat
        csr_data.num_nonzeros data_dims.rows,
      curr_wgt_src_idx := 0, curr_wgt_dst_idx := 0, curr_col_src_idx := 0,
      curr_col_dst_idx := 0, curr_packed_row_idx := 0, total_elements_packed := 0 }
    data_dims.rows hmono ⟨rfl, rfl, rfl, rfl⟩ (by simp only; omega) (by simp only; omega)
    k hk
  rw [pack_state_at_eq_foldl]
  obtain ⟨k1, k2, k3, k4, k5, k6, k7, k8⟩ := key
  refine ⟨k1, k2, k3, k4, ?_, ?_, k7, k8⟩
  · rw [k5]; simp only; omega
  · rw [k6]; simp only; omega

theorem packed_of_eq_pack_state_at (CACHELINE_SIZE : Nat) (cvt_ps_ph : F32 → Nat)
    (csr_data : csr_array_t) (data_dims : dims_t) :
    packed_of CACHELINE_SIZE cvt_ps_ph csr_data data_dims
      = (pack_state_at CACHELINE_SIZE cvt_ps_ph csr_data data_dims data_dims.rows).csr := rfl

theorem and_0xf (x : Nat) : x &&& 0xf = x % 16 := by
  have h : (0xf : Nat) = 2 ^ 4 - 1 := by norm_num
  rw [h, Nat.and_pow_two_sub_one_eq_mod]

/-! ## Vector ranges of the rows -/

theorem pack_state_at_succ (CACHELINE_SIZE : Nat) (cvt_ps_ph : F32 → Nat)
    (csr_data : csr_array_t) (data_dims : dims_t) (r : Nat) :
    pack_state_at CACHELINE_SIZE cvt_ps_ph csr_data data_dims (r + 1)
      = pack_row cvt_ps_ph csr_data
          (pack_state_at CACHELINE_SIZE cvt_ps_ph csr_data data_dims r) r := by
  rw [pack_state_at_eq_foldl, pack_state_at_eq_foldl, List.range_succ, List.foldl_append]
  rfl

theorem pack_state_at_curr_packed_row_idx (CACHELINE_SIZE : Nat) (cvt_ps_ph : F32 → Nat)
    (csr_data : csr_array_t) (data_dims : dims_t) (r : Nat) :
    (pack_state_at CACHELINE_SIZE cvt_ps_ph csr_data data_dims r).curr_packed_row_idx
      = start_vector_int csr_data r := by
  rw [pack_state_at_eq_foldl]
  exact (packing_rows_row_idx cvt_ps_ph csr_data _ rfl r).1

/-- Every vector index below the total lies in the range of some row. -/
theorem start_vector_cover (csr_data : csr_array_t) (n v : Nat)
    (hv : v < start_vector csr_data n) :
    ∃ r, r < n ∧ start_vector csr_data r ≤ v ∧
      v < start_vector csr_data r + row_vectors csr_data r := by
  induction n with
  | zero => simp [start_vector] at hv
  | succ n ih =>
    by_cases h : v < start_vector csr_data n
    · obtain ⟨r, hr, h1, h2⟩ := ih h
      exact ⟨r, by omega, h1, h2⟩
    · rw [start_vector_succ] at hv
      exact ⟨n, by omega, by omega, hv⟩

theorem start_vector_end_le (csr_data : csr_array_t) (r k : Nat) (h : r < k) :
    start_vector csr_data r + row_vectors csr_data r ≤ start_vector csr_data k := by
  rw [← start_vector_succ]
  exact start_vector_mono csr_data (r + 1) k h

/-! ## Claims about the packed layout -/

/-- C11 (vector alignment): for an unpacked array with non-decreasing `row_idx`,
the packing pass of `pack_data_vec8_f16` enters row `r` at vector index `S_r`
(also the value of `curr_packed_row_idx` that goes into the row's metadata
word), leaves it at `S_r + ceil(n_r / 16)` and changes no vector outside
`[S_r, S_r + ceil(n_r / 16))` while packing the row.  These ranges start at 0,
follow each other in row order (hence are pairwise disjoint), end at the
`total_num_vectors` of the sizing pass and cover every vector index below it;
and the unused slots of a row, `16 * ceil(n_r / 16) - n_r`, number 0 to 15. -/
theorem C11_vector_alignment (CACHELINE_SIZE : Nat) (cvt_ps_ph : F32 → Nat)
    (csr_data : csr_array_t) (data_dims : dims_t) (d : List Nat)
    (hCL : 0 < CACHELINE_SIZE)
    (hmono : ∀ q, q < data_dims.rows →
      csr_data.row_idx.getD q 0 ≤ csr_data.row_idx.getD (q + 1) 0) :
    (∀ r, r < data_dims.rows →
      (pack_state_at CACHELINE_SIZE cvt_ps_ph csr_data data_dims r).curr_wgt_dst_idx
          = start_vector csr_data r ∧
      (pack_state_at CACHELINE_SIZE cvt_ps_ph csr_data data_dims r).curr_packed_row_idx
          = (start_vector csr_data r : Int) ∧
      (pack_state_at CACHELINE_SIZE cvt_ps_ph csr_data data_dims (r + 1)).curr_wgt_dst_idx
          = start_vector csr_data r + (row_count csr_data r + 15) / 16 ∧
      (∀ j, (j < start_vector csr_data r ∨
            start_vector csr_data r + (row_count csr_data r + 15) / 16 ≤ j) →
        (pack_state_at CACHELINE_SIZE cvt_ps_ph csr_data data_dims (r + 1)).csr.vals.getD j d
          = (pack_state_at CACHELINE_SIZE cvt_ps_ph csr_data data_dims r).csr.vals.getD j d)) ∧
    start_vector csr_data 0 = 0 ∧
    (∀ r, start_vector csr_data (r + 1)
      = start_vector csr_data r + (row_count csr_data r + 15) / 16) ∧
    (∀ r k, r < k →
      start_vector csr_data r + (row_count csr_data r + 15) / 16 ≤ start_vector csr_data k) ∧
    sizing_pass csr_data data_dims = (start_vector csr_data data_dims.rows : Int) ∧
    (∀ v, v < start_vector csr_data data_dims.rows →
      ∃ r, r < data_dims.rows ∧ start_vector csr_data r ≤ v ∧
        v < start_vector csr_data r + (row_count csr_data r + 15) / 16) ∧
    (∀ r, row_count csr_data r ≤ 16 * ((row_count csr_data r + 15) / 16) ∧
      16 * ((row_count csr_data r + 15) / 16) - row_count csr_data r ≤ 15) := by
  refine ⟨?_, rfl, fun r => start_vector_succ csr_data r,
    fun r k h => start_vector_end_le csr_data r k h, ?_,
    fun v hv => start_vector_cover csr_data data_dims.rows v hv, fun r => by omega⟩
  · intro r hr
    obtain ⟨-, h2, -, -, h5, -, -, -⟩ := pack_state_at_spec CACHELINE_SIZE cvt_ps_ph csr_data
      data_dims d hCL hmono r (by omega)
    obtain ⟨-, h2', -, -, -, -, -, -⟩ := pack_state_at_spec CACHELINE_SIZE cvt_ps_ph csr_data
      data_dims d hCL hmono (r + 1) (by omega)
    have hend := start_vector_mono csr_data (r + 1) data_dims.rows (by omega)
    rw [start_vector_succ] at hend h2'
    refine ⟨h2, ?_, h2', ?_⟩
    · rw [pack_state_at_curr_packed_row_idx,
        start_vector_int_of_mono csr_data r (fun q hq => hmono q (by omega))]
    · intro j hj
      rw [pack_state_at_succ]
      obtain ⟨-, -, -, h4, -, h6, -, -⟩ := pack_state_at_spec CACHELINE_SIZE cvt_ps_ph
        csr_data data_dims d hCL hmono r (by omega)
      have key := pack_row_spec cvt_ps_ph csr_data d
        (pack_state_at CACHELINE_SIZE cvt_ps_ph csr_data data_dims r) r (hmono r hr)
        (by rw [h2]; omega) (by rw [h4]; omega)
      obtain ⟨-, -, -, -, -, -, k7, -⟩ := key
      apply k7
      rw [h2]
      exact hj
  · rw [sizing_pass_eq, start_vector_int_of_mono csr_data data_dims.rows hmono]

/-- C11, exercised on an array with rows of 17 and 3 entries: the second row
starts at vector 2 and the sizing pass counts 3 vectors. -/
theorem C11_vector_alignment_witness :
    0 < 64 ∧
    (∀ q, q < sample_dims_2x40.rows →
      sample_csr_17_3.row_idx.getD q 0 ≤ sample_csr_17_3.row_idx.getD (q + 1) 0) ∧
    start_vector sample_csr_17_3 1 = 2 ∧
    sizing_pass sample_csr_17_3 sample_dims_2x40 = ((3 : Nat) : Int) :=
  ⟨by decide, by decide, by decide,
    (C11_vector_alignment 64 trunc_ps_ph sample_csr_17_3 sample_dims_2x40 [] (by decide)
      (by decide)).2.2.2.2.1⟩

/-- C12 (packed value layout): for an unpacked array with `row_idx[0] = 0` and
non-decreasing `row_idx`, every row `r` and every `i < n_r`, slot `i mod 16` of
value vector `S_r + floor(i / 16)` of the array written by `pack_data_vec8_f16`
(and returned by it when its assertion holds) is
`toHalf (vals[row_idx[r] + i])`. -/
theorem C12_packed_value_layout (CACHELINE_SIZE : Nat) (cvt_ps_ph : F32 → Nat)
    (csr_data : csr_array_t) (data_dims : dims_t) (d : List Nat)
    (hCL : 0 < CACHELINE_SIZE)
    (h0 : csr_data.row_idx.getD 0 0 = 0)
    (hmono : ∀ q, q < data_dims.rows →
      csr_data.row_idx.getD q 0 ≤ csr_data.row_idx.getD (q + 1) 0)
    (r i : Nat) (hr : r < data_dims.rows)
    (hi : i < csr_data.row_idx.getD (r + 1) 0 - csr_data.row_idx.getD r 0) :
    ((packed_of CACHELINE_SIZE cvt_ps_ph csr_data data_dims).vals.getD
        (start_vector csr_data r + i / 16) d).getD (i % 16) 0
      = cvt_ps_ph (csr_data.vals.getD (csr_data.row_idx.getD r 0 + i) F32.zero) ∧
    (∀ p, pack_data_vec8_f16 CACHELINE_SIZE cvt_ps_ph csr_data data_dims = some p →
      (p.vals.getD (start_vector csr_data r + i / 16) d).getD (i % 16) 0
        = cvt_ps_ph (csr_data.vals.getD (csr_data.row_idx.getD r 0 + i) F32.zero)) := by
  have key : ((packed_of CACHELINE_SIZE cvt_ps_ph csr_data data_dims).vals.getD
        (start_vector csr_data r + i / 16) d).getD (i % 16) 0
      = cvt_ps_ph (csr_data.vals.getD (csr_data.row_idx.getD r 0 + i) F32.zero) := by
    obtain ⟨-, -, -, -, -, -, k7, -⟩ := pack_state_at_spec CACHELINE_SIZE cvt_ps_ph csr_data
      data_dims d hCL hmono data_dims.rows (le_refl _)
    rw [packed_of_eq_pack_state_at, k7 r i hr hi,
      start_entry_eq_row_idx csr_data r h0 (fun q hq => hmono q (by omega))]
  refine ⟨key, fun p hp => ?_⟩
  rw [pack_data_vec8_f16_eq_packed_of _ _ _ _ p hp]
  exact key

/-- C12, exercised on entry 2 of the second row of the array with rows of 17 and
3 entries. -/
theorem C12_packed_value_layout_witness :
    0 < 64 ∧ sample_csr_17_3.row_idx.getD 0 0 = 0 ∧
    (∀ q, q < sample_dims_2x40.rows →
      sample_csr_17_3.row_idx.getD q 0 ≤ sample_csr_17_3.row_idx.getD (q + 1) 0) ∧
    1 < sample_dims_2x40.rows ∧
    2 < sample_csr_17_3.row_idx.getD (1 + 1) 0 - sample_csr_17_3.row_idx.getD 1 0 ∧
    ((packed_of 64 trunc_ps_ph sample_csr_17_3 sample_dims_2x40).vals.getD
        (start_vector sample_csr_17_3 1 + 2 / 16) []).getD (2 % 16) 0
      = trunc_ps_ph (sample_csr_17_3.vals.getD (sample_csr_17_3.row_idx.getD 1 0 + 2)
          F32.zero) :=
  ⟨by decide, by decide, by decide, by decide, by decide,
    (C12_packed_value_layout 64 trunc_ps_ph sample_csr_17_3 sample_dims_2x40 [] (by decide)
      (by decide) (by decide) 1 2 (by decide) (by decide)).1⟩

/-- C13 (the code departs from the claim): the row `1.0, 2.0 x 7, 1.0` encodes to
9 stored entries, and `pack_data_vec8_f16` leaves in slots 9..15 of its single
vector the half-precision `2.0` (`0x4000`) of the entries 1..7, not zero: the
eight-lane staging vector `data_f32` is zeroed once per vector and keeps the
lanes of the first half while the second half is converted. -/
theorem C13_unused_slots_not_zero :
    (compress_dense_data_csr sample_row_9 sample_dims_1x9).row_idx = [0, 9] ∧
    (pack_data_vec8_f16 64 trunc_ps_ph
        (compress_dense_data_csr sample_row_9 sample_dims_1x9) sample_dims_1x9).map
      (fun p => p.vals.getD 0 [])
      = some [15360, 16384, 16384, 16384, 16384, 16384, 16384, 16384,
              15360, 16384, 16384, 16384, 16384, 16384, 16384, 16384] ∧
    trunc_ps_ph f32_one = 15360 ∧ trunc_ps_ph f32_two = 16384 ∧
    trunc_ps_ph F32.zero = 0 := by
  decide

/-- C14 (packed offset layout): for an unpacked array with `row_idx[0] = 0` and
non-decreasing `row_idx` and every row `r`, the 4-bit fields of the
`2 * ceil(n_r / 16)` words of the row in the packed `col_idx` written by
`pack_data_vec8_f16` (and returned by it when its assertion holds) are: field
`i mod 8`, counted from the least-significant nibble, of word
`2 * S_r + floor(i / 8)` is `col_idx[row_idx[r] + i] & 0xf` for `i < n_r`, and
zero for `n_r <= i < 16 * ceil(n_r / 16)`. -/
theorem C14_packed_offset_layout (CACHELINE_SIZE : Nat) (cvt_ps_ph : F32 → Nat)
    (csr_data : csr_array_t) (data_dims : dims_t)
    (hCL : 0 < CACHELINE_SIZE)
    (h0 : csr_data.row_idx.getD 0 0 = 0)
    (hmono : ∀ q, q < data_dims.rows →
      csr_data.row_idx.getD q 0 ≤ csr_data.row_idx.getD (q + 1) 0)
    (r i : Nat) (hr : r < data_dims.rows)
    (hi : i < 16 * ((csr_data.row_idx.getD (r + 1) 0 - csr_data.row_idx.getD r 0 + 15) / 16)) :
    ((packed_of CACHELINE_SIZE cvt_ps_ph csr_data data_dims).col_idx.getD
        (2 * start_vector csr_data r + i / 8) 0 >>> (4 * (i % 8))) &&& 0xf
      = (if i < csr_data.row_idx.getD (r + 1) 0 - csr_data.row_idx.getD r 0
         then csr_data.col_idx.getD (csr_data.row_idx.getD r 0 + i) 0 &&& 0xf else 0) ∧
    (∀ p, pack_data_vec8_f16 CACHELINE_SIZE cvt_ps_ph csr_data data_dims = some p →
      (p.col_idx.getD (2 * start_vector csr_data r + i / 8) 0 >>> (4 * (i % 8))) &&& 0xf
        = (if i < csr_data.row_idx.getD (r + 1) 0 - csr_data.row_idx.getD r 0
           then csr_data.col_idx.getD (csr_data.row_idx.getD r 0 + i) 0 &&& 0xf else 0)) := by
  have key : ((packed_of CACHELINE_SIZE cvt_ps_ph csr_data data_dims).col_idx.getD
        (2 * start_vector csr_data r + i / 8) 0 >>> (4 * (i % 8))) &&& 0xf
      = (if i < csr_data.row_idx.getD (r + 1) 0 - csr_data.row_idx.getD r 0
         then csr_data.col_idx.getD (csr_data.row_idx.getD r 0 + i) 0 &&& 0xf else 0) := by
    obtain ⟨-, -, -, -, -, -, -, k8⟩ := pack_state_at_spec CACHELINE_SIZE cvt_ps_ph csr_data
      data_dims [] hCL hmono data_dims.rows (le_refl _)
    have h := k8 r i hr hi
    rw [start_entry_eq_row_idx csr_data r h0 (fun q hq => hmono q (by omega))] at h
    rw [packed_of_eq_pack_state_at, Nat.mul_comm 4 (i % 8), h, and_0xf]
    rfl
  refine ⟨key, fun p hp => ?_⟩
  rw [pack_data_vec8_f16_eq_packed_of _ _ _ _ p hp]
  exact key

/-- C14, exercised on field 16 (the 17th entry) of the first row of the array
with rows of 17 and 3 entries. -/
theorem C14_packed_offset_layout_witness :
    0 < 64 ∧ sample_csr_17_3.row_idx.getD 0 0 = 0 ∧
    (∀ q, q < sample_dims_2x40.rows →
      sample_csr_17_3.row_idx.getD q 0 ≤ sample_csr_17_3.row_idx.getD (q + 1) 0) ∧
    0 < sample_dims_2x40.rows ∧
    16 < 16 * ((sample_csr_17_3.row_idx.getD (0 + 1) 0
      - sample_csr_17_3.row_idx.getD 0 0 + 15) / 16) ∧
    ((packed_of 64 trunc_ps_ph sample_csr_17_3 sample_dims_2x40).col_idx.getD
        (2 * start_vector sample_csr_17_3 0 + 16 / 8) 0 >>> (4 * (16 % 8))) &&& 0xf
      = (if 16 < sample_csr_17_3.row_idx.getD (0 + 1) 0 - sample_csr_17_3.row_idx.getD 0 0
         then sample_csr_17_3.col_idx.getD (sample_csr_17_3.row_idx.getD 0 0 + 16) 0 &&& 0xf
         else 0) :=
  ⟨by decide, by decide, by decide, by decide, by decide,
    (C14_packed_offset_layout 64 trunc_ps_ph sample_csr_17_3 sample_dims_2x40 (by decide)
      (by decide) (by decide) 0 16 (by decide) (by decide)).1⟩

/-- C15 (unpacker inverts packer): for an unpacked array with `row_idx[0] = 0`,
non-decreasing `row_idx` and offsets in 0..15, every row `r` and every
`i < n_r`, `unpack_values_at_row` on the regions written by
`pack_data_vec8_f16` at vector index `S_r + floor(i / 16)` returns
`index_buffer[i mod 16] = col_idx[row_idx[r] + i]` and
`values_buffer[i mod 16] = fromHalf (toHalf (vals[row_idx[r] + i]))`.  On any
regions and any vector index `v`, both buffers have 16 elements and
`index_buffer[j]` is nibble `j` of word `2 v` for `j < 8`, nibble `j - 8` of word
`2 v + 1` for `8 <= j < 16`, a number in 0..15. -/
theorem C15_unpacker_inverts_packer (CACHELINE_SIZE : Nat) (cvt_ps_ph : F32 → Nat)
    (cvt_ph_ps : Nat → F32) (csr_data : csr_array_t) (data_dims : dims_t)
    (hCL : 0 < CACHELINE_SIZE)
    (h0 : csr_data.row_idx.getD 0 0 = 0)
    (hmono : ∀ q, q < data_dims.rows →
      csr_data.row_idx.getD q 0 ≤ csr_data.row_idx.getD (q + 1) 0)
    (hoff : ∀ k, csr_data.col_idx.getD k 0 ≤ 15) :
    (∀ r i, r < data_dims.rows →
      i < csr_data.row_idx.getD (r + 1) 0 - csr_data.row_idx.getD r 0 →
      (unpack_values_at_row cvt_ph_ps
          (packed_of CACHELINE_SIZE cvt_ps_ph csr_data data_dims).vals
          (packed_of CACHELINE_SIZE cvt_ps_ph csr_data data_dims).col_idx
          (start_vector csr_data r + i / 16)).2.getD (i % 16) 0
        = csr_data.col_idx.getD (csr_data.row_idx.getD r 0 + i) 0 ∧
      (unpack_values_at_row cvt_ph_ps
          (packed_of CACHELINE_SIZE cvt_ps_ph csr_data data_dims).vals
          (packed_of CACHELINE_SIZE cvt_ps_ph csr_data data_dims).col_idx
          (start_vector csr_data r + i / 16)).1.getD (i % 16) F32.zero
        = cvt_ph_ps (cvt_ps_ph
            (csr_data.vals.getD (csr_data.row_idx.getD r 0 + i) F32.zero))) ∧
    (∀ (cmp_values : List (List Nat)) (cmp_col_idx : List Nat) (v : Nat),
      (unpack_values_at_row cvt_ph_ps cmp_values cmp_col_idx v).1.length = 16 ∧
      (unpack_values_at_row cvt_ph_ps cmp_values cmp_col_idx v).2.length = 16 ∧
      (∀ j, j < 8 →
        (unpack_values_at_row cvt_ph_ps cmp_values cmp_col_idx v).2.getD j 0
          = (cmp_col_idx.getD (2 * v) 0 >>> (4 * j)) &&& 0xf) ∧
      (∀ j, 8 ≤ j → j < 16 →
        (unpack_values_at_row cvt_ph_ps cmp_values cmp_col_idx v).2.getD j 0
          = (cmp_col_idx.getD (2 * v + 1) 0 >>> (4 * (j - 8))) &&& 0xf) ∧
      (∀ j, (unpack_values_at_row cvt_ph_ps cmp_values cmp_col_idx v).2.getD j 0 ≤ 15)) := by
  constructor
  · intro r i hr hi
    obtain ⟨-, -, -, -, -, -, k7, k8⟩ := pack_state_at_spec CACHELINE_SIZE cvt_ps_ph csr_data
      data_dims (List.replicate 16 0) hCL hmono data_dims.rows (le_refl _)
    have hi' : i < row_count csr_data r := hi
    have hv : row_count csr_data r ≤ 16 * row_vectors csr_data r := by
      unfold row_vectors; omega
    have h7 := k7 r i hr hi'
    have h8 := k8 r i hr (by omega)
    have hm : csr_data.col_idx.getD (csr_data.row_idx.getD r 0 + i) 0 % 16
        = csr_data.col_idx.getD (csr_data.row_idx.getD r 0 + i) 0 :=
      Nat.mod_eq_of_lt (by have := hoff (csr_data.row_idx.getD r 0 + i); omega)
    rw [if_pos hi', start_entry_eq_row_idx csr_data r h0 (fun q hq => hmono q (by omega)),
      hm] at h8
    rw [start_entry_eq_row_idx csr_data r h0 (fun q hq => hmono q (by omega))] at h7
    obtain ⟨u1, u2⟩ := unpack_getD cvt_ph_ps
      (packed_of CACHELINE_SIZE cvt_ps_ph csr_data data_dims).vals
      (packed_of CACHELINE_SIZE cvt_ps_ph csr_data data_dims).col_idx
      (start_vector csr_data r + i / 16) (i % 16) (Nat.mod_lt _ (by norm_num))
    rw [u1, u2, packed_of_eq_pack_state_at, h7,
      show (start_vector csr_data r + i / 16) * 2 + i % 16 / 8
        = 2 * start_vector csr_data r + i / 8 by omega,
      show i % 16 % 8 = i % 8 by omega, h8]
    exact ⟨rfl, rfl⟩
  · intro cmp_values cmp_col_idx v
    have hidx : ∀ j, j < 16 →
        (unpack_values_at_row cvt_ph_ps cmp_values cmp_col_idx v).2.getD j 0
          = (cmp_col_idx.getD (v * 2 + j / 8) 0 >>> ((j % 8) * 4)) &&& 0xf :=
      fun j hj => (unpack_getD cvt_ph_ps cmp_values cmp_col_idx v j hj).2
    have hlen2 : (unpack_values_at_row cvt_ph_ps cmp_values cmp_col_idx v).2.length = 16 := by
      simp [unpack_values_at_row, VECTOR_SIZE_eq]
    refine ⟨by simp [unpack_values_at_row, VECTOR_SIZE_eq], hlen2, ?_, ?_, ?_⟩
    · intro j hj
      rw [hidx j (by omega), show v * 2 + j / 8 = 2 * v by omega,
        show j % 8 * 4 = 4 * j by omega]
    · intro j h8 h16
      rw [hidx j h16, show v * 2 + j / 8 = 2 * v + 1 by omega,
        show j % 8 * 4 = 4 * (j - 8) by omega]
    · intro j
      by_cases hj : j < 16
      · rw [hidx j hj, and_0xf]
        have := Nat.mod_lt (cmp_col_idx.getD (v * 2 + j / 8) 0 >>> ((j % 8) * 4))
          (show 0 < 16 by norm_num)
        omega
      · rw [List.getD_eq_default _ _ (by omega)]
        exact Nat.zero_le _

/-- C15, exercised on entry 2 of the second row of the array with rows of 17 and
3 entries. -/
theorem C15_unpacker_inverts_packer_witness :
    0 < 64 ∧ sample_csr_17_3.row_idx.getD 0 0 = 0 ∧
    (∀ q, q < sample_dims_2x40.rows →
      sample_csr_17_3.row_idx.getD q 0 ≤ sample_csr_17_3.row_idx.getD (q + 1) 0) ∧
    (∀ k, sample_csr_17_3.col_idx.getD k 0 ≤ 15) ∧
    1 < sample_dims_2x40.rows ∧
    2 < sample_csr_17_3.row_idx.getD (1 + 1) 0 - sample_csr_17_3.row_idx.getD 1 0 ∧
    (unpack_values_at_row trunc_ph_ps
        (packed_of 64 trunc_ps_ph sample_csr_17_3 sample_dims_2x40).vals
        (packed_of 64 trunc_ps_ph sample_csr_17_3 sample_dims_2x40).col_idx
        (start_vector sample_csr_17_3 1 + 2 / 16)).2.getD (2 % 16) 0
      = sample_csr_17_3.col_idx.getD (sample_csr_17_3.row_idx.getD 1 0 + 2) 0 ∧
    (unpack_values_at_row trunc_ph_ps
        (packed_of 64 trunc_ps_ph sample_csr_17_3 sample_dims_2x40).vals
        (packed_of 64 trunc_ps_ph sample_csr_17_3 sample_dims_2x40).col_idx
        (start_vector sample_csr_17_3 1 + 2 / 16)).1.getD (2 % 16) F32.zero
      = trunc_ph_ps (trunc_ps_ph
          (sample_csr_17_3.vals.getD (sample_csr_17_3.row_idx.getD 1 0 + 2) F32.zero)) :=
  have hoff : ∀ k, sample_csr_17_3.col_idx.getD k 0 ≤ 15 := fun k => by
    by_cases hk : k < 20
    · have : ∀ k, k < 20 → sample_csr_17_3.col_idx.getD k 0 ≤ 15 := by decide
      exact this k hk
    · rw [List.getD_eq_default _ _ (by simp [sample_csr_17_3]; omega)]
      exact Nat.zero_le _
  ⟨by decide, by decide, by decide, hoff, by decide, by decide,
    (C15_unpacker_inverts_packer 64 trunc_ps_ph trunc_ph_ps sample_csr_17_3
      sample_dims_2x40 (by decide) (by decide) (by decide) hoff).1 1 2 (by decide)
      (by decide)⟩

/-! ## The rows read back from an array of entry lists -/

theorem csr_of_getD_vals (Es : List (List (F32 × Nat))) (r i : Nat) (hr : r < Es.length)
    (hi : i < (Es.getD r []).length) :
    (csr_of Es).vals.getD ((Es.take r).flatten.length + i) F32.zero
      = ((Es.getD r []).getD i (F32.zero, 0)).1 := by
  simp only [csr_of]
  rw [flatten_eq_take_append Es r hr, List.map_append, List.map_append]
  have := getD_append_mid ((Es.take r).flatten.map Prod.fst) ((Es.getD r []).map Prod.fst)
    ((Es.drop (r + 1)).flatten.map Prod.fst) i F32.zero (by simpa using hi)
  rw [List.length_map] at this
  rw [this, getD_map_of_lt Prod.fst (Es.getD r []) i (F32.zero, 0) F32.zero hi]

theorem csr_of_getD_col_idx (Es : List (List (F32 × Nat))) (r i : Nat) (hr : r < Es.length)
    (hi : i < (Es.getD r []).length) :
    (csr_of Es).col_idx.getD ((Es.take r).flatten.length + i) 0
      = ((Es.getD r []).getD i (F32.zero, 0)).2 := by
  simp only [csr_of]
  rw [flatten_eq_take_append Es r hr, List.map_append, List.map_append]
  have := getD_append_mid ((Es.take r).flatten.map Prod.snd) ((Es.getD r []).map Prod.snd)
    ((Es.drop (r + 1)).flatten.map Prod.snd) i 0 (by simpa using hi)
  rw [List.length_map] at this
  rw [this, getD_map_of_lt Prod.snd (Es.getD r []) i (F32.zero, 0) 0 hi]

/-- The rows that `decompress_csr_data` reads from `csr_of Es` are the rows
`Es`. -/
theorem stored_rows_csr_of (Es : List (List (F32 × Nat))) :
    stored_rows (csr_of Es) Es.length = Es := by
  unfold stored_rows
  apply List.ext_getElem (by simp)
  intro r h1 h2
  have hr : r < Es.length := h2
  simp only [List.getElem_map, List.getElem_range]
  rw [csr_of_row_count Es r hr, csr_of_start_entry Es r (by omega)]
  have hE : Es.getD r [] = Es[r] := List.getD_eq_getElem _ _ hr
  apply List.ext_getElem (by rw [hE]; simp)
  intro i g1 g2
  have hi : i < (Es.getD r []).length := by rw [hE]; exact g2
  simp only [List.getElem_map, List.getElem_range]
  rw [csr_of_getD_vals Es r i hr hi, csr_of_getD_col_idx Es r i hr hi,
    List.getD_eq_getElem _ _ hi]
  simp only [hE]

theorem stored_rows_getD (csr_data : csr_array_t) (rows r : Nat) (hr : r < rows) :
    (stored_rows csr_data rows).getD r []
      = (List.range (row_count csr_data r)).map (fun i =>
          (csr_data.vals.getD (start_entry csr_data r + i) F32.zero,
           csr_data.col_idx.getD (start_entry csr_data r + i) 0)) := by
  unfold stored_rows
  rw [getD_map_range _ _ _ _ hr]

theorem packed_stored_rows_getD (cvt_ph_ps : Nat → F32) (cmp_data : List (List Nat))
    (cmp_col_idx cmp_row_idx : List Nat) (rows r : Nat) (hr : r < rows) :
    (packed_stored_rows cvt_ph_ps cmp_data cmp_col_idx cmp_row_idx rows).getD r []
      = packed_entries cvt_ph_ps cmp_data cmp_col_idx
          ((cmp_row_idx.getD r 0 >>> 16) &&& 0xffff) (cmp_row_idx.getD r 0 &&& 0xffff) := by
  unfold packed_stored_rows
  rw [getD_map_range _ _ _ _ hr]

/-- The rows of the encoder output, as `decompress_csr_data` reads them. -/
theorem stored_rows_compress (data : List F32) (data_dims : dims_t)
    (hh : data_dims.height = 1)
    (hlen : data.length = data_dims.rows * data_dims.cols) :
    stored_rows (compress_dense_data_csr data data_dims) data_dims.rows
      = all_entries data data_dims := by
  rw [compress_dense_data_csr_eq_csr_of data data_dims hh (hcap_of_length data data_dims hlen)]
  have := stored_rows_csr_of (all_entries data data_dims)
  rw [all_entries_length] at this
  exact this

/-! ## Writes and frame of the cursor decoding -/

theorem foldl_set_frame {α : Type} (pos : Nat → Nat) (val : Nat → α) (n : Nat)
    (buf : List α) (d : α) :
    ((List.range n).foldl (fun b k => b.set (pos k) (val k)) buf).length = buf.length ∧
    ∀ idx, (∀ k, k < n → idx ≠ pos k) →
      ((List.range n).foldl (fun b k => b.set (pos k) (val k)) buf).getD idx d
        = buf.getD idx d := by
  induction n with
  | zero => simp
  | succ n ih =>
    rw [List.range_succ, List.foldl_append]
    simp only [List.foldl_cons, List.foldl_nil, List.length_set]
    refine ⟨ih.1, fun idx h => ?_⟩
    rw [getD_set_ne _ _ _ _ _ (Ne.symm (h n (by omega)))]
    exact ih.2 idx (fun k hk => h k (by omega))

theorem write_entries_frame (width row : Nat) (E : List (F32 × Nat)) (buf : List F32) :
    (write_entries width row E buf).length = buf.length ∧
    ∀ idx, (∀ k, k < E.length → idx ≠ ARRAY_2D_idx width row (recon_col E k)) →
      (write_entries width row E buf).getD idx F32.zero = buf.getD idx F32.zero := by
  unfold write_entries
  exact foldl_set_frame (fun k => ARRAY_2D_idx width row (recon_col E k))
    (fun k => (E.getD k (F32.zero, 0)).1) E.length buf F32.zero

/-- The cells that are not the reconstructed position of a stored entry keep
their content. -/
theorem write_rows_frame (width : Nat) (Es : List (List (F32 × Nat))) (n : Nat)
    (buf : List F32) :
    (write_rows width Es n buf).length = buf.length ∧
    ∀ idx, (∀ r k, r < n → k < (Es.getD r []).length →
        idx ≠ ARRAY_2D_idx width r (recon_col (Es.getD r []) k)) →
      (write_rows width Es n buf).getD idx F32.zero = buf.getD idx F32.zero := by
  induction n with
  | zero => simp [write_rows]
  | succ n ih =>
    unfold write_rows at ih ⊢
    rw [List.range_succ, List.foldl_append]
    simp only [List.foldl_cons, List.foldl_nil]
    obtain ⟨w1, w2⟩ := write_entries_frame width n (Es.getD n [])
      ((List.range n).foldl (fun b r => write_entries width r (Es.getD r []) b) buf)
    refine ⟨by rw [w1]; exact ih.1, fun idx h => ?_⟩
    rw [w2 idx (fun k hk => h n k (by omega) hk)]
    exact ih.2 idx (fun r k hr hk => h r k (by omega) hk)

theorem idx_unique (w r c q e : Nat) (hc : c < w) (he : e < w)
    (h : r * w + c = q * w + e) : r = q ∧ c = e := by
  have hw : 0 < w := by omega
  have h1 : (r * w + c) / w = r := by
    rw [Nat.add_comm, Nat.add_mul_div_right _ _ hw, Nat.div_eq_of_lt hc, Nat.zero_add]
  have h2 : (q * w + e) / w = q := by
    rw [Nat.add_comm, Nat.add_mul_div_right _ _ hw, Nat.div_eq_of_lt he, Nat.zero_add]
  have hrq : r = q := by rw [← h1, ← h2, h]
  subst hrq
  exact ⟨rfl, by omega⟩

/-! ## Reconstructed columns of the encoder output -/

/-- The entries stored for a row are reconstructed below `cols`. -/
theorem recon_col_row_entries (data : List F32) (data_dims : dims_t) (r k : Nat)
    (hz : data_dims.cols = 0 →
      (ARRAY_3D data data_dims.rows data_dims.cols 0 r 0).isZero = true)
    (hk : k < (row_entries data data_dims 0 r).length) :
    recon_col (row_entries data data_dims 0 r) k < data_dims.cols := by
  obtain ⟨out, hout, -⟩ := dec_row_entries id data data_dims data_dims.cols r
    (List.replicate (r * data_dims.cols + data_dims.cols) F32.zero) (le_refl _) hz (by simp)
  rw [map_vals_id] at hout
  by_contra hge
  have hnone := (dec_from_eq_none_iff data_dims.cols r (row_entries data data_dims 0 r) 0
    (List.replicate (r * data_dims.cols + data_dims.cols) F32.zero)).mpr ⟨k, hk, by omega⟩
  rw [hout] at hnone
  exact Option.noConfusion hnone

theorem recon_col_all_entries (data : List F32) (data_dims : dims_t)
    (hlen : data.length = data_dims.rows * data_dims.cols) (r k : Nat)
    (hr : r < data_dims.rows)
    (hk : k < ((all_entries data data_dims).getD r []).length) :
    recon_col ((all_entries data data_dims).getD r []) k < data_dims.cols := by
  rw [all_entries_getD data data_dims r hr] at hk ⊢
  exact recon_col_row_entries data data_dims r k
    (fun hc => first_cell_zero_of_length data data_dims hlen hc r) hk

/-! ## Claims about the faults and the frame of the decoders -/

/-- C16 (format-violation fault): for every unpacked array, every packed
regions, every dimensions descriptor and destination buffer,
`decompress_csr_data` and `decompress_packed_csr_data` each fail exactly when,
for some row `r < rows`, some entry the decoder reads for that row has its
reconstructed column (cursor from `-1`, advanced by `offset + 1` per entry) at or
beyond `cols + align_pad`; otherwise they complete and the buffer is the
destination with each value written at its reconstructed column, row after
row.  The unpacked decoder reads for row `r` the `row_idx[r+1] - row_idx[r]`
entries from its running position on (which is `row_idx[r]` when
`row_idx[0] = 0` and `row_idx` is non-decreasing); the packed decoder reads the
number of entries given by the low half of the row's metadata word from the
vector given by the high half on. -/
theorem C16_format_violation (cvt_ph_ps : Nat → F32) (csr_data : csr_array_t)
    (cmp_data : List (List Nat)) (cmp_col_idx cmp_row_idx : List Nat)
    (data_dims : dims_t) (dcmp_data : List F32) :
    (decompress_csr_data csr_data data_dims dcmp_data = none ↔
      ∃ r k, r < data_dims.rows ∧
        k < ((stored_rows csr_data data_dims.rows).getD r []).length ∧
        data_dims.cols + data_dims.align_pad
          ≤ recon_col ((stored_rows csr_data data_dims.rows).getD r []) k) ∧
    ((¬ ∃ r k, r < data_dims.rows ∧
        k < ((stored_rows csr_data data_dims.rows).getD r []).length ∧
        data_dims.cols + data_dims.align_pad
          ≤ recon_col ((stored_rows csr_data data_dims.rows).getD r []) k) →
      decompress_csr_data csr_data data_dims dcmp_data
        = some (write_rows (data_dims.cols + data_dims.align_pad)
            (stored_rows csr_data data_dims.rows) data_dims.rows dcmp_data)) ∧
    (decompress_packed_csr_data cvt_ph_ps cmp_data cmp_col_idx cmp_row_idx data_dims
        dcmp_data = none ↔
      ∃ r k, r < data_dims.rows ∧
        k < ((packed_stored_rows cvt_ph_ps cmp_data cmp_col_idx cmp_row_idx
              data_dims.rows).getD r []).length ∧
        data_dims.cols + data_dims.align_pad
          ≤ recon_col ((packed_stored_rows cvt_ph_ps cmp_data cmp_col_idx cmp_row_idx
              data_dims.rows).getD r []) k) ∧
    ((¬ ∃ r k, r < data_dims.rows ∧
        k < ((packed_stored_rows cvt_ph_ps cmp_data cmp_col_idx cmp_row_idx
              data_dims.rows).getD r []).length ∧
        data_dims.cols + data_dims.align_pad
          ≤ recon_col ((packed_stored_rows cvt_ph_ps cmp_data cmp_col_idx cmp_row_idx
              data_dims.rows).getD r []) k) →
      decompress_packed_csr_data cvt_ph_ps cmp_data cmp_col_idx cmp_row_idx data_dims
          dcmp_data
        = some (write_rows (data_dims.cols + data_dims.align_pad)
            (packed_stored_rows cvt_ph_ps cmp_data cmp_col_idx cmp_row_idx data_dims.rows)
            data_dims.rows dcmp_data)) ∧
    (∀ r, r < data_dims.rows →
      (stored_rows csr_data data_dims.rows).getD r []
        = (List.range (csr_data.row_idx.getD (r + 1) 0 - csr_data.row_idx.getD r 0)).map
            (fun i => (csr_data.vals.getD (start_entry csr_data r + i) F32.zero,
              csr_data.col_idx.getD (start_entry csr_data r + i) 0)) ∧
      (csr_data.row_idx.getD 0 0 = 0 →
        (∀ q, q < r → csr_data.row_idx.getD q 0 ≤ csr_data.row_idx.getD (q + 1) 0) →
        start_entry csr_data r = csr_data.row_idx.getD r 0) ∧
      (packed_stored_rows cvt_ph_ps cmp_data cmp_col_idx cmp_row_idx data_dims.rows).getD r []
        = (List.range (cmp_row_idx.getD r 0 &&& 0xffff)).map (fun i =>
            ((unpack_values_at_row cvt_ph_ps cmp_data cmp_col_idx
                (((cmp_row_idx.getD r 0 >>> 16) &&& 0xffff) + i / 16)).1.getD (i % 16)
                F32.zero,
             (unpack_values_at_row cvt_ph_ps cmp_data cmp_col_idx
                (((cmp_row_idx.getD r 0 >>> 16) &&& 0xffff) + i / 16)).2.getD (i % 16) 0))) := by
  refine ⟨?_, ?_, ?_, ?_, ?_⟩
  · rw [decompress_csr_data_eq_dec_rows]
    exact dec_rows_eq_none_iff _ _ _ _
  · intro h
    rw [decompress_csr_data_eq_dec_rows]
    apply dec_rows_eq_some
    intro r k hr hk
    by_contra hge
    exact h ⟨r, k, hr, hk, by omega⟩
  · rw [decompress_packed_csr_data_eq_dec_rows]
    exact dec_rows_eq_none_iff _ _ _ _
  · intro h
    rw [decompress_packed_csr_data_eq_dec_rows]
    apply dec_rows_eq_some
    intro r k hr hk
    by_contra hge
    exact h ⟨r, k, hr, hk, by omega⟩
  · intro r hr
    refine ⟨stored_rows_getD csr_data data_dims.rows r hr,
      fun h0 hmono => start_entry_eq_row_idx csr_data r h0 hmono, ?_⟩
    rw [packed_stored_rows_getD _ _ _ _ _ r hr]
    rfl

/-- The encoder output is well formed for the decoder, for a dense
`rows x cols` matrix with at least one column (height 1): the columns
reconstructed from the output of `compress_dense_data_csr` within each row are
strictly increasing and all below `cols`, and `decompress_csr_data` completes
on the encoder output for every `align_pad` and every destination buffer. -/
theorem encoder_output_well_formed_of_pos_cols (data : List F32) (data_dims : dims_t)
    (hh : data_dims.height = 1) (_hc : 0 < data_dims.cols)
    (hlen : data.length = data_dims.rows * data_dims.cols) :
    (∀ r k, r < data_dims.rows →
      k < ((stored_rows (compress_dense_data_csr data data_dims)
            data_dims.rows).getD r []).length →
      recon_col ((stored_rows (compress_dense_data_csr data data_dims)
            data_dims.rows).getD r []) k < data_dims.cols ∧
      (k + 1 < ((stored_rows (compress_dense_data_csr data data_dims)
            data_dims.rows).getD r []).length →
        recon_col ((stored_rows (compress_dense_data_csr data data_dims)
              data_dims.rows).getD r []) k
          < recon_col ((stored_rows (compress_dense_data_csr data data_dims)
              data_dims.rows).getD r []) (k + 1))) ∧
    (∀ (pad : Nat) (dcmp_data : List F32),
      ∃ out, decompress_csr_data (compress_dense_data_csr data data_dims)
        { data_dims with align_pad := pad } dcmp_data = some out) := by
  have hrows := stored_rows_compress data data_dims hh hlen
  constructor
  · intro r k hr hk
    rw [hrows] at hk ⊢
    exact ⟨recon_col_all_entries data data_dims hlen r k hr hk,
      fun hk1 => recon_col_lt_succ _ k hk1⟩
  · intro pad dcmp_data
    rw [decompress_csr_data_eq_dec_rows]
    refine ⟨_, dec_rows_eq_some _ _ _ _ ?_⟩
    intro r k hr hk
    simp only at hr hk ⊢
    rw [hrows] at hk ⊢
    have := recon_col_all_entries data data_dims hlen r k hr hk
    omega

/-! ## The element count of the packing pass -/

theorem num_elems_sum (csr_data : csr_array_t) (k : Nat) :
    ((List.range k).map (num_elems csr_data)).sum
      = (csr_data.row_idx.getD k 0 : Int) - (csr_data.row_idx.getD 0 0 : Int) := by
  induction k with
  | zero => simp
  | succ k ih =>
    rw [List.range_succ, List.map_append, List.sum_append, ih]
    simp only [List.map_cons, List.map_nil, List.sum_cons, List.sum_nil, num_elems]
    omega

/-- The running total `total_elements_packed` telescopes to
`row_idx[k] - row_idx[0]`. -/
theorem pack_state_at_total (CACHELINE_SIZE : Nat) (cvt_ps_ph : F32 → Nat)
    (csr_data : csr_array_t) (data_dims : dims_t) (k : Nat) :
    (pack_state_at CACHELINE_SIZE cvt_ps_ph csr_data data_dims k).total_elements_packed
      = (csr_data.row_idx.getD k 0 : Int) - (csr_data.row_idx.getD 0 0 : Int) := by
  induction k with
  | zero =>
    rw [pack_state_at_eq_foldl]
    simp
  | succ k ih =>
    rw [pack_state_at_succ, pack_row_total_elements_packed, ih]
    unfold num_elems
    omega

/-- The assertion of line 256, in terms of `row_idx`. -/
theorem pack_data_vec8_f16_eq_none_iff (CACHELINE_SIZE : Nat) (cvt_ps_ph : F32 → Nat)
    (csr_data : csr_array_t) (data_dims : dims_t) :
    pack_data_vec8_f16 CACHELINE_SIZE cvt_ps_ph csr_data data_dims = none
      ↔ ((((csr_data.row_idx.getD data_dims.rows 0 : Int)
            - (csr_data.row_idx.getD 0 0 : Int)) % 4294967296).toNat
          ≠ csr_data.num_nonzeros) := by
  have htot := pack_state_at_total CACHELINE_SIZE cvt_ps_ph csr_data data_dims data_dims.rows
  have hst : pack_state_at CACHELINE_SIZE cvt_ps_ph csr_data data_dims data_dims.rows
      = packing_pass cvt_ps_ph csr_data data_dims
          (alloc_packed_csr_array_t CACHELINE_SIZE (sizing_pass csr_data data_dims).toNat
            csr_data.num_nonzeros data_dims.rows) := rfl
  rw [hst] at htot
  unfold pack_data_vec8_f16
  simp only [htot]
  split
  · rename_i h
    exact ⟨fun hn => Option.noConfusion hn, fun hn => absurd h hn⟩
  · rename_i h
    exact ⟨fun _ => h, fun _ => rfl⟩

theorem pack_data_vec8_f16_eq_some_iff (CACHELINE_SIZE : Nat) (cvt_ps_ph : F32 → Nat)
    (csr_data : csr_array_t) (data_dims : dims_t)
    (h : ((((csr_data.row_idx.getD data_dims.rows 0 : Int)
            - (csr_data.row_idx.getD 0 0 : Int)) % 4294967296).toNat
          = csr_data.num_nonzeros)) :
    pack_data_vec8_f16 CACHELINE_SIZE cvt_ps_ph csr_data data_dims
      = some (packed_of CACHELINE_SIZE cvt_ps_ph csr_data data_dims) := by
  cases hres : pack_data_vec8_f16 CACHELINE_SIZE cvt_ps_ph csr_data data_dims with
  | none =>
    exact absurd h ((pack_data_vec8_f16_eq_none_iff CACHELINE_SIZE cvt_ps_ph csr_data
      data_dims).mp hres)
  | some p =>
    rw [pack_data_vec8_f16_eq_packed_of _ _ _ _ p hres]

/-- The fields of the encoder output that the packer's assertion compares. -/
theorem compress_counts (data : List F32) (data_dims : dims_t)
    (hh : data_dims.height = 1)
    (hlen : data.length = data_dims.rows * data_dims.cols) :
    (compress_dense_data_csr data data_dims).row_idx.getD 0 0 = 0 ∧
    (compress_dense_data_csr data data_dims).row_idx.getD data_dims.rows 0
      = (compress_dense_data_csr data data_dims).num_nonzeros ∧
    (compress_dense_data_csr data data_dims).num_nonzeros
      ≤ data_dims.rows * data_dims.cols ∧
    (compress_dense_data_csr data data_dims).vals.length
      = (compress_dense_data_csr data data_dims).num_nonzeros ∧
    (∀ q, q < data_dims.rows →
      (compress_dense_data_csr data data_dims).row_idx.getD q 0
        ≤ (compress_dense_data_csr data data_dims).row_idx.getD (q + 1) 0) := by
  have hcap := hcap_of_length data data_dims hlen
  have hEs := all_entries_length data data_dims
  rw [compress_dense_data_csr_eq_csr_of data data_dims hh hcap]
  have hnn : (csr_of (all_entries data data_dims)).num_nonzeros
      = (entries_upto data data_dims data_dims.rows).length := by
    rw [← all_entries_take data data_dims data_dims.rows (le_refl _), ← hEs, List.take_length]
    rfl
  refine ⟨?_, ?_, ?_, ?_, ?_⟩
  · rw [row_idx_csr_of _ 0 (by omega)]
    simp
  · rw [row_idx_csr_of _ data_dims.rows (by omega), hnn,
      all_entries_take data data_dims data_dims.rows (le_refl _)]
  · rw [hnn]
    exact entries_upto_length_le data data_dims hcap data_dims.rows (le_refl _)
  · simp only [csr_of, List.length_map]
  · intro q hq
    exact csr_of_row_idx_mono _ q (by omega)

/-- C18 (internal-consistency postcondition): for an unpacked array whose
`row_idx[0]`, `row_idx[rows]` and `num_nonzeros` are within the range of the
`int` indices of the code, `pack_data_vec8_f16` trips its assertion exactly when
`row_idx[rows] - row_idx[0]` differs from `num_nonzeros`; and for every dense
matrix with height 1 (and `rows * cols` within `int` range), packing
`compress_dense_data_csr(M)` with the same descriptor does not trip it. -/
theorem C18_internal_consistency (CACHELINE_SIZE : Nat) (cvt_ps_ph : F32 → Nat)
    (csr_data : csr_array_t) (data_dims : dims_t)
    (h0 : csr_data.row_idx.getD 0 0 < 2147483648)
    (hR : csr_data.row_idx.getD data_dims.rows 0 < 2147483648)
    (hN : csr_data.num_nonzeros < 2147483648) :
    (pack_data_vec8_f16 CACHELINE_SIZE cvt_ps_ph csr_data data_dims = none ↔
      (csr_data.row_idx.getD data_dims.rows 0 : Int) - (csr_data.row_idx.getD 0 0 : Int)
        ≠ (csr_data.num_nonzeros : Int)) ∧
    (∀ data : List F32, data_dims.height = 1 →
      data.length = data_dims.rows * data_dims.cols →
      data_dims.rows * data_dims.cols < 2147483648 →
      ∃ p, pack_data_vec8_f16 CACHELINE_SIZE cvt_ps_ph
        (compress_dense_data_csr data data_dims) data_dims = some p) := by
  constructor
  · rw [pack_data_vec8_f16_eq_none_iff]
    constructor
    · intro h heq
      apply h
      omega
    · intro h heq
      apply h
      omega
  · intro data hh hlen hsz
    obtain ⟨c0, cR, cN, -, -⟩ := compress_counts data data_dims hh hlen
    refine ⟨_, pack_data_vec8_f16_eq_some_iff CACHELINE_SIZE cvt_ps_ph _ data_dims ?_⟩
    rw [c0, cR]
    omega

/-- C18, exercised on the array with rows of 17 and 3 entries. -/
theorem C18_internal_consistency_witness :
    sample_csr_17_3.row_idx.getD 0 0 < 2147483648 ∧
    sample_csr_17_3.row_idx.getD sample_dims_2x40.rows 0 < 2147483648 ∧
    sample_csr_17_3.num_nonzeros < 2147483648 ∧
    (pack_data_vec8_f16 64 trunc_ps_ph sample_csr_17_3 sample_dims_2x40 = none ↔
      (sample_csr_17_3.row_idx.getD sample_dims_2x40.rows 0 : Int)
          - (sample_csr_17_3.row_idx.getD 0 0 : Int)
        ≠ (sample_csr_17_3.num_nonzeros : Int)) :=
  ⟨by decide, by decide, by decide,
    (C18_internal_consistency 64 trunc_ps_ph sample_csr_17_3 sample_dims_2x40 (by decide)
      (by decide) (by decide)).1⟩

/-! ## The rows read back by the packed decoder, and the padding columns -/

/-- A row whose start vector and entry count fit the 16-bit fields of its
metadata word is read back by the packed decoder as the packer read it (values
converted, offsets reduced to 4 bits). -/
theorem packed_stored_row_of_packing (CACHELINE_SIZE : Nat) (cvt_ps_ph : F32 → Nat)
    (cvt_ph_ps : Nat → F32) (csr_data : csr_array_t) (data_dims : dims_t)
    (hCL : 0 < CACHELINE_SIZE)
    (hmono : ∀ q, q < data_dims.rows →
      csr_data.row_idx.getD q 0 ≤ csr_data.row_idx.getD (q + 1) 0)
    (k : Nat) (hk : k < data_dims.rows)
    (hS : start_vector csr_data k < 65536) (hn : row_count csr_data k < 65536) :
    packed_entries cvt_ph_ps
        (packed_of CACHELINE_SIZE cvt_ps_ph csr_data data_dims).vals
        (packed_of CACHELINE_SIZE cvt_ps_ph csr_data data_dims).col_idx
        (((packed_of CACHELINE_SIZE cvt_ps_ph csr_data data_dims).row_idx.getD k 0 >>> 16)
          &&& 0xffff)
        ((packed_of CACHELINE_SIZE cvt_ps_ph csr_data data_dims).row_idx.getD k 0 &&& 0xffff)
      = (List.range (row_count csr_data k)).map (fun i =>
          (cvt_ph_ps (cvt_ps_ph (csr_data.vals.getD (start_entry csr_data k + i) F32.zero)),
           csr_data.col_idx.getD (start_entry csr_data k + i) 0 % 16)) := by
  have hword : (packed_of CACHELINE_SIZE cvt_ps_ph csr_data data_dims).row_idx.getD k 0
      = row_word (start_vector_int csr_data k) (num_elems csr_data k) :=
    packing_pass_row_word CACHELINE_SIZE cvt_ps_ph csr_data data_dims _ _ hCL k hk
  rw [hword, start_vector_int_of_mono csr_data k (fun q hq => hmono q (by omega)),
    num_elems_of_le csr_data k (hmono k hk)]
  obtain ⟨d1, d2⟩ := row_word_decode _ _ hS hn
  rw [d1, d2]
  have hV := sizing_pass_toNat csr_data data_dims hmono
  have key := packed_entries_of_packing cvt_ps_ph cvt_ph_ps csr_data
    { csr := alloc_packed_csr_array_t CACHELINE_SIZE (sizing_pass csr_data data_dims).toNat
        csr_data.num_nonzeros data_dims.rows,
      curr_wgt_src_idx := 0, curr_wgt_dst_idx := 0, curr_col_src_idx := 0,
      curr_col_dst_idx := 0, curr_packed_row_idx := 0, total_elements_packed := 0 }
    data_dims.rows hmono ⟨rfl, rfl, rfl, rfl⟩
    (by
      have := alloc_packed_vals_length CACHELINE_SIZE (sizing_pass csr_data data_dims).toNat
        csr_data.num_nonzeros data_dims.rows hCL
      simp only; omega)
    (by
      have := alloc_packed_col_idx_length CACHELINE_SIZE (sizing_pass csr_data data_dims).toNat
        csr_data.num_nonzeros data_dims.rows hCL
      simp only; omega)
    k hk
  rw [packed_of_eq_foldl, key]

/-- Under the 16-bit limits of the row metadata word the packed decoder reads
back, from what the packer wrote, the rows the packer read (values converted,
offsets reduced to 4 bits). -/
theorem packed_stored_rows_of_packing (CACHELINE_SIZE : Nat) (cvt_ps_ph : F32 → Nat)
    (cvt_ph_ps : Nat → F32) (csr_data : csr_array_t) (data_dims : dims_t)
    (hCL : 0 < CACHELINE_SIZE)
    (hmono : ∀ q, q < data_dims.rows →
      csr_data.row_idx.getD q 0 ≤ csr_data.row_idx.getD (q + 1) 0)
    (h16 : ∀ r, r < data_dims.rows →
      start_vector csr_data r < 65536 ∧ row_count csr_data r < 65536) :
    packed_stored_rows cvt_ph_ps
        (packed_of CACHELINE_SIZE cvt_ps_ph csr_data data_dims).vals
        (packed_of CACHELINE_SIZE cvt_ps_ph csr_data data_dims).col_idx
        (packed_of CACHELINE_SIZE cvt_ps_ph csr_data data_dims).row_idx data_dims.rows
      = packed_rows (fun v => cvt_ph_ps (cvt_ps_ph v)) csr_data data_dims.rows := by
  unfold packed_stored_rows packed_rows
  apply List.map_congr_left
  intro k hk
  have hk : k < data_dims.rows := List.mem_range.mp hk
  exact packed_stored_row_of_packing CACHELINE_SIZE cvt_ps_ph cvt_ph_ps csr_data data_dims
    hCL hmono k hk (h16 k hk).1 (h16 k hk).2

/-- Rows whose entries are all reconstructed below `cols` decode without fault
and leave the columns `cols .. width - 1` of every row of the buffer as they
were. -/
theorem dec_rows_pad_frame (width cols : Nat) (Es : List (List (F32 × Nat))) (n : Nat)
    (buf : List F32) (hw : cols ≤ width)
    (hall : ∀ r k, r < n → k < (Es.getD r []).length → recon_col (Es.getD r []) k < cols) :
    ∃ out, dec_rows width Es n buf = some out ∧ out.length = buf.length ∧
      ∀ r c, cols ≤ c → c < width →
        out.getD (r * width + c) F32.zero = buf.getD (r * width + c) F32.zero := by
  refine ⟨write_rows width Es n buf,
    dec_rows_eq_some width Es n buf (fun r k hr hk => by have := hall r k hr hk; omega),
    (write_rows_frame width Es n buf).1, ?_⟩
  intro r c hc hcw
  apply (write_rows_frame width Es n buf).2
  intro q k hq hk heq
  have hlt := hall q k hq hk
  unfold ARRAY_2D_idx at heq
  obtain ⟨-, h2⟩ := idx_unique width r c q _ hcw (by omega) heq
  omega

theorem start_entry_mono (csr_data : csr_array_t) (r k : Nat) (h : r ≤ k) :
    start_entry csr_data r ≤ start_entry csr_data k := by
  induction k with
  | zero =>
    have : r = 0 := by omega
    rw [this]
  | succ k ih =>
    by_cases hr : r = k + 1
    · rw [hr]
    · have := ih (by omega)
      rw [start_entry_succ]
      omega

/-- The rows that `decompress_csr_data` reads from the array with converted
values are the rows the packed decoder reads back from the packing. -/
theorem stored_rows_map_csr_vals (g : F32 → F32) (csr_data : csr_array_t) (rows : Nat)
    (hoff : ∀ k, csr_data.col_idx.getD k 0 ≤ 15)
    (hvals : start_entry csr_data rows ≤ csr_data.vals.length) :
    stored_rows (map_csr_vals g csr_data) rows = packed_rows g csr_data rows := by
  unfold stored_rows packed_rows
  apply List.map_congr_left
  intro r hr
  have hr : r < rows := List.mem_range.mp hr
  have hrc : row_count (map_csr_vals g csr_data) r = row_count csr_data r := rfl
  have hse : start_entry (map_csr_vals g csr_data) r = start_entry csr_data r := rfl
  rw [hrc, hse]
  apply List.map_congr_left
  intro i hi
  have hi : i < row_count csr_data r := List.mem_range.mp hi
  have hle := start_entry_mono csr_data (r + 1) rows (by omega)
  rw [start_entry_succ] at hle
  have hv : (map_csr_vals g csr_data).vals.getD (start_entry csr_data r + i) F32.zero
      = g (csr_data.vals.getD (start_entry csr_data r + i) F32.zero) := by
    unfold map_csr_vals
    simp only
    exact getD_map_of_lt g csr_data.vals _ F32.zero F32.zero (by omega)
  have hc : (map_csr_vals g csr_data).col_idx.getD (start_entry csr_data r + i) 0
      = csr_data.col_idx.getD (start_entry csr_data r + i) 0 % 16 := by
    have := hoff (start_entry csr_data r + i)
    rw [Nat.mod_eq_of_lt (by omega)]
    rfl
  rw [hv, hc]

/-! ## The unused slots of the value vectors -/

theorem getD_replicate_self {α : Type} (n c : Nat) (a : α) :
    (List.replicate n a).getD c a = a := by
  by_cases hc : c < n
  · rw [List.getD_eq_getElem _ _ (by simpa using hc), List.getElem_replicate]
  · rw [List.getD_eq_default _ _ (by simpa using hc)]

/-- One iteration of the `iter` loop with elements remaining: the lanes of the
staging vector and what is stored from them. -/
theorem pack_iter_lanes (cvt_ps_ph : F32 → Nat) (csr_data : csr_array_t) (v : vec_state)
    (iter n : Nat) (hn : 0 < n) (hrem : v.elems_remaining = (n : Int))
    (h32 : v.data_f32.length = 8) (h16 : v.data_f16.length = 16) (hiter : iter < 2) :
    (∀ c, c < min n 8 →
      (pack_iter cvt_ps_ph csr_data v iter).data_f32.getD c F32.zero
        = csr_data.vals.getD (v.curr_wgt_src_idx + c) F32.zero) ∧
    (∀ c, min n 8 ≤ c →
      (pack_iter cvt_ps_ph csr_data v iter).data_f32.getD c F32.zero
        = v.data_f32.getD c F32.zero) ∧
    (∀ i, i < 8 →
      (pack_iter cvt_ps_ph csr_data v iter).data_f16.getD (iter * 8 + i) 0
        = cvt_ps_ph ((pack_iter cvt_ps_ph csr_data v iter).data_f32.getD i F32.zero)) := by
  have hpos : ¬ v.elems_remaining ≤ 0 := by rw [hrem]; omega
  obtain ⟨f1, f2, f3, f4⟩ := fill_f32 csr_data.vals (min n 8) v.data_f32 v.curr_wgt_src_idx
  have hm : (min2 v.elems_remaining (VECTOR_SIZE : Nat)).toNat = min n 8 := by
    rw [hrem, VECTOR_SIZE_eq]; exact min2_toNat n 8
  unfold pack_iter
  rw [if_neg hpos]
  simp only [hm]
  simp only [VECTOR_SIZE_eq]
  obtain ⟨g1, g2, g3⟩ := fill_f16
    (fun i => (((List.range (min n 8)).foldl
        (fun (p : List F32 × Nat) col =>
          (p.1.set col (csr_data.vals.getD p.2 F32.zero), p.2 + 1))
        (v.data_f32, v.curr_wgt_src_idx)).1.map cvt_ps_ph).getD i 0) (iter * 8) 8 v.data_f16
  refine ⟨fun c hc => f3 c hc (by omega), fun c hc => f4 c hc, ?_⟩
  intro i hi
  rw [g2 i hi (by omega)]
  exact getD_map_of_lt cvt_ps_ph _ i F32.zero 0 (by rw [f2, h32]; exact hi)

/-- One iteration of the value-vector loop on a row with `n > 0` entries left:
the lanes of the written vector beyond the entries. -/
theorem pack_value_vector_lanes (cvt_ps_ph : F32 → Nat) (csr_data : csr_array_t)
    (region : List (List Nat)) (src dst n : Nat) (hn : 0 < n) :
    ∃ D rem', pack_value_vector cvt_ps_ph csr_data (region, src, dst, (n : Int))
        = (region.set dst D, src + min n 16, dst + 1, rem') ∧
      (16 ≤ n → rem' = (n : Int) - 16) ∧
      (∀ j, n ≤ j → j < 16 → D.getD j 0 = unused_slot cvt_ps_ph csr_data.vals src n j) := by
  have h2 : List.range (UNPACKED_ELEMENT_SIZE / PACKED_ELEMENT_SIZE) = [0, 1] := rfl
  unfold pack_value_vector
  simp only [h2, List.foldl_cons, List.foldl_nil, VECTOR_SIZE_eq]
  generalize hv0 : (vec_state.mk (List.replicate 8 F32.zero) (List.replicate (2 * 8) 0)
      src (n : Int)) = v0
  have hv0r : v0.elems_remaining = (n : Int) := by rw [← hv0]
  have hv0s : v0.curr_wgt_src_idx = src := by rw [← hv0]
  have hv0a : v0.data_f32.length = 8 := by rw [← hv0]; simp
  have hv0b : v0.data_f16.length = 16 := by rw [← hv0]; simp
  have hv0z : ∀ c, v0.data_f32.getD c F32.zero = F32.zero := by
    intro c
    rw [← hv0]
    exact getD_replicate_self 8 c F32.zero
  have hv0y : ∀ j, v0.data_f16.getD j 0 = 0 := by
    intro j
    rw [← hv0]
    exact getD_replicate_self (2 * 8) j 0
  obtain ⟨a1, a2, a3, a4, -, a6⟩ := pack_iter_pos cvt_ps_ph csr_data v0 0 n hn hv0r
    hv0a hv0b (by omega)
  obtain ⟨l1, l2, l3⟩ := pack_iter_lanes cvt_ps_ph csr_data v0 0 n hn hv0r
    hv0a hv0b (by omega)
  rw [hv0s] at a1 l1
  generalize pack_iter cvt_ps_ph csr_data v0 0 = v1 at a1 a2 a3 a4 a6 l1 l2 l3 ⊢
  by_cases h8 : 8 < n
  · obtain ⟨b1, b2, b3, b4, -, b6⟩ := pack_iter_pos cvt_ps_ph csr_data v1 1 (n - 8)
      (by omega) (by rw [a2]; omega) a3 a4 (by omega)
    obtain ⟨m1, m2, m3⟩ := pack_iter_lanes cvt_ps_ph csr_data v1 1 (n - 8)
      (by omega) (by rw [a2]; omega) a3 a4 (by omega)
    rw [a1] at b1
    generalize pack_iter cvt_ps_ph csr_data v1 1 = v2 at b1 b2 b3 b4 b6 m1 m2 m3 ⊢
    have hsrc : v2.curr_wgt_src_idx = src + min n 16 := by rw [b1]; omega
    refine ⟨v2.data_f16, v2.elems_remaining, by rw [hsrc], fun _ => by rw [b2]; omega, ?_⟩
    intro j hj hj16
    have hj8 : ¬ j % 16 < 8 := by omega
    have hn8 : ¬ n % 16 ≤ 8 := by omega
    unfold unused_slot
    rw [if_neg hj8, if_neg hn8]
    have := m3 (j - 8) (by omega)
    rw [show 1 * 8 + (j - 8) = j by omega] at this
    rw [this, m2 (j - 8) (by omega), l1 (j - 8) (by omega)]
    congr 2
    omega
  · rw [pack_iter_done cvt_ps_ph csr_data v1 1 (by rw [a2]; omega)]
    have hsrc : v1.curr_wgt_src_idx = src + min n 16 := by rw [a1]; omega
    refine ⟨v1.data_f16, v1.elems_remaining, by rw [hsrc], fun h16 => by omega, ?_⟩
    intro j hj hj16
    unfold unused_slot
    by_cases hj8 : j < 8
    · rw [if_pos (by omega)]
      have := l3 j hj8
      rw [Nat.zero_mul, Nat.zero_add] at this
      rw [this, l2 j (by omega), hv0z]
    · rw [if_neg (by omega), if_pos (by omega)]
      rw [a6 j (Or.inr (by omega)), hv0y]

theorem unused_slot_shift (cvt_ps_ph : F32 → Nat) (vals : List F32) (src n i : Nat)
    (hn : 16 ≤ n) (hi : n ≤ i) :
    unused_slot cvt_ps_ph vals (src + 16) (n - 16) (i - 16)
      = unused_slot cvt_ps_ph vals src n i := by
  unfold unused_slot
  have e1 : (i - 16) % 16 = i % 16 := by omega
  have e2 : (n - 16) % 16 = n % 16 := by omega
  rw [e1, e2]
  by_cases h1 : i % 16 < 8
  · rw [if_pos h1, if_pos h1]
  · rw [if_neg h1, if_neg h1]
    have e3 : src + 16 + (i - 16) - 8 = src + i - 8 := by omega
    rw [e3]

/-- The value-vector loop of a row with `n` entries, run for `m` vectors: the
slots beyond the entries. -/
theorem pack_values_iterate_unused (cvt_ps_ph : F32 → Nat) (csr_data : csr_array_t)
    (d : List Nat) (m n : Nat) (hm : 16 * m < n + 16) (region : List (List Nat))
    (src dst : Nat) (hcap : dst + m ≤ region.length) :
    ∀ i, n ≤ i → i < 16 * m →
      (((iterate (pack_value_vector cvt_ps_ph csr_data) m
          (region, src, dst, (n : Int))).1).getD (dst + i / 16) d).getD (i % 16) 0
        = unused_slot cvt_ps_ph csr_data.vals src n i := by
  induction m generalizing region src dst n with
  | zero => intro i _ hi; omega
  | succ m ih =>
    intro i hni hi
    have hn : 0 < n := by omega
    obtain ⟨D, rem1, h1, h4, h5⟩ :=
      pack_value_vector_lanes cvt_ps_ph csr_data region src dst n hn
    rw [iterate_succ, h1]
    by_cases hm0 : m = 0
    · subst hm0
      rw [iterate_zero]
      have hi16 : i < 16 := by omega
      have e1 : dst + i / 16 = dst := by omega
      have e2 : i % 16 = i := by omega
      simp only
      rw [e1, e2, getD_set_self _ _ _ _ (by omega)]
      exact h5 i hni hi16
    · have hn16 : 16 ≤ n := by omega
      rw [h4 hn16]
      have hcast : (n : Int) - 16 = ((n - 16 : Nat) : Int) := by omega
      have hmin : min n 16 = 16 := by omega
      rw [hcast, hmin]
      have := ih (n - 16) (by omega) (region.set dst D) (src + 16) (dst + 1)
        (by simp; omega) (i - 16) (by omega) (by omega)
      have e1 : dst + 1 + (i - 16) / 16 = dst + i / 16 := by omega
      have e2 : (i - 16) % 16 = i % 16 := by omega
      rw [e1, e2, unused_slot_shift cvt_ps_ph csr_data.vals src n i hn16 hni] at this
      exact this

/-- The values region after the body of the row loop. -/
theorem pack_row_vals (cvt_ps_ph : F32 → Nat) (csr_data : csr_array_t) (s : pack_state)
    (k : Nat) (hmono : csr_data.row_idx.getD k 0 ≤ csr_data.row_idx.getD (k + 1) 0) :
    (pack_row cvt_ps_ph csr_data s k).csr.vals
      = (iterate (pack_value_vector cvt_ps_ph csr_data) (row_vectors csr_data k)
          (s.csr.vals, s.curr_wgt_src_idx, s.curr_wgt_dst_idx,
            (row_count csr_data k : Int))).1 := by
  have hn : (csr_data.row_idx.getD (k + 1) 0 : Int) - (csr_data.row_idx.getD k 0 : Int)
      = (row_count csr_data k : Int) := by
    have h := num_elems_of_le csr_data k hmono
    unfold num_elems at h
    exact h
  have hV : FRAC_CEIL (row_count csr_data k : Int) ((VECTOR_SIZE * 2 : Nat) : Int)
      = (row_vectors csr_data k : Int) := by
    rw [← hn]; exact FRAC_CEIL_row csr_data k hmono
  unfold pack_row
  simp only [hn, hV, Int.toNat_ofNat]

/-- The unused slots of the last vector of every row, in the array written by
the packing pass. -/
theorem pack_state_at_unused (CACHELINE_SIZE : Nat) (cvt_ps_ph : F32 → Nat)
    (csr_data : csr_array_t) (data_dims : dims_t) (d : List Nat) (hCL : 0 < CACHELINE_SIZE)
    (hmono : ∀ q, q < data_dims.rows →
      csr_data.row_idx.getD q 0 ≤ csr_data.row_idx.getD (q + 1) 0)
    (r i : Nat) (hr : r < data_dims.rows)
    (hi : row_count csr_data r ≤ i) (hi16 : i < 16 * row_vectors csr_data r)
    (k : Nat) (hrk : r < k) (hk : k ≤ data_dims.rows) :
    ((pack_state_at CACHELINE_SIZE cvt_ps_ph csr_data data_dims k).csr.vals.getD
        (start_vector csr_data r + i / 16) d).getD (i % 16) 0
      = unused_slot cvt_ps_ph csr_data.vals (start_entry csr_data r) (row_count csr_data r)
          i := by
  induction k with
  | zero => omega
  | succ k ih =>
    rw [pack_state_at_succ]
    obtain ⟨s1, s2, -, s4, s5, s6, -, -⟩ := pack_state_at_spec CACHELINE_SIZE cvt_ps_ph
      csr_data data_dims d hCL hmono k (by omega)
    have hend := start_vector_mono csr_data (k + 1) data_dims.rows (by omega)
    rw [start_vector_succ] at hend
    by_cases hkr : k = r
    · subst hkr
      rw [pack_row_vals cvt_ps_ph csr_data _ k (hmono k hr), s1, s2]
      exact pack_values_iterate_unused cvt_ps_ph csr_data d (row_vectors csr_data k)
        (row_count csr_data k) (by unfold row_vectors; omega) _ _ _ (by omega) i hi hi16
    · obtain ⟨-, -, -, -, -, -, k7, -⟩ := pack_row_spec cvt_ps_ph csr_data d
        (pack_state_at CACHELINE_SIZE cvt_ps_ph csr_data data_dims k) k (hmono k (by omega))
        (by rw [s2]; omega) (by rw [s4]; omega)
      have hle := start_vector_end_le csr_data r k (by omega)
      rw [k7 _ (Or.inl (by rw [s2]; omega))]
      exact ih (by omega) (by omega)

theorem packed_of_row_word (CACHELINE_SIZE : Nat) (cvt_ps_ph : F32 → Nat)
    (csr_data : csr_array_t) (data_dims : dims_t) (hCL : 0 < CACHELINE_SIZE)
    (r : Nat) (hr : r < data_dims.rows) :
    (packed_of CACHELINE_SIZE cvt_ps_ph csr_data data_dims).row_idx.getD r 0
      = row_word (start_vector_int csr_data r) (num_elems csr_data r) :=
  packing_pass_row_word CACHELINE_SIZE cvt_ps_ph csr_data data_dims _ _ hCL r hr

/-- The slots of the first vector of the packed array, as `unpack_values_at_row`
returns them: the entries of row 0, then its unused slots. -/
theorem packed_entry_first_vector (CACHELINE_SIZE : Nat) (cvt_ps_ph : F32 → Nat)
    (cvt_ph_ps : Nat → F32) (csr_data : csr_array_t) (data_dims : dims_t)
    (hCL : 0 < CACHELINE_SIZE)
    (hmono : ∀ q, q < data_dims.rows →
      csr_data.row_idx.getD q 0 ≤ csr_data.row_idx.getD (q + 1) 0)
    (hr : 0 < data_dims.rows) (hv : 0 < row_count csr_data 0) (i : Nat) (hi : i < 16) :
    packed_entry cvt_ph_ps (packed_of CACHELINE_SIZE cvt_ps_ph csr_data data_dims).vals
        (packed_of CACHELINE_SIZE cvt_ps_ph csr_data data_dims).col_idx 0 i
      = (cvt_ph_ps (if i < row_count csr_data 0
            then cvt_ps_ph (csr_data.vals.getD i F32.zero)
            else unused_slot cvt_ps_ph csr_data.vals 0 (row_count csr_data 0) i),
         if i < row_count csr_data 0 then csr_data.col_idx.getD i 0 % 16 else 0) := by
  have hS0 : start_vector csr_data 0 = 0 := rfl
  have hE0 : start_entry csr_data 0 = 0 := rfl
  have hvec : 16 ≤ 16 * row_vectors csr_data 0 := by
    unfold row_vectors; omega
  obtain ⟨-, -, -, -, -, -, k7, k8⟩ := pack_state_at_spec CACHELINE_SIZE cvt_ps_ph csr_data
    data_dims (List.replicate 16 0) hCL hmono data_dims.rows (le_refl _)
  rw [← packed_of_eq_pack_state_at] at k7 k8
  obtain ⟨u1, u2⟩ := unpack_getD cvt_ph_ps
    (packed_of CACHELINE_SIZE cvt_ps_ph csr_data data_dims).vals
    (packed_of CACHELINE_SIZE cvt_ps_ph csr_data data_dims).col_idx 0 i hi
  have e16 : i / 16 = 0 := by omega
  have m16 : i % 16 = i := by omega
  unfold packed_entry
  rw [e16, m16, Nat.add_zero, u1, u2]
  have h8 := k8 0 i hr (by omega)
  rw [hS0, hE0, Nat.mul_zero, Nat.zero_add, Nat.zero_add] at h8
  rw [Nat.zero_mul, Nat.zero_add, h8]
  by_cases hlt : i < row_count csr_data 0
  · have h7 := k7 0 i hr hlt
    rw [hS0, hE0, e16, m16, Nat.zero_add, Nat.zero_add] at h7
    rw [if_pos hlt, if_pos hlt, h7]
  · have hu := pack_state_at_unused CACHELINE_SIZE cvt_ps_ph csr_data data_dims
      (List.replicate 16 0) hCL hmono 0 i hr (by omega) (by omega) data_dims.rows hr
      (le_refl _)
    rw [← packed_of_eq_pack_state_at, hS0, hE0, e16, m16, Nat.zero_add] at hu
    rw [if_neg hlt, if_neg hlt, hu]

/-! ## A matrix with more than 65535 vectors -/

theorem compress_row_count (data : List F32) (data_dims : dims_t)
    (hh : data_dims.height = 1)
    (hlen : data.length = data_dims.rows * data_dims.cols) (r : Nat)
    (hr : r < data_dims.rows) :
    row_count (compress_dense_data_csr data data_dims) r
      = (row_entries data data_dims 0 r).length := by
  rw [compress_dense_data_csr_eq_csr_of data data_dims hh (hcap_of_length data data_dims hlen),
    csr_of_row_count _ r (by rw [all_entries_length]; exact hr),
    all_entries_getD data data_dims r hr]

theorem compress_getD_col_idx (data : List F32) (data_dims : dims_t)
    (hh : data_dims.height = 1)
    (hlen : data.length = data_dims.rows * data_dims.cols) (r i : Nat)
    (hr : r < data_dims.rows) (hi : i < (row_entries data data_dims 0 r).length) :
    (compress_dense_data_csr data data_dims).col_idx.getD
        (start_entry (compress_dense_data_csr data data_dims) r + i) 0
      = ((row_entries data data_dims 0 r).getD i (F32.zero, 0)).2 := by
  have hEs := all_entries_length data data_dims
  rw [compress_dense_data_csr_eq_csr_of data data_dims hh (hcap_of_length data data_dims hlen),
    csr_of_start_entry _ r (by omega),
    csr_of_getD_col_idx _ r i (by omega)
      (by rw [all_entries_getD data data_dims r hr]; exact hi),
    all_entries_getD data data_dims r hr]

theorem sample_tall_length :
    sample_tall.length = sample_dims_tall.rows * sample_dims_tall.cols := by
  simp [sample_tall, sample_dims_tall]

theorem sample_tall_array (r c : Nat) (hr : r < 65537) (hc : c < 2) :
    ARRAY_3D sample_tall 65537 2 0 r c = sample_tall_cell (r * 2 + c) := by
  rw [ARRAY_3D_slice0]
  unfold sample_tall
  exact getD_map_range _ _ _ _ (by omega)

/-- The entries of a row of two cells. -/
theorem row_entries_two (data : List F32) (rows height pad r : Nat) (a b : F32)
    (ha : ARRAY_3D data rows 2 0 r 0 = a) (hb : ARRAY_3D data rows 2 0 r 1 = b) :
    row_entries data ⟨rows, 2, height, pad⟩ 0 r
      = enc_from 0 (if b.isZero then [a] else [a, b]) := by
  have h2 : List.range 2 = [0, 1] := rfl
  have h1 : List.range 1 = [0] := rfl
  unfold row_entries row_cells count_row
  simp only [h2, List.foldl_cons, List.foldl_nil, ha, hb]
  cases hbz : b.isZero <;> cases haz : a.isZero <;>
    simp [h1, h2, ha, hb]

theorem sample_tall_row_first :
    row_entries sample_tall sample_dims_tall 0 0 = [(f32_one, 1)] := by
  have ha := sample_tall_array 0 0 (by omega) (by omega)
  have hb := sample_tall_array 0 1 (by omega) (by omega)
  have e := row_entries_two sample_tall 65537 1 1 0 _ _ ha hb
  have e0 : sample_tall_cell (0 * 2 + 0) = F32.zero := rfl
  have e1 : sample_tall_cell (0 * 2 + 1) = f32_one := rfl
  rw [e0, e1] at e
  exact e

theorem sample_tall_row_mid (r : Nat) (h1 : 1 ≤ r) (h2 : r < 65536) :
    row_entries sample_tall sample_dims_tall 0 r = [(f32_one, 0)] := by
  have ha := sample_tall_array r 0 (by omega) (by omega)
  have hb := sample_tall_array r 1 (by omega) (by omega)
  have e := row_entries_two sample_tall 65537 1 1 r _ _ ha hb
  have e0 : sample_tall_cell (r * 2 + 0) = f32_one := by
    unfold sample_tall_cell
    rw [if_neg (by omega), if_neg (by omega), if_neg (by omega), if_pos (by omega)]
  have e1 : sample_tall_cell (r * 2 + 1) = F32.zero := by
    unfold sample_tall_cell
    rw [if_neg (by omega), if_neg (by omega), if_neg (by omega), if_neg (by omega)]
  rw [e0, e1] at e
  exact e

theorem sample_tall_row_last :
    row_entries sample_tall sample_dims_tall 0 65536 = [(f32_one, 0), (f32_one, 0)] := by
  have ha := sample_tall_array 65536 0 (by omega) (by omega)
  have hb := sample_tall_array 65536 1 (by omega) (by omega)
  have e := row_entries_two sample_tall 65537 1 1 65536 _ _ ha hb
  have e0 : sample_tall_cell (65536 * 2 + 0) = f32_one := by
    unfold sample_tall_cell
    rw [if_neg (by omega), if_neg (by omega), if_pos (by omega)]
  have e1 : sample_tall_cell (65536 * 2 + 1) = f32_one := by
    unfold sample_tall_cell
    rw [if_neg (by omega), if_neg (by omega), if_pos (by omega)]
  rw [e0, e1] at e
  exact e

theorem sample_tall_row_count (r : Nat) (hr : r < 65536) :
    row_count (compress_dense_data_csr sample_tall sample_dims_tall) r = 1 := by
  rw [compress_row_count sample_tall sample_dims_tall rfl sample_tall_length r
    (by show r < 65537; omega)]
  by_cases h0 : r = 0
  · subst h0
    rw [sample_tall_row_first]
    rfl
  · rw [sample_tall_row_mid r (by omega) hr]
    rfl

theorem sample_tall_row_count_last :
    row_count (compress_dense_data_csr sample_tall sample_dims_tall) 65536 = 2 := by
  rw [compress_row_count sample_tall sample_dims_tall rfl sample_tall_length 65536
    (by show 65536 < 65537; omega), sample_tall_row_last]
  rfl

theorem sample_tall_start_vector (r : Nat) (hr : r ≤ 65536) :
    start_vector (compress_dense_data_csr sample_tall sample_dims_tall) r = r := by
  induction r with
  | zero => rfl
  | succ r ih =>
    rw [start_vector_succ, ih (by omega)]
    unfold row_vectors
    rw [sample_tall_row_count r (by omega)]

/-- The rows that the packed decoder would read back from the packing of an
encoder output if every row fitted the 16-bit fields. -/
theorem packed_rows_compress (g : F32 → F32) (data : List F32) (data_dims : dims_t)
    (hh : data_dims.height = 1)
    (hlen : data.length = data_dims.rows * data_dims.cols) :
    packed_rows g (compress_dense_data_csr data data_dims) data_dims.rows
      = (all_entries data data_dims).map (map_vals g) := by
  have hrows := packed_rows_csr_of g (all_entries data data_dims)
    (all_entries_offsets_le data data_dims)
  rw [all_entries_length,
    ← compress_dense_data_csr_eq_csr_of data data_dims hh
      (hcap_of_length data data_dims hlen)] at hrows
  exact hrows

theorem sample_tall_mono :
    ∀ q, q < sample_dims_tall.rows →
      sample_tall_csr.row_idx.getD q 0 ≤ sample_tall_csr.row_idx.getD (q + 1) 0 :=
  (compress_counts sample_tall sample_dims_tall rfl sample_tall_length).2.2.2.2

/-- The rows 0 to 65535 of `sample_tall` are read back with their entries
reconstructed below `cols = 2`. -/
theorem sample_tall_read_bound (r k : Nat) (hr : r < 65536)
    (hk : k < ((packed_stored_rows trunc_ph_ps
        (packed_of 64 trunc_ps_ph sample_tall_csr sample_dims_tall).vals
        (packed_of 64 trunc_ps_ph sample_tall_csr sample_dims_tall).col_idx
        (packed_of 64 trunc_ps_ph sample_tall_csr sample_dims_tall).row_idx 65537).getD r
        []).length) :
    recon_col ((packed_stored_rows trunc_ph_ps
        (packed_of 64 trunc_ps_ph sample_tall_csr sample_dims_tall).vals
        (packed_of 64 trunc_ps_ph sample_tall_csr sample_dims_tall).col_idx
        (packed_of 64 trunc_ps_ph sample_tall_csr sample_dims_tall).row_idx 65537).getD r
        []) k < 2 := by
  have hrow : (packed_stored_rows trunc_ph_ps
        (packed_of 64 trunc_ps_ph sample_tall_csr sample_dims_tall).vals
        (packed_of 64 trunc_ps_ph sample_tall_csr sample_dims_tall).col_idx
        (packed_of 64 trunc_ps_ph sample_tall_csr sample_dims_tall).row_idx 65537).getD r []
      = map_vals (fun v => trunc_ph_ps (trunc_ps_ph v))
          ((all_entries sample_tall sample_dims_tall).getD r []) := by
    rw [packed_stored_rows_getD _ _ _ _ _ r (by omega)]
    have h := packed_stored_row_of_packing 64 trunc_ps_ph trunc_ph_ps sample_tall_csr
      sample_dims_tall (by decide) sample_tall_mono r (by show r < 65537; omega)
      (by
        have := sample_tall_start_vector r (by omega)
        unfold sample_tall_csr
        omega)
      (by
        have := sample_tall_row_count r hr
        unfold sample_tall_csr
        omega)
    rw [h]
    have h2 := packed_rows_compress (fun v => trunc_ph_ps (trunc_ps_ph v)) sample_tall
      sample_dims_tall rfl sample_tall_length
    have h3 : (packed_rows (fun v => trunc_ph_ps (trunc_ps_ph v)) sample_tall_csr
        sample_dims_tall.rows).getD r []
        = map_vals (fun v => trunc_ph_ps (trunc_ps_ph v))
            ((all_entries sample_tall sample_dims_tall).getD r []) := by
      unfold sample_tall_csr
      rw [h2, getD_map_map_vals]
    rw [← h3]
    unfold packed_rows
    rw [getD_map_range _ _ _ _ (by show r < 65537; omega)]
  rw [hrow] at hk ⊢
  rw [map_vals_length] at hk
  rw [recon_col_map_vals]
  exact recon_col_all_entries sample_tall sample_dims_tall sample_tall_length r k
    (by show r < 65537; omega) hk

/-! ## What the packed decoder reads for the last row of `sample_tall` -/

theorem sample_tall_last_lt : 65536 < sample_dims_tall.rows := by
  show 65536 < 65537
  omega

theorem sample_tall_first_lt : 0 < sample_dims_tall.rows := by
  show 0 < 65537
  omega

theorem sample_tall_start_last :
    start_vector_int sample_tall_csr 65536 = ((65536 : Nat) : Int) := by
  rw [start_vector_int_of_mono sample_tall_csr 65536
    (fun q hq => sample_tall_mono q (by show q < 65537; omega))]
  unfold sample_tall_csr
  rw [sample_tall_start_vector 65536 (le_refl _)]

theorem sample_tall_num_elems_last :
    num_elems sample_tall_csr 65536 = ((2 : Nat) : Int) := by
  rw [num_elems_of_le sample_tall_csr 65536 (sample_tall_mono 65536 sample_tall_last_lt)]
  unfold sample_tall_csr
  rw [sample_tall_row_count_last]

theorem sample_tall_row_count_first : row_count sample_tall_csr 0 = 1 :=
  sample_tall_row_count 0 (by omega)

theorem sample_tall_col_idx_first : sample_tall_csr.col_idx.getD 0 0 = 1 := by
  have h := compress_getD_col_idx sample_tall sample_dims_tall rfl sample_tall_length 0 0
    sample_tall_first_lt (by rw [sample_tall_row_first]; decide)
  rw [sample_tall_row_first] at h
  exact h

/-- The metadata word of a row that starts at vector 65536 with 2 entries. -/
theorem row_word_wrapped : row_word (((65536 : Nat) : Int)) (((2 : Nat) : Int)) = 2 := by
  rw [row_word_eq]
  omega

theorem sample_tall_word_last :
    (packed_of 64 trunc_ps_ph sample_tall_csr sample_dims_tall).row_idx.getD 65536 0 = 2 := by
  rw [packed_of_row_word 64 trunc_ps_ph sample_tall_csr sample_dims_tall (by decide) 65536
      sample_tall_last_lt,
    sample_tall_start_last, sample_tall_num_elems_last, row_word_wrapped]

theorem unused_slot_first_half (cvt_ps_ph : F32 → Nat) (vals : List F32) (src n i : Nat)
    (hi : i % 16 < 8) : unused_slot cvt_ps_ph vals src n i = cvt_ps_ph F32.zero := by
  unfold unused_slot
  rw [if_pos hi]

theorem sample_tall_slot_0 :
    packed_entry trunc_ph_ps (packed_of 64 trunc_ps_ph sample_tall_csr sample_dims_tall).vals
        (packed_of 64 trunc_ps_ph sample_tall_csr sample_dims_tall).col_idx 0 0
      = (trunc_ph_ps (trunc_ps_ph (sample_tall_csr.vals.getD 0 F32.zero)), 1 % 16) := by
  have e0 := packed_entry_first_vector 64 trunc_ps_ph trunc_ph_ps sample_tall_csr
    sample_dims_tall (by decide) sample_tall_mono sample_tall_first_lt
    (by rw [sample_tall_row_count_first]; omega) 0 (by omega)
  rw [sample_tall_row_count_first] at e0
  rw [if_pos (show 0 < 1 by omega), if_pos (show 0 < 1 by omega),
    sample_tall_col_idx_first] at e0
  exact e0

theorem sample_tall_slot_1 :
    packed_entry trunc_ph_ps (packed_of 64 trunc_ps_ph sample_tall_csr sample_dims_tall).vals
        (packed_of 64 trunc_ps_ph sample_tall_csr sample_dims_tall).col_idx 0 1
      = (trunc_ph_ps (trunc_ps_ph F32.zero), 0) := by
  have e1 := packed_entry_first_vector 64 trunc_ps_ph trunc_ph_ps sample_tall_csr
    sample_dims_tall (by decide) sample_tall_mono sample_tall_first_lt
    (by rw [sample_tall_row_count_first]; omega) 1 (by omega)
  rw [sample_tall_row_count_first] at e1
  rw [if_neg (show ¬ 1 < 1 by omega), if_neg (show ¬ 1 < 1 by omega),
    unused_slot_first_half trunc_ps_ph _ 0 1 1 (by decide)] at e1
  exact e1

theorem sample_tall_slots :
    packed_entries trunc_ph_ps
        (packed_of 64 trunc_ps_ph sample_tall_csr sample_dims_tall).vals
        (packed_of 64 trunc_ps_ph sample_tall_csr sample_dims_tall).col_idx 0 2
      = [(trunc_ph_ps (trunc_ps_ph (sample_tall_csr.vals.getD 0 F32.zero)), 1 % 16),
         (trunc_ph_ps (trunc_ps_ph F32.zero), 0)] := by
  have h2 : List.range 2 = [0, 1] := rfl
  unfold packed_entries
  rw [h2]
  simp only [List.map_cons, List.map_nil]
  rw [sample_tall_slot_0, sample_tall_slot_1]

theorem word_2_start : ((2 : Nat) >>> 16) &&& 0xffff = 0 := by decide

theorem word_2_size : (2 : Nat) &&& 0xffff = 2 := by decide

theorem read_two_slots (x : F32) :
    ([(x, 1 % 16), (trunc_ph_ps (trunc_ps_ph F32.zero), 0)] : List (F32 × Nat))
      = [(x, 1), (F32.zero, 0)] := rfl

theorem sample_tall_last_row :
    (packed_stored_rows trunc_ph_ps
        (packed_of 64 trunc_ps_ph sample_tall_csr sample_dims_tall).vals
        (packed_of 64 trunc_ps_ph sample_tall_csr sample_dims_tall).col_idx
        (packed_of 64 trunc_ps_ph sample_tall_csr sample_dims_tall).row_idx 65537).getD 65536 []
      = packed_entries trunc_ph_ps
          (packed_of 64 trunc_ps_ph sample_tall_csr sample_dims_tall).vals
          (packed_of 64 trunc_ps_ph sample_tall_csr sample_dims_tall).col_idx
          (((packed_of 64 trunc_ps_ph sample_tall_csr sample_dims_tall).row_idx.getD
            65536 0 >>> 16) &&& 0xffff)
          ((packed_of 64 trunc_ps_ph sample_tall_csr sample_dims_tall).row_idx.getD
            65536 0 &&& 0xffff) := by
  rw [packed_stored_rows_getD _ _ _ _ _ 65536 (by omega)]

/-- Row 65536 of `sample_tall` starts at vector 65536, which its metadata word
stores as 0: the packed decoder reads for it the first two slots of vector 0,
the entry of row 0 and an unused slot. -/
theorem sample_tall_last_read :
    (packed_stored_rows trunc_ph_ps
        (packed_of 64 trunc_ps_ph sample_tall_csr sample_dims_tall).vals
        (packed_of 64 trunc_ps_ph sample_tall_csr sample_dims_tall).col_idx
        (packed_of 64 trunc_ps_ph sample_tall_csr sample_dims_tall).row_idx 65537).getD 65536 []
      = [(trunc_ph_ps (trunc_ps_ph (sample_tall_csr.vals.getD 0 F32.zero)), 1),
         (F32.zero, 0)] := by
  rw [sample_tall_last_row]
  rw [sample_tall_word_last, word_2_start, word_2_size, sample_tall_slots, read_two_slots]

theorem getD_replicate_lt {α : Type} (n i : Nat) (a d : α) (h : i < n) :
    (List.replicate n a).getD i d = a := by
  rw [List.getD_eq_getElem _ _ (by simpa using h), List.getElem_replicate]

/-- A cursor decoding in rows of 3 cells whose last row reads an entry at
offset 1 and then an entry at offset 0 writes the second one into column 2. -/
theorem dec_rows_last_two (Es : List (List (F32 × Nat))) (n : Nat) (buf : List F32)
    (x : F32)
    (hall : ∀ r k, r < n → k < (Es.getD r []).length → recon_col (Es.getD r []) k < 2)
    (hlast : Es.getD n [] = [(x, 1), (F32.zero, 0)])
    (hlen : n * 3 + 2 < buf.length) :
    ∃ out, dec_rows 3 Es (n + 1) buf = some out ∧
      out.getD (n * 3 + 2) F32.zero = F32.zero := by
  have h1 := dec_rows_eq_some 3 Es n buf
    (fun r k hr hk => by have := hall r k hr hk; omega)
  have hB := (write_rows_frame 3 Es n buf).1
  rw [dec_rows_succ, h1, hlast]
  simp only [Option.some_bind, dec_from, ARRAY_2D_idx]
  refine ⟨_, rfl, ?_⟩
  exact getD_set_self _ _ _ _ (by rw [List.length_set, hB]; omega)

/-- C19 (as stated, refuted): the `65537 x 2` matrix `sample_tall` (one padding
column) packs into 65537 vectors, so row 65536 starts at vector 65536 and its
metadata word stores start vector 0.  `decompress_packed_csr_data` then reads
for that row the first two slots of vector 0, the entry of row 0 (offset 1) and
an unused slot (offset 0), and writes the second one, a zero, into the padding
column 2 of destination row 65536, which held `1.0`. -/
theorem C19_counterexample :
    ∃ p out,
      pack_data_vec8_f16 64 trunc_ps_ph
        (compress_dense_data_csr sample_tall sample_dims_tall) sample_dims_tall = some p ∧
      decompress_packed_csr_data trunc_ph_ps p.vals p.col_idx p.row_idx sample_dims_tall
        (List.replicate (65537 * 3) f32_one) = some out ∧
      out.getD (65536 * 3 + 2) F32.zero = F32.zero ∧
      (List.replicate (65537 * 3) f32_one).getD (65536 * 3 + 2) F32.zero = f32_one ∧
      sample_dims_tall = ⟨65537, 2, 1, 1⟩ := by
  obtain ⟨c0, cR, cN, -, -⟩ := compress_counts sample_tall sample_dims_tall rfl
    sample_tall_length
  have hsz : sample_dims_tall.rows * sample_dims_tall.cols = 131074 := rfl
  have hpack := pack_data_vec8_f16_eq_some_iff 64 trunc_ps_ph
    (compress_dense_data_csr sample_tall sample_dims_tall) sample_dims_tall
    (by rw [c0, cR]; omega)
  have hrows : sample_dims_tall.rows = 65537 := rfl
  have hwidth : sample_dims_tall.cols + sample_dims_tall.align_pad = 3 := rfl
  have hlen : 65536 * 3 + 2 < (List.replicate (65537 * 3) f32_one).length := by
    rw [List.length_replicate]
    omega
  have key : ∃ out,
      dec_rows 3
          (packed_stored_rows trunc_ph_ps
            (packed_of 64 trunc_ps_ph sample_tall_csr sample_dims_tall).vals
            (packed_of 64 trunc_ps_ph sample_tall_csr sample_dims_tall).col_idx
            (packed_of 64 trunc_ps_ph sample_tall_csr sample_dims_tall).row_idx 65537)
          65537 (List.replicate (65537 * 3) f32_one) = some out ∧
        out.getD (65536 * 3 + 2) F32.zero = F32.zero :=
    dec_rows_last_two _ 65536 _ _ (fun r k hr hk => sample_tall_read_bound r k hr hk)
      sample_tall_last_read hlen
  obtain ⟨out, h1, h2⟩ := key
  refine ⟨_, out, hpack, ?_, h2, getD_replicate_lt _ _ _ _ (by omega), rfl⟩
  rw [decompress_packed_csr_data_eq_dec_rows, hrows, hwidth]
  exact h1

/-- C19 (amended): whenever `decompress_csr_data` or
`decompress_packed_csr_data` completes, the buffer keeps its length and every
cell that is not the position (row, reconstructed column) of an entry read by
the decoder keeps its content.  For the encoder output of a `rows x cols`
matrix with at least one column (height 1), `decompress_csr_data` completes and
leaves the columns `cols .. cols + align_pad - 1` of every destination row
unchanged; `decompress_packed_csr_data` does the same on the packing of the
encoder output when, in addition, every row count and the total vector count
are below 65536. -/
theorem C19_decoder_frame (CACHELINE_SIZE : Nat) (cvt_ps_ph : F32 → Nat)
    (cvt_ph_ps : Nat → F32) :
    (∀ (csr_data : csr_array_t) (dims : dims_t) (buf out : List F32),
      decompress_csr_data csr_data dims buf = some out →
      out.length = buf.length ∧
      ∀ idx, (∀ r k, r < dims.rows →
          k < ((stored_rows csr_data dims.rows).getD r []).length →
          idx ≠ ARRAY_2D_idx (dims.cols + dims.align_pad) r
            (recon_col ((stored_rows csr_data dims.rows).getD r []) k)) →
        out.getD idx F32.zero = buf.getD idx F32.zero) ∧
    (∀ (cmp_data : List (List Nat)) (cmp_col_idx cmp_row_idx : List Nat) (dims : dims_t)
        (buf out : List F32),
      decompress_packed_csr_data cvt_ph_ps cmp_data cmp_col_idx cmp_row_idx dims buf
        = some out →
      out.length = buf.length ∧
      ∀ idx, (∀ r k, r < dims.rows →
          k < ((packed_stored_rows cvt_ph_ps cmp_data cmp_col_idx cmp_row_idx
                dims.rows).getD r []).length →
          idx ≠ ARRAY_2D_idx (dims.cols + dims.align_pad) r
            (recon_col ((packed_stored_rows cvt_ph_ps cmp_data cmp_col_idx cmp_row_idx
                dims.rows).getD r []) k)) →
        out.getD idx F32.zero = buf.getD idx F32.zero) ∧
    (∀ (data : List F32) (data_dims : dims_t),
      data_dims.height = 1 → 0 < data_dims.cols →
      data.length = data_dims.rows * data_dims.cols →
      ∀ buf : List F32, ∃ out,
        decompress_csr_data (compress_dense_data_csr data data_dims) data_dims buf
          = some out ∧
        out.length = buf.length ∧
        ∀ r c, data_dims.cols ≤ c → c < data_dims.cols + data_dims.align_pad →
          out.getD (r * (data_dims.cols + data_dims.align_pad) + c) F32.zero
            = buf.getD (r * (data_dims.cols + data_dims.align_pad) + c) F32.zero) ∧
    (∀ (data : List F32) (data_dims : dims_t),
      0 < CACHELINE_SIZE → data_dims.height = 1 → 0 < data_dims.cols →
      data.length = data_dims.rows * data_dims.cols →
      (∀ r, r < data_dims.rows →
        (compress_dense_data_csr data data_dims).row_idx.getD (r + 1) 0
          - (compress_dense_data_csr data data_dims).row_idx.getD r 0 < 65536) →
      sizing_pass (compress_dense_data_csr data data_dims) data_dims < 65536 →
      ∀ buf : List F32, ∃ p out,
        pack_data_vec8_f16 CACHELINE_SIZE cvt_ps_ph
          (compress_dense_data_csr data data_dims) data_dims = some p ∧
        decompress_packed_csr_data cvt_ph_ps p.vals p.col_idx p.row_idx data_dims buf
          = some out ∧
        out.length = buf.length ∧
        ∀ r c, data_dims.cols ≤ c → c < data_dims.cols + data_dims.align_pad →
          out.getD (r * (data_dims.cols + data_dims.align_pad) + c) F32.zero
            = buf.getD (r * (data_dims.cols + data_dims.align_pad) + c) F32.zero) := by
  refine ⟨?_, ?_, ?_, ?_⟩
  · intro csr_data dims buf out hout
    rw [decompress_csr_data_eq_dec_rows] at hout
    have hall : ∀ r k, r < dims.rows →
        k < ((stored_rows csr_data dims.rows).getD r []).length →
        recon_col ((stored_rows csr_data dims.rows).getD r []) k
          < dims.cols + dims.align_pad := by
      intro r k hr hk
      by_contra hge
      have hnone := (dec_rows_eq_none_iff (dims.cols + dims.align_pad)
        (stored_rows csr_data dims.rows) dims.rows buf).mpr ⟨r, k, hr, hk, by omega⟩
      rw [hout] at hnone
      exact Option.noConfusion hnone
    rw [dec_rows_eq_some _ _ _ _ hall] at hout
    rw [← Option.some.inj hout]
    exact write_rows_frame _ _ _ _
  · intro cmp_data cmp_col_idx cmp_row_idx dims buf out hout
    rw [decompress_packed_csr_data_eq_dec_rows] at hout
    have hall : ∀ r k, r < dims.rows →
        k < ((packed_stored_rows cvt_ph_ps cmp_data cmp_col_idx cmp_row_idx
              dims.rows).getD r []).length →
        recon_col ((packed_stored_rows cvt_ph_ps cmp_data cmp_col_idx cmp_row_idx
              dims.rows).getD r []) k < dims.cols + dims.align_pad := by
      intro r k hr hk
      by_contra hge
      have hnone := (dec_rows_eq_none_iff (dims.cols + dims.align_pad)
        (packed_stored_rows cvt_ph_ps cmp_data cmp_col_idx cmp_row_idx dims.rows)
        dims.rows buf).mpr ⟨r, k, hr, hk, by omega⟩
      rw [hout] at hnone
      exact Option.noConfusion hnone
    rw [dec_rows_eq_some _ _ _ _ hall] at hout
    rw [← Option.some.inj hout]
    exact write_rows_frame _ _ _ _
  · intro data data_dims hh _ hlen buf
    rw [decompress_csr_data_eq_dec_rows, stored_rows_compress data data_dims hh hlen]
    exact dec_rows_pad_frame _ data_dims.cols _ _ buf (by omega)
      (fun r k hr hk => recon_col_all_entries data data_dims hlen r k hr hk)
  · intro data data_dims hCL hh _ hlen hrow hvec buf
    obtain ⟨c0, cR, cN, -, hmono⟩ := compress_counts data data_dims hh hlen
    have hV : start_vector (compress_dense_data_csr data data_dims) data_dims.rows
        < 65536 := by
      have := sizing_pass_toNat (compress_dense_data_csr data data_dims) data_dims hmono
      omega
    have h16 : ∀ r, r < data_dims.rows →
        start_vector (compress_dense_data_csr data data_dims) r < 65536 ∧
        row_count (compress_dense_data_csr data data_dims) r < 65536 := by
      intro r hr
      have := start_vector_mono (compress_dense_data_csr data data_dims) r data_dims.rows
        (by omega)
      exact ⟨by omega, hrow r hr⟩
    have hnnz : (compress_dense_data_csr data data_dims).num_nonzeros
        = start_entry (compress_dense_data_csr data data_dims) data_dims.rows := by
      rw [start_entry_eq_row_idx _ _ c0 hmono, cR]
    have hpack := pack_data_vec8_f16_eq_some CACHELINE_SIZE cvt_ps_ph
      (compress_dense_data_csr data data_dims) data_dims hmono hnnz hV
    have hdec := packed_decode_of_packing CACHELINE_SIZE cvt_ps_ph cvt_ph_ps
      (compress_dense_data_csr data data_dims) data_dims buf hCL hmono h16
    have hrows := packed_rows_csr_of (fun v => cvt_ph_ps (cvt_ps_ph v))
      (all_entries data data_dims) (all_entries_offsets_le data data_dims)
    rw [all_entries_length,
      ← compress_dense_data_csr_eq_csr_of data data_dims hh
        (hcap_of_length data data_dims hlen)] at hrows
    rw [hrows] at hdec
    obtain ⟨out, h1, h2, h3⟩ := dec_rows_pad_frame
      (data_dims.cols + data_dims.align_pad) data_dims.cols
      ((all_entries data data_dims).map (map_vals (fun v => cvt_ph_ps (cvt_ps_ph v))))
      data_dims.rows buf (by omega)
      (fun r k hr hk => by
        rw [getD_map_map_vals] at hk ⊢
        rw [map_vals_length] at hk
        rw [recon_col_map_vals]
        exact recon_col_all_entries data data_dims hlen r k hr hk)
    exact ⟨_, out, hpack, by rw [hdec]; exact h1, h2, h3⟩

/-- C19 as amended, exercised on the `1 x 20` row of scenario B with four
padding columns and a destination buffer of ones, for both decoders. -/
theorem C19_decoder_frame_witness :
    (∃ out, decompress_csr_data (compress_dense_data_csr sample_row_20 ⟨1, 20, 1, 4⟩)
        ⟨1, 20, 1, 4⟩ (List.replicate 24 f32_one) = some out ∧
      out.length = (List.replicate 24 f32_one).length ∧
      ∀ r c, (⟨1, 20, 1, 4⟩ : dims_t).cols ≤ c →
        c < (⟨1, 20, 1, 4⟩ : dims_t).cols + (⟨1, 20, 1, 4⟩ : dims_t).align_pad →
        out.getD
            (r * ((⟨1, 20, 1, 4⟩ : dims_t).cols + (⟨1, 20, 1, 4⟩ : dims_t).align_pad) + c)
            F32.zero
          = (List.replicate 24 f32_one).getD
              (r * ((⟨1, 20, 1, 4⟩ : dims_t).cols + (⟨1, 20, 1, 4⟩ : dims_t).align_pad) + c)
              F32.zero) ∧
    (∃ p out, pack_data_vec8_f16 64 trunc_ps_ph
          (compress_dense_data_csr sample_row_20 ⟨1, 20, 1, 4⟩) ⟨1, 20, 1, 4⟩ = some p ∧
      decompress_packed_csr_data trunc_ph_ps p.vals p.col_idx p.row_idx ⟨1, 20, 1, 4⟩
          (List.replicate 24 f32_one) = some out ∧
      out.length = (List.replicate 24 f32_one).length ∧
      ∀ r c, (⟨1, 20, 1, 4⟩ : dims_t).cols ≤ c →
        c < (⟨1, 20, 1, 4⟩ : dims_t).cols + (⟨1, 20, 1, 4⟩ : dims_t).align_pad →
        out.getD
            (r * ((⟨1, 20, 1, 4⟩ : dims_t).cols + (⟨1, 20, 1, 4⟩ : dims_t).align_pad) + c)
            F32.zero
          = (List.replicate 24 f32_one).getD
              (r * ((⟨1, 20, 1, 4⟩ : dims_t).cols + (⟨1, 20, 1, 4⟩ : dims_t).align_pad) + c)
              F32.zero) :=
  ⟨(C19_decoder_frame 64 trunc_ps_ph trunc_ph_ps).2.2.1 sample_row_20 ⟨1, 20, 1, 4⟩
      (by decide) (by decide) (by decide) (List.replicate 24 f32_one),
    (C19_decoder_frame 64 trunc_ps_ph trunc_ph_ps).2.2.2 sample_row_20 ⟨1, 20, 1, 4⟩
      (by decide) (by decide) (by decide) (by decide) (by decide) (by decide)
      (List.replicate 24 f32_one)⟩

/-- C20 (decoder equivalence): for every unpacked array `c` with
`row_idx[0] = 0`, non-decreasing `row_idx`, offsets in 0..15, its
`row_idx[rows]` entries present in `vals`, every row count below 65536 and total
vector count below 65536, and every destination buffer,
`decompress_packed_csr_data` on the array packed by `pack_data_vec8_f16`
produces the same buffer, or the same fault, as `decompress_csr_data` on `c`
with each value replaced by `fromHalf (toHalf value)`; the packer returns that
array when `num_nonzeros = row_idx[rows]`. -/
theorem C20_decoder_equivalence (CACHELINE_SIZE : Nat) (cvt_ps_ph : F32 → Nat)
    (cvt_ph_ps : Nat → F32) (csr_data : csr_array_t) (data_dims : dims_t)
    (dcmp_data : List F32)
    (hCL : 0 < CACHELINE_SIZE)
    (h0 : csr_data.row_idx.getD 0 0 = 0)
    (hmono : ∀ q, q < data_dims.rows →
      csr_data.row_idx.getD q 0 ≤ csr_data.row_idx.getD (q + 1) 0)
    (hoff : ∀ k, csr_data.col_idx.getD k 0 ≤ 15)
    (hvals : csr_data.row_idx.getD data_dims.rows 0 ≤ csr_data.vals.length)
    (hrow : ∀ r, r < data_dims.rows →
      csr_data.row_idx.getD (r + 1) 0 - csr_data.row_idx.getD r 0 < 65536)
    (hvec : sizing_pass csr_data data_dims < 65536) :
    decompress_packed_csr_data cvt_ph_ps
        (packed_of CACHELINE_SIZE cvt_ps_ph csr_data data_dims).vals
        (packed_of CACHELINE_SIZE cvt_ps_ph csr_data data_dims).col_idx
        (packed_of CACHELINE_SIZE cvt_ps_ph csr_data data_dims).row_idx data_dims dcmp_data
      = decompress_csr_data (map_csr_vals (fun v => cvt_ph_ps (cvt_ps_ph v)) csr_data)
          data_dims dcmp_data ∧
    (∀ p, pack_data_vec8_f16 CACHELINE_SIZE cvt_ps_ph csr_data data_dims = some p →
      decompress_packed_csr_data cvt_ph_ps p.vals p.col_idx p.row_idx data_dims dcmp_data
        = decompress_csr_data (map_csr_vals (fun v => cvt_ph_ps (cvt_ps_ph v)) csr_data)
            data_dims dcmp_data) ∧
    (csr_data.num_nonzeros = csr_data.row_idx.getD data_dims.rows 0 →
      pack_data_vec8_f16 CACHELINE_SIZE cvt_ps_ph csr_data data_dims
        = some (packed_of CACHELINE_SIZE cvt_ps_ph csr_data data_dims)) := by
  have hV : start_vector csr_data data_dims.rows < 65536 := by
    have := sizing_pass_toNat csr_data data_dims hmono
    omega
  have h16 : ∀ r, r < data_dims.rows →
      start_vector csr_data r < 65536 ∧ row_count csr_data r < 65536 := by
    intro r hr
    have := start_vector_mono csr_data r data_dims.rows (by omega)
    exact ⟨by omega, hrow r hr⟩
  have hse := start_entry_eq_row_idx csr_data data_dims.rows h0 hmono
  have key : decompress_packed_csr_data cvt_ph_ps
        (packed_of CACHELINE_SIZE cvt_ps_ph csr_data data_dims).vals
        (packed_of CACHELINE_SIZE cvt_ps_ph csr_data data_dims).col_idx
        (packed_of CACHELINE_SIZE cvt_ps_ph csr_data data_dims).row_idx data_dims dcmp_data
      = decompress_csr_data (map_csr_vals (fun v => cvt_ph_ps (cvt_ps_ph v)) csr_data)
          data_dims dcmp_data := by
    rw [decompress_csr_data_eq_dec_rows, decompress_packed_csr_data_eq_dec_rows,
      packed_stored_rows_of_packing CACHELINE_SIZE cvt_ps_ph cvt_ph_ps csr_data data_dims
        hCL hmono h16,
      stored_rows_map_csr_vals _ csr_data data_dims.rows hoff (by rw [hse]; exact hvals)]
  refine ⟨key, fun p hp => ?_, fun hnnz => ?_⟩
  · rw [pack_data_vec8_f16_eq_packed_of _ _ _ _ p hp]
    exact key
  · apply pack_data_vec8_f16_eq_some_iff
    have hle := start_entry_le csr_data data_dims.rows
    rw [h0, hnnz]
    omega

/-- C20, exercised on the array with rows of 17 and 3 entries and a zero
buffer. -/
theorem C20_decoder_equivalence_witness :
    0 < 64 ∧ sample_csr_17_3.row_idx.getD 0 0 = 0 ∧
    (∀ q, q < sample_dims_2x40.rows →
      sample_csr_17_3.row_idx.getD q 0 ≤ sample_csr_17_3.row_idx.getD (q + 1) 0) ∧
    (∀ k, sample_csr_17_3.col_idx.getD k 0 ≤ 15) ∧
    sample_csr_17_3.row_idx.getD sample_dims_2x40.rows 0 ≤ sample_csr_17_3.vals.length ∧
    (∀ r, r < sample_dims_2x40.rows →
      sample_csr_17_3.row_idx.getD (r + 1) 0 - sample_csr_17_3.row_idx.getD r 0 < 65536) ∧
    sizing_pass sample_csr_17_3 sample_dims_2x40 < 65536 ∧
    decompress_packed_csr_data trunc_ph_ps
        (packed_of 64 trunc_ps_ph sample_csr_17_3 sample_dims_2x40).vals
        (packed_of 64 trunc_ps_ph sample_csr_17_3 sample_dims_2x40).col_idx
        (packed_of 64 trunc_ps_ph sample_csr_17_3 sample_dims_2x40).row_idx sample_dims_2x40
        (List.replicate 80 F32.zero)
      = decompress_csr_data
          (map_csr_vals (fun v => trunc_ph_ps (trunc_ps_ph v)) sample_csr_17_3)
          sample_dims_2x40 (List.replicate 80 F32.zero) :=
  have hoff : ∀ k, sample_csr_17_3.col_idx.getD k 0 ≤ 15 := fun k => by
    by_cases hk : k < 20
    · have : ∀ k, k < 20 → sample_csr_17_3.col_idx.getD k 0 ≤ 15 := by decide
      exact this k hk
    · rw [List.getD_eq_default _ _ (by simp [sample_csr_17_3]; omega)]
      exact Nat.zero_le _
  ⟨by decide, by decide, by decide, hoff, by decide, by decide, by decide,
    (C20_decoder_equivalence 64 trunc_ps_ph trunc_ph_ps sample_csr_17_3 sample_dims_2x40
      (List.replicate 80 F32.zero) (by decide) (by decide) (by decide) hoff (by decide)
      (by decide) (by decide)).1⟩

/-! ## `next_multiple` -/

theorem next_multiple_of_lt (request align : Nat) (h : request < align) :
    next_multiple request align = align := by
  unfold next_multiple
  simp [Nat.div_eq_of_lt h]

theorem next_multiple_of_dvd (request align : Nat) (hr : 0 < request)
    (hd : align ∣ request) : next_multiple request align = request := by
  unfold next_multiple
  obtain ⟨k, rfl⟩ := hd
  rcases Nat.eq_zero_or_pos align with ha | ha
  · subst ha
    simp at hr
  · have hk : 0 < k := Nat.pos_of_ne_zero (fun h0 => by subst h0; simp at hr)
    have hdiv : align * k / align = k := Nat.mul_div_cancel_left k ha
    have hmod : align * k % align = 0 := Nat.mul_mod_right align k
    simp [hdiv, hmod, Nat.pos_iff_ne_zero.mp hk]

theorem next_multiple_cases (request align : Nat) (h : 0 < align) :
    (request < align ∧ next_multiple request align = align) ∨
    (align ≤ request ∧ request % align = 0 ∧ next_multiple request align = request) ∨
    (align ≤ request ∧ request % align ≠ 0 ∧
      next_multiple request align = (request / align + 1) * align) := by
  rcases Nat.lt_or_ge request align with hlt | hge
  · exact Or.inl ⟨hlt, next_multiple_of_lt request align hlt⟩
  · have hn : request / align ≠ 0 := by
      have : 0 < request / align := Nat.div_pos hge h
      omega
    by_cases hm : request % align = 0
    · refine Or.inr (Or.inl ⟨hge, hm, ?_⟩)
      unfold next_multiple
      simp [hn, hm]
    · refine Or.inr (Or.inr ⟨hge, hm, ?_⟩)
      unfold next_multiple
      simp [hn, hm]

theorem next_multiple_pos (request align : Nat) (h : 0 < align) :
    0 < next_multiple request align := by
  rcases next_multiple_cases request align h with ⟨_, e⟩ | ⟨h1, _, e⟩ | ⟨_, _, e⟩
  · omega
  · omega
  · rw [e]
    exact Nat.mul_pos (Nat.succ_pos _) h

theorem next_multiple_dvd (request align : Nat) (h : 0 < align) :
    align ∣ next_multiple request align := by
  rcases next_multiple_cases request align h with ⟨_, e⟩ | ⟨_, h2, e⟩ | ⟨_, _, e⟩
  · rw [e]
  · rw [e]
    exact Nat.dvd_of_mod_eq_zero h2
  · rw [e]
    exact Nat.dvd_mul_left _ _

theorem next_multiple_least (request align m : Nat) (h : 0 < align) (hm : 0 < m)
    (hd : align ∣ m) (hge : request ≤ m) : next_multiple request align ≤ m := by
  rcases next_multiple_cases request align h with ⟨_, e⟩ | ⟨_, _, e⟩ | ⟨_, h3, e⟩
  · rw [e]
    exact Nat.le_of_dvd hm hd
  · omega
  · rw [e]
    obtain ⟨k, rfl⟩ := hd
    have h1 : request / align * align + request % align = request := Nat.div_add_mod' _ _
    have h2 : request / align < k := by
      by_contra hc
      have hk : k ≤ request / align := Nat.le_of_not_lt hc
      have : align * k ≤ request / align * align := by
        rw [Nat.mul_comm align k]
        exact Nat.mul_le_mul_right align hk
      have h4 : 0 < request % align := Nat.pos_of_ne_zero h3
      omega
    calc (request / align + 1) * align ≤ k * align := Nat.mul_le_mul_right align h2
      _ = align * k := Nat.mul_comm k align

theorem next_multiple_idem (request align : Nat) (h : 0 < align) :
    next_multiple (next_multiple request align) align = next_multiple request align :=
  next_multiple_of_dvd _ _ (next_multiple_pos request align h) (next_multiple_dvd request align h)

theorem next_multiple_size_t_eq (request align : Nat)
    (hfit : next_multiple request align < 2 ^ 64) :
    next_multiple_size_t request align = next_multiple request align := by
  unfold next_multiple_size_t
  unfold next_multiple at hfit ⊢
  by_cases hn : request / align = 0
  · simp [hn]
  · by_cases hm : request % align = 0
    · simp [hn, hm]
    · simp only [beq_iff_eq, hn, if_false, bne_iff_ne, ne_eq, hm, not_false_eq_true,
        if_true] at hfit ⊢
      exact Nat.mod_eq_of_lt hfit

theorem div_mul_of_dvd_dvd (a b c : Nat) (hab : a ∣ b) (hbc : b ∣ c) : a * (c / a) = c :=
  Nat.mul_div_cancel' (Nat.dvd_trans hab hbc)

theorem next_multiple_le_add (request align : Nat) (h : 0 < align) :
    next_multiple request align ≤ request + align := by
  rcases next_multiple_cases request align h with ⟨_, e⟩ | ⟨_, _, e⟩ | ⟨_, _, e⟩
  · omega
  · omega
  · rw [e, Nat.add_mul, Nat.one_mul]
    have := Nat.div_mul_le_self request align
    omega

/-- Whenever some positive multiple of `align` that is at least `request` is
below `2 ^ 64`, the arithmetic of `size_t` computes `next_multiple`. -/
theorem next_multiple_size_t_of_fit (request align m : Nat) (h : 0 < align) (hm : 0 < m)
    (hd : align ∣ m) (hge : request ≤ m) (hlt : m < 2 ^ 64) :
    next_multiple_size_t request align = next_multiple request align ∧
    next_multiple request align < 2 ^ 64 := by
  have hle := next_multiple_least request align m h hm hd hge
  have hfit : next_multiple request align < 2 ^ 64 := by omega
  exact ⟨next_multiple_size_t_eq request align hfit, hfit⟩

/-- Within the range of `size_t` the size computation of
`alloc_packed_csr_array_t` gives the sizes computed on natural numbers. -/
theorem alloc_packed_sizes_eq (CACHELINE_SIZE V R : Nat) (hCL : 0 < CACHELINE_SIZE)
    (hfit : 40 * V + 4 * R + 3 * CACHELINE_SIZE < 2 ^ 64) :
    alloc_packed_sizes CACHELINE_SIZE V R
      = { values_size := next_multiple (32 * V) CACHELINE_SIZE,
          col_idx_size := next_multiple (8 * V) CACHELINE_SIZE,
          row_idx_size := next_multiple (4 * R) CACHELINE_SIZE,
          total_buf_size := next_multiple (32 * V) CACHELINE_SIZE
            + next_multiple (8 * V) CACHELINE_SIZE + next_multiple (4 * R) CACHELINE_SIZE,
          col_idx_ofs := next_multiple (32 * V) CACHELINE_SIZE / 4,
          row_idx_ofs := next_multiple (32 * V) CACHELINE_SIZE / 4
            + next_multiple (8 * V) CACHELINE_SIZE / 4 } := by
  have b1 := next_multiple_le_add (32 * V) CACHELINE_SIZE hCL
  have b2 := next_multiple_le_add (8 * V) CACHELINE_SIZE hCL
  have b3 := next_multiple_le_add (4 * R) CACHELINE_SIZE hCL
  have e1 : (V * TOTAL_VECTOR_BYTES) % 2 ^ 64 = 32 * V := by
    rw [TOTAL_VECTOR_BYTES_eq, Nat.mul_comm]
    exact Nat.mod_eq_of_lt (by omega)
  have e2 : (((V * DATA_TO_INDEX_RATIO) % 2 ^ 64) * 4) % 2 ^ 64 = 8 * V := by
    rw [DATA_TO_INDEX_RATIO_eq, Nat.mod_eq_of_lt (by omega), Nat.mod_eq_of_lt (by omega)]
    omega
  have e3 : (R * 4) % 2 ^ 64 = 4 * R := by
    rw [Nat.mul_comm]
    exact Nat.mod_eq_of_lt (by omega)
  have s1 := next_multiple_size_t_eq (32 * V) CACHELINE_SIZE (by omega)
  have s2 := next_multiple_size_t_eq (8 * V) CACHELINE_SIZE (by omega)
  have s3 := next_multiple_size_t_eq (4 * R) CACHELINE_SIZE (by omega)
  unfold alloc_packed_sizes
  simp only [e1, e2, e3, s1, s2, s3]
  rw [Nat.mod_eq_of_lt (a := next_multiple (32 * V) CACHELINE_SIZE
      + next_multiple (8 * V) CACHELINE_SIZE) (by omega),
    Nat.mod_eq_of_lt (by omega)]

/-! ## Claims C22 and C23: `next_multiple` and the size of the packed buffer -/

/-- C22 (as stated, refuted): for `request = 2 ^ 64 - 1` and `align = 64`, both
values of `size_t`, the product `(n + 1) * align` is `2 ^ 64` and wraps:
`next_multiple` returns 0, which is neither positive nor at least `request`. -/
theorem C22_counterexample :
    0 < 64 ∧ 18446744073709551615 < 2 ^ 64 ∧
    next_multiple_size_t 18446744073709551615 64 = 0 ∧
    ¬ 0 < next_multiple_size_t 18446744073709551615 64 ∧
    ¬ 18446744073709551615 ≤ next_multiple_size_t 18446744073709551615 64 := by
  decide

/-- C22 (amended): for every `request` and every `align > 0` for which some
positive multiple `m` of `align` with `request <= m` is below `2 ^ 64`,
`next_multiple request align`, computed in the arithmetic of `size_t`, is the
least positive multiple of `align` that is at least `request`: it is positive,
a multiple of `align`, at least `request` and at most every such multiple; it
is `align` for `request < align` (so also for `request = 0`) and `request`
itself when `request` is a non-zero multiple of `align`; hence it is idempotent
in its first argument. -/
theorem C22_next_multiple_in_range (request align m : Nat) (h : 0 < align) (hm : 0 < m)
    (hd : align ∣ m) (hge : request ≤ m) (hlt : m < 2 ^ 64) :
    0 < next_multiple_size_t request align ∧
    align ∣ next_multiple_size_t request align ∧
    request ≤ next_multiple_size_t request align ∧
    (∀ k, 0 < k → align ∣ k → request ≤ k → next_multiple_size_t request align ≤ k) ∧
    (request < align → next_multiple_size_t request align = align) ∧
    (0 < request → align ∣ request → next_multiple_size_t request align = request) ∧
    next_multiple_size_t (next_multiple_size_t request align) align
      = next_multiple_size_t request align := by
  obtain ⟨e, hfit⟩ := next_multiple_size_t_of_fit request align m h hm hd hge hlt
  have hidem := next_multiple_idem request align h
  have e2 : next_multiple_size_t (next_multiple request align) align
      = next_multiple (next_multiple request align) align :=
    next_multiple_size_t_eq _ _ (by rw [hidem]; exact hfit)
  rw [e]
  exact ⟨next_multiple_pos request align h, next_multiple_dvd request align h,
    next_multiple_ge request align h,
    fun k hk hdk hgk => next_multiple_least request align k h hk hdk hgk,
    next_multiple_of_lt request align, next_multiple_of_dvd request align,
    by rw [e2, hidem]⟩

/-- C22 as amended, exercised on a request of 70 bytes with 64-byte alignment,
for which the multiple 128 is in range; and on the non-zero multiple 128. -/
theorem C22_next_multiple_in_range_witness :
    0 < 64 ∧ 0 < 128 ∧ 64 ∣ 128 ∧ 70 ≤ 128 ∧ 128 < 2 ^ 64 ∧
    next_multiple_size_t 70 64 = 128 ∧
    next_multiple_size_t 128 64 = 128 ∧
    (0 < next_multiple_size_t 70 64 ∧
    64 ∣ next_multiple_size_t 70 64 ∧
    70 ≤ next_multiple_size_t 70 64 ∧
    (∀ k, 0 < k → 64 ∣ k → 70 ≤ k → next_multiple_size_t 70 64 ≤ k) ∧
    (70 < 64 → next_multiple_size_t 70 64 = 64) ∧
    (0 < 70 → 64 ∣ 70 → next_multiple_size_t 70 64 = 70) ∧
    next_multiple_size_t (next_multiple_size_t 70 64) 64 = next_multiple_size_t 70 64) :=
  ⟨by decide, by decide, by decide, by decide, by decide, by decide, by decide,
    C22_next_multiple_in_range 70 64 128 (by decide) (by decide) (by decide) (by decide)
      (by decide)⟩

/-- C23 (as stated, refuted): for `V = 2 ^ 59 - 1` value vectors and a cache
line of 64 bytes the request `32 * V = 2 ^ 64 - 32` is in range, but its next
multiple of 64 is `2 ^ 64`, which wraps: `alloc_packed_csr_array_t` computes a
values region of 0 bytes, not a positive multiple of the cache line and less
than the `32 * V` bytes of the vectors. -/
theorem C23_counterexample :
    0 < 64 ∧ 4 ∣ 64 ∧ 32 * 576460752303423487 < 2 ^ 64 ∧
    (alloc_packed_sizes 64 576460752303423487 0).values_size = 0 ∧
    ¬ 0 < (alloc_packed_sizes 64 576460752303423487 0).values_size ∧
    ¬ 32 * 576460752303423487 ≤ (alloc_packed_sizes 64 576460752303423487 0).values_size := by
  decide

/-- C23 (amended): for every number `V` of value vectors and every number `R`
of rows with `40 * V + 4 * R + 3 * CACHELINE_SIZE < 2 ^ 64`, so that no size
leaves the range of `size_t`, `alloc_packed_csr_array_t` computes the region
sizes `next_multiple (32 * V)`, `next_multiple (8 * V)` and
`next_multiple (4 * R)` of `CACHELINE_SIZE` and sets `total_buf_size` to their
sum; each of the three region sizes and the total are positive multiples of
`CACHELINE_SIZE`, and the regions hold the `32 * V`, `8 * V` and `4 * R` bytes
asked for; and, `CACHELINE_SIZE` being a multiple of the 4 bytes of a word,
the `col_idx` region starts at the byte offset equal to the size of the values
region and the `row_idx` region at the sum of the first two sizes.  These are
the sizes and offsets of the array that the model of the allocation holds. -/
theorem C23_allocation_size_in_range (CACHELINE_SIZE V nnz R : Nat)
    (hCL : 0 < CACHELINE_SIZE) (h4 : 4 ∣ CACHELINE_SIZE)
    (hfit : 40 * V + 4 * R + 3 * CACHELINE_SIZE < 2 ^ 64) :
    (alloc_packed_sizes CACHELINE_SIZE V R).values_size
      = next_multiple_size_t (32 * V) CACHELINE_SIZE ∧
    (alloc_packed_sizes CACHELINE_SIZE V R).col_idx_size
      = next_multiple_size_t (8 * V) CACHELINE_SIZE ∧
    (alloc_packed_sizes CACHELINE_SIZE V R).row_idx_size
      = next_multiple_size_t (4 * R) CACHELINE_SIZE ∧
    (alloc_packed_sizes CACHELINE_SIZE V R).total_buf_size
      = (alloc_packed_sizes CACHELINE_SIZE V R).values_size
        + (alloc_packed_sizes CACHELINE_SIZE V R).col_idx_size
        + (alloc_packed_sizes CACHELINE_SIZE V R).row_idx_size ∧
    (0 < (alloc_packed_sizes CACHELINE_SIZE V R).values_size ∧
      CACHELINE_SIZE ∣ (alloc_packed_sizes CACHELINE_SIZE V R).values_size ∧
      32 * V ≤ (alloc_packed_sizes CACHELINE_SIZE V R).values_size) ∧
    (0 < (alloc_packed_sizes CACHELINE_SIZE V R).col_idx_size ∧
      CACHELINE_SIZE ∣ (alloc_packed_sizes CACHELINE_SIZE V R).col_idx_size ∧
      8 * V ≤ (alloc_packed_sizes CACHELINE_SIZE V R).col_idx_size) ∧
    (0 < (alloc_packed_sizes CACHELINE_SIZE V R).row_idx_size ∧
      CACHELINE_SIZE ∣ (alloc_packed_sizes CACHELINE_SIZE V R).row_idx_size ∧
      4 * R ≤ (alloc_packed_sizes CACHELINE_SIZE V R).row_idx_size) ∧
    (0 < (alloc_packed_sizes CACHELINE_SIZE V R).total_buf_size ∧
      CACHELINE_SIZE ∣ (alloc_packed_sizes CACHELINE_SIZE V R).total_buf_size ∧
      (alloc_packed_sizes CACHELINE_SIZE V R).total_buf_size < 2 ^ 64) ∧
    4 * (alloc_packed_sizes CACHELINE_SIZE V R).col_idx_ofs
      = (alloc_packed_sizes CACHELINE_SIZE V R).values_size ∧
    4 * (alloc_packed_sizes CACHELINE_SIZE V R).row_idx_ofs
      = (alloc_packed_sizes CACHELINE_SIZE V R).values_size
        + (alloc_packed_sizes CACHELINE_SIZE V R).col_idx_size ∧
    (alloc_packed_csr_array_t CACHELINE_SIZE V nnz R).total_buf_size
      = (alloc_packed_sizes CACHELINE_SIZE V R).total_buf_size ∧
    (alloc_packed_csr_array_t CACHELINE_SIZE V nnz R).col_idx_ofs
      = (alloc_packed_sizes CACHELINE_SIZE V R).col_idx_ofs ∧
    (alloc_packed_csr_array_t CACHELINE_SIZE V nnz R).row_idx_ofs
      = (alloc_packed_sizes CACHELINE_SIZE V R).row_idx_ofs := by
  have b1 := next_multiple_le_add (32 * V) CACHELINE_SIZE hCL
  have b2 := next_multiple_le_add (8 * V) CACHELINE_SIZE hCL
  have b3 := next_multiple_le_add (4 * R) CACHELINE_SIZE hCL
  have s1 := next_multiple_size_t_eq (32 * V) CACHELINE_SIZE (by omega)
  have s2 := next_multiple_size_t_eq (8 * V) CACHELINE_SIZE (by omega)
  have s3 := next_multiple_size_t_eq (4 * R) CACHELINE_SIZE (by omega)
  have p1 := next_multiple_pos (32 * V) CACHELINE_SIZE hCL
  have p2 := next_multiple_pos (8 * V) CACHELINE_SIZE hCL
  have p3 := next_multiple_pos (4 * R) CACHELINE_SIZE hCL
  have d1 := next_multiple_dvd (32 * V) CACHELINE_SIZE hCL
  have d2 := next_multiple_dvd (8 * V) CACHELINE_SIZE hCL
  have d3 := next_multiple_dvd (4 * R) CACHELINE_SIZE hCL
  have g1 := next_multiple_ge (32 * V) CACHELINE_SIZE hCL
  have g2 := next_multiple_ge (8 * V) CACHELINE_SIZE hCL
  have g3 := next_multiple_ge (4 * R) CACHELINE_SIZE hCL
  have w1 := div_mul_of_dvd_dvd 4 CACHELINE_SIZE _ h4 d1
  have w2 := div_mul_of_dvd_dvd 4 CACHELINE_SIZE _ h4 d2
  have e1 : V * TOTAL_VECTOR_BYTES = 32 * V := by
    show V * 32 = 32 * V
    exact Nat.mul_comm V 32
  have e2 : V * DATA_TO_INDEX_RATIO * 4 = 8 * V := by
    show V * 2 * 4 = 8 * V
    omega
  have e3 : R * 4 = 4 * R := Nat.mul_comm R 4
  rw [alloc_packed_sizes_eq CACHELINE_SIZE V R hCL hfit, s1, s2, s3]
  dsimp only
  refine ⟨rfl, rfl, rfl, rfl, ⟨p1, d1, g1⟩, ⟨p2, d2, g2⟩, ⟨p3, d3, g3⟩,
    ⟨by omega, Nat.dvd_add (Nat.dvd_add d1 d2) d3, by omega⟩, w1, ?_, ?_, ?_, ?_⟩
  · rw [Nat.mul_add, w1, w2]
  · simp only [alloc_packed_csr_array_t, e1, e2, e3]
  · simp only [alloc_packed_csr_array_t, e1]
  · simp only [alloc_packed_csr_array_t, e1, e2]

/-- C23 as amended, exercised on 3 value vectors and 2 rows with 64-byte cache
lines: the buffer has 128 + 64 + 64 bytes. -/
theorem C23_allocation_size_in_range_witness :
    0 < 64 ∧ 4 ∣ 64 ∧ 40 * 3 + 4 * 2 + 3 * 64 < 2 ^ 64 ∧
    alloc_packed_sizes 64 3 2
      = { values_size := 128, col_idx_size := 64, row_idx_size := 64, total_buf_size := 256,
          col_idx_ofs := 32, row_idx_ofs := 48 } ∧
    (alloc_packed_sizes 64 3 2).total_buf_size
      = (alloc_packed_sizes 64 3 2).values_size + (alloc_packed_sizes 64 3 2).col_idx_size
        + (alloc_packed_sizes 64 3 2).row_idx_size ∧
    (alloc_packed_csr_array_t 64 3 20 2).total_buf_size
      = (alloc_packed_sizes 64 3 2).total_buf_size :=
  ⟨by decide, by decide, by decide, by decide,
    (C23_allocation_size_in_range 64 3 20 2 (by decide) (by decide) (by decide)).2.2.2.1,
    (C23_allocation_size_in_range 64 3 20 2 (by decide) (by decide)
      (by decide)).2.2.2.2.2.2.2.2.2.2.1⟩

/-! ## The packed decoder reads only the counted slots -/

theorem packed_entries_congr (cvt_ph_ps : Nat → F32) (cmp_data cmp_data' : List (List Nat))
    (cmp_col_idx cmp_col_idx' : List Nat) (start size : Nat)
    (hval : ∀ i, i < size →
      (cmp_data.getD (start + i / 16) (List.replicate 16 0)).getD (i % 16) 0
        = (cmp_data'.getD (start + i / 16) (List.replicate 16 0)).getD (i % 16) 0)
    (hoff : ∀ i, i < size →
      (cmp_col_idx.getD ((start + i / 16) * 2 + i % 16 / 8) 0 >>> (i % 16 % 8 * 4)) &&& 0xf
        = (cmp_col_idx'.getD ((start + i / 16) * 2 + i % 16 / 8) 0
            >>> (i % 16 % 8 * 4)) &&& 0xf) :
    packed_entries cvt_ph_ps cmp_data cmp_col_idx start size
      = packed_entries cvt_ph_ps cmp_data' cmp_col_idx' start size := by
  unfold packed_entries
  apply List.map_congr_left
  intro i hi
  have hi' : i < size := List.mem_range.mp hi
  have h16 : i % 16 < 16 := Nat.mod_lt _ (by decide)
  unfold packed_entry
  rw [(unpack_getD cvt_ph_ps cmp_data cmp_col_idx (start + i / 16) (i % 16) h16).1,
    (unpack_getD cvt_ph_ps cmp_data cmp_col_idx (start + i / 16) (i % 16) h16).2,
    (unpack_getD cvt_ph_ps cmp_data' cmp_col_idx' (start + i / 16) (i % 16) h16).1,
    (unpack_getD cvt_ph_ps cmp_data' cmp_col_idx' (start + i / 16) (i % 16) h16).2,
    hval i hi', hoff i hi']

theorem packed_stored_rows_congr (cvt_ph_ps : Nat → F32)
    (cmp_data cmp_data' : List (List Nat))
    (cmp_col_idx cmp_col_idx' cmp_row_idx cmp_row_idx' : List Nat) (rows : Nat)
    (hword : ∀ r, r < rows → cmp_row_idx.getD r 0 = cmp_row_idx'.getD r 0)
    (hval : ∀ r, r < rows → ∀ i, i < (cmp_row_idx.getD r 0 &&& 0xffff) →
      (cmp_data.getD (((cmp_row_idx.getD r 0 >>> 16) &&& 0xffff) + i / 16)
          (List.replicate 16 0)).getD (i % 16) 0
        = (cmp_data'.getD (((cmp_row_idx.getD r 0 >>> 16) &&& 0xffff) + i / 16)
          (List.replicate 16 0)).getD (i % 16) 0)
    (hoff : ∀ r, r < rows → ∀ i, i < (cmp_row_idx.getD r 0 &&& 0xffff) →
      (cmp_col_idx.getD ((((cmp_row_idx.getD r 0 >>> 16) &&& 0xffff) + i / 16) * 2
          + i % 16 / 8) 0 >>> (i % 16 % 8 * 4)) &&& 0xf
        = (cmp_col_idx'.getD ((((cmp_row_idx.getD r 0 >>> 16) &&& 0xffff) + i / 16) * 2
          + i % 16 / 8) 0 >>> (i % 16 % 8 * 4)) &&& 0xf) :
    packed_stored_rows cvt_ph_ps cmp_data cmp_col_idx cmp_row_idx rows
      = packed_stored_rows cvt_ph_ps cmp_data' cmp_col_idx' cmp_row_idx' rows := by
  unfold packed_stored_rows
  apply List.map_congr_left
  intro r hr
  have hr' : r < rows := List.mem_range.mp hr
  rw [← hword r hr']
  exact packed_entries_congr cvt_ph_ps cmp_data cmp_data' cmp_col_idx cmp_col_idx' _ _
    (hval r hr') (hoff r hr')

/-! ## Claim C21: unused slots and nibbles are never read -/

/-- C21: for any two packed inputs with the same row metadata words that agree
on every value slot and on every offset nibble at the positions below each
row's element count (entry `i` of a row that starts at vector `s` is lane
`i mod 16` of vector `s + i / 16`, its nibble is nibble `i mod 8` of word
`2 * (s + i / 16) + (i mod 16) / 8`), `decompress_packed_csr_data` gives the
same result from the same destination buffer, whatever the slots and nibbles
beyond the count hold. -/
theorem C21_unused_slots_not_read (cvt_ph_ps : Nat → F32)
    (cmp_data cmp_data' : List (List Nat))
    (cmp_col_idx cmp_col_idx' cmp_row_idx cmp_row_idx' : List Nat) (data_dims : dims_t)
    (dcmp_data : List F32)
    (hword : ∀ r, r < data_dims.rows → cmp_row_idx.getD r 0 = cmp_row_idx'.getD r 0)
    (hval : ∀ r, r < data_dims.rows → ∀ i, i < (cmp_row_idx.getD r 0 &&& 0xffff) →
      (cmp_data.getD (((cmp_row_idx.getD r 0 >>> 16) &&& 0xffff) + i / 16)
          (List.replicate 16 0)).getD (i % 16) 0
        = (cmp_data'.getD (((cmp_row_idx.getD r 0 >>> 16) &&& 0xffff) + i / 16)
          (List.replicate 16 0)).getD (i % 16) 0)
    (hoff : ∀ r, r < data_dims.rows → ∀ i, i < (cmp_row_idx.getD r 0 &&& 0xffff) →
      (cmp_col_idx.getD ((((cmp_row_idx.getD r 0 >>> 16) &&& 0xffff) + i / 16) * 2
          + i % 16 / 8) 0 >>> (i % 16 % 8 * 4)) &&& 0xf
        = (cmp_col_idx'.getD ((((cmp_row_idx.getD r 0 >>> 16) &&& 0xffff) + i / 16) * 2
          + i % 16 / 8) 0 >>> (i % 16 % 8 * 4)) &&& 0xf) :
    decompress_packed_csr_data cvt_ph_ps cmp_data cmp_col_idx cmp_row_idx data_dims dcmp_data
      = decompress_packed_csr_data cvt_ph_ps cmp_data' cmp_col_idx' cmp_row_idx' data_dims
          dcmp_data := by
  rw [decompress_packed_csr_data_eq_dec_rows, decompress_packed_csr_data_eq_dec_rows,
    packed_stored_rows_congr cvt_ph_ps cmp_data cmp_data' cmp_col_idx cmp_col_idx'
      cmp_row_idx cmp_row_idx' data_dims.rows hword hval hoff]

/-- C21, exercised on a row of 17 entries whose second vector has 15 unused
slots: zero slots and nibbles in one input, `2.0` and offset 15 in the other;
both decode to seventeen `1.0` followed by three `0.0`. -/
theorem C21_unused_slots_not_read_witness :
    (∀ r, r < sample_dims_1x20_pad.rows →
      sample_packed_rows.getD r 0 = sample_packed_rows.getD r 0) ∧
    (∀ r, r < sample_dims_1x20_pad.rows →
      ∀ i, i < (sample_packed_rows.getD r 0 &&& 0xffff) →
      (sample_packed_vals_a.getD (((sample_packed_rows.getD r 0 >>> 16) &&& 0xffff) + i / 16)
          (List.replicate 16 0)).getD (i % 16) 0
        = (sample_packed_vals_b.getD
            (((sample_packed_rows.getD r 0 >>> 16) &&& 0xffff) + i / 16)
          (List.replicate 16 0)).getD (i % 16) 0) ∧
    sample_packed_vals_a ≠ sample_packed_vals_b ∧
    sample_packed_idx_a ≠ sample_packed_idx_b ∧
    decompress_packed_csr_data trunc_ph_ps sample_packed_vals_b sample_packed_idx_b
        sample_packed_rows sample_dims_1x20_pad (List.replicate 20 F32.zero)
      = some (List.replicate 17 f32_one ++ List.replicate 3 F32.zero) ∧
    decompress_packed_csr_data trunc_ph_ps sample_packed_vals_a sample_packed_idx_a
        sample_packed_rows sample_dims_1x20_pad (List.replicate 20 F32.zero)
      = decompress_packed_csr_data trunc_ph_ps sample_packed_vals_b sample_packed_idx_b
          sample_packed_rows sample_dims_1x20_pad (List.replicate 20 F32.zero) :=
  ⟨by decide, by decide, by decide, by decide, by decide,
    C21_unused_slots_not_read trunc_ph_ps sample_packed_vals_a sample_packed_vals_b
      sample_packed_idx_a sample_packed_idx_b sample_packed_rows sample_packed_rows
      sample_dims_1x20_pad (List.replicate 20 F32.zero) (by decide) (by decide) (by decide)⟩

/-! ## Claim C24: buffers with alignment cells -/

/-- C24, on the `2 x 2` matrix `sample_padded_2x2` whose buffer rows are
`cols + align_pad = 3` cells wide: `compress_dense_data_csr` reads row 1 at the
flat positions 2 and 3 (stride `cols`), that is the alignment cell of row 0 and
the first cell of row 1, so that it stores the single entry `(2.0, 1)` for row 1
instead of the two non-zero cells `2.0, 1.0` at the flat positions 3 and 4;
`decompress_csr_data` with the same descriptor, which writes with stride
`cols + align_pad`, then gives `1.0, 2.0, 0.0, 0.0, 2.0, 0.0` from a zeroed
buffer and not the cells of the matrix. -/
theorem C24_padded_rows_misread :
    sample_padded_2x2.length
      = sample_dims_2x2_pad.rows * (sample_dims_2x2_pad.cols + sample_dims_2x2_pad.align_pad) ∧
    compress_dense_data_csr sample_padded_2x2 sample_dims_2x2_pad
      = { vals := [f32_one, f32_two, f32_two], col_idx := [0, 0, 1], row_idx := [0, 2, 3],
          num_nonzeros := 3, num_rows := 2 } ∧
    row_slice (compress_dense_data_csr sample_padded_2x2 sample_dims_2x2_pad) 1
      = [(f32_two, 1)] ∧
    (List.range sample_dims_2x2_pad.cols).map (fun c =>
        sample_padded_2x2.getD
          (1 * (sample_dims_2x2_pad.cols + sample_dims_2x2_pad.align_pad) + c) F32.zero)
      = [f32_two, f32_one] ∧
    decompress_csr_data (compress_dense_data_csr sample_padded_2x2 sample_dims_2x2_pad)
        sample_dims_2x2_pad (List.replicate 6 F32.zero)
      = some [f32_one, f32_two, F32.zero, F32.zero, f32_two, F32.zero] ∧
    [f32_one, f32_two, F32.zero, F32.zero, f32_two, F32.zero] ≠ sample_padded_2x2 := by
  decide

/-! ## The last stored entry of a row -/

theorem off_after_le (off : Nat) (cells : List F32) (h15 : off ≤ 15) :
    off_after off cells ≤ 15 := by
  induction cells generalizing off with
  | nil => exact h15
  | cons v rest ih =>
    rw [off_after_cons]
    by_cases he : emits off v = true
    · rw [if_pos he]
      exact ih 0 (by omega)
    · rw [if_neg he]
      obtain ⟨-, hb, hle⟩ := not_emits off v he h15
      rw [hb]
      exact ih (off + 1) hle

theorem enc_from_offset_sum (off : Nat) (cells : List F32) (h15 : off ≤ 15) :
    ((enc_from off cells).map (fun e => e.2 + 1)).sum + off_after off cells
      = off + cells.length := by
  induction cells generalizing off with
  | nil => simp [enc_from, off_after]
  | cons v rest ih =>
    rw [enc_from_cons, off_after_cons]
    by_cases he : emits off v = true
    · rw [if_pos he, if_pos he, stored_offset_eq off v he h15]
      have := ih 0 (by omega)
      simp only [List.map_cons, List.sum_cons, List.length_cons]
      omega
    · rw [if_neg he, if_neg he]
      obtain ⟨-, hb, hle⟩ := not_emits off v he h15
      rw [hb]
      have := ih (off + 1) hle
      simp only [List.length_cons]
      omega

theorem recon_col_snoc (A : List (F32 × Nat)) (e : F32 × Nat) :
    recon_col (A ++ [e]) A.length = (A.map (fun x => x.2 + 1)).sum + e.2 := by
  unfold recon_col
  have ht : (A ++ [e]).take (A.length + 1) = A ++ [e] :=
    List.take_of_length_le (by simp)
  rw [ht]
  simp

theorem map_range_split {α : Type} (f : Nat → α) (n c : Nat) (hc : c < n) :
    (List.range n).map f
      = (List.range c).map f ++ f c :: (List.range (n - c - 1)).map (fun j => f (c + 1 + j)) := by
  have hn : n = c + 1 + (n - c - 1) := by omega
  conv_lhs => rw [hn]
  rw [List.range_add, List.range_succ]
  simp [List.map_append, Function.comp_def]

/-- The entries of a row whose last non-zero cell is `v`: the entries of the
cells before it, then `v` with the offset left by those cells. -/
theorem enc_strip_last (pre zs : List F32) (v : F32) (hv : v.isZero = false)
    (hzs : ∀ z, z ∈ zs → z.isZero = true) :
    enc_from 0 (strip (pre ++ v :: zs)) = enc_from 0 pre ++ [(v, off_after 0 pre)] := by
  have e1 : pre ++ v :: zs = (pre ++ [v]) ++ zs := by simp
  rw [e1, strip_append_zeros _ _ hzs, strip_snoc]
  simp only [hv, Bool.false_eq_true, if_false]
  rw [enc_from_append, enc_from_nonzero _ v [] hv (off_after_le 0 pre (by omega))]
  rfl

theorem recon_col_last (pre : List F32) (v : F32) :
    recon_col (enc_from 0 pre ++ [(v, off_after 0 pre)]) (enc_from 0 pre).length
      = pre.length := by
  rw [recon_col_snoc]
  have := enc_from_offset_sum 0 pre (by omega)
  simpa using this

/-- The stored entries of a row whose last non-zero column is `c`. -/
theorem row_slice_of_last_nonzero (data : List F32) (data_dims : dims_t)
    (hh : data_dims.height = 1)
    (hlen : data.length = data_dims.rows * data_dims.cols)
    (r : Nat) (hr : r < data_dims.rows) (c : Nat) (hc : c < data_dims.cols)
    (hnz : (data.getD (r * data_dims.cols + c) F32.zero).isZero = false)
    (hlast : ∀ j, j < data_dims.cols → c < j →
      (data.getD (r * data_dims.cols + j) F32.zero).isZero = true) :
    row_slice (compress_dense_data_csr data data_dims) r
      = enc_from 0 ((List.range c).map
            (fun j => data.getD (r * data_dims.cols + j) F32.zero))
          ++ [(data.getD (r * data_dims.cols + c) F32.zero,
               off_after 0 ((List.range c).map
                 (fun j => data.getD (r * data_dims.cols + j) F32.zero)))] := by
  rw [compress_row_slice data data_dims hh (hcap_of_length data data_dims hlen) r hr,
    row_entries_eq_strip data data_dims r (fun h => absurd hc (by omega))]
  have hsplit : row_list data data_dims r
      = (List.range c).map (fun j => data.getD (r * data_dims.cols + j) F32.zero)
        ++ data.getD (r * data_dims.cols + c) F32.zero
          :: (List.range (data_dims.cols - c - 1)).map
              (fun j => data.getD (r * data_dims.cols + (c + 1 + j)) F32.zero) := by
    unfold row_list
    exact map_range_split
      (fun j => data.getD (r * data_dims.cols + j) F32.zero) data_dims.cols c hc
  rw [hsplit]
  apply enc_strip_last _ _ _ hnz
  intro z hz
  obtain ⟨j, hj, rfl⟩ := List.mem_map.mp hz
  have hj' : j < data_dims.cols - c - 1 := List.mem_range.mp hj
  exact hlast (c + 1 + j) (by omega) (by omega)

/-! ## Claim C25: trailing zeros of a row -/

/-- C25: for every dense matrix (height 1) and every row `r` with a non-zero
cell, `c` being the row's last non-zero column, the entries that
`compress_dense_data_csr` stores for the row are not empty, the last of them
holds the value of cell `(r, c)`, which is non-zero, and its reconstructed
column is `c`: no padding entry follows the last non-zero of a row, and the
zero cells after column `c` are not represented. -/
theorem C25_trailing_zeros (data : List F32) (data_dims : dims_t)
    (hh : data_dims.height = 1)
    (hlen : data.length = data_dims.rows * data_dims.cols)
    (r : Nat) (hr : r < data_dims.rows) (c : Nat) (hc : c < data_dims.cols)
    (hnz : (data.getD (r * data_dims.cols + c) F32.zero).isZero = false)
    (hlast : ∀ j, j < data_dims.cols → c < j →
      (data.getD (r * data_dims.cols + j) F32.zero).isZero = true) :
    row_slice (compress_dense_data_csr data data_dims) r ≠ [] ∧
    ((row_slice (compress_dense_data_csr data data_dims) r).getD
        ((row_slice (compress_dense_data_csr data data_dims) r).length - 1) (F32.zero, 0)).1
      = data.getD (r * data_dims.cols + c) F32.zero ∧
    ((row_slice (compress_dense_data_csr data data_dims) r).getD
        ((row_slice (compress_dense_data_csr data data_dims) r).length - 1)
        (F32.zero, 0)).1.isZero = false ∧
    recon_col (row_slice (compress_dense_data_csr data data_dims) r)
        ((row_slice (compress_dense_data_csr data data_dims) r).length - 1) = c := by
  rw [row_slice_of_last_nonzero data data_dims hh hlen r hr c hc hnz hlast]
  have hl : ∀ (A : List (F32 × Nat)) (e : F32 × Nat),
      (A ++ [e]).length - 1 = A.length := fun A e => by simp
  have hg : ∀ (A : List (F32 × Nat)) (e : F32 × Nat),
      (A ++ [e]).getD A.length (F32.zero, 0) = e := fun A e => by
    simp [List.getD_eq_getElem?_getD]
  rw [hl, hg]
  refine ⟨by simp, rfl, hnz, ?_⟩
  rw [recon_col_last]
  simp

/-- C25, exercised on row 0 of the `2 x 2` matrix `1.0, 0.0 / -0.0, 2.0`, whose
last non-zero column is 0. -/
theorem C25_trailing_zeros_witness :
    sample_dims_2x2.height = 1 ∧
    sample_data_2x2.length = sample_dims_2x2.rows * sample_dims_2x2.cols ∧
    (sample_data_2x2.getD (0 * sample_dims_2x2.cols + 0) F32.zero).isZero = false ∧
    (∀ j, j < sample_dims_2x2.cols → 0 < j →
      (sample_data_2x2.getD (0 * sample_dims_2x2.cols + j) F32.zero).isZero = true) ∧
    (row_slice (compress_dense_data_csr sample_data_2x2 sample_dims_2x2) 0 ≠ [] ∧
    ((row_slice (compress_dense_data_csr sample_data_2x2 sample_dims_2x2) 0).getD
        ((row_slice (compress_dense_data_csr sample_data_2x2 sample_dims_2x2) 0).length - 1)
        (F32.zero, 0)).1
      = sample_data_2x2.getD (0 * sample_dims_2x2.cols + 0) F32.zero ∧
    ((row_slice (compress_dense_data_csr sample_data_2x2 sample_dims_2x2) 0).getD
        ((row_slice (compress_dense_data_csr sample_data_2x2 sample_dims_2x2) 0).length - 1)
        (F32.zero, 0)).1.isZero = false ∧
    recon_col (row_slice (compress_dense_data_csr sample_data_2x2 sample_dims_2x2) 0)
        ((row_slice (compress_dense_data_csr sample_data_2x2 sample_dims_2x2) 0).length - 1)
      = 0) :=
  ⟨rfl, rfl, by decide, by decide,
    C25_trailing_zeros sample_data_2x2 sample_dims_2x2 rfl rfl 0 (by decide) 0
      (by decide) (by decide) (by decide)⟩

/-! ## Rows are encoded independently -/

theorem csr_of_slices (Es : List (List (F32 × Nat))) (r : Nat) (hr : r < Es.length) :
    ((csr_of Es).vals.drop ((csr_of Es).row_idx.getD r 0)).take
        ((csr_of Es).row_idx.getD (r + 1) 0 - (csr_of Es).row_idx.getD r 0)
      = (Es.getD r []).map Prod.fst ∧
    ((csr_of Es).col_idx.drop ((csr_of Es).row_idx.getD r 0)).take
        ((csr_of Es).row_idx.getD (r + 1) 0 - (csr_of Es).row_idx.getD r 0)
      = (Es.getD r []).map Prod.snd := by
  have hl : (csr_of Es).vals.length = (csr_of Es).col_idx.length := by
    simp only [csr_of, List.length_map]
  have h := row_slice_csr_of Es r hr
  unfold row_slice at h
  constructor
  · have h1 := congrArg (List.map Prod.fst) h
    rw [List.map_take, List.map_drop, List.map_fst_zip _ _ (le_of_eq hl)] at h1
    exact h1
  · have h2 := congrArg (List.map Prod.snd) h
    rw [List.map_take, List.map_drop, List.map_snd_zip _ _ (le_of_eq hl.symm)] at h2
    exact h2

theorem row_list_length (data : List F32) (data_dims : dims_t) (r : Nat) :
    (row_list data data_dims r).length = data_dims.cols := by
  simp [row_list]

/-- The encoder on the one-row matrix that holds row `r` alone. -/
theorem compress_row_alone (data : List F32) (data_dims : dims_t)
    (hlen : data.length = data_dims.rows * data_dims.cols) (r : Nat) :
    compress_dense_data_csr (row_list data data_dims r) ⟨1, data_dims.cols, 1, 0⟩
      = csr_of [row_entries data data_dims 0 r] := by
  have h := compress_one_row (row_list data data_dims r)
  rw [row_list_length] at h
  rw [h, row_entries_eq_strip data data_dims r
    (fun hc => first_cell_zero_of_length data data_dims hlen hc r)]

theorem csr_of_single_fields (E : List (F32 × Nat)) :
    (csr_of [E]).vals = E.map Prod.fst ∧ (csr_of [E]).col_idx = E.map Prod.snd ∧
    (csr_of [E]).row_idx = [0, E.length] ∧ (csr_of [E]).num_nonzeros = E.length := by
  simp [csr_of, List.range_succ]

theorem csr_of_concat (Es : List (List (F32 × Nat))) :
    (csr_of Es).vals = (Es.map (fun E => E.map Prod.fst)).flatten ∧
    (csr_of Es).col_idx = (Es.map (fun E => E.map Prod.snd)).flatten := by
  simp [csr_of, List.map_flatten]

/-! ## Claim C26: row independence -/

/-- C26: for every dense matrix (height 1) and every row `r`, the slice of
`vals` and of `col_idx` between `row_idx[r]` and `row_idx[r+1]` in the output
of `compress_dense_data_csr` is the whole `vals` and `col_idx` that the encoder
gives on the one-row matrix holding row `r` alone, whose `row_idx` is
`[0, row_idx[r+1] - row_idx[r]]`; equivalently the encoding of the matrix is
the concatenation of the encodings of its rows, with `row_idx` the running
lengths. -/
theorem C26_row_independence (data : List F32) (data_dims : dims_t)
    (hh : data_dims.height = 1)
    (hlen : data.length = data_dims.rows * data_dims.cols) :
    (∀ r, r < data_dims.rows →
      ((compress_dense_data_csr data data_dims).vals.drop
          ((compress_dense_data_csr data data_dims).row_idx.getD r 0)).take
          ((compress_dense_data_csr data data_dims).row_idx.getD (r + 1) 0
            - (compress_dense_data_csr data data_dims).row_idx.getD r 0)
        = (compress_dense_data_csr (row_list data data_dims r)
            ⟨1, data_dims.cols, 1, 0⟩).vals ∧
      ((compress_dense_data_csr data data_dims).col_idx.drop
          ((compress_dense_data_csr data data_dims).row_idx.getD r 0)).take
          ((compress_dense_data_csr data data_dims).row_idx.getD (r + 1) 0
            - (compress_dense_data_csr data data_dims).row_idx.getD r 0)
        = (compress_dense_data_csr (row_list data data_dims r)
            ⟨1, data_dims.cols, 1, 0⟩).col_idx ∧
      (compress_dense_data_csr (row_list data data_dims r)
          ⟨1, data_dims.cols, 1, 0⟩).row_idx
        = [0, (compress_dense_data_csr data data_dims).row_idx.getD (r + 1) 0
            - (compress_dense_data_csr data data_dims).row_idx.getD r 0]) ∧
    (compress_dense_data_csr data data_dims).vals
      = ((List.range data_dims.rows).map (fun r =>
          (compress_dense_data_csr (row_list data data_dims r)
            ⟨1, data_dims.cols, 1, 0⟩).vals)).flatten ∧
    (compress_dense_data_csr data data_dims).col_idx
      = ((List.range data_dims.rows).map (fun r =>
          (compress_dense_data_csr (row_list data data_dims r)
            ⟨1, data_dims.cols, 1, 0⟩).col_idx)).flatten ∧
    (∀ k, k ≤ data_dims.rows →
      (compress_dense_data_csr data data_dims).row_idx.getD k 0
        = ((List.range k).map (fun r =>
            (compress_dense_data_csr (row_list data data_dims r)
              ⟨1, data_dims.cols, 1, 0⟩).num_nonzeros)).sum) := by
  have hcap := hcap_of_length data data_dims hlen
  have hone : ∀ r, compress_dense_data_csr (row_list data data_dims r)
      ⟨1, data_dims.cols, 1, 0⟩ = csr_of [row_entries data data_dims 0 r] :=
    fun r => compress_row_alone data data_dims hlen r
  refine ⟨?_, ?_, ?_, ?_⟩
  · intro r hr
    have hc := compress_row_count data data_dims hh hlen r hr
    unfold row_count at hc
    rw [hone r, (csr_of_single_fields _).1, (csr_of_single_fields _).2.1,
      (csr_of_single_fields _).2.2.1, hc]
    rw [compress_dense_data_csr_eq_csr_of data data_dims hh hcap] at hc ⊢
    have hs := csr_of_slices (all_entries data data_dims) r
      (by rw [all_entries_length]; exact hr)
    rw [all_entries_getD data data_dims r hr, hc] at hs
    exact ⟨hs.1, hs.2, rfl⟩
  · rw [compress_dense_data_csr_eq_csr_of data data_dims hh hcap,
      (csr_of_concat _).1]
    unfold all_entries
    rw [List.map_map]
    congr 1
    apply List.map_congr_left
    intro r _
    rw [hone r, (csr_of_single_fields _).1]
    rfl
  · rw [compress_dense_data_csr_eq_csr_of data data_dims hh hcap,
      (csr_of_concat _).2]
    unfold all_entries
    rw [List.map_map]
    congr 1
    apply List.map_congr_left
    intro r _
    rw [hone r, (csr_of_single_fields _).2.1]
    rfl
  · intro k hk
    rw [compress_row_idx data data_dims hh hcap k hk]
    unfold entries_upto
    rw [List.length_flatten, List.map_map]
    congr 1
    apply List.map_congr_left
    intro r _
    rw [hone r, (csr_of_single_fields _).2.2.2]
    rfl

/-- C26, exercised on the `2 x 2` matrix `1.0, 0.0 / -0.0, 2.0`. -/
theorem C26_row_independence_witness :
    sample_dims_2x2.height = 1 ∧
    sample_data_2x2.length = sample_dims_2x2.rows * sample_dims_2x2.cols ∧
    (compress_dense_data_csr sample_data_2x2 sample_dims_2x2).vals
      = ((List.range sample_dims_2x2.rows).map (fun r =>
          (compress_dense_data_csr (row_list sample_data_2x2 sample_dims_2x2 r)
            ⟨1, sample_dims_2x2.cols, 1, 0⟩).vals)).flatten ∧
    (compress_dense_data_csr sample_data_2x2 sample_dims_2x2).col_idx
      = ((List.range sample_dims_2x2.rows).map (fun r =>
          (compress_dense_data_csr (row_list sample_data_2x2 sample_dims_2x2 r)
            ⟨1, sample_dims_2x2.cols, 1, 0⟩).col_idx)).flatten ∧
    (∀ k, k ≤ sample_dims_2x2.rows →
      (compress_dense_data_csr sample_data_2x2 sample_dims_2x2).row_idx.getD k 0
        = ((List.range k).map (fun r =>
            (compress_dense_data_csr (row_list sample_data_2x2 sample_dims_2x2 r)
              ⟨1, sample_dims_2x2.cols, 1, 0⟩).num_nonzeros)).sum) :=
  ⟨rfl, rfl, (C26_row_independence sample_data_2x2 sample_dims_2x2 rfl rfl).2⟩

/-! ## Claim C27: the documented padding threshold -/

/-- C27, counterexample: in the `1 x 17` row `sample_row_apart_16` the two
consecutive non-zero values sit in the columns 0 and 16, 16 columns apart, and
`compress_dense_data_csr` stores `(1.0, 0), (2.0, 15)`: the offset 15 of the
second value spans the 15 zeros between them and no padding zero is
inserted. -/
theorem C27_counterexample :
    (sample_row_apart_16.getD 0 F32.zero).isZero = false ∧
    (sample_row_apart_16.getD 16 F32.zero).isZero = false ∧
    (∀ c, c < 16 → 0 < c → (sample_row_apart_16.getD c F32.zero).isZero = true) ∧
    16 ≤ 16 - 0 ∧
    compress_dense_data_csr sample_row_apart_16 sample_dims_1x17
      = { vals := [f32_one, f32_two], col_idx := [0, 15], row_idx := [0, 2],
          num_nonzeros := 2, num_rows := 1 } ∧
    ∀ e, e ∈ row_slice (compress_dense_data_csr sample_row_apart_16 sample_dims_1x17) 0 →
      e.1.isZero = false := by
  decide

/-- C27, amended: for every row of a dense matrix (height 1) and any two
consecutive non-zero values `u` and `v` of the row with the run `zs` of zero
cells between them (their column indices differ by `zs.length + 1`), the
encoder stores, between the entry of `u` and the entry of `v`, exactly
`zs.length / 16` padding entries, each a zero value with offset 15, and `v`
with offset `zs.length mod 16`.  So at least one padding zero with offset 15
is inserted whenever the column indices differ by at least 17 (16 zero cells
or more between the values), and none when they differ by 16 or less: then
the offset of `v` is the number of zeros between, up to 15. -/
theorem C27_padding_threshold (data : List F32) (data_dims : dims_t)
    (hh : data_dims.height = 1)
    (hlen : data.length = data_dims.rows * data_dims.cols)
    (r : Nat) (hr : r < data_dims.rows)
    (pre zs post : List F32) (u v : F32)
    (hrow : row_list data data_dims r = (pre ++ [u]) ++ zs ++ v :: post)
    (hu : u.isZero = false) (hzs : ∀ z, z ∈ zs → z.isZero = true) (hv : v.isZero = false) :
    row_slice (compress_dense_data_csr data data_dims) r
      = encode_row (pre ++ [u]) ++ pads 0 zs ++ (v, zs.length % 16) :: encode_row post ∧
    (∃ A, encode_row (pre ++ [u]) = A ++ [(u, off_after 0 pre)]) ∧
    (∀ e, e ∈ pads 0 zs → e.1.isZero = true ∧ e.2 = 15) ∧
    (pads 0 zs).length = zs.length / 16 ∧
    (17 ≤ zs.length + 1 → 1 ≤ (pads 0 zs).length) ∧
    (zs.length + 1 ≤ 16 → pads 0 zs = [] ∧ zs.length % 16 = zs.length) := by
  have hcap := hcap_of_length data data_dims hlen
  have hpl : (pads 0 zs).length = zs.length / 16 := by rw [pads_length, Nat.zero_add]
  refine ⟨?_, ?_, pads_mem zs hzs, hpl, ?_, ?_⟩
  · rw [compress_row_slice data data_dims hh hcap r hr,
      row_entries_eq_strip data data_dims r
        (fun h => first_cell_zero_of_length data data_dims hlen h r),
      hrow, encode_row_eq, encode_row_eq,
      enc_strip_split (pre ++ [u]) zs post v (Or.inr ⟨pre, u, rfl, hu⟩) hzs hv]
  · refine ⟨enc_from 0 pre, ?_⟩
    rw [encode_row_eq]
    have h := enc_strip_last pre [] u hu (fun z hz => by simp at hz)
    exact h
  · intro h17
    rw [hpl]
    exact (Nat.le_div_iff_mul_le (by decide)).mpr (by omega)
  · intro h16
    refine ⟨?_, Nat.mod_eq_of_lt (by omega)⟩
    apply List.eq_nil_of_length_eq_zero
    rw [hpl]
    exact Nat.div_eq_of_lt (by omega)

/-- C27 as amended, exercised on the `1 x 20` row of scenario B: non-zeros in
the columns 0 and 19, 18 zeros between them, one padding entry. -/
theorem C27_padding_threshold_witness :
    sample_dims_1x20.height = 1 ∧
    sample_row_20.length = sample_dims_1x20.rows * sample_dims_1x20.cols ∧
    0 < sample_dims_1x20.rows ∧
    row_list sample_row_20 sample_dims_1x20 0
      = ([] ++ [f32_one]) ++ List.replicate 18 F32.zero ++ f32_two :: [] ∧
    f32_one.isZero = false ∧ f32_two.isZero = false ∧
    (row_slice (compress_dense_data_csr sample_row_20 sample_dims_1x20) 0
      = encode_row ([] ++ [f32_one]) ++ pads 0 (List.replicate 18 F32.zero)
          ++ (f32_two, (List.replicate 18 F32.zero).length % 16) :: encode_row [] ∧
    (∃ A, encode_row ([] ++ [f32_one]) = A ++ [(f32_one, off_after 0 [])]) ∧
    (∀ e, e ∈ pads 0 (List.replicate 18 F32.zero) → e.1.isZero = true ∧ e.2 = 15) ∧
    (pads 0 (List.replicate 18 F32.zero)).length = (List.replicate 18 F32.zero).length / 16 ∧
    (17 ≤ (List.replicate 18 F32.zero).length + 1 →
      1 ≤ (pads 0 (List.replicate 18 F32.zero)).length) ∧
    ((List.replicate 18 F32.zero).length + 1 ≤ 16 →
      pads 0 (List.replicate 18 F32.zero) = [] ∧
      (List.replicate 18 F32.zero).length % 16 = (List.replicate 18 F32.zero).length)) :=
  ⟨rfl, rfl, by decide, by decide, rfl, rfl,
    C27_padding_threshold sample_row_20 sample_dims_1x20 rfl rfl 0 (by decide)
      [] (List.replicate 18 F32.zero) [] f32_one f32_two (by decide) rfl (by decide) rfl⟩

/-! ## The scratch array and its trimmed copy -/

/-- What one iteration of the emitting loop leaves unchanged, and by how much
it advances `num_nonzeros`. -/
theorem compress_step_frame (s : enc_state) (v : F32) :
    (compress_step s v).csr.vals.length = s.csr.vals.length ∧
    (compress_step s v).csr.col_idx.length = s.csr.col_idx.length ∧
    (compress_step s v).csr.row_idx = s.csr.row_idx ∧
    (compress_step s v).csr.num_rows = s.csr.num_rows ∧
    (compress_step s v).num_nonzeros ≤ s.num_nonzeros + 1 := by
  by_cases he : emits s.next_offset v = true
  · rw [compress_step_emit s v he]
    simp
  · rw [compress_step_skip s v (by simpa using he)]
    simp

theorem foldl_compress_step_frame (row : Nat → F32) (cs : List Nat) (e : enc_state) :
    (cs.foldl (fun e c => compress_step e (row c)) e).csr.vals.length = e.csr.vals.length ∧
    (cs.foldl (fun e c => compress_step e (row c)) e).csr.col_idx.length
      = e.csr.col_idx.length ∧
    (cs.foldl (fun e c => compress_step e (row c)) e).csr.row_idx = e.csr.row_idx ∧
    (cs.foldl (fun e c => compress_step e (row c)) e).csr.num_rows = e.csr.num_rows ∧
    (cs.foldl (fun e c => compress_step e (row c)) e).num_nonzeros
      ≤ e.num_nonzeros + cs.length := by
  induction cs generalizing e with
  | nil => simp
  | cons c cs ih =>
    simp only [List.foldl_cons, List.length_cons]
    obtain ⟨h1, h2, h3, h4, h5⟩ := ih (compress_step e (row c))
    obtain ⟨g1, g2, g3, g4, g5⟩ := compress_step_frame e (row c)
    exact ⟨by rw [h1, g1], by rw [h2, g2], by rw [h3, g3], by rw [h4, g4], by omega⟩

/-- A row adds at most `cols` entries and leaves the sizes of the three scratch
buffers unchanged. -/
theorem compress_row_frame (data : List F32) (data_dims : dims_t) (h r : Nat) (s : row_state)
    (hz : data_dims.cols = 0 → data = []) :
    (compress_row data data_dims h r s).csr.vals.length = s.csr.vals.length ∧
    (compress_row data data_dims h r s).csr.col_idx.length = s.csr.col_idx.length ∧
    (compress_row data data_dims h r s).csr.row_idx.length = s.csr.row_idx.length ∧
    (compress_row data data_dims h r s).csr.num_rows = s.csr.num_rows ∧
    (compress_row data data_dims h r s).num_nonzeros ≤ s.num_nonzeros + data_dims.cols := by
  obtain ⟨h1, h2, h3, h4, h5⟩ := foldl_compress_step_frame
    (ARRAY_3D data data_dims.rows data_dims.cols h r)
    (List.range ((count_row (ARRAY_3D data data_dims.rows data_dims.cols h r)
      data_dims.cols).2 + 1)) ⟨s.csr, s.num_nonzeros, 0⟩
  refine ⟨h1, h2, ?_, h4, ?_⟩
  · simp only [compress_row, List.length_set]
    rw [h3]
  · rcases Nat.eq_zero_or_pos data_dims.cols with hc | hc
    · have hd := hz hc
      subst hd
      have hrow : ARRAY_3D [] data_dims.rows data_dims.cols h r 0 = F32.zero := by
        simp [ARRAY_3D]
      have hcnt : (count_row (ARRAY_3D [] data_dims.rows data_dims.cols h r)
          data_dims.cols).2 = 0 := by
        rw [hc]
        rfl
      have hr1 : List.range 1 = [0] := rfl
      simp only [compress_row, hcnt, Nat.zero_add, hr1, List.foldl_cons,
        List.foldl_nil, hrow]
      have hem : emits 0 F32.zero = false := by decide
      rw [compress_step_skip ⟨s.csr, s.num_nonzeros, 0⟩ F32.zero hem]
      exact Nat.le_add_right _ _
    · have hlt := count_row_snd_lt (ARRAY_3D data data_dims.rows data_dims.cols h r)
        data_dims.cols hc
      simp only [List.length_range] at h5
      show ((List.range ((count_row (ARRAY_3D data data_dims.rows data_dims.cols h r)
        data_dims.cols).2 + 1)).foldl
          (fun e c => compress_step e (ARRAY_3D data data_dims.rows data_dims.cols h r c))
          ⟨s.csr, s.num_nonzeros, 0⟩).num_nonzeros ≤ s.num_nonzeros + data_dims.cols
      omega

theorem foldl_compress_row_frame (data : List F32) (data_dims : dims_t) (h : Nat)
    (rs : List Nat) (s : row_state) (hz : data_dims.cols = 0 → data = []) :
    (rs.foldl (fun s r => compress_row data data_dims h r s) s).csr.vals.length
      = s.csr.vals.length ∧
    (rs.foldl (fun s r => compress_row data data_dims h r s) s).csr.col_idx.length
      = s.csr.col_idx.length ∧
    (rs.foldl (fun s r => compress_row data data_dims h r s) s).csr.row_idx.length
      = s.csr.row_idx.length ∧
    (rs.foldl (fun s r => compress_row data data_dims h r s) s).csr.num_rows
      = s.csr.num_rows ∧
    (rs.foldl (fun s r => compress_row data data_dims h r s) s).num_nonzeros
      ≤ s.num_nonzeros + rs.length * data_dims.cols := by
  induction rs generalizing s with
  | nil => simp
  | cons r rs ih =>
    simp only [List.foldl_cons, List.length_cons]
    obtain ⟨h1, h2, h3, h4, h5⟩ := ih (compress_row data data_dims h r s)
    obtain ⟨g1, g2, g3, g4, g5⟩ := compress_row_frame data data_dims h r s hz
    refine ⟨by rw [h1, g1], by rw [h2, g2], by rw [h3, g3], by rw [h4, g4], ?_⟩
    rw [Nat.succ_mul]
    omega

theorem foldl_slices_frame (data : List F32) (data_dims : dims_t)
    (hs : List Nat) (s : row_state) (hz : data_dims.cols = 0 → data = []) :
    (hs.foldl (fun s h => (List.range data_dims.rows).foldl
        (fun s r => compress_row data data_dims h r s) s) s).csr.vals.length
      = s.csr.vals.length ∧
    (hs.foldl (fun s h => (List.range data_dims.rows).foldl
        (fun s r => compress_row data data_dims h r s) s) s).csr.col_idx.length
      = s.csr.col_idx.length ∧
    (hs.foldl (fun s h => (List.range data_dims.rows).foldl
        (fun s r => compress_row data data_dims h r s) s) s).csr.row_idx.length
      = s.csr.row_idx.length ∧
    (hs.foldl (fun s h => (List.range data_dims.rows).foldl
        (fun s r => compress_row data data_dims h r s) s) s).csr.num_rows
      = s.csr.num_rows ∧
    (hs.foldl (fun s h => (List.range data_dims.rows).foldl
        (fun s r => compress_row data data_dims h r s) s) s).num_nonzeros
      ≤ s.num_nonzeros + hs.length * (data_dims.rows * data_dims.cols) := by
  induction hs generalizing s with
  | nil => simp
  | cons h hs ih =>
    simp only [List.foldl_cons, List.length_cons]
    obtain ⟨h1, h2, h3, h4, h5⟩ := ih ((List.range data_dims.rows).foldl
      (fun s r => compress_row data data_dims h r s) s)
    obtain ⟨g1, g2, g3, g4, g5⟩ :=
      foldl_compress_row_frame data data_dims h (List.range data_dims.rows) s hz
    rw [List.length_range] at g5
    refine ⟨by rw [h1, g1], by rw [h2, g2], by rw [h3, g3], by rw [h4, g4], ?_⟩
    rw [Nat.succ_mul]
    omega

/-- The scratch array after the loops: its buffers keep the allocated sizes
and hold every emitted entry. -/
theorem compress_loops_frame (data : List F32) (data_dims : dims_t)
    (hlen : data.length = data_dims.rows * data_dims.cols * data_dims.height) :
    (compress_loops data data_dims
        (alloc_csr_array_t (get_dims_size data_dims) data_dims.rows)).csr.vals.length
      = data_dims.rows * data_dims.cols * data_dims.height ∧
    (compress_loops data data_dims
        (alloc_csr_array_t (get_dims_size data_dims) data_dims.rows)).csr.col_idx.length
      = data_dims.rows * data_dims.cols * data_dims.height ∧
    (compress_loops data data_dims
        (alloc_csr_array_t (get_dims_size data_dims) data_dims.rows)).csr.row_idx.length
      = data_dims.rows + 1 ∧
    (compress_loops data data_dims
        (alloc_csr_array_t (get_dims_size data_dims) data_dims.rows)).csr.num_rows
      = data_dims.rows ∧
    (compress_loops data data_dims
        (alloc_csr_array_t (get_dims_size data_dims) data_dims.rows)).num_nonzeros
      ≤ data_dims.rows * data_dims.cols * data_dims.height := by
  have hz : data_dims.cols = 0 → data = [] := by
    intro hc
    rw [hc, Nat.mul_zero, Nat.zero_mul] at hlen
    exact List.length_eq_zero.mp hlen
  obtain ⟨h1, h2, h3, h4, h5⟩ := foldl_slices_frame data data_dims
    (List.range data_dims.height)
    ⟨alloc_csr_array_t (get_dims_size data_dims) data_dims.rows, 0, 1⟩ hz
  unfold compress_loops
  refine ⟨?_, ?_, ?_, ?_, ?_⟩
  · rw [h1]
    simp [alloc_csr_array_t, get_dims_size]
  · rw [h2]
    simp [alloc_csr_array_t, get_dims_size]
  · rw [h3]
    simp [alloc_csr_array_t]
  · rw [h4]
    simp [alloc_csr_array_t]
  · rw [List.length_range, Nat.zero_add, Nat.mul_comm] at h5
    exact h5

theorem memcpy_length {α : Type} (dst src : List α) (n : Nat) (hd : dst.length = n)
    (hs : n ≤ src.length) : (memcpy dst src n).length = n := by
  unfold memcpy
  rw [List.length_append, List.length_take, List.length_drop, hd]
  omega

theorem memcpy_getD {α : Type} (dst src : List α) (n k : Nat) (d : α) (hk : k < n)
    (hs : n ≤ src.length) : (memcpy dst src n).getD k d = src.getD k d := by
  unfold memcpy
  rw [List.getD_append _ _ _ _ (by rw [List.length_take]; omega)]
  simp only [List.getD_eq_getElem?_getD]
  rw [List.getElem?_take_of_lt hk]

/-- `copy_csr_array_t` on an array whose buffers hold at least `num_nonzeros`
and `num_rows + 1` elements. -/
theorem copy_csr_array_t_spec (a : csr_array_t) (hv : a.num_nonzeros ≤ a.vals.length)
    (hc : a.num_nonzeros ≤ a.col_idx.length) (hr : a.num_rows + 1 ≤ a.row_idx.length) :
    (copy_csr_array_t a).vals.length = a.num_nonzeros ∧
    (copy_csr_array_t a).col_idx.length = a.num_nonzeros ∧
    (copy_csr_array_t a).row_idx.length = a.num_rows + 1 ∧
    (copy_csr_array_t a).num_nonzeros = a.num_nonzeros ∧
    (copy_csr_array_t a).num_rows = a.num_rows ∧
    (∀ k, k < a.num_nonzeros →
      (copy_csr_array_t a).vals.getD k F32.zero = a.vals.getD k F32.zero ∧
      (copy_csr_array_t a).col_idx.getD k 0 = a.col_idx.getD k 0) ∧
    (∀ k, k < a.num_rows + 1 →
      (copy_csr_array_t a).row_idx.getD k 0 = a.row_idx.getD k 0) := by
  unfold copy_csr_array_t alloc_csr_array_t
  refine ⟨memcpy_length _ _ _ (by simp) hv, memcpy_length _ _ _ (by simp) hc,
    memcpy_length _ _ _ (by simp) hr, rfl, rfl, ?_, ?_⟩
  · intro k hk
    exact ⟨memcpy_getD _ _ _ _ _ hk hv, memcpy_getD _ _ _ _ _ hk hc⟩
  · intro k hk
    exact memcpy_getD _ _ _ _ _ hk hr

/-! ## The trimmed result of the encoder -/

/-- The trimmed result, for a dense buffer of `rows * cols * height` cells with
at least one column: the array returned by `compress_dense_data_csr` has `vals`
and `col_idx` of length exactly `num_nonzeros` and `row_idx` of length
`rows + 1`; `num_nonzeros` is the count reached by the loops and `num_rows` is
`rows`; element `k` of the returned `vals` / `col_idx` is element `k` of the
scratch array, that is the `k`-th entry emitted by the encoder, for every
`k < num_nonzeros` (for height 1 these are the entries of the rows in order).
In general `copy_csr_array_t` returns buffers of `num_nonzeros`, `num_nonzeros`
and `num_rows + 1` elements that hold the leading elements of the buffers of
its argument, when these are at least as long, with `num_nonzeros` and
`num_rows` copied unchanged. -/
theorem trimmed_result_of_pos_cols (data : List F32) (data_dims : dims_t)
    (_hc : 0 < data_dims.cols)
    (hlen : data.length = data_dims.rows * data_dims.cols * data_dims.height) :
    (compress_dense_data_csr data data_dims).vals.length
      = (compress_dense_data_csr data data_dims).num_nonzeros ∧
    (compress_dense_data_csr data data_dims).col_idx.length
      = (compress_dense_data_csr data data_dims).num_nonzeros ∧
    (compress_dense_data_csr data data_dims).row_idx.length = data_dims.rows + 1 ∧
    (compress_dense_data_csr data data_dims).num_nonzeros
      = (compress_loops data data_dims
          (alloc_csr_array_t (get_dims_size data_dims) data_dims.rows)).num_nonzeros ∧
    (compress_dense_data_csr data data_dims).num_rows = data_dims.rows ∧
    (∀ k, k < (compress_dense_data_csr data data_dims).num_nonzeros →
      (compress_dense_data_csr data data_dims).vals.getD k F32.zero
        = (compress_loops data data_dims
            (alloc_csr_array_t (get_dims_size data_dims) data_dims.rows)).csr.vals.getD k
            F32.zero ∧
      (compress_dense_data_csr data data_dims).col_idx.getD k 0
        = (compress_loops data data_dims
            (alloc_csr_array_t (get_dims_size data_dims) data_dims.rows)).csr.col_idx.getD k
            0) ∧
    (data_dims.height = 1 →
      (compress_dense_data_csr data data_dims).vals
        = (entries_upto data data_dims data_dims.rows).map Prod.fst ∧
      (compress_dense_data_csr data data_dims).col_idx
        = (entries_upto data data_dims data_dims.rows).map Prod.snd) ∧
    (∀ a : csr_array_t, a.num_nonzeros ≤ a.vals.length →
      a.num_nonzeros ≤ a.col_idx.length → a.num_rows + 1 ≤ a.row_idx.length →
      (copy_csr_array_t a).vals.length = a.num_nonzeros ∧
      (copy_csr_array_t a).col_idx.length = a.num_nonzeros ∧
      (copy_csr_array_t a).row_idx.length = a.num_rows + 1 ∧
      (copy_csr_array_t a).num_nonzeros = a.num_nonzeros ∧
      (copy_csr_array_t a).num_rows = a.num_rows ∧
      (∀ k, k < a.num_nonzeros →
        (copy_csr_array_t a).vals.getD k F32.zero = a.vals.getD k F32.zero ∧
        (copy_csr_array_t a).col_idx.getD k 0 = a.col_idx.getD k 0) ∧
      (∀ k, k < a.num_rows + 1 →
        (copy_csr_array_t a).row_idx.getD k 0 = a.row_idx.getD k 0)) := by
  obtain ⟨f1, f2, f3, f4, f5⟩ := compress_loops_frame data data_dims hlen
  have hspec := copy_csr_array_t_spec
    { vals := (compress_loops data data_dims
        (alloc_csr_array_t (get_dims_size data_dims) data_dims.rows)).csr.vals,
      col_idx := (compress_loops data data_dims
        (alloc_csr_array_t (get_dims_size data_dims) data_dims.rows)).csr.col_idx,
      row_idx := (compress_loops data data_dims
        (alloc_csr_array_t (get_dims_size data_dims) data_dims.rows)).csr.row_idx.set 0 0,
      num_nonzeros := (compress_loops data data_dims
        (alloc_csr_array_t (get_dims_size data_dims) data_dims.rows)).num_nonzeros,
      num_rows := (compress_loops data data_dims
        (alloc_csr_array_t (get_dims_size data_dims) data_dims.rows)).csr.num_rows }
    (by rw [f1]; exact f5) (by rw [f2]; exact f5)
    (by rw [List.length_set, f3, f4])
  obtain ⟨s1, s2, s3, s4, s5, s6, -⟩ := hspec
  refine ⟨?_, ?_, ?_, ?_, ?_, ?_, ?_, ?_⟩
  · exact s1.trans s4.symm
  · exact s2.trans s4.symm
  · exact s3.trans (by rw [f4])
  · exact s4
  · exact s5.trans f4
  · intro k hk
    exact s6 k (by rw [← s4]; exact hk)
  · intro hh
    have hlen1 : data.length = data_dims.rows * data_dims.cols := by
      rw [hlen, hh, Nat.mul_one]
    rw [compress_dense_data_csr_eq data data_dims hh (hcap_of_length data data_dims hlen1)]
    exact ⟨rfl, rfl⟩
  · intro a hv hc hr
    exact copy_csr_array_t_spec a hv hc hr

/-! ## The packing pass stays inside the regions -/

theorem packing_pass_eq_pack_state_at (CACHELINE_SIZE : Nat) (cvt_ps_ph : F32 → Nat)
    (csr_data : csr_array_t) (data_dims : dims_t) :
    packing_pass cvt_ps_ph csr_data data_dims
        (alloc_packed_csr_array_t CACHELINE_SIZE (sizing_pass csr_data data_dims).toNat
          csr_data.num_nonzeros data_dims.rows)
      = pack_state_at CACHELINE_SIZE cvt_ps_ph csr_data data_dims data_dims.rows := rfl

/-- The packing pass leaves every vector at or after `S_k` and every index
word at or after `2 * S_k` as it found them. -/
theorem packing_rows_frame (cvt_ps_ph : F32 → Nat) (csr_data : csr_array_t) (d : List Nat)
    (s0 : pack_state) (rows : Nat)
    (hmono : ∀ q, q < rows → csr_data.row_idx.getD q 0 ≤ csr_data.row_idx.getD (q + 1) 0)
    (hs0 : s0.curr_wgt_src_idx = 0 ∧ s0.curr_wgt_dst_idx = 0 ∧ s0.curr_col_src_idx = 0 ∧
      s0.curr_col_dst_idx = 0)
    (hcapv : start_vector csr_data rows ≤ s0.csr.vals.length)
    (hcapc : 2 * start_vector csr_data rows ≤ s0.csr.col_idx.length)
    (k : Nat) (hk : k ≤ rows) :
    (∀ j, start_vector csr_data k ≤ j →
      ((List.range k).foldl (pack_row cvt_ps_ph csr_data) s0).csr.vals.getD j d
        = s0.csr.vals.getD j d) ∧
    (∀ j, 2 * start_vector csr_data k ≤ j →
      ((List.range k).foldl (pack_row cvt_ps_ph csr_data) s0).csr.col_idx.getD j 0
        = s0.csr.col_idx.getD j 0) := by
  induction k with
  | zero => simp
  | succ k ih =>
    obtain ⟨ih1, ih2⟩ := ih (by omega)
    obtain ⟨-, c2, -, c4, c5, c6, -, -⟩ := packing_rows_spec cvt_ps_ph csr_data d s0 rows
      hmono hs0 hcapv hcapc k (by omega)
    have hend := start_vector_end_le csr_data k rows (by omega)
    have hsucc := start_vector_succ csr_data k
    obtain ⟨-, -, -, -, -, -, p7, p8, -, -⟩ := pack_row_spec cvt_ps_ph csr_data d
      ((List.range k).foldl (pack_row cvt_ps_ph csr_data) s0) k (hmono k (by omega))
      (by rw [c2, c5]; omega) (by rw [c4, c6]; omega)
    rw [List.range_succ, List.foldl_append]
    simp only [List.foldl_cons, List.foldl_nil]
    constructor
    · intro j hj
      rw [p7 j (Or.inr (by rw [c2]; omega))]
      exact ih1 j (by omega)
    · intro j hj
      rw [p8 j (Or.inr (by rw [c4]; omega))]
      exact ih2 j (by omega)

/-- The packing pass on any array with room for `S_rows` vectors and twice as
many index words: sizes kept, nothing changed from `S_rows`, `2 * S_rows` and
`rows` on. -/
theorem packing_pass_frame (cvt_ps_ph : F32 → Nat) (csr_data : csr_array_t)
    (data_dims : dims_t) (d : List Nat) (csr0 : packed_csr_array_t)
    (hmono : ∀ q, q < data_dims.rows →
      csr_data.row_idx.getD q 0 ≤ csr_data.row_idx.getD (q + 1) 0)
    (hcapv : start_vector csr_data data_dims.rows ≤ csr0.vals.length)
    (hcapc : 2 * start_vector csr_data data_dims.rows ≤ csr0.col_idx.length) :
    (packing_pass cvt_ps_ph csr_data data_dims csr0).csr.vals.length = csr0.vals.length ∧
    (packing_pass cvt_ps_ph csr_data data_dims csr0).csr.col_idx.length
      = csr0.col_idx.length ∧
    (packing_pass cvt_ps_ph csr_data data_dims csr0).csr.row_idx.length
      = csr0.row_idx.length ∧
    (∀ j, start_vector csr_data data_dims.rows ≤ j →
      (packing_pass cvt_ps_ph csr_data data_dims csr0).csr.vals.getD j d
        = csr0.vals.getD j d) ∧
    (∀ j, 2 * start_vector csr_data data_dims.rows ≤ j →
      (packing_pass cvt_ps_ph csr_data data_dims csr0).csr.col_idx.getD j 0
        = csr0.col_idx.getD j 0) ∧
    (∀ j, data_dims.rows ≤ j →
      (packing_pass cvt_ps_ph csr_data data_dims csr0).csr.row_idx.getD j 0
        = csr0.row_idx.getD j 0) := by
  unfold packing_pass
  obtain ⟨-, -, -, -, c5, c6, -, -⟩ := packing_rows_spec cvt_ps_ph csr_data d
    { csr := csr0, curr_wgt_src_idx := 0, curr_wgt_dst_idx := 0, curr_col_src_idx := 0,
      curr_col_dst_idx := 0, curr_packed_row_idx := 0, total_elements_packed := 0 }
    data_dims.rows hmono ⟨rfl, rfl, rfl, rfl⟩ hcapv hcapc data_dims.rows (le_refl _)
  obtain ⟨f1, f2⟩ := packing_rows_frame cvt_ps_ph csr_data d
    { csr := csr0, curr_wgt_src_idx := 0, curr_wgt_dst_idx := 0, curr_col_src_idx := 0,
      curr_col_dst_idx := 0, curr_packed_row_idx := 0, total_elements_packed := 0 }
    data_dims.rows hmono ⟨rfl, rfl, rfl, rfl⟩ hcapv hcapc data_dims.rows (le_refl _)
  obtain ⟨-, r2, -, r4⟩ := packing_rows_row_idx cvt_ps_ph csr_data
    { csr := csr0, curr_wgt_src_idx := 0, curr_wgt_dst_idx := 0, curr_col_src_idx := 0,
      curr_col_dst_idx := 0, curr_packed_row_idx := 0, total_elements_packed := 0 }
    rfl data_dims.rows
  exact ⟨c5, c6, r2, f1, f2, r4⟩

/-- The three regions of the allocated buffer, in 32-bit words: the `V` value
vectors end before the index words start, the `2 * V` index words end before
the row words start, and the `R` row words end inside the buffer. -/
theorem alloc_packed_layout (CACHELINE_SIZE V nnz R : Nat) (hCL : 0 < CACHELINE_SIZE) :
    8 * V ≤ (alloc_packed_csr_array_t CACHELINE_SIZE V nnz R).col_idx_ofs ∧
    (alloc_packed_csr_array_t CACHELINE_SIZE V nnz R).col_idx_ofs + 2 * V
      ≤ (alloc_packed_csr_array_t CACHELINE_SIZE V nnz R).row_idx_ofs ∧
    4 * ((alloc_packed_csr_array_t CACHELINE_SIZE V nnz R).row_idx_ofs + R)
      ≤ (alloc_packed_csr_array_t CACHELINE_SIZE V nnz R).total_buf_size := by
  have h1 := next_multiple_ge (V * TOTAL_VECTOR_BYTES) CACHELINE_SIZE hCL
  have h2 := next_multiple_ge (V * DATA_TO_INDEX_RATIO * 4) CACHELINE_SIZE hCL
  have h3 := next_multiple_ge (R * 4) CACHELINE_SIZE hCL
  rw [TOTAL_VECTOR_BYTES_eq] at h1
  rw [DATA_TO_INDEX_RATIO_eq] at h2
  simp only [alloc_packed_csr_array_t, TOTAL_VECTOR_BYTES_eq, DATA_TO_INDEX_RATIO_eq]
  refine ⟨by omega, by omega, by omega⟩

/-! ## Claims C29 and C30: the two passes of the packer -/

/-- C29: for every unpacked array with non-decreasing `row_idx`, the number of
value vectors written by the packing pass of `pack_data_vec8_f16` (the final
`curr_wgt_dst_idx`, and the final `curr_packed_row_idx`) is the
`total_num_vectors` of the sizing pass, and the number of `col_idx` words
written (the final `curr_col_dst_idx`) is twice that number. -/
theorem C29_sizing_agrees_with_packing (CACHELINE_SIZE : Nat) (cvt_ps_ph : F32 → Nat)
    (csr_data : csr_array_t) (data_dims : dims_t) (hCL : 0 < CACHELINE_SIZE)
    (hmono : ∀ q, q < data_dims.rows →
      csr_data.row_idx.getD q 0 ≤ csr_data.row_idx.getD (q + 1) 0) :
    (((packing_pass cvt_ps_ph csr_data data_dims
        (alloc_packed_csr_array_t CACHELINE_SIZE (sizing_pass csr_data data_dims).toNat
          csr_data.num_nonzeros data_dims.rows)).curr_wgt_dst_idx : Nat) : Int)
      = sizing_pass csr_data data_dims ∧
    (packing_pass cvt_ps_ph csr_data data_dims
        (alloc_packed_csr_array_t CACHELINE_SIZE (sizing_pass csr_data data_dims).toNat
          csr_data.num_nonzeros data_dims.rows)).curr_packed_row_idx
      = sizing_pass csr_data data_dims ∧
    (((packing_pass cvt_ps_ph csr_data data_dims
        (alloc_packed_csr_array_t CACHELINE_SIZE (sizing_pass csr_data data_dims).toNat
          csr_data.num_nonzeros data_dims.rows)).curr_col_dst_idx : Nat) : Int)
      = 2 * sizing_pass csr_data data_dims := by
  rw [packing_pass_eq_pack_state_at]
  obtain ⟨-, c2, -, c4, -⟩ := pack_state_at_spec CACHELINE_SIZE cvt_ps_ph csr_data data_dims
    [] hCL hmono data_dims.rows (le_refl _)
  have hs : sizing_pass csr_data data_dims = (start_vector csr_data data_dims.rows : Int) := by
    rw [sizing_pass_eq, start_vector_int_of_mono csr_data data_dims.rows hmono]
  refine ⟨?_, ?_, ?_⟩
  · rw [c2, hs]
  · rw [pack_state_at_curr_packed_row_idx, ← sizing_pass_eq]
  · rw [c4, hs]
    push_cast
    rfl

/-- C29, exercised on the array of two rows with 17 and 3 entries: three
vectors and six index words. -/
theorem C29_sizing_agrees_with_packing_witness :
    0 < 64 ∧
    (∀ q, q < sample_dims_2x40.rows →
      sample_csr_17_3.row_idx.getD q 0 ≤ sample_csr_17_3.row_idx.getD (q + 1) 0) ∧
    sizing_pass sample_csr_17_3 sample_dims_2x40 = 3 ∧
    (((packing_pass trunc_ps_ph sample_csr_17_3 sample_dims_2x40
        (alloc_packed_csr_array_t 64 (sizing_pass sample_csr_17_3 sample_dims_2x40).toNat
          sample_csr_17_3.num_nonzeros sample_dims_2x40.rows)).curr_wgt_dst_idx : Nat) : Int)
      = sizing_pass sample_csr_17_3 sample_dims_2x40 ∧
    (packing_pass trunc_ps_ph sample_csr_17_3 sample_dims_2x40
        (alloc_packed_csr_array_t 64 (sizing_pass sample_csr_17_3 sample_dims_2x40).toNat
          sample_csr_17_3.num_nonzeros sample_dims_2x40.rows)).curr_packed_row_idx
      = sizing_pass sample_csr_17_3 sample_dims_2x40 ∧
    (((packing_pass trunc_ps_ph sample_csr_17_3 sample_dims_2x40
        (alloc_packed_csr_array_t 64 (sizing_pass sample_csr_17_3 sample_dims_2x40).toNat
          sample_csr_17_3.num_nonzeros sample_dims_2x40.rows)).curr_col_dst_idx : Nat) : Int)
      = 2 * sizing_pass sample_csr_17_3 sample_dims_2x40 :=
  ⟨by decide, by decide, by decide,
    C29_sizing_agrees_with_packing 64 trunc_ps_ph sample_csr_17_3 sample_dims_2x40
      (by decide) (by decide)⟩

/-! ## Claim C30: the packing pass writes inside its regions -/

/-- C30: for every unpacked array with non-decreasing `row_idx`, with `V` the
`total_num_vectors` of the sizing pass: in every row `r < rows` the packing
pass of `pack_data_vec8_f16` writes the value vectors
`curr_wgt_dst_idx .. curr_wgt_dst_idx + ceil(n_r / 16) - 1`, all below `V`, the
index words `curr_col_dst_idx .. curr_col_dst_idx + 2 * ceil(n_r / 16) - 1`, all
below `2 * V`, and the row word `r`, and it reads the source entries
`curr_wgt_src_idx .. curr_wgt_src_idx + n_r - 1` (and the same range of
`col_idx`), all below `row_idx[rows]`.  The allocated regions hold at least `V`
vectors, `2 * V` index words and `rows` row words, laid out one after the
other inside the buffer of `total_buf_size` bytes; and run on any array with
that much room, the pass changes no vector from `V` on, no index word from
`2 * V` on and no row word from `rows` on, and keeps the sizes of the regions:
the three regions neither overlap nor overflow. -/
theorem C30_packing_in_regions (CACHELINE_SIZE : Nat) (cvt_ps_ph : F32 → Nat)
    (csr_data : csr_array_t) (data_dims : dims_t) (hCL : 0 < CACHELINE_SIZE)
    (hmono : ∀ q, q < data_dims.rows →
      csr_data.row_idx.getD q 0 ≤ csr_data.row_idx.getD (q + 1) 0) :
    (∀ r, r < data_dims.rows →
      (pack_state_at CACHELINE_SIZE cvt_ps_ph csr_data data_dims r).curr_wgt_dst_idx
          + row_vectors csr_data r ≤ (sizing_pass csr_data data_dims).toNat ∧
      (pack_state_at CACHELINE_SIZE cvt_ps_ph csr_data data_dims (r + 1)).curr_wgt_dst_idx
        = (pack_state_at CACHELINE_SIZE cvt_ps_ph csr_data data_dims r).curr_wgt_dst_idx
          + row_vectors csr_data r ∧
      (pack_state_at CACHELINE_SIZE cvt_ps_ph csr_data data_dims r).curr_col_dst_idx
          + 2 * row_vectors csr_data r ≤ 2 * (sizing_pass csr_data data_dims).toNat ∧
      (pack_state_at CACHELINE_SIZE cvt_ps_ph csr_data data_dims (r + 1)).curr_col_dst_idx
        = (pack_state_at CACHELINE_SIZE cvt_ps_ph csr_data data_dims r).curr_col_dst_idx
          + 2 * row_vectors csr_data r ∧
      (pack_state_at CACHELINE_SIZE cvt_ps_ph csr_data data_dims r).curr_wgt_src_idx
          + row_count csr_data r ≤ csr_data.row_idx.getD data_dims.rows 0 ∧
      (pack_state_at CACHELINE_SIZE cvt_ps_ph csr_data data_dims (r + 1)).curr_wgt_src_idx
        = (pack_state_at CACHELINE_SIZE cvt_ps_ph csr_data data_dims r).curr_wgt_src_idx
          + row_count csr_data r ∧
      (pack_state_at CACHELINE_SIZE cvt_ps_ph csr_data data_dims r).curr_col_src_idx
          + row_count csr_data r ≤ csr_data.row_idx.getD data_dims.rows 0 ∧
      (pack_state_at CACHELINE_SIZE cvt_ps_ph csr_data data_dims (r + 1)).curr_col_src_idx
        = (pack_state_at CACHELINE_SIZE cvt_ps_ph csr_data data_dims r).curr_col_src_idx
          + row_count csr_data r ∧
      (pack_state_at CACHELINE_SIZE cvt_ps_ph csr_data data_dims (r + 1)).csr.row_idx
        = (pack_state_at CACHELINE_SIZE cvt_ps_ph csr_data data_dims r).csr.row_idx.set r
            (row_word
              (pack_state_at CACHELINE_SIZE cvt_ps_ph csr_data data_dims r).curr_packed_row_idx
              (num_elems csr_data r))) ∧
    ((sizing_pass csr_data data_dims).toNat
        ≤ (alloc_packed_csr_array_t CACHELINE_SIZE (sizing_pass csr_data data_dims).toNat
            csr_data.num_nonzeros data_dims.rows).vals.length ∧
      2 * (sizing_pass csr_data data_dims).toNat
        ≤ (alloc_packed_csr_array_t CACHELINE_SIZE (sizing_pass csr_data data_dims).toNat
            csr_data.num_nonzeros data_dims.rows).col_idx.length ∧
      data_dims.rows
        ≤ (alloc_packed_csr_array_t CACHELINE_SIZE (sizing_pass csr_data data_dims).toNat
            csr_data.num_nonzeros data_dims.rows).row_idx.length) ∧
    (8 * (sizing_pass csr_data data_dims).toNat
        ≤ (alloc_packed_csr_array_t CACHELINE_SIZE (sizing_pass csr_data data_dims).toNat
            csr_data.num_nonzeros data_dims.rows).col_idx_ofs ∧
      (alloc_packed_csr_array_t CACHELINE_SIZE (sizing_pass csr_data data_dims).toNat
            csr_data.num_nonzeros data_dims.rows).col_idx_ofs
          + 2 * (sizing_pass csr_data data_dims).toNat
        ≤ (alloc_packed_csr_array_t CACHELINE_SIZE (sizing_pass csr_data data_dims).toNat
            csr_data.num_nonzeros data_dims.rows).row_idx_ofs ∧
      4 * ((alloc_packed_csr_array_t CACHELINE_SIZE (sizing_pass csr_data data_dims).toNat
            csr_data.num_nonzeros data_dims.rows).row_idx_ofs + data_dims.rows)
        ≤ (alloc_packed_csr_array_t CACHELINE_SIZE (sizing_pass csr_data data_dims).toNat
            csr_data.num_nonzeros data_dims.rows).total_buf_size) ∧
    (∀ csr0 : packed_csr_array_t,
      (sizing_pass csr_data data_dims).toNat ≤ csr0.vals.length →
      2 * (sizing_pass csr_data data_dims).toNat ≤ csr0.col_idx.length →
      (packing_pass cvt_ps_ph csr_data data_dims csr0).csr.vals.length = csr0.vals.length ∧
      (packing_pass cvt_ps_ph csr_data data_dims csr0).csr.col_idx.length
        = csr0.col_idx.length ∧
      (packing_pass cvt_ps_ph csr_data data_dims csr0).csr.row_idx.length
        = csr0.row_idx.length ∧
      (∀ j, (sizing_pass csr_data data_dims).toNat ≤ j →
        (packing_pass cvt_ps_ph csr_data data_dims csr0).csr.vals.getD j []
          = csr0.vals.getD j []) ∧
      (∀ j, 2 * (sizing_pass csr_data data_dims).toNat ≤ j →
        (packing_pass cvt_ps_ph csr_data data_dims csr0).csr.col_idx.getD j 0
          = csr0.col_idx.getD j 0) ∧
      (∀ j, data_dims.rows ≤ j →
        (packing_pass cvt_ps_ph csr_data data_dims csr0).csr.row_idx.getD j 0
          = csr0.row_idx.getD j 0)) := by
  have hV := sizing_pass_toNat csr_data data_dims hmono
  rw [hV]
  refine ⟨?_, ?_, ?_, ?_⟩
  · intro r hr
    obtain ⟨a1, a2, a3, a4, -⟩ := pack_state_at_spec CACHELINE_SIZE cvt_ps_ph csr_data
      data_dims [] hCL hmono r (by omega)
    obtain ⟨b1, b2, b3, b4, -⟩ := pack_state_at_spec CACHELINE_SIZE cvt_ps_ph csr_data
      data_dims [] hCL hmono (r + 1) (by omega)
    have hend := start_vector_end_le csr_data r data_dims.rows hr
    have hsv := start_vector_succ csr_data r
    have hse := start_entry_succ csr_data r
    have hmo := start_entry_mono csr_data (r + 1) data_dims.rows (by omega)
    have hadd := start_entry_add csr_data data_dims.rows hmono
    rw [a1, a2, a3, a4, b1, b2, b3, b4, pack_state_at_succ, pack_row_row_idx]
    refine ⟨hend, hsv, by omega, by omega, by omega, hse, by omega, hse, rfl⟩
  · rw [← hV]
    exact ⟨alloc_packed_vals_length _ _ _ _ hCL, alloc_packed_col_idx_length _ _ _ _ hCL,
      alloc_packed_row_idx_length _ _ _ _ hCL⟩
  · rw [← hV]
    exact alloc_packed_layout _ _ _ _ hCL
  · intro csr0 hv hc
    exact packing_pass_frame cvt_ps_ph csr_data data_dims [] csr0 hmono hv hc

/-- C30, exercised on the array of two rows with 17 and 3 entries: row 1
writes the vector 2 and the index words 4 and 5 and reads the entries 17 to
19. -/
theorem C30_packing_in_regions_witness :
    0 < 64 ∧
    (∀ q, q < sample_dims_2x40.rows →
      sample_csr_17_3.row_idx.getD q 0 ≤ sample_csr_17_3.row_idx.getD (q + 1) 0) ∧
    (sizing_pass sample_csr_17_3 sample_dims_2x40).toNat = 3 ∧
    (pack_state_at 64 trunc_ps_ph sample_csr_17_3 sample_dims_2x40 1).curr_wgt_dst_idx = 2 ∧
    ((sizing_pass sample_csr_17_3 sample_dims_2x40).toNat
        ≤ (alloc_packed_csr_array_t 64 (sizing_pass sample_csr_17_3 sample_dims_2x40).toNat
            sample_csr_17_3.num_nonzeros sample_dims_2x40.rows).vals.length ∧
      2 * (sizing_pass sample_csr_17_3 sample_dims_2x40).toNat
        ≤ (alloc_packed_csr_array_t 64 (sizing_pass sample_csr_17_3 sample_dims_2x40).toNat
            sample_csr_17_3.num_nonzeros sample_dims_2x40.rows).col_idx.length ∧
      sample_dims_2x40.rows
        ≤ (alloc_packed_csr_array_t 64 (sizing_pass sample_csr_17_3 sample_dims_2x40).toNat
            sample_csr_17_3.num_nonzeros sample_dims_2x40.rows).row_idx.length) :=
  ⟨by decide, by decide, by decide, by decide,
    (C30_packing_in_regions 64 trunc_ps_ph sample_csr_17_3 sample_dims_2x40 (by decide)
      (by decide)).2.1⟩

/-! ## The two 16-bit fields of the row metadata word -/

theorem row_word_value (start count : Nat) :
    row_word (start : Int) (count : Int) = start % 65536 * 65536 + count % 65536 := by
  rw [row_word_eq]
  omega

theorem row_word_fields (start count : Nat) :
    (row_word (start : Int) (count : Int) >>> 16) &&& 0xffff = start % 65536 ∧
    row_word (start : Int) (count : Int) &&& 0xffff = count % 65536 := by
  have h16 : (0xffff : Nat) = 2 ^ 16 - 1 := by norm_num
  rw [row_word_value, h16, Nat.and_pow_two_sub_one_eq_mod, Nat.and_pow_two_sub_one_eq_mod,
    Nat.shiftRight_eq_div_pow]
  norm_num
  omega

/-- The packed decoder on a single row reads the entries that the two fields
of the row word designate. -/
theorem decompress_packed_one_row (cvt_ph_ps : Nat → F32) (cmp_data : List (List Nat))
    (cmp_col_idx : List Nat) (w cols pad : Nat) (buf : List F32) :
    decompress_packed_csr_data cvt_ph_ps cmp_data cmp_col_idx [w] ⟨1, cols, 1, pad⟩ buf
      = dec_rows (cols + pad)
          [packed_entries cvt_ph_ps cmp_data cmp_col_idx ((w >>> 16) &&& 0xffff) (w &&& 0xffff)]
          1 buf := by
  rw [decompress_packed_csr_data_eq_dec_rows]
  rfl

/-! ## Claim C33: the 16-bit limits of the row metadata word -/

/-- C33: for all non-negative `start` and `count`, decoding the row metadata
word `((start << 16) & 0xffff0000) | (count & 0xffff)` as
`decompress_packed_csr_data` does, `(w >> 16) & 0xffff` and `w & 0xffff`,
yields `start mod 65536` and `count mod 65536`; hence the pair is recovered
exactly if and only if `start < 65536` and `count < 65536`.  On a one-row
input whose row word is that word, the packed decoder reads `count mod 65536`
entries from the vector `start mod 65536` on. -/
theorem C33_row_word_limits (start count : Nat) :
    (row_word (start : Int) (count : Int) >>> 16) &&& 0xffff = start % 65536 ∧
    row_word (start : Int) (count : Int) &&& 0xffff = count % 65536 ∧
    (((row_word (start : Int) (count : Int) >>> 16) &&& 0xffff = start ∧
        row_word (start : Int) (count : Int) &&& 0xffff = count)
      ↔ (start < 65536 ∧ count < 65536)) ∧
    (∀ (cvt_ph_ps : Nat → F32) (cmp_data : List (List Nat)) (cmp_col_idx : List Nat)
        (cols pad : Nat) (buf : List F32),
      decompress_packed_csr_data cvt_ph_ps cmp_data cmp_col_idx
          [row_word (start : Int) (count : Int)] ⟨1, cols, 1, pad⟩ buf
        = dec_rows (cols + pad)
            [packed_entries cvt_ph_ps cmp_data cmp_col_idx (start % 65536) (count % 65536)]
            1 buf) := by
  obtain ⟨h1, h2⟩ := row_word_fields start count
  refine ⟨h1, h2, ?_, ?_⟩
  · rw [h1, h2]
    constructor
    · rintro ⟨e1, e2⟩
      exact ⟨by omega, by omega⟩
    · rintro ⟨e1, e2⟩
      exact ⟨Nat.mod_eq_of_lt e1, Nat.mod_eq_of_lt e2⟩
  · intro cvt_ph_ps cmp_data cmp_col_idx cols pad buf
    rw [decompress_packed_one_row, h1, h2]

/-! ## Where the entries sit in the scratch buffers -/

/-- Entry `i` of the stored entries of row `r` is the pair at position
`row_idx[r] + i` of `vals` and `col_idx`, a position inside both. -/
theorem row_slice_getD (c : csr_array_t) (r i : Nat) (hi : i < (row_slice c r).length) :
    (row_slice c r).getD i (F32.zero, 0)
      = (c.vals.getD (c.row_idx.getD r 0 + i) F32.zero,
          c.col_idx.getD (c.row_idx.getD r 0 + i) 0) ∧
    c.row_idx.getD r 0 + i < c.vals.length ∧
    c.row_idx.getD r 0 + i < c.col_idx.length := by
  unfold row_slice at hi ⊢
  have hi2 := hi
  rw [List.length_take, List.length_drop, List.length_zip] at hi2
  have hv : c.row_idx.getD r 0 + i < c.vals.length := by omega
  have hc : c.row_idx.getD r 0 + i < c.col_idx.length := by omega
  refine ⟨?_, hv, hc⟩
  rw [List.getD_eq_getElem _ _ hi, List.getD_eq_getElem _ _ hv, List.getD_eq_getElem _ _ hc]
  simp [List.getElem_take, List.getElem_drop, List.getElem_zip]

/-- The returned arrays hold the leading elements of the scratch arrays. -/
theorem compress_scratch_getD (data : List F32) (data_dims : dims_t)
    (hlen : data.length = data_dims.rows * data_dims.cols * data_dims.height)
    (k : Nat) (hk : k < (compress_dense_data_csr data data_dims).num_nonzeros) :
    (compress_loops data data_dims
        (alloc_csr_array_t (get_dims_size data_dims) data_dims.rows)).csr.vals.getD k F32.zero
      = (compress_dense_data_csr data data_dims).vals.getD k F32.zero ∧
    (compress_loops data data_dims
        (alloc_csr_array_t (get_dims_size data_dims) data_dims.rows)).csr.col_idx.getD k 0
      = (compress_dense_data_csr data data_dims).col_idx.getD k 0 := by
  obtain ⟨f1, f2, f3, f4, f5⟩ := compress_loops_frame data data_dims hlen
  obtain ⟨-, -, -, s4, -, s6, -⟩ := copy_csr_array_t_spec
    { vals := (compress_loops data data_dims
        (alloc_csr_array_t (get_dims_size data_dims) data_dims.rows)).csr.vals,
      col_idx := (compress_loops data data_dims
        (alloc_csr_array_t (get_dims_size data_dims) data_dims.rows)).csr.col_idx,
      row_idx := (compress_loops data data_dims
        (alloc_csr_array_t (get_dims_size data_dims) data_dims.rows)).csr.row_idx.set 0 0,
      num_nonzeros := (compress_loops data data_dims
        (alloc_csr_array_t (get_dims_size data_dims) data_dims.rows)).num_nonzeros,
      num_rows := (compress_loops data data_dims
        (alloc_csr_array_t (get_dims_size data_dims) data_dims.rows)).csr.num_rows }
    (by rw [f1]; exact f5) (by rw [f2]; exact f5)
    (by rw [List.length_set, f3, f4])
  have h := s6 k (by rw [← s4]; exact hk)
  exact ⟨h.1.symm, h.2.symm⟩

theorem row_entries_length_le_visited (data : List F32) (data_dims : dims_t) (h r : Nat) :
    (row_entries data data_dims h r).length
      ≤ (count_row (ARRAY_3D data data_dims.rows data_dims.cols h r) data_dims.cols).2 + 1 := by
  unfold row_entries
  refine le_trans (enc_from_length_le _ _) ?_
  simp [row_cells]

/-! ## The capacity of the scratch buffers -/

/-- The scratch capacity suffices for a dense `rows x cols` matrix with at
least one column (height 1): the number of entries that
`compress_dense_data_csr` stores for a row is at most `last_nz_idx + 1`, the
number of cells the emitting loop visits, hence at most `c + 1 <= cols` when
`c` is the row's last non-zero column, and at most `cols` in every case; so
`num_nonzeros <= rows * cols`, and entry `i` of row `r` is written into the
scratch `vals` / `col_idx` buffers, which hold `rows * cols` elements, at the
index `row_idx[r] + i`, which is below `rows * cols`, where the scratch buffers
hold it when the loops end. -/
theorem scratch_capacity_of_pos_cols (data : List F32) (data_dims : dims_t)
    (hh : data_dims.height = 1) (_hc : 0 < data_dims.cols)
    (hlen : data.length = data_dims.rows * data_dims.cols) :
    (∀ r, r < data_dims.rows →
      (row_slice (compress_dense_data_csr data data_dims) r).length
        ≤ (count_row (ARRAY_3D data data_dims.rows data_dims.cols 0 r) data_dims.cols).2 + 1 ∧
      (0 < data_dims.cols →
        (count_row (ARRAY_3D data data_dims.rows data_dims.cols 0 r) data_dims.cols).2 + 1
          ≤ data_dims.cols) ∧
      (row_slice (compress_dense_data_csr data data_dims) r).length ≤ data_dims.cols ∧
      (∀ c, c < data_dims.cols →
        (data.getD (r * data_dims.cols + c) F32.zero).isZero = false →
        (∀ j, j < data_dims.cols → c < j →
          (data.getD (r * data_dims.cols + j) F32.zero).isZero = true) →
        (row_slice (compress_dense_data_csr data data_dims) r).length ≤ c + 1)) ∧
    (compress_dense_data_csr data data_dims).num_nonzeros
      ≤ data_dims.rows * data_dims.cols ∧
    (compress_loops data data_dims
        (alloc_csr_array_t (get_dims_size data_dims) data_dims.rows)).csr.vals.length
      = data_dims.rows * data_dims.cols ∧
    (compress_loops data data_dims
        (alloc_csr_array_t (get_dims_size data_dims) data_dims.rows)).csr.col_idx.length
      = data_dims.rows * data_dims.cols ∧
    (∀ r, r < data_dims.rows →
      ∀ i, i < (row_slice (compress_dense_data_csr data data_dims) r).length →
      (compress_dense_data_csr data data_dims).row_idx.getD r 0 + i
        < data_dims.rows * data_dims.cols ∧
      (compress_loops data data_dims
          (alloc_csr_array_t (get_dims_size data_dims) data_dims.rows)).csr.vals.getD
          ((compress_dense_data_csr data data_dims).row_idx.getD r 0 + i) F32.zero
        = ((row_slice (compress_dense_data_csr data data_dims) r).getD i (F32.zero, 0)).1 ∧
      (compress_loops data data_dims
          (alloc_csr_array_t (get_dims_size data_dims) data_dims.rows)).csr.col_idx.getD
          ((compress_dense_data_csr data data_dims).row_idx.getD r 0 + i) 0
        = ((row_slice (compress_dense_data_csr data data_dims) r).getD i (F32.zero, 0)).2) := by
  have hcap := hcap_of_length data data_dims hlen
  have hlen3 : data.length = data_dims.rows * data_dims.cols * data_dims.height := by
    rw [hlen, hh, Nat.mul_one]
  obtain ⟨-, -, hnn, hvl, -⟩ := compress_counts data data_dims hh hlen
  obtain ⟨f1, f2, -⟩ := compress_loops_frame data data_dims hlen3
  rw [hh, Nat.mul_one] at f1 f2
  refine ⟨?_, hnn, f1, f2, ?_⟩
  · intro r hr
    rw [compress_row_slice data data_dims hh hcap r hr]
    refine ⟨row_entries_length_le_visited data data_dims 0 r,
      fun hc => count_row_snd_lt _ _ hc, hcap r hr, ?_⟩
    intro c hc hnz hlast
    rw [← compress_row_slice data data_dims hh hcap r hr,
      row_slice_of_last_nonzero data data_dims hh hlen r hr c hc hnz hlast,
      List.length_append]
    have hle := enc_from_length_le
      ((List.range c).map (fun j => data.getD (r * data_dims.cols + j) F32.zero)) 0
    simp only [List.length_map, List.length_range] at hle
    simp only [List.length_singleton]
    omega
  · intro r _ i hi
    obtain ⟨g1, g2, -⟩ := row_slice_getD (compress_dense_data_csr data data_dims) r i hi
    have hk : (compress_dense_data_csr data data_dims).row_idx.getD r 0 + i
        < (compress_dense_data_csr data data_dims).num_nonzeros := by
      rw [← hvl]
      exact g2
    obtain ⟨e1, e2⟩ := compress_scratch_getD data data_dims hlen3 _ hk
    refine ⟨by omega, ?_, ?_⟩
    · rw [e1, g1]
    · rw [e2, g1]

/-! ## The row-boundary cursor for any height -/

/-- The body of the row loop stores the running count at `curr_row_idx` and
advances the cursor by one. -/
theorem compress_row_cursor (data : List F32) (data_dims : dims_t) (h r : Nat)
    (s : row_state) :
    (compress_row data data_dims h r s).csr.row_idx
      = s.csr.row_idx.set s.curr_row_idx (compress_row data data_dims h r s).num_nonzeros ∧
    (compress_row data data_dims h r s).curr_row_idx = s.curr_row_idx + 1 := by
  obtain ⟨-, -, h3, -, -⟩ := foldl_compress_step_frame
    (ARRAY_3D data data_dims.rows data_dims.cols h r)
    (List.range ((count_row (ARRAY_3D data data_dims.rows data_dims.cols h r)
      data_dims.cols).2 + 1)) ⟨s.csr, s.num_nonzeros, 0⟩
  refine ⟨?_, rfl⟩
  simp only [compress_row]
  rw [h3]

theorem foldl_compress_row_cursor (data : List F32) (data_dims : dims_t) (h : Nat)
    (rs : List Nat) (s : row_state) :
    (rs.foldl (fun s r => compress_row data data_dims h r s) s).curr_row_idx
      = s.curr_row_idx + rs.length := by
  induction rs generalizing s with
  | nil => simp
  | cons r rs ih =>
    simp only [List.foldl_cons, List.length_cons]
    rw [ih, (compress_row_cursor data data_dims h r s).2]
    omega

theorem foldl_slices_cursor (data : List F32) (data_dims : dims_t) (hs : List Nat)
    (s : row_state) :
    (hs.foldl (fun s h => (List.range data_dims.rows).foldl
        (fun s r => compress_row data data_dims h r s) s) s).curr_row_idx
      = s.curr_row_idx + hs.length * data_dims.rows := by
  induction hs generalizing s with
  | nil => simp
  | cons h hs ih =>
    simp only [List.foldl_cons, List.length_cons]
    rw [ih, foldl_compress_row_cursor, List.length_range, Nat.succ_mul]
    omega

/-- The row-boundary cursor after the loops: one store per row of every
slice, at the indices `1 .. rows * height`. -/
theorem compress_loops_cursor (data : List F32) (data_dims : dims_t) (csr : csr_array_t) :
    (compress_loops data data_dims csr).curr_row_idx
      = data_dims.height * data_dims.rows + 1 := by
  unfold compress_loops
  rw [foldl_slices_cursor, List.length_range]
  exact Nat.add_comm _ _

/-! ## Claim C31: row-boundary writes for a height above one -/

/-- C31, on the tensor `sample_data_1x1x2` of two slices of one row and one
column (`rows = 1`, `height = 2`): `compress_dense_data_csr` allocates
`rows + 1 = 2` slots of `row_idx`; after slice 0 the cursor `curr_row_idx` is
2, so the row of slice 1 stores its count at index 2, which is above `rows`
(the store falls outside the two slots and is lost here; in C it is a write
past the end of the buffer); the returned `row_idx[rows]` is 1, the count
after slice 0, and not `num_nonzeros = 2`. -/
theorem C31_row_idx_overrun :
    1 ≤ sample_dims_1x1x2.rows ∧ 1 ≤ sample_dims_1x1x2.height ∧
    sample_data_1x1x2.length
      = sample_dims_1x1x2.rows * sample_dims_1x1x2.cols * sample_dims_1x1x2.height ∧
    (alloc_csr_array_t (get_dims_size sample_dims_1x1x2)
      sample_dims_1x1x2.rows).row_idx.length = sample_dims_1x1x2.rows + 1 ∧
    (compress_loops sample_data_1x1x2 ⟨1, 1, 1, 0⟩
      (alloc_csr_array_t (get_dims_size sample_dims_1x1x2)
        sample_dims_1x1x2.rows)).curr_row_idx = 2 ∧
    compress_loops sample_data_1x1x2 sample_dims_1x1x2
        (alloc_csr_array_t (get_dims_size sample_dims_1x1x2) sample_dims_1x1x2.rows)
      = compress_row sample_data_1x1x2 sample_dims_1x1x2 1 0
          (compress_loops sample_data_1x1x2 ⟨1, 1, 1, 0⟩
            (alloc_csr_array_t (get_dims_size sample_dims_1x1x2) sample_dims_1x1x2.rows)) ∧
    (compress_row sample_data_1x1x2 sample_dims_1x1x2 1 0
        (compress_loops sample_data_1x1x2 ⟨1, 1, 1, 0⟩
          (alloc_csr_array_t (get_dims_size sample_dims_1x1x2)
            sample_dims_1x1x2.rows))).csr.row_idx
      = (compress_loops sample_data_1x1x2 ⟨1, 1, 1, 0⟩
          (alloc_csr_array_t (get_dims_size sample_dims_1x1x2)
            sample_dims_1x1x2.rows)).csr.row_idx.set 2 2 ∧
    ¬ 2 ≤ sample_dims_1x1x2.rows ∧
    (compress_loops sample_data_1x1x2 sample_dims_1x1x2
      (alloc_csr_array_t (get_dims_size sample_dims_1x1x2)
        sample_dims_1x1x2.rows)).curr_row_idx = 3 ∧
    compress_dense_data_csr sample_data_1x1x2 sample_dims_1x1x2
      = { vals := [f32_one, f32_two], col_idx := [0, 0], row_idx := [0, 1],
          num_nonzeros := 2, num_rows := 1 } ∧
    (compress_dense_data_csr sample_data_1x1x2 sample_dims_1x1x2).row_idx.getD
        sample_dims_1x1x2.rows 0
      ≠ (compress_dense_data_csr sample_data_1x1x2 sample_dims_1x1x2).num_nonzeros :=
  ⟨by decide, by decide, by decide, by decide, by decide, rfl, by decide, by decide,
    by decide, by decide, by decide⟩

/-! ## Claims C5, C7, C17, C28 and C32 on a matrix without columns

The matrix of `sample_dims_2x0` has two rows and no column, so its buffer has
no cell.  The emitting loop of `compress_dense_data_csr` runs over the columns
`0 .. last_nz_idx` with `last_nz_idx = 0` (lines 113 and 123) and so reads
column 0 of every row, which is outside the buffer.  `sample_mem_2x0` holds the
memory at the address of the buffer, a `1.0` in the word that follows it. -/

/-- C5, on the matrix without columns: row 0 has no cell, yet the emitting
loop visits column 0, reads the `1.0` that follows the buffer and emits the
entry `(1.0, 0)` for the row; the encoder returns `row_idx = [0, 1, 2]`, one
stored entry per row, where the rows have no non-zero cell. -/
theorem C5_entry_for_empty_row :
    sample_dims_2x0.rows * sample_dims_2x0.cols = 0 ∧
    row_list sample_mem_2x0 sample_dims_2x0 0 = [] ∧
    (count_row (ARRAY_3D sample_mem_2x0 sample_dims_2x0.rows sample_dims_2x0.cols 0 0)
      sample_dims_2x0.cols).2 = 0 ∧
    row_cells sample_mem_2x0 sample_dims_2x0 0 0 = [f32_one] ∧
    row_entries sample_mem_2x0 sample_dims_2x0 0 0 = [(f32_one, 0)] ∧
    f32_one.isZero = false ∧
    compress_dense_data_csr sample_mem_2x0 sample_dims_2x0
      = { vals := [], col_idx := [], row_idx := [0, 1, 2], num_nonzeros := 2,
          num_rows := 2 } := by
  decide

/-- C7, on the matrix without columns: the empty list of entries decodes to
row 0, which has no cell, but `compress_dense_data_csr` stores one entry for
the row (`row_idx[1] - row_idx[0] = 1`), more than the empty list has. -/
theorem C7_entry_count_above_minimum :
    decompress_csr_data
        { vals := [], col_idx := [], row_idx := [0, 0], num_nonzeros := 0, num_rows := 1 }
        ⟨1, sample_dims_2x0.cols, 1, 0⟩ (List.replicate sample_dims_2x0.cols F32.zero)
      = some (row_list sample_mem_2x0 sample_dims_2x0 0) ∧
    (compress_dense_data_csr sample_mem_2x0 sample_dims_2x0).row_idx.getD 1 0
      - (compress_dense_data_csr sample_mem_2x0 sample_dims_2x0).row_idx.getD 0 0 = 1 ∧
    ¬ (compress_dense_data_csr sample_mem_2x0 sample_dims_2x0).row_idx.getD 1 0
      - (compress_dense_data_csr sample_mem_2x0 sample_dims_2x0).row_idx.getD 0 0
      ≤ ([] : List (F32 × Nat)).length := by
  decide

/-- C17, on the matrix without columns: the entry stored for row 0 has the
reconstructed column 0, which is not below `cols = 0`, and
`decompress_csr_data` with the same descriptor trips its bounds assertion on
the output of the encoder. -/
theorem C17_assertion_on_encoder_output :
    (stored_rows (compress_dense_data_csr sample_mem_2x0 sample_dims_2x0)
      sample_dims_2x0.rows).map List.length = [1, 1] ∧
    recon_col ((stored_rows (compress_dense_data_csr sample_mem_2x0 sample_dims_2x0)
      sample_dims_2x0.rows).getD 0 []) 0 = 0 ∧
    ¬ recon_col ((stored_rows (compress_dense_data_csr sample_mem_2x0 sample_dims_2x0)
      sample_dims_2x0.rows).getD 0 []) 0 < sample_dims_2x0.cols ∧
    decompress_csr_data (compress_dense_data_csr sample_mem_2x0 sample_dims_2x0)
        sample_dims_2x0
        (List.replicate
          (sample_dims_2x0.rows * (sample_dims_2x0.cols + sample_dims_2x0.align_pad))
          F32.zero)
      = none := by
  decide

/-- C32, on the matrix without columns: the emitting loop visits
`last_nz_idx + 1 = 1` cell of a row of `cols = 0` cells and stores an entry for
it, so that `num_nonzeros = 2` exceeds `rows * cols = 0`; the first entry is
written at index 0 of scratch buffers of capacity 0. -/
theorem C32_write_past_scratch :
    get_dims_size sample_dims_2x0 = 0 ∧
    (count_row (ARRAY_3D sample_mem_2x0 sample_dims_2x0.rows sample_dims_2x0.cols 0 0)
      sample_dims_2x0.cols).2 + 1 = 1 ∧
    ¬ (count_row (ARRAY_3D sample_mem_2x0 sample_dims_2x0.rows sample_dims_2x0.cols 0 0)
      sample_dims_2x0.cols).2 + 1 ≤ sample_dims_2x0.cols ∧
    (row_entries sample_mem_2x0 sample_dims_2x0 0 0).length = 1 ∧
    (compress_dense_data_csr sample_mem_2x0 sample_dims_2x0).num_nonzeros = 2 ∧
    ¬ (compress_dense_data_csr sample_mem_2x0 sample_dims_2x0).num_nonzeros
      ≤ sample_dims_2x0.rows * sample_dims_2x0.cols ∧
    (compress_step
      ⟨alloc_csr_array_t (get_dims_size sample_dims_2x0) sample_dims_2x0.rows, 0, 0⟩
      f32_one).num_nonzeros = 1 ∧
    ¬ 0 < (alloc_csr_array_t (get_dims_size sample_dims_2x0)
      sample_dims_2x0.rows).vals.length := by
  decide

/-! ## Reads of the encoder -/

/-- With at least one column and a buffer of `rows * cols * height` cells, every
cell that `compress_dense_data_csr` reads is inside the buffer: the counting
loop reads the columns below `cols` and the emitting loop the columns
`0 .. last_nz_idx` of the rows `r < rows` of the slices `h < height`. -/
theorem encoder_reads_in_bounds (data : List F32) (data_dims : dims_t) (h r c : Nat)
    (hc : 0 < data_dims.cols)
    (hlen : data.length = data_dims.rows * data_dims.cols * data_dims.height)
    (hh : h < data_dims.height) (hr : r < data_dims.rows) :
    (c < data_dims.cols → (h * data_dims.rows + r) * data_dims.cols + c < data.length) ∧
    (c ≤ (count_row (ARRAY_3D data data_dims.rows data_dims.cols h r) data_dims.cols).2 →
      (h * data_dims.rows + r) * data_dims.cols + c < data.length) := by
  have key : ∀ c, c < data_dims.cols →
      (h * data_dims.rows + r) * data_dims.cols + c < data.length := by
    intro c hcc
    have h1 := cell_index_lt h data_dims.height r data_dims.rows hh hr
    have h2 := cell_index_lt (h * data_dims.rows + r) (data_dims.height * data_dims.rows) c
      data_dims.cols h1 hcc
    have e : data_dims.height * data_dims.rows * data_dims.cols
        = data_dims.rows * data_dims.cols * data_dims.height := by ring
    rw [hlen, ← e]
    exact h2
  refine ⟨key c, fun hle => key c ?_⟩
  have := count_row_snd_lt (ARRAY_3D data data_dims.rows data_dims.cols h r)
    data_dims.cols hc
  omega

/-! ## Which cells the decoders write -/

theorem foldl_set_hit {α : Type} (pos : Nat → Nat) (val : Nat → α) (n : Nat)
    (buf : List α) (d : α)
    (hinj : ∀ i j, i < j → j < n → pos i ≠ pos j)
    (hlt : ∀ k, k < n → pos k < buf.length) :
    ∀ k, k < n →
      ((List.range n).foldl (fun b k => b.set (pos k) (val k)) buf).getD (pos k) d
        = val k := by
  induction n with
  | zero => intro k hk; omega
  | succ n ih =>
    intro k hk
    rw [List.range_succ, List.foldl_append]
    simp only [List.foldl_cons, List.foldl_nil]
    have hlen := (foldl_set_frame pos val n buf d).1
    by_cases hkn : k = n
    · rw [hkn]
      exact getD_set_self _ _ _ _ (by rw [hlen]; exact hlt n (by omega))
    · rw [getD_set_ne _ _ _ _ _ (hinj k n (by omega) (by omega)).symm]
      exact ih (fun i j hij hj => hinj i j hij (by omega)) (fun q hq => hlt q (by omega))
        k (by omega)

theorem recon_col_strict_mono (E : List (F32 × Nat)) (i j : Nat) (hij : i < j)
    (hj : j < E.length) : recon_col E i < recon_col E j := by
  induction j with
  | zero => omega
  | succ j ih =>
    have hstep := recon_col_lt_succ E j hj
    by_cases h : i = j
    · rw [h]
      exact hstep
    · have := ih (by omega) (by omega)
      omega

/-- After the entries of a row have been written, the cell at the
reconstructed column of entry `k` holds the value of entry `k`. -/
theorem write_entries_hit (width row : Nat) (E : List (F32 × Nat)) (buf : List F32)
    (hall : ∀ k, k < E.length → recon_col E k < width)
    (hbuf : row * width + width ≤ buf.length) (k : Nat) (hk : k < E.length) :
    (write_entries width row E buf).getD (row * width + recon_col E k) F32.zero
      = (E.getD k (F32.zero, 0)).1 := by
  unfold write_entries
  have h := foldl_set_hit (fun q => ARRAY_2D_idx width row (recon_col E q))
    (fun q => (E.getD q (F32.zero, 0)).1) E.length buf F32.zero
    (fun i j hij hj => by
      have := recon_col_strict_mono E i j hij hj
      dsimp only [ARRAY_2D_idx]
      omega)
    (fun q hq => by
      have := hall q hq
      dsimp only [ARRAY_2D_idx]
      omega)
    k hk
  exact h

/-- After the entries of the rows `0 .. n - 1` have been written, the cell at
the reconstructed column of entry `k` of row `r` holds the value of that
entry. -/
theorem write_rows_hit (width : Nat) (Es : List (List (F32 × Nat))) (n : Nat)
    (buf : List F32)
    (hall : ∀ r k, r < n → k < (Es.getD r []).length → recon_col (Es.getD r []) k < width)
    (hbuf : n * width ≤ buf.length) (r k : Nat) (hr : r < n)
    (hk : k < (Es.getD r []).length) :
    (write_rows width Es n buf).getD (r * width + recon_col (Es.getD r []) k) F32.zero
      = ((Es.getD r []).getD k (F32.zero, 0)).1 := by
  induction n with
  | zero => omega
  | succ n ih =>
    have hstep : write_rows width Es (n + 1) buf
        = write_entries width n (Es.getD n []) (write_rows width Es n buf) := by
      unfold write_rows
      rw [List.range_succ, List.foldl_append]
      rfl
    rw [hstep]
    have hlen := (write_rows_frame width Es n buf).1
    rw [Nat.succ_mul] at hbuf
    by_cases hrn : r = n
    · subst hrn
      exact write_entries_hit width r (Es.getD r []) _ (fun q hq => hall r q (by omega) hq)
        (by rw [hlen]; omega) k hk
    · have hc := hall r k hr hk
      rw [(write_entries_frame width n (Es.getD n []) _).2 _ (fun q hq heq => by
        have hq2 := hall n q (by omega) hq
        unfold ARRAY_2D_idx at heq
        obtain ⟨h1, -⟩ := idx_unique width r _ n _ hc hq2 heq
        omega)]
      exact ih (fun q j hq hj => hall q j (by omega) hj) (by omega) (by omega)

/-- Entry `k` of the entries emitted along a run of cells holds the value of
the cell at its reconstructed column. -/
theorem enc_from_entry_cell (off : Nat) (cells : List F32) (h15 : off ≤ 15) (k : Nat)
    (hk : k < (enc_from off cells).length) :
    off ≤ recon_col (enc_from off cells) k ∧
    recon_col (enc_from off cells) k - off < cells.length ∧
    ((enc_from off cells).getD k (F32.zero, 0)).1
      = cells.getD (recon_col (enc_from off cells) k - off) F32.zero := by
  induction cells generalizing off k with
  | nil => simp [enc_from] at hk
  | cons v rest ih =>
    rw [enc_from_cons] at hk ⊢
    by_cases he : emits off v = true
    · rw [if_pos he] at hk ⊢
      rw [stored_offset_eq off v he h15] at hk ⊢
      cases k with
      | zero =>
        rw [recon_col_zero]
        simp
      | succ k =>
        simp only [List.length_cons] at hk
        have hk2 : k < (enc_from 0 rest).length := by omega
        obtain ⟨-, i2, i3⟩ := ih 0 (by omega) k hk2
        rw [recon_col_succ _ _ _ hk2]
        simp only [Nat.sub_zero] at i2 i3
        have e : off + 1 + recon_col (enc_from 0 rest) k - off
            = recon_col (enc_from 0 rest) k + 1 := by omega
        refine ⟨by omega, ?_, ?_⟩
        · simp only [List.length_cons]
          omega
        · rw [e, List.getD_cons_succ, List.getD_cons_succ]
          exact i3
    · rw [if_neg he] at hk ⊢
      obtain ⟨-, hb, hle⟩ := not_emits off v he h15
      rw [hb] at hk ⊢
      obtain ⟨i1, i2, i3⟩ := ih (off + 1) hle k hk
      have e : recon_col (enc_from (off + 1) rest) k - off
          = recon_col (enc_from (off + 1) rest) k - (off + 1) + 1 := by omega
      refine ⟨by omega, ?_, ?_⟩
      · simp only [List.length_cons]
        omega
      · rw [e, List.getD_cons_succ]
        exact i3

/-- A non-zero cell of a run has an entry, at its own column. -/
theorem enc_from_cell_stored (off : Nat) (cells : List F32) (h15 : off ≤ 15) (j : Nat)
    (hj : j < cells.length) (hnz : (cells.getD j F32.zero).isZero = false) :
    ∃ k, k < (enc_from off cells).length ∧ recon_col (enc_from off cells) k = off + j := by
  induction cells generalizing off j with
  | nil => simp at hj
  | cons v rest ih =>
    rw [enc_from_cons]
    simp only [List.length_cons] at hj
    by_cases he : emits off v = true
    · rw [if_pos he, stored_offset_eq off v he h15]
      cases j with
      | zero => exact ⟨0, by simp, by rw [recon_col_zero]; rfl⟩
      | succ j =>
        rw [List.getD_cons_succ] at hnz
        obtain ⟨k, hk, hrc⟩ := ih 0 (by omega) j (by omega) hnz
        refine ⟨k + 1, by simp only [List.length_cons]; omega, ?_⟩
        rw [recon_col_succ _ _ _ hk, hrc]
        omega
    · rw [if_neg he]
      obtain ⟨hz, hb, hle⟩ := not_emits off v he h15
      rw [hb]
      cases j with
      | zero =>
        rw [List.getD_cons_zero, hz] at hnz
        exact absurd hnz (by simp)
      | succ j =>
        rw [List.getD_cons_succ] at hnz
        obtain ⟨k, hk, hrc⟩ := ih (off + 1) hle j (by omega) hnz
        exact ⟨k, hk, by rw [hrc]; omega⟩

theorem map_vals_getD (g : F32 → F32) (E : List (F32 × Nat)) (k : Nat) (hk : k < E.length) :
    ((map_vals g E).getD k (F32.zero, 0)).1 = g ((E.getD k (F32.zero, 0)).1) := by
  unfold map_vals
  rw [List.getD_eq_getElem _ _ (by simpa using hk), List.getD_eq_getElem _ _ hk]
  simp

/-- Entry `k` of a row of the encoder holds the matrix cell at its
reconstructed column. -/
theorem row_entries_entry_cell (data : List F32) (data_dims : dims_t) (r k : Nat)
    (hk : k < (row_entries data data_dims 0 r).length) :
    ((row_entries data data_dims 0 r).getD k (F32.zero, 0)).1
      = data.getD (r * data_dims.cols + recon_col (row_entries data data_dims 0 r) k)
          F32.zero := by
  unfold row_entries at hk ⊢
  obtain ⟨-, h2, h3⟩ := enc_from_entry_cell 0 (row_cells data data_dims 0 r) (by omega) k hk
  simp only [Nat.sub_zero] at h2 h3
  rw [h3]
  have hcl : (row_cells data data_dims 0 r).length
      = (count_row (ARRAY_3D data data_dims.rows data_dims.cols 0 r)
          data_dims.cols).2 + 1 := by
    simp [row_cells]
  have hcell : (row_cells data data_dims 0 r).getD
        (recon_col (enc_from 0 (row_cells data data_dims 0 r)) k) F32.zero
      = ARRAY_3D data data_dims.rows data_dims.cols 0 r
          (recon_col (enc_from 0 (row_cells data data_dims 0 r)) k) := by
    unfold row_cells at h2 ⊢
    exact getD_map_range _ _ _ _ (by simpa using h2)
  rw [hcell, ARRAY_3D_slice0]

/-- A non-zero cell of the matrix has an entry in its row, reconstructed at its
column. -/
theorem row_entries_stored_of_nonzero (data : List F32) (data_dims : dims_t) (r c : Nat)
    (hc : c < data_dims.cols)
    (hnz : (data.getD (r * data_dims.cols + c) F32.zero).isZero = false) :
    ∃ k, k < (row_entries data data_dims 0 r).length ∧
      recon_col (row_entries data data_dims 0 r) k = c := by
  have hle : c ≤ (count_row (ARRAY_3D data data_dims.rows data_dims.cols 0 r)
      data_dims.cols).2 := by
    by_contra hgt
    have hz := count_row_zero_after (ARRAY_3D data data_dims.rows data_dims.cols 0 r)
      data_dims.cols c (by omega) hc
    rw [ARRAY_3D_slice0, hnz] at hz
    exact absurd hz (by simp)
  have hcl : (row_cells data data_dims 0 r).length
      = (count_row (ARRAY_3D data data_dims.rows data_dims.cols 0 r)
          data_dims.cols).2 + 1 := by
    simp [row_cells]
  have hcell : (row_cells data data_dims 0 r).getD c F32.zero
      = ARRAY_3D data data_dims.rows data_dims.cols 0 r c := by
    unfold row_cells
    exact getD_map_range _ _ _ _ (by omega)
  unfold row_entries
  obtain ⟨k, hk, hrc⟩ := enc_from_cell_stored 0 (row_cells data data_dims 0 r) (by omega) c
    (by omega) (by rw [hcell, ARRAY_3D_slice0]; exact hnz)
  exact ⟨k, hk, by rw [hrc]; omega⟩

/-- The packed round trip of a dense matrix, cell by cell: a cell that is the
reconstructed column of an entry of its row receives the converted cell, every
other cell is a zero cell and keeps the zero of the buffer. -/
theorem packed_round_trip_stored (CACHELINE_SIZE : Nat) (cvt_ps_ph : F32 → Nat)
    (cvt_ph_ps : Nat → F32) (data : List F32) (data_dims : dims_t)
    (hCL : 0 < CACHELINE_SIZE)
    (hh : data_dims.height = 1) (hp : data_dims.align_pad = 0)
    (hlen : data.length = data_dims.rows * data_dims.cols)
    (hrow : ∀ r, r < data_dims.rows →
      (compress_dense_data_csr data data_dims).row_idx.getD (r + 1) 0
        - (compress_dense_data_csr data data_dims).row_idx.getD r 0 < 65536)
    (hvec : sizing_pass (compress_dense_data_csr data data_dims) data_dims < 65536) :
    ∃ p out, pack_data_vec8_f16 CACHELINE_SIZE cvt_ps_ph
          (compress_dense_data_csr data data_dims) data_dims = some p ∧
      decompress_packed_csr_data cvt_ph_ps p.vals p.col_idx p.row_idx data_dims
          (List.replicate (data_dims.rows * data_dims.cols) F32.zero) = some out ∧
      out.length = data_dims.rows * data_dims.cols ∧
      ∀ r c, r < data_dims.rows → c < data_dims.cols →
        ((∃ k, k < (row_slice (compress_dense_data_csr data data_dims) r).length ∧
            recon_col (row_slice (compress_dense_data_csr data data_dims) r) k = c) →
          out.getD (r * data_dims.cols + c) F32.zero
            = cvt_ph_ps (cvt_ps_ph (data.getD (r * data_dims.cols + c) F32.zero))) ∧
        ((¬ ∃ k, k < (row_slice (compress_dense_data_csr data data_dims) r).length ∧
            recon_col (row_slice (compress_dense_data_csr data data_dims) r) k = c) →
          (data.getD (r * data_dims.cols + c) F32.zero).isZero = true ∧
          out.getD (r * data_dims.cols + c) F32.zero = F32.zero) := by
  have hcap := hcap_of_length data data_dims hlen
  have hEs := all_entries_length data data_dims
  have hslice : ∀ r, r < data_dims.rows →
      row_slice (compress_dense_data_csr data data_dims) r = row_entries data data_dims 0 r :=
    fun r hr => compress_row_slice data data_dims hh hcap r hr
  have hcells : ∀ r c, r < data_dims.rows → c < data_dims.cols →
      ((∃ k, k < (row_slice (compress_dense_data_csr data data_dims) r).length ∧
          recon_col (row_slice (compress_dense_data_csr data data_dims) r) k = c) ↔
        (∃ k, k < (row_entries data data_dims 0 r).length ∧
          recon_col (row_entries data data_dims 0 r) k = c)) := by
    intro r c hr _
    rw [hslice r hr]
  rw [compress_dense_data_csr_eq_csr_of data data_dims hh hcap] at hrow hvec
  have hmono : ∀ q, q < data_dims.rows →
      (csr_of (all_entries data data_dims)).row_idx.getD q 0
        ≤ (csr_of (all_entries data data_dims)).row_idx.getD (q + 1) 0 :=
    fun q hq => csr_of_row_idx_mono _ q (by rw [hEs]; exact hq)
  have hV : start_vector (csr_of (all_entries data data_dims)) data_dims.rows < 65536 := by
    have := sizing_pass_toNat (csr_of (all_entries data data_dims)) data_dims hmono
    omega
  have hnnz : (csr_of (all_entries data data_dims)).num_nonzeros
      = start_entry (csr_of (all_entries data data_dims)) data_dims.rows := by
    rw [csr_of_start_entry _ _ (by rw [hEs]), ← hEs, List.take_length]
    rfl
  have h16 : ∀ r, r < data_dims.rows →
      start_vector (csr_of (all_entries data data_dims)) r < 65536 ∧
      row_count (csr_of (all_entries data data_dims)) r < 65536 := by
    intro r hr
    have := start_vector_mono (csr_of (all_entries data data_dims)) r data_dims.rows (by omega)
    exact ⟨by omega, hrow r hr⟩
  have hpack := pack_data_vec8_f16_eq_some CACHELINE_SIZE cvt_ps_ph
    (csr_of (all_entries data data_dims)) data_dims hmono hnnz hV
  have hdec := packed_decode_of_packing CACHELINE_SIZE cvt_ps_ph cvt_ph_ps
    (csr_of (all_entries data data_dims)) data_dims
    (List.replicate (data_dims.rows * data_dims.cols) F32.zero) hCL hmono h16
  have hrows := packed_rows_csr_of (fun v => cvt_ph_ps (cvt_ps_ph v))
    (all_entries data data_dims) (all_entries_offsets_le data data_dims)
  rw [hEs] at hrows
  rw [hrows, hp, Nat.add_zero] at hdec
  have hall : ∀ r k, r < data_dims.rows →
      k < (((all_entries data data_dims).map
          (map_vals (fun v => cvt_ph_ps (cvt_ps_ph v)))).getD r []).length →
      recon_col (((all_entries data data_dims).map
          (map_vals (fun v => cvt_ph_ps (cvt_ps_ph v)))).getD r []) k < data_dims.cols := by
    intro r k hr hk
    rw [getD_map_map_vals] at hk ⊢
    rw [map_vals_length] at hk
    rw [recon_col_map_vals]
    exact recon_col_all_entries data data_dims hlen r k hr hk
  rw [dec_rows_eq_some _ _ _ _ hall] at hdec
  rw [← compress_dense_data_csr_eq_csr_of data data_dims hh hcap] at hpack hdec
  obtain ⟨wlen, wframe⟩ := write_rows_frame data_dims.cols
    ((all_entries data data_dims).map (map_vals (fun v => cvt_ph_ps (cvt_ps_ph v))))
    data_dims.rows (List.replicate (data_dims.rows * data_dims.cols) F32.zero)
  refine ⟨_, _, hpack, hdec, by rw [wlen]; simp, ?_⟩
  intro r c hr hc
  have hidx := cell_index_lt r data_dims.rows c data_dims.cols hr hc
  rw [hcells r c hr hc]
  refine ⟨?_, ?_⟩
  · rintro ⟨k, hk, hrc⟩
    have hk2 : k < (((all_entries data data_dims).map
        (map_vals (fun v => cvt_ph_ps (cvt_ps_ph v)))).getD r []).length := by
      rw [getD_map_map_vals, map_vals_length, all_entries_getD data data_dims r hr]
      exact hk
    have hhit := write_rows_hit data_dims.cols
      ((all_entries data data_dims).map (map_vals (fun v => cvt_ph_ps (cvt_ps_ph v))))
      data_dims.rows (List.replicate (data_dims.rows * data_dims.cols) F32.zero)
      hall (by simp) r k hr hk2
    rw [getD_map_map_vals, recon_col_map_vals, all_entries_getD data data_dims r hr, hrc,
      map_vals_getD _ _ _ hk, row_entries_entry_cell data data_dims r k hk, hrc] at hhit
    exact hhit
  · intro hns
    refine ⟨?_, ?_⟩
    · by_contra hnz
      exact hns (row_entries_stored_of_nonzero data data_dims r c hc (by simpa using hnz))
    · rw [wframe _ (fun q k hq hk heq => by
        rw [getD_map_map_vals, map_vals_length, all_entries_getD data data_dims q hq] at hk
        rw [getD_map_map_vals, recon_col_map_vals, all_entries_getD data data_dims q hq] at heq
        have hlt := recon_col_row_entries data data_dims q k
          (fun h0 => first_cell_zero_of_length data data_dims hlen h0 q) hk
        unfold ARRAY_2D_idx at heq
        obtain ⟨h1, h2⟩ := idx_unique data_dims.cols r c q _ hc hlt heq
        subst h1
        exact hns ⟨k, hk, h2.symm⟩)]
      rw [List.getD_eq_getElem _ _ (by simpa using hidx)]
      simp

/-! ## The packed round trip -/

/-- C2 (as stated, refuted): a padding entry stores a zero cell, and the packed
decoder writes `fromHalf (toHalf cell)` there.  On the row of 15 zeros, a
negative zero and `1.0`, the negative zero of column 15 is stored as padding;
with conversions that keep the sign of a zero it reads negative zero, not the
all-zero bit pattern. -/
theorem C2_counterexample :
    ((pack_data_vec8_f16 64 trunc_ps_ph
          (compress_dense_data_csr sample_row_17_neg sample_dims_1x17) sample_dims_1x17).bind
        (fun p => decompress_packed_csr_data trunc_ph_ps p.vals p.col_idx p.row_idx
          sample_dims_1x17 (List.replicate (1 * 17) F32.zero))).map
        (fun out => out.getD 15 F32.zero) = some F32.negZero ∧
      (sample_row_17_neg.getD 15 F32.zero).isZero = true ∧ F32.negZero ≠ F32.zero := by
  decide

/-- C2 (amended): for every dense `rows x cols` matrix `M` with at least one
column (height 1, align_pad 0) in which every row encodes to fewer than 65536
stored entries and the total vector count is below 65536, and for any
conversions `toHalf`, `fromHalf`, `pack_data_vec8_f16` succeeds on
`compress_dense_data_csr(M)` and `decompress_packed_csr_data` on its output
into a pre-zeroed buffer completes and yields, in every cell:
`fromHalf (toHalf (M[r][c]))` where `M[r][c]` is non-zero;
`fromHalf (toHalf (M[r][c]))` where the cell is the reconstructed column of an
entry stored for its row (a non-zero cell or a padding entry); and the
all-zero bit pattern of the buffer in every other cell, all of which are zero
cells of `M`.  When the conversions send zeros to zeros, the result is
therefore a zero wherever `M[r][c]` is zero. -/
theorem C2_packed_round_trip (CACHELINE_SIZE : Nat) (cvt_ps_ph : F32 → Nat)
    (cvt_ph_ps : Nat → F32) (data : List F32) (data_dims : dims_t)
    (hCL : 0 < CACHELINE_SIZE)
    (hh : data_dims.height = 1) (hp : data_dims.align_pad = 0)
    (_hc : 0 < data_dims.cols)
    (hlen : data.length = data_dims.rows * data_dims.cols)
    (hrow : ∀ r, r < data_dims.rows →
      (compress_dense_data_csr data data_dims).row_idx.getD (r + 1) 0
        - (compress_dense_data_csr data data_dims).row_idx.getD r 0 < 65536)
    (hvec : sizing_pass (compress_dense_data_csr data data_dims) data_dims < 65536) :
    ∃ p out, pack_data_vec8_f16 CACHELINE_SIZE cvt_ps_ph
          (compress_dense_data_csr data data_dims) data_dims = some p ∧
      decompress_packed_csr_data cvt_ph_ps p.vals p.col_idx p.row_idx data_dims
          (List.replicate (data_dims.rows * data_dims.cols) F32.zero) = some out ∧
      out.length = data_dims.rows * data_dims.cols ∧
      ∀ r c, r < data_dims.rows → c < data_dims.cols →
        ((data.getD (r * data_dims.cols + c) F32.zero).isZero = false →
          out.getD (r * data_dims.cols + c) F32.zero
            = cvt_ph_ps (cvt_ps_ph (data.getD (r * data_dims.cols + c) F32.zero))) ∧
        ((∃ k, k < (row_slice (compress_dense_data_csr data data_dims) r).length ∧
            recon_col (row_slice (compress_dense_data_csr data data_dims) r) k = c) →
          out.getD (r * data_dims.cols + c) F32.zero
            = cvt_ph_ps (cvt_ps_ph (data.getD (r * data_dims.cols + c) F32.zero))) ∧
        ((¬ ∃ k, k < (row_slice (compress_dense_data_csr data data_dims) r).length ∧
            recon_col (row_slice (compress_dense_data_csr data data_dims) r) k = c) →
          (data.getD (r * data_dims.cols + c) F32.zero).isZero = true ∧
          out.getD (r * data_dims.cols + c) F32.zero = F32.zero) ∧
        ((∀ z : F32, z.isZero = true → (cvt_ph_ps (cvt_ps_ph z)).isZero = true) →
          (data.getD (r * data_dims.cols + c) F32.zero).isZero = true →
          (out.getD (r * data_dims.cols + c) F32.zero).isZero = true) := by
  obtain ⟨p, out, h1, h2, h3, h4⟩ := packed_round_trip_stored CACHELINE_SIZE cvt_ps_ph
    cvt_ph_ps data data_dims hCL hh hp hlen hrow hvec
  refine ⟨p, out, h1, h2, h3, ?_⟩
  intro r c hr hc
  obtain ⟨hs, hn⟩ := h4 r c hr hc
  refine ⟨?_, hs, hn, ?_⟩
  · intro hnz
    by_cases hst : ∃ k, k < (row_slice (compress_dense_data_csr data data_dims) r).length ∧
        recon_col (row_slice (compress_dense_data_csr data data_dims) r) k = c
    · exact hs hst
    · rw [(hn hst).1] at hnz
      exact absurd hnz (by simp)
  · intro hzero hz
    by_cases hst : ∃ k, k < (row_slice (compress_dense_data_csr data data_dims) r).length ∧
        recon_col (row_slice (compress_dense_data_csr data data_dims) r) k = c
    · rw [hs hst]
      exact hzero _ hz
    · rw [(hn hst).2]
      rfl

/-- C2, exercised on the row of 15 zeros, a negative zero and `1.0`, with the
truncating conversions. -/
theorem C2_packed_round_trip_witness :
    0 < 64 ∧ sample_dims_1x17.height = 1 ∧ sample_dims_1x17.align_pad = 0 ∧
    0 < sample_dims_1x17.cols ∧
    sample_row_17_neg.length = sample_dims_1x17.rows * sample_dims_1x17.cols ∧
    (∀ r, r < sample_dims_1x17.rows →
      (compress_dense_data_csr sample_row_17_neg sample_dims_1x17).row_idx.getD (r + 1) 0
        - (compress_dense_data_csr sample_row_17_neg sample_dims_1x17).row_idx.getD r 0
        < 65536) ∧
    sizing_pass (compress_dense_data_csr sample_row_17_neg sample_dims_1x17) sample_dims_1x17
      < 65536 ∧
    ∃ p out, pack_data_vec8_f16 64 trunc_ps_ph
          (compress_dense_data_csr sample_row_17_neg sample_dims_1x17) sample_dims_1x17
        = some p ∧
      decompress_packed_csr_data trunc_ph_ps p.vals p.col_idx p.row_idx sample_dims_1x17
          (List.replicate (sample_dims_1x17.rows * sample_dims_1x17.cols) F32.zero) = some out ∧
      out.length = sample_dims_1x17.rows * sample_dims_1x17.cols ∧
      ∀ r c, r < sample_dims_1x17.rows → c < sample_dims_1x17.cols →
        ((sample_row_17_neg.getD (r * sample_dims_1x17.cols + c) F32.zero).isZero = false →
          out.getD (r * sample_dims_1x17.cols + c) F32.zero
            = trunc_ph_ps (trunc_ps_ph
                (sample_row_17_neg.getD (r * sample_dims_1x17.cols + c) F32.zero))) ∧
        ((∃ k, k < (row_slice
                (compress_dense_data_csr sample_row_17_neg sample_dims_1x17) r).length ∧
            recon_col (row_slice
                (compress_dense_data_csr sample_row_17_neg sample_dims_1x17) r) k = c) →
          out.getD (r * sample_dims_1x17.cols + c) F32.zero
            = trunc_ph_ps (trunc_ps_ph
                (sample_row_17_neg.getD (r * sample_dims_1x17.cols + c) F32.zero))) ∧
        ((¬ ∃ k, k < (row_slice
                (compress_dense_data_csr sample_row_17_neg sample_dims_1x17) r).length ∧
            recon_col (row_slice
                (compress_dense_data_csr sample_row_17_neg sample_dims_1x17) r) k = c) →
          (sample_row_17_neg.getD (r * sample_dims_1x17.cols + c) F32.zero).isZero = true ∧
          out.getD (r * sample_dims_1x17.cols + c) F32.zero = F32.zero) ∧
        ((∀ z : F32, z.isZero = true → (trunc_ph_ps (trunc_ps_ph z)).isZero = true) →
          (sample_row_17_neg.getD (r * sample_dims_1x17.cols + c) F32.zero).isZero = true →
          (out.getD (r * sample_dims_1x17.cols + c) F32.zero).isZero = true) :=
  ⟨by decide, rfl, rfl, by decide, rfl, by decide, by decide,
    C2_packed_round_trip 64 trunc_ps_ph trunc_ph_ps sample_row_17_neg sample_dims_1x17
      (by decide) rfl rfl (by decide) rfl (by decide) (by decide)⟩

end Smaug
